import Mathlib

/-!
# sigslot: a shallow embedding of `include/sigslot/signal.hpp`

The development models the thread-safe instantiation of `signal_base`
(`sigslot::signal`, group ids of type `int32_t`), where an emission iterates
over a copy-on-write snapshot of the registry.  Operations are executed one at
a time (each one is atomic under the emitter lock); user callables are scripts
of API calls looked up in a program table, so that a callable can connect,
disconnect, block or emit while an emission is running.

Pointers are modelled by natural numbers: a slot is identified by the number it
was allocated with, an emitter by its position in the list of emitters, an
object by its address (`0` is `nullptr`).

Three smaller models stand next to the one of the emitter: the mutex and call
events of a run (which mutex is held when a user callable is entered), the class
`copy_on_write` on a heap of reference-counted payloads, and the aliases of
`signal_base` as functions of their template arguments.
-/

namespace sigslot

/-! ## Data model -/

/-- Identity of a slot object (the address held by `slot_ptr`). -/
abbrev SlotId := Nat

/-- Identity of a `signal_base` object. -/
abbrev SigId := Nat

/-- The emitted argument tuple `T...`. -/
abbrev Args := List Int

/-- Type `connection`: the field `m_state` is a `std::weak_ptr<slot_state>`, empty for a
default-constructed connection. -/
structure Connection where
  m_state : Option SlotId
deriving DecidableEq, Repr

/-- The specialisation of `function_traits` that applies to a callable. -/
inductive CallableKind
  | function     -- `trait::Function T` and `T*`
  | memFn        -- `trait::MemFnPointer T`
  | functor      -- `trait::Functor T`
  | other        -- primary template (generic lambdas, ...)
deriving DecidableEq, Repr

/-- A user callable as the library sees it: `code` selects the user code that runs when it
is called, `fptr` is the content that `function_traits<T>::ptr` writes into a zero-filled
`func_ptr` (so `0` for the primary template, which writes `nullptr`), `tinfo` stands for
`typeid(T)`. -/
structure Callable where
  code : Nat
  fptr : Nat
  tinfo : Nat
  kind : CallableKind
deriving DecidableEq, Repr

/-- The object pointer held by a slot, or passed to `disconnect(obj)`:
nothing, a plain pointer, or a weak pointer to a shared object (by address). -/
inductive ObjRef
  | none
  | raw (addr : Nat)
  | weak (addr : Nat)
deriving DecidableEq, Repr

/-- The six slot classes derived from `slot_base`. -/
inductive SlotKind
  | slot
  | slot_extended
  | slot_pmf
  | slot_pmf_extended
  | slot_tracked
  | slot_pmf_tracked
deriving DecidableEq, Repr

/-- A slot object: `slot_state` (`m_index`, `m_connected`, `m_blocked`), `grouped_slot`
(`m_group`), `slot_base` (`cleaner`) and the members of the derived classes. -/
structure Slot where
  m_index : Nat
  m_connected : Bool
  m_blocked : Bool
  m_group : Int
  cleaner : SigId
  kind : SlotKind
  func : Callable
  ptr : ObjRef
  conn : Connection
deriving DecidableEq, Repr

/-- Type `group_type`: the slots of one group and the group id. -/
structure Group where
  slts : List SlotId
  gid : Int
deriving DecidableEq, Repr

/-- The data members of `signal_base`: `m_slots` (kept ordered by ascending gid) and `m_block`.
The lock carries no state in a sequential execution. -/
structure Signal where
  m_slots : List Group
  m_block : Bool
deriving DecidableEq, Repr

/-- One invocation of a user callable: the nesting depth of the emission that made it
(number of emissions in flight), the slot, the arguments, and the connection passed first
by the extended slots. -/
structure Call where
  depth : Nat
  slot : SlotId
  args : Args
  conn : Option Connection
deriving DecidableEq, Repr

/-- The whole program state. `snaps` is the stack of registry snapshots held by the emissions
in flight (the local `ref` of `operator()`), `expired` lists the addresses of the shared
objects that have been released, `observers` gives `observer_base::m_connections` by
address, `log` and `counter` record what user callables did. -/
structure World where
  slots : SlotId → Slot
  nextSlot : Nat
  sigs : List Signal
  snaps : List (List Group)
  expired : List Nat
  observers : Nat → List Connection
  log : List Call
  counter : Int

instance : Inhabited Connection := ⟨⟨none⟩⟩

instance : Inhabited Signal := ⟨⟨[], false⟩⟩

instance : Inhabited Slot :=
  ⟨⟨0, true, false, 0, 0, SlotKind.slot, ⟨0, 0, 0, CallableKind.other⟩, ObjRef.none, ⟨none⟩⟩⟩

/-- A program state with `n` default-constructed emitters and nothing else. -/
def World.init (n : Nat) : World :=
  { slots := fun _ => default
    nextSlot := 0
    sigs := List.replicate n default
    snaps := []
    expired := []
    observers := fun _ => []
    log := []
    counter := 0 }

/-- The emitter `e`. -/
def World.sig (w : World) (e : SigId) : Signal := w.sigs.getD e default

/-- Store the members of emitter `e`. -/
def World.setSig (w : World) (e : SigId) (s : Signal) : World :=
  { w with sigs := w.sigs.set e s }

/-- Store the member `m_slots` of emitter `e`. -/
def World.setGroups (w : World) (e : SigId) (gs : List Group) : World :=
  w.setSig e { w.sig e with m_slots := gs }

/-- Update one slot object. -/
def World.modifySlot (w : World) (s : SlotId) (f : Slot → Slot) : World :=
  { w with slots := Function.update w.slots s (f (w.slots s)) }

/-- Assignment `s->index() = i`. -/
def World.setIndex (w : World) (s : SlotId) (i : Nat) : World :=
  w.modifySlot s (fun x => { x with m_index := i })

/-- Some group of the list holds a pointer to slot `s`. -/
def holds (gs : List Group) (s : SlotId) : Bool :=
  gs.any (fun g => decide (s ∈ g.slts))

/-- The slot object `s` exists: some `shared_ptr` to it is held by a registry or by the
snapshot of an emission in flight. A `weak_ptr` to it can be locked exactly then. -/
def World.alive (w : World) (s : SlotId) : Bool :=
  w.sigs.any (fun g => holds g.m_slots s) || w.snaps.any (fun snap => holds snap s)

/-! ## `slot_state` -/

/-- Method `slot_state::blocked`. -/
def slot_blocked (w : World) (s : SlotId) : Bool := (w.slots s).m_blocked

/-- Method `slot_state::block`. -/
def slot_block (s : SlotId) (w : World) : World :=
  w.modifySlot s (fun x => { x with m_blocked := true })

/-- Method `slot_state::unblock`. -/
def slot_unblock (s : SlotId) (w : World) : World :=
  w.modifySlot s (fun x => { x with m_blocked := false })

/-- Whether the weak pointer kept by a tracked slot has expired. -/
def ptr_expired (w : World) (p : ObjRef) : Bool :=
  match p with
  | ObjRef.weak a => decide (a ∈ w.expired)
  | _ => false

/-- Function `get_object_ptr`: the address behind an object reference; a weak pointer is locked
first and gives `nullptr` when it has expired, anything that is not a pointer gives
`nullptr`. -/
def get_object_ptr (w : World) (p : ObjRef) : Nat :=
  match p with
  | ObjRef.none => 0
  | ObjRef.raw a => a
  | ObjRef.weak a => if a ∈ w.expired then 0 else a

/-- Method `connected` of `slot_state`, as overridden by `slot_tracked` and
`slot_pmf_tracked` (`!ptr.expired() && slot_state::connected()`). -/
def slot_connected (w : World) (s : SlotId) : Bool :=
  match (w.slots s).kind with
  | SlotKind.slot_tracked => !ptr_expired w (w.slots s).ptr && (w.slots s).m_connected
  | SlotKind.slot_pmf_tracked => !ptr_expired w (w.slots s).ptr && (w.slots s).m_connected
  | _ => (w.slots s).m_connected

/-! ## Registry primitives of `signal_base` -/

/-- Method `slot_count`: the sum of the sizes of the groups. -/
def countSlots (gs : List Group) : Nat := (gs.map (fun g => g.slts.length)).sum

/-- Method `signal_base::slot_count`. -/
def slot_count (w : World) (e : SigId) : Nat := countSlots (w.sig e).m_slots

/-- Method `signal_base::blocked`. -/
def sig_blocked (w : World) (e : SigId) : Bool := (w.sig e).m_block

/-- The registry part of `add_slot`: skip the groups with a smaller id, create the group if
the scan stops at the end or at another id, append the slot. Returns the new registry and the
index given to the slot (`it->slts.size()` before `push_back`). -/
def addSlotGroups (s : SlotId) (gid : Int) : List Group → List Group × Nat
  | [] => ([⟨[s], gid⟩], 0)
  | g :: gs =>
    if g.gid < gid then
      ((g :: (addSlotGroups s gid gs).1), (addSlotGroups s gid gs).2)
    else if g.gid ≠ gid then
      (⟨[s], gid⟩ :: g :: gs, 0)
    else
      (⟨g.slts ++ [s], g.gid⟩ :: gs, g.slts.length)

/-- Method `signal_base::add_slot`. -/
def add_slot (e : SigId) (s : SlotId) (w : World) : World :=
  let gid := (w.slots s).m_group
  let r := addSlotGroups s gid (w.sig e).m_slots
  (w.setIndex s r.2).setGroups e r.1

/-- The statements `std::swap(slts[i], slts.back()); slts.pop_back();` on a vector whose
last element is `last`. -/
def swapPop (slts : List SlotId) (i : Nat) (last : SlotId) : List SlotId :=
  (slts.set i last).dropLast

/-- The registry part of `clean`: in the first group whose id is `gid`, when position `idx`
holds `state`, swap it with the last slot and pop it. Returns the new registry and the slot
that now sits at `idx` and gets `idx` as its index. -/
def cleanGroups (state : SlotId) (idx : Nat) (gid : Int) : List Group → List Group × Option SlotId
  | [] => ([], none)
  | g :: gs =>
    if g.gid = gid then
      if g.slts[idx]? = some state then
        (⟨swapPop g.slts idx (g.slts.getLast?.getD state), g.gid⟩ :: gs,
          some (g.slts.getLast?.getD state))
      else
        (g :: gs, none)
    else
      ((g :: (cleanGroups state idx gid gs).1), (cleanGroups state idx gid gs).2)

/-- Method `signal_base::clean`. -/
def clean (e : SigId) (state : SlotId) (w : World) : World :=
  let idx := (w.slots state).m_index
  let gid := (w.slots state).m_group
  let r := cleanGroups state idx gid (w.sig e).m_slots
  match r.2 with
  | some moved => (w.setGroups e r.1).setIndex moved idx
  | none => w.setGroups e r.1

/-- Method `slot_state::disconnect`: `m_connected.exchange(false)`, then `do_disconnect`, which
calls `clean` on the emitter the slot was created by. -/
def slot_disconnect (s : SlotId) (w : World) : Bool × World :=
  if (w.slots s).m_connected then
    (true, clean (w.slots s).cleaner s (w.modifySlot s (fun x => { x with m_connected := false })))
  else
    (false, w)

/-- The inner `while` loop of `disconnect_if` on one group. The first argument bounds the
number of iterations (every iteration pops a slot or advances `i`). Returns the vector, the
program state and the count. -/
def disconnectIfLoop (cond : World → SlotId → Bool) :
    Nat → Nat → List SlotId → World → Nat → List SlotId × World × Nat
  | 0, _, slts, w, count => (slts, w, count)
  | n + 1, i, slts, w, count =>
    match slts[i]? with
    | none => (slts, w, count)
    | some s =>
      if cond w s then
        disconnectIfLoop cond n i (swapPop slts i (slts.getLast?.getD s))
          (w.setIndex (slts.getLast?.getD s) i) (count + 1)
      else
        disconnectIfLoop cond n (i + 1) slts w count

/-- The outer loop of `disconnect_if` over the groups. -/
def disconnectIfGroups (cond : World → SlotId → Bool) :
    List Group → World → Nat → List Group × World × Nat
  | [], w, count => ([], w, count)
  | g :: gs, w, count =>
    let r := disconnectIfLoop cond g.slts.length 0 g.slts w count
    let rest := disconnectIfGroups cond gs r.2.1 r.2.2
    (⟨r.1, g.gid⟩ :: rest.1, rest.2.1, rest.2.2)

/-- Method `signal_base::disconnect_if`. -/
def disconnect_if (cond : World → SlotId → Bool) (e : SigId) (w : World) : Nat × World :=
  let r := disconnectIfGroups cond (w.sig e).m_slots w 0
  (r.2.2, r.2.1.setGroups e r.1)

/-! ## Identity queries of `slot_base` -/

/-- Conversion `func_ptr::operator bool`: it tests `value() != nullptr`, and `value()` is the
address of the buffer of the union, so the test never fails. -/
def func_ptr_bool (_p : Nat) : Bool := true

/-- Function `get_function_ptr`: the buffer is zero-filled, then `function_traits<T>::ptr`
stores the pointer; the primary template stores `nullptr`. -/
def get_function_ptr (c : Callable) : Nat :=
  match c.kind with
  | CallableKind.other => 0
  | _ => c.fptr

/-- Constant `function_traits<T>::must_check_object`. -/
def must_check_object (c : Callable) : Bool :=
  match c.kind with
  | CallableKind.function => false
  | _ => true

/-- Method `get_callable`, overridden by every slot class with `get_function_ptr` of the stored
callable. -/
def get_callable (w : World) (s : SlotId) : Nat := get_function_ptr (w.slots s).func

/-- Method `get_object`: `nullptr` in `slot_base`, overridden by the four classes that store a
pointer. -/
def get_object (w : World) (s : SlotId) : Nat :=
  match (w.slots s).kind with
  | SlotKind.slot => 0
  | SlotKind.slot_extended => 0
  | _ => get_object_ptr w (w.slots s).ptr

/-- Method `slot_base::has_callable`. -/
def has_callable (c : Callable) (w : World) (s : SlotId) : Bool :=
  func_ptr_bool (get_function_ptr c) && func_ptr_bool (get_callable w s)
    && decide (get_function_ptr c = get_callable w s)

/-- Method `check_class_type` with RTTI enabled: `typeid(U) == get_callable_type()`. -/
def check_class_type (c : Callable) (w : World) (s : SlotId) : Bool :=
  decide (c.tinfo = (w.slots s).func.tinfo)

/-- Method `slot_base::has_full_callable` (both overloads, selected by `must_check_object`). -/
def has_full_callable (c : Callable) (w : World) (s : SlotId) : Bool :=
  if must_check_object c then has_callable c w s && check_class_type c w s
  else has_callable c w s

/-- Method `slot_base::has_object`. -/
def has_object (o : ObjRef) (w : World) (s : SlotId) : Bool :=
  decide (get_object w s = get_object_ptr w o)

/-! ## Public operations of `signal_base` -/

/-- Method `disconnect(const Callable&)`. -/
def disconnect_callable (e : SigId) (c : Callable) (w : World) : Nat × World :=
  disconnect_if (has_full_callable c) e w

/-- Method `disconnect(const Obj&)`. -/
def disconnect_object (e : SigId) (o : ObjRef) (w : World) : Nat × World :=
  disconnect_if (has_object o) e w

/-- Method `disconnect(const Callable&, const Obj&)`. -/
def disconnect_both (e : SigId) (c : Callable) (o : ObjRef) (w : World) : Nat × World :=
  disconnect_if (fun w1 s => has_object o w1 s && has_callable c w1 s) e w

/-- The loop of `disconnect(group_id)`: clear the first group whose id is `gid` and return its
former size, `0` when there is none. -/
def disconnectGroupGroups (gid : Int) : List Group → Nat × List Group
  | [] => (0, [])
  | g :: gs =>
    if g.gid = gid then (g.slts.length, ⟨[], g.gid⟩ :: gs)
    else ((disconnectGroupGroups gid gs).1, g :: (disconnectGroupGroups gid gs).2)

/-- Method `disconnect(group_id)`. -/
def disconnect_group (e : SigId) (gid : Int) (w : World) : Nat × World :=
  let r := disconnectGroupGroups gid (w.sig e).m_slots
  (r.1, w.setGroups e r.2)

/-- Method `disconnect_all` (it calls `clear`). -/
def disconnect_all (e : SigId) (w : World) : World := w.setGroups e []

/-- Destructor `~signal_base`: it calls `disconnect_all`. -/
def sig_destroy (e : SigId) (w : World) : World := disconnect_all e w

/-- Method `block()`. -/
def sig_block (e : SigId) (w : World) : World := w.setSig e { w.sig e with m_block := true }

/-- Method `unblock()`. -/
def sig_unblock (e : SigId) (w : World) : World := w.setSig e { w.sig e with m_block := false }

/-- The loops of `block(gid)` and `unblock(gid)`: every slot of every group with id `gid` gets
its blocked flag set to `b`. -/
def setBlockedGroups (b : Bool) (gid : Int) : List Group → World → World
  | [], w => w
  | g :: gs, w =>
    if g.gid = gid then
      setBlockedGroups b gid gs
        (g.slts.foldl (fun w1 s => w1.modifySlot s (fun x => { x with m_blocked := b })) w)
    else setBlockedGroups b gid gs w

/-- Method `block(group_id const&)`. -/
def block_group (e : SigId) (gid : Int) (w : World) : World :=
  setBlockedGroups true gid (w.sig e).m_slots w

/-- Method `unblock(group_id const&)`. -/
def unblock_group (e : SigId) (gid : Int) (w : World) : World :=
  setBlockedGroups false gid (w.sig e).m_slots w

/-- Move constructor `signal_base(signal_base&& o)`: the new object `dst` takes the block flag of
`o` and swaps its empty registry with the one of `o`. -/
def move_construct (dst src : SigId) (w : World) : World :=
  let o := w.sig src
  (w.setSig dst ⟨o.m_slots, o.m_block⟩).setGroups src []

/-- Move assignment `operator=(signal_base&& o)`: registries and block flags are swapped. -/
def move_assign (dst src : SigId) (w : World) : World :=
  let d := w.sig dst
  let o := w.sig src
  (w.setSig dst ⟨o.m_slots, o.m_block⟩).setSig src ⟨d.m_slots, d.m_block⟩

/-- Function `make_slot`: a new slot object created by emitter `e`, connected, not blocked. -/
def make_slot (e : SigId) (kind : SlotKind) (f : Callable) (p : ObjRef) (gid : Int)
    (w : World) : SlotId × World :=
  (w.nextSlot,
    { w with
      slots := Function.update w.slots w.nextSlot
        ⟨0, true, false, gid, e, kind, f, p, ⟨none⟩⟩
      nextSlot := w.nextSlot + 1 })

/-- The common body of the `connect` overloads that do not pass a connection to the callable:
`make_slot`, `connection conn(s)`, `add_slot`. -/
def connect_slot (e : SigId) (kind : SlotKind) (f : Callable) (p : ObjRef) (gid : Int)
    (w : World) : Connection × World :=
  let r := make_slot e kind f p gid w
  (⟨some r.1⟩, add_slot e r.1 r.2)

/-- The common body of the `connect_extended` overloads: as `connect_slot`, with the member
`conn` of the slot set before `add_slot`. -/
def connect_slot_extended (e : SigId) (kind : SlotKind) (f : Callable) (p : ObjRef) (gid : Int)
    (w : World) : Connection × World :=
  let r := make_slot e kind f p gid w
  (⟨some r.1⟩, add_slot e r.1 (r.2.modifySlot r.1 (fun x => { x with conn := ⟨some r.1⟩ })))

/-- Method `connect(Callable&&, group_id)`. -/
def connect (e : SigId) (c : Callable) (gid : Int) (w : World) : Connection × World :=
  connect_slot e SlotKind.slot c ObjRef.none gid w

/-- Method `connect_extended(Callable&&, group_id)`. -/
def connect_extended (e : SigId) (c : Callable) (gid : Int) (w : World) : Connection × World :=
  connect_slot_extended e SlotKind.slot_extended c ObjRef.none gid w

/-- Method `connect(Pmf&&, Ptr&&, group_id)`, the overload constrained by
`!trait::Observer<Ptr> && !trait::WeakPtrCompatible<Ptr>`. -/
def connect_pmf (e : SigId) (pmf : Callable) (obj : Nat) (gid : Int) (w : World) :
    Connection × World :=
  connect_slot e SlotKind.slot_pmf pmf (ObjRef.raw obj) gid w

/-- Method `observer_base::add_connection`. -/
def add_connection (obs : Nat) (c : Connection) (w : World) : World :=
  { w with observers := Function.update w.observers obs (w.observers obs ++ [c]) }

/-- Method `connect(Pmf&&, Ptr&&, group_id)`, the overload constrained by `trait::Observer Ptr`:
as `connect_pmf`, then `ptr->add_connection(conn)`. Which of the two overloads a call with a
raw pointer takes is `resolve_member` below. -/
def connect_observer (e : SigId) (pmf : Callable) (obs : Nat) (gid : Int) (w : World) :
    Connection × World :=
  let r := connect_slot e SlotKind.slot_pmf pmf (ObjRef.raw obs) gid w
  (r.1, add_connection obs r.1 r.2)

/-- Method `connect_extended(Pmf&&, Ptr&&, group_id)`. -/
def connect_pmf_extended (e : SigId) (pmf : Callable) (obj : Nat) (gid : Int) (w : World) :
    Connection × World :=
  connect_slot_extended e SlotKind.slot_pmf_extended pmf (ObjRef.raw obj) gid w

/-- Method `connect(Pmf&&, Ptr&&, group_id)` for a pointer convertible to a weak pointer. -/
def connect_pmf_tracked (e : SigId) (pmf : Callable) (owner : Nat) (gid : Int) (w : World) :
    Connection × World :=
  connect_slot e SlotKind.slot_pmf_tracked pmf (ObjRef.weak owner) gid w

/-- Method `connect(Callable&&, Trackable&&, group_id)`. -/
def connect_tracked (e : SigId) (c : Callable) (owner : Nat) (gid : Int) (w : World) :
    Connection × World :=
  connect_slot e SlotKind.slot_tracked c (ObjRef.weak owner) gid w

/-- The overloads of `connect` and `connect_extended`, with their arguments other than the
group id. -/
inductive ConnectCall
  | plain (c : Callable)
  | extended (c : Callable)
  | pmf (pmf : Callable) (obj : Nat)
  | observer (pmf : Callable) (obs : Nat)
  | pmf_extended (pmf : Callable) (obj : Nat)
  | pmf_tracked (pmf : Callable) (owner : Nat)
  | tracked (c : Callable) (owner : Nat)
deriving DecidableEq, Repr

/-- A call of `connect` or `connect_extended` on emitter `e`, by overload. -/
def connect_call (e : SigId) (k : ConnectCall) (gid : Int) (w : World) : Connection × World :=
  match k with
  | ConnectCall.plain c => connect e c gid w
  | ConnectCall.extended c => connect_extended e c gid w
  | ConnectCall.pmf f o => connect_pmf e f o gid w
  | ConnectCall.observer f o => connect_observer e f o gid w
  | ConnectCall.pmf_extended f o => connect_pmf_extended e f o gid w
  | ConnectCall.pmf_tracked f o => connect_pmf_tracked e f o gid w
  | ConnectCall.tracked c o => connect_tracked e c o gid w

/-- The type deduced for the template parameter `Ptr` of `connect(Pmf&&, Ptr&&, group_id)` when
the argument is a raw pointer, as far as `trait::Observer` reads it: a class (derived from
`detail::observer_type` or not), a pointer `T*`, an lvalue reference `T&`. -/
inductive PtrType
  | object (observer : Bool)
  | pointer (t : PtrType)
  | lvalue_ref (t : PtrType)
deriving DecidableEq, Repr

/-- Type trait `std::remove_pointer_t`: it strips one pointer and leaves every other type,
a reference to a pointer included, as it is. -/
def remove_pointer_t : PtrType → PtrType
  | PtrType.pointer t => t
  | t => t

/-- Type trait `std::is_base_of_v<detail::observer_type, T>`: false of a type that is not a
class. -/
def is_base_of_observer_type : PtrType → Bool
  | PtrType.object b => b
  | _ => false

/-- Concept `trait::Observer<T>`:
`std::is_base_of_v<detail::observer_type, std::remove_pointer_t<T>>`. -/
def trait_Observer (t : PtrType) : Bool := is_base_of_observer_type (remove_pointer_t t)

/-- Deduction of `Ptr` for the forwarding reference `Ptr && ptr`: an lvalue argument of type `T`
gives `T&`, an rvalue gives `T`. -/
def deduce_Ptr (lvalue : Bool) (t : PtrType) : PtrType :=
  if lvalue then PtrType.lvalue_ref t else t

/-- Overload resolution of a call `connect(pmf, ptr, gid)` whose argument `ptr` is a raw pointer
to the object at address `obj` (no `to_weak` applies to it), `t` being the type deduced for
`Ptr`: the overload for observers when `trait::Observer<Ptr>` holds, the general overload for
pointers otherwise. -/
def resolve_member (pmf : Callable) (t : PtrType) (obj : Nat) : ConnectCall :=
  if trait_Observer t then ConnectCall.observer pmf obj else ConnectCall.pmf pmf obj

/-! ## `connection` -/

/-- Call `m_state.lock()`: the slot, when the connection refers to one that still exists. -/
def Connection.lock (c : Connection) (w : World) : Option SlotId :=
  match c.m_state with
  | none => none
  | some s => if w.alive s then some s else none

/-- Method `connection::valid`. -/
def Connection.valid (c : Connection) (w : World) : Bool := (c.lock w).isSome

/-- Method `connection::connected`. -/
def Connection.connected (c : Connection) (w : World) : Bool :=
  match c.lock w with
  | none => false
  | some s => slot_connected w s

/-- Method `connection::disconnect`. -/
def Connection.disconnect (c : Connection) (w : World) : Bool × World :=
  match c.lock w with
  | none => (false, w)
  | some s => slot_disconnect s w

/-- Method `connection::blocked`. -/
def Connection.blocked (c : Connection) (w : World) : Bool :=
  match c.lock w with
  | none => false
  | some s => slot_blocked w s

/-- Method `connection::block`. -/
def Connection.block (c : Connection) (w : World) : World :=
  match c.lock w with
  | none => w
  | some s => slot_block s w

/-- Method `connection::unblock`. -/
def Connection.unblock (c : Connection) (w : World) : World :=
  match c.lock w with
  | none => w
  | some s => slot_unblock s w

/-! ## `connection_blocker` and `scoped_connection` -/

/-- Type `connection_blocker`: its only member `m_state` is a `std::weak_ptr<slot_state>`. -/
structure ConnectionBlocker where
  m_state : Option SlotId
deriving DecidableEq, Repr

/-- Constructor `connection_blocker(std::weak_ptr<slot_state>)`: the pointer is stored, and
when it can be locked the slot state is blocked. -/
def ConnectionBlocker.create (m : Option SlotId) (w : World) : ConnectionBlocker × World :=
  match Connection.lock ⟨m⟩ w with
  | none => (⟨m⟩, w)
  | some s => (⟨m⟩, slot_block s w)

/-- Method `connection_blocker::release`, which is all the destructor calls: when the pointer
can be locked the slot state is unblocked. -/
def ConnectionBlocker.release (b : ConnectionBlocker) (w : World) : World :=
  match Connection.lock ⟨b.m_state⟩ w with
  | none => w
  | some s => slot_unblock s w

/-- Move constructor of `connection_blocker`: the new blocker, and the source left with an empty
pointer. -/
def ConnectionBlocker.move_construct (o : ConnectionBlocker) :
    ConnectionBlocker × ConnectionBlocker :=
  (⟨o.m_state⟩, ⟨none⟩)

/-- Move assignment of `connection_blocker`: `release()`, then the pointers are swapped. Returns
the assigned blocker, the source and the program state. -/
def ConnectionBlocker.move_assign (b o : ConnectionBlocker) (w : World) :
    ConnectionBlocker × ConnectionBlocker × World :=
  (⟨o.m_state⟩, ⟨b.m_state⟩, b.release w)

/-- Method `connection::blocker`. -/
def Connection.blocker (c : Connection) (w : World) : ConnectionBlocker × World :=
  ConnectionBlocker.create c.m_state w

/-- Type `scoped_connection`, derived from `connection`. -/
structure ScopedConnection extends Connection
deriving DecidableEq, Repr

/-- Destructor of `scoped_connection`: it calls `disconnect()`. -/
def ScopedConnection.destroy (c : ScopedConnection) (w : World) : World :=
  (c.toConnection.disconnect w).2

/-- Move constructor of `scoped_connection`: the new object, and the source left with an empty
pointer. -/
def ScopedConnection.move_construct (o : ScopedConnection) :
    ScopedConnection × ScopedConnection :=
  (⟨⟨o.m_state⟩⟩, ⟨⟨none⟩⟩)

/-- Move assignment of `scoped_connection`: `disconnect()`, then the pointers are swapped.
Returns the assigned object, the source and the program state. -/
def ScopedConnection.move_assign (a o : ScopedConnection) (w : World) :
    ScopedConnection × ScopedConnection × World :=
  (⟨⟨o.m_state⟩⟩, ⟨⟨a.m_state⟩⟩, (a.toConnection.disconnect w).2)

/-- Method `connect_scoped`: the result of `connect` with the same arguments (here the overload
for a callable alone), converted to a `scoped_connection`. -/
def connect_scoped (e : SigId) (c : Callable) (gid : Int) (w : World) :
    ScopedConnection × World :=
  (⟨(connect e c gid w).1⟩, (connect e c gid w).2)

/-- Method `observer_base::disconnect_all`: the vector of scoped connections is cleared, and every
destructor calls `disconnect`. -/
def observer_disconnect_all (obs : Nat) (w : World) : World :=
  let w1 := (w.observers obs).foldl (fun w1 c => (c.disconnect w1).2) w
  { w1 with observers := Function.update w1.observers obs [] }

/-- The last owning pointer to the shared object at address `a` is released. -/
def release_owner (a : Nat) (w : World) : World := { w with expired := a :: w.expired }

/-! ## User code and emission -/

/-- The calls a program (in particular a user callable) can make. -/
inductive Op
  | connect (e : SigId) (k : ConnectCall) (gid : Int)
  | disconnect_callable (e : SigId) (c : Callable)
  | disconnect_object (e : SigId) (o : ObjRef)
  | disconnect_both (e : SigId) (c : Callable) (o : ObjRef)
  | disconnect_group (e : SigId) (gid : Int)
  | disconnect_all (e : SigId)
  | block (e : SigId)
  | unblock (e : SigId)
  | block_group (e : SigId) (gid : Int)
  | unblock_group (e : SigId) (gid : Int)
  | emit (e : SigId) (a : Args)
  | move_construct (dst src : SigId)
  | move_assign (dst src : SigId)
  | conn_disconnect (c : Connection)
  | conn_block (c : Connection)
  | conn_unblock (c : Connection)
  | observer_disconnect_all (obs : Nat)
  | release (owner : Nat)
  | add (n : Int)
  | raise
deriving DecidableEq, Repr

/-- The user code: what the callable with code `n` does when it is called with a connection
(extended slots only) and the emitted arguments. -/
abbrev Prog := Nat → Option Connection → Args → List Op

/-- Result of running code: normal completion, an exception on its way to the caller, or
a nesting of emissions deeper than the bound given to the interpreter. -/
inductive Outcome
  | done (w : World)
  | threw (w : World)
  | stuck

/-- Run calls in sequence; an exception or a missing result ends the sequence. -/
def runOps (step : Op → World → Outcome) : List Op → World → Outcome
  | [], w => Outcome.done w
  | op :: ops, w =>
    match step op w with
    | Outcome.done w1 => runOps step ops w1
    | r => r

/-- The user callable of slot `s` is invoked: the call is recorded, then its code runs. -/
def userCall (prog : Prog) (step : Op → World → Outcome) (s : SlotId) (c : Option Connection)
    (a : Args) (w : World) : Outcome :=
  runOps step (prog (w.slots s).func.code c a)
    { w with log := w.log ++ [⟨w.snaps.length, s, a, c⟩] }

/-- Method `call_slot` of the six slot classes. -/
def call_slot (prog : Prog) (step : Op → World → Outcome) (s : SlotId) (a : Args)
    (w : World) : Outcome :=
  match (w.slots s).kind with
  | SlotKind.slot => userCall prog step s none a w
  | SlotKind.slot_extended => userCall prog step s (some (w.slots s).conn) a w
  | SlotKind.slot_pmf => userCall prog step s none a w
  | SlotKind.slot_pmf_extended => userCall prog step s (some (w.slots s).conn) a w
  | _ =>
    if ptr_expired w (w.slots s).ptr then Outcome.done (slot_disconnect s w).2
    else if (w.slots s).m_connected then userCall prog step s none a w
    else Outcome.done w

/-- Method `slot_base::operator()`: `call_slot` runs when `slot_state::connected()` holds and
`slot_state::blocked()` does not. -/
def slot_invoke (prog : Prog) (step : Op → World → Outcome) (s : SlotId) (a : Args)
    (w : World) : Outcome :=
  if (w.slots s).m_connected && !(w.slots s).m_blocked then call_slot prog step s a w
  else Outcome.done w

/-- The inner loop of `signal_base::operator()` over the slots of one group. -/
def emitSlots (prog : Prog) (step : Op → World → Outcome) :
    List SlotId → Args → World → Outcome
  | [], _, w => Outcome.done w
  | s :: ss, a, w =>
    match slot_invoke prog step s a w with
    | Outcome.done w1 => emitSlots prog step ss a w1
    | r => r

/-- The outer loop of `signal_base::operator()` over the groups of the snapshot. -/
def emitGroups (prog : Prog) (step : Op → World → Outcome) :
    List Group → Args → World → Outcome
  | [], _, w => Outcome.done w
  | g :: gs, a, w =>
    match emitSlots prog step g.slts a w with
    | Outcome.done w1 => emitGroups prog step gs a w1
    | r => r

/-- The snapshot of an emission is released. -/
def World.popSnap (w : World) : World := { w with snaps := w.snaps.tail }

/-- Method `signal_base::operator()`: nothing when the emitter is blocked; otherwise the
registry snapshot `slots_reference()` is taken and iterated, and released on the way out. -/
def emit (prog : Prog) (step : Op → World → Outcome) (e : SigId) (a : Args)
    (w : World) : Outcome :=
  if (w.sig e).m_block then Outcome.done w
  else
    match emitGroups prog step (w.sig e).m_slots a
        { w with snaps := (w.sig e).m_slots :: w.snaps } with
    | Outcome.done w1 => Outcome.done w1.popSnap
    | Outcome.threw w1 => Outcome.threw w1.popSnap
    | Outcome.stuck => Outcome.stuck

/-- One call of a program, with `step` running the calls nested in user callables. -/
def stepOp (prog : Prog) (step : Op → World → Outcome) (op : Op) (w : World) : Outcome :=
  match op with
  | Op.connect e k gid => Outcome.done (connect_call e k gid w).2
  | Op.disconnect_callable e c => Outcome.done (disconnect_callable e c w).2
  | Op.disconnect_object e o => Outcome.done (disconnect_object e o w).2
  | Op.disconnect_both e c o => Outcome.done (disconnect_both e c o w).2
  | Op.disconnect_group e gid => Outcome.done (disconnect_group e gid w).2
  | Op.disconnect_all e => Outcome.done (disconnect_all e w)
  | Op.block e => Outcome.done (sig_block e w)
  | Op.unblock e => Outcome.done (sig_unblock e w)
  | Op.block_group e gid => Outcome.done (block_group e gid w)
  | Op.unblock_group e gid => Outcome.done (unblock_group e gid w)
  | Op.emit e a => emit prog step e a w
  | Op.move_construct dst src => Outcome.done (move_construct dst src w)
  | Op.move_assign dst src => Outcome.done (move_assign dst src w)
  | Op.conn_disconnect c => Outcome.done (c.disconnect w).2
  | Op.conn_block c => Outcome.done (c.block w)
  | Op.conn_unblock c => Outcome.done (c.unblock w)
  | Op.observer_disconnect_all obs => Outcome.done (observer_disconnect_all obs w)
  | Op.release a => Outcome.done (release_owner a w)
  | Op.add n => Outcome.done { w with counter := w.counter + n }
  | Op.raise => Outcome.threw w

/-- One call of a program, where emissions may nest at most `fuel` deep. -/
def exec (prog : Prog) : Nat → Op → World → Outcome
  | 0, _, _ => Outcome.stuck
  | fuel + 1, op, w => stepOp prog (exec prog fuel) op w

/-- A program run from state `w`. -/
def run (prog : Prog) (fuel : Nat) (ops : List Op) (w : World) : Outcome :=
  runOps (exec prog fuel) ops w

/-- Method `operator()` called by a program with nothing else running. -/
def emitTop (prog : Prog) (fuel : Nat) (e : SigId) (a : Args) (w : World) : Outcome :=
  emit prog (exec prog fuel) e a w

/-! ## Vocabulary of the statements -/

/-- The registry invariant of the specification: group ids strictly ascending. -/
def SortedGroups (gs : List Group) : Prop := (gs.map Group.gid).Pairwise (· < ·)

instance (gs : List Group) : Decidable (SortedGroups gs) := by
  unfold SortedGroups; infer_instance

/-- Two program states that differ at most in the indices stored in slot objects. -/
def SameButIndex (w w1 : World) : Prop :=
  w1.sigs = w.sigs ∧ w1.snaps = w.snaps ∧ w1.expired = w.expired ∧
  w1.observers = w.observers ∧ w1.log = w.log ∧ w1.counter = w.counter ∧
  w1.nextSlot = w.nextSlot ∧
  ∀ t, ∃ i, w1.slots t = { w.slots t with m_index := i }

/-- A slot predicate that does not read the stored indices. -/
def IndexFree (cond : World → SlotId → Bool) : Prop :=
  ∀ w w1, SameButIndex w w1 → ∀ s, cond w1 s = cond w s

/-- The slots of a registry in emission order. -/
def flat (gs : List Group) : List SlotId := gs.flatMap Group.slts

/-- Registry `gs1` is registry `gs` with, in every group, the slots satisfying `p` removed
(in some order). -/
def Filtered (p : SlotId → Bool) (gs1 gs : List Group) : Prop :=
  List.Forall₂ (fun g1 g => g1.gid = g.gid ∧ List.Perm g1.slts (g.slts.filter (fun s => !p s)))
    gs1 gs

/-- User code that only adds to the user counter, as the callables of the test suite do. -/
def Inert (prog : Prog) : Prop := ∀ n c a, ∀ op ∈ prog n c a, ∃ k, op = Op.add k

/-- The total a sequence of calls adds to the user counter by itself. -/
def addSum : List Op → Int
  | [] => 0
  | Op.add k :: ops => k + addSum ops
  | _ :: ops => addSum ops

/-- A slot that an emission reaching it now would invoke: `connected()` holds (for a tracked
slot this includes that the owner still exists) and `blocked()` does not. -/
def active (w : World) (s : SlotId) : Bool := slot_connected w s && !slot_blocked w s

/-- The connection an invocation of slot `s` passes to the user callable, if any. -/
def connArg (w : World) (s : SlotId) : Option Connection :=
  match (w.slots s).kind with
  | SlotKind.slot_extended => some (w.slots s).conn
  | SlotKind.slot_pmf_extended => some (w.slots s).conn
  | _ => none

/-- The slot is of one of the two tracked classes. -/
def isTracked (w : World) (s : SlotId) : Bool :=
  match (w.slots s).kind with
  | SlotKind.slot_tracked => true
  | SlotKind.slot_pmf_tracked => true
  | _ => false

/-- A tracked slot whose owner is gone but which has not been disconnected yet and is not
blocked: the next emission reaching it disconnects it. -/
def pendingExpiry (w : World) (s : SlotId) : Bool :=
  isTracked w s && ptr_expired w (w.slots s).ptr && (w.slots s).m_connected
    && !(w.slots s).m_blocked

/-- The record of the invocation of slot `s` made by an emission running at depth `d`. -/
def callOf (w : World) (d : Nat) (a : Args) (s : SlotId) : Call := ⟨d, s, a, connArg w s⟩

/-- States related by steps of an emission that runs inert user code: nothing changes but
the records of user calls, the user counter, stored indices, registries, and the connected
flag of tracked slots whose expiry was pending, which is cleared. -/
def Quiet (w w1 : World) : Prop :=
  w1.snaps = w.snaps ∧ w1.expired = w.expired ∧ w1.nextSlot = w.nextSlot ∧
  w1.sigs.length = w.sigs.length ∧
  ∀ t, (w1.slots t).kind = (w.slots t).kind ∧ (w1.slots t).func = (w.slots t).func ∧
    (w1.slots t).ptr = (w.slots t).ptr ∧ (w1.slots t).conn = (w.slots t).conn ∧
    (w1.slots t).m_blocked = (w.slots t).m_blocked ∧
    (w1.slots t).cleaner = (w.slots t).cleaner ∧
    (w1.slots t).m_group = (w.slots t).m_group ∧
    ((w1.slots t).m_connected = (w.slots t).m_connected ∨
      ((w1.slots t).m_connected = false ∧ pendingExpiry w t = true))

/-- States that differ at most in the records of user calls and the user counter. -/
def LogOnly (w w1 : World) : Prop :=
  w1.slots = w.slots ∧ w1.sigs = w.sigs ∧ w1.snaps = w.snaps ∧ w1.expired = w.expired ∧
  w1.nextSlot = w.nextSlot ∧ w1.observers = w.observers

/-- The program state with the snapshot of an emission on `e` pushed. -/
def World.pushSnap (w : World) (e : SigId) : World :=
  { w with snaps := (w.sig e).m_slots :: w.snaps }

/-- The user code of the test suite: every callable adds its first argument to the counter
(`sum += i`). -/
def adder : Prog := fun _ _ a => [Op.add (a.headD 0)]

/-- A free function with code `n`, at address `100 + n`. -/
def freeFn (n : Nat) : Callable := ⟨n, 100 + n, 1, CallableKind.function⟩

/-- A pointer to member function with code `n`. -/
def memFn (n : Nat) : Callable := ⟨n, 200 + n, 2, CallableKind.memFn⟩

/-- One emitter with a member-bound slot on the object at address `7` and one on the object at
address `8`. -/
def worldAB : World :=
  (connect_call 0 (ConnectCall.pmf (memFn 1) 8) 0
    (connect_call 0 (ConnectCall.pmf (memFn 1) 7) 0 (World.init 1)).2).2

/-- One emitter with slots for the free functions f1, f2, f3, f1 (in groups 0, 0, 5, 5). -/
def worldF : World :=
  (connect_call 0 (ConnectCall.plain (freeFn 1)) 5
    (connect_call 0 (ConnectCall.plain (freeFn 3)) 5
      (connect_call 0 (ConnectCall.plain (freeFn 2)) 0
        (connect_call 0 (ConnectCall.plain (freeFn 1)) 0 (World.init 1)).2).2).2).2

/-- Two emitters; emitter `0` is blocked and holds two slots, emitter `1` is empty. -/
def worldMove : World :=
  sig_block 0 (connect_call 0 (ConnectCall.plain (freeFn 2)) 3
    (connect_call 0 (ConnectCall.plain (freeFn 1)) 0 (World.init 2)).2).2

/-- Some registry holds a pointer to slot `s`. -/
def World.held (w : World) (s : SlotId) : Bool := w.sigs.any (fun g => holds g.m_slots s)

/-- A tracked slot whose owner is gone. -/
def ownerGone (w : World) (s : SlotId) : Bool := isTracked w s && ptr_expired w (w.slots s).ptr

/-- What an execution never undoes: slots are only ever allocated, owners only ever released,
and for a slot object that exists the identity members never change, the connected flag
never goes back to true, and a registry never takes the slot back. -/
def Mono (w w1 : World) : Prop :=
  w.nextSlot ≤ w1.nextSlot ∧ (∀ a, a ∈ w.expired → a ∈ w1.expired) ∧
  ∀ s, s < w.nextSlot →
    (w1.slots s).m_group = (w.slots s).m_group ∧ (w1.slots s).cleaner = (w.slots s).cleaner ∧
    (w1.slots s).kind = (w.slots s).kind ∧ (w1.slots s).func = (w.slots s).func ∧
    (w1.slots s).ptr = (w.slots s).ptr ∧ (w1.slots s).conn = (w.slots s).conn ∧
    ((w1.slots s).m_connected = true → (w.slots s).m_connected = true) ∧
    (w1.held s = true → w.held s = true)

/-- A step of the execution that calls no user code. -/
def Silent (w w1 : World) : Prop := Mono w w1 ∧ w1.snaps = w.snaps ∧ w1.log = w.log

/-- The state in which running code ended, normally or by an exception. -/
def Outcome.final : Outcome → Option World
  | Outcome.done w => some w
  | Outcome.threw w => some w
  | Outcome.stuck => none

/-- A recorded user call that can have been made by an emission started in state `w` or later:
it is nested deeper than the emissions in flight in `w`, and if its slot existed in `w` then
in `w` a registry held the slot, the slot was connected and its owner, if tracked, existed. -/
def Fresh (w : World) (c : Call) : Prop :=
  w.snaps.length < c.depth ∧
  (c.slot < w.nextSlot →
    w.held c.slot = true ∧ (w.slots c.slot).m_connected = true ∧ ownerGone w c.slot = false)

/-- The relation between the state `w` in which code starts and the state in which it ends. -/
def Runs (w w1 : World) : Prop :=
  Mono w w1 ∧ w1.snaps = w.snaps ∧ ∃ added, w1.log = w.log ++ added ∧ ∀ c ∈ added, Fresh w c

/-- A recorded user call made directly by the emission that is running in state `w` over the
slots `l` with arguments `a`. -/
def Direct (w : World) (a : Args) (l : List SlotId) (c : Call) : Prop :=
  c.depth = w.snaps.length ∧ c.args = a ∧ c.slot ∈ l ∧
  (c.slot < w.nextSlot → (w.slots c.slot).m_connected = true ∧ ownerGone w c.slot = false)

/-- What the loop of an emission over the slots `l`, started in state `w`, has done when it
ends in state `w1`: its direct calls are on slots of `l`, in the order of `l`, and every other
recorded call is nested deeper. -/
def Emitted (a : Args) (l : List SlotId) (w w1 : World) : Prop :=
  Mono w w1 ∧ w1.snaps = w.snaps ∧ ∃ added, w1.log = w.log ++ added ∧
    List.Sublist ((added.filter (fun c => decide (c.depth = w.snaps.length))).map Call.slot) l ∧
    ∀ c ∈ added, Direct w a l c ∨ Fresh w c

/-- No program run from state `w` ever invokes the user callable of slot `s`: whatever the user
code, the nesting bound and the calls made, no record of a call on `s` is added. -/
def NeverInvoked (s : SlotId) (w : World) : Prop :=
  ∀ (prog : Prog) (fuel : Nat) (ops : List Op) (w1 : World),
    (run prog fuel ops w).final = some w1 → ∀ c ∈ w1.log.drop w.log.length, c.slot ≠ s

/-- Slot `s` is held by no registry other than the one of emitter `e`. -/
def OnlyIn (w : World) (e : SigId) (s : SlotId) : Prop :=
  ∀ e1, e1 ≠ e → holds (w.sig e1).m_slots s = false

/-- One emitter with one tracked slot (owner at address `9`), blocked through its connection,
whose owner has then been released. -/
def worldTrackedBlocked : World :=
  release_owner 9 (Connection.block ⟨some 0⟩
    (connect_call 0 (ConnectCall.tracked (freeFn 1) 9) 0 (World.init 1)).2)

/-- One emitter with a plain slot and a tracked slot (owner at address `9`) whose owner has
been released. -/
def worldTracked : World :=
  release_owner 9 (connect_call 0 (ConnectCall.tracked (freeFn 2) 9) 0
    (connect_call 0 (ConnectCall.plain (freeFn 1)) 0 (World.init 1)).2).2

/-- One emitter with the single slot of the threaded emission test: `sig.connect(f)`. -/
def worldOne : World := (connect_call 0 (ConnectCall.plain (freeFn 1)) 0 (World.init 1)).2

/-- Calls of `connect` in sequence on emitter `e`, each with its overload and its group id (an
omitted group id is `0`, the default argument `group_id{}`). -/
def connectAll (e : SigId) : List (ConnectCall × Int) → World → World
  | [], w => w
  | c :: cs, w => connectAll e cs (connect_call e c.1 c.2 w).2

/-- The group ids of the slots invoked by the calls recorded in `log`, read in state `w`. -/
def groupsOf (w : World) (log : List Call) : List Int :=
  log.map (fun c => (w.slots c.slot).m_group)

/-- The six orders in which slots tagged 10, 0 and -5 can be connected. -/
def sixOrders : List (List Int) :=
  [[10, 0, -5], [10, -5, 0], [0, 10, -5], [0, -5, 10], [-5, 10, 0], [-5, 0, 10]]

/-- The registry of emitter `e` is well formed: group ids strictly ascending, and every slot it
holds exists and carries the id of its group. -/
def GroupsOK (w : World) (e : SigId) : Prop :=
  SortedGroups (w.sig e).m_slots ∧
  ∀ g ∈ (w.sig e).m_slots, ∀ s ∈ g.slts, (w.slots s).m_group = g.gid ∧ s < w.nextSlot

/-- Two emitters: emitter `0` holds two slots, emitter `1` holds one. -/
def worldTwo : World :=
  (connect_call 1 (ConnectCall.plain (freeFn 3)) 0
    (connect_call 0 (ConnectCall.plain (freeFn 2)) 3
      (connect_call 0 (ConnectCall.plain (freeFn 1)) 0 (World.init 2)).2).2).2

/-- One emitter with a slot connected by `connect_extended` for a member function of the
observer at address `7`. -/
def worldObserverExt : World :=
  (connect_call 0 (ConnectCall.pmf_extended (memFn 1) 7) 0 (World.init 1)).2

/-- One emitter with a slot connected by `connect` for a member function of the observer at
address `7`, through the overload for observers (`sig.connect(&Obs::on1, &o)`). -/
def worldObserver : World :=
  (connect_call 0 (ConnectCall.observer (memFn 1) 7) 0 (World.init 1)).2

/-- The type of a pointer to a class derived from `observer`. -/
def observerPtr : PtrType := PtrType.pointer (PtrType.object true)

/-- One emitter with a slot connected by `Obs *p = &o; sig.connect(&Obs::on1, p)`, the observer
`o` at address `7`: the pointer is passed as an lvalue. -/
def worldObserverLvalue : World :=
  (connect_call 0 (resolve_member (memFn 1) (deduce_Ptr true observerPtr) 7) 0 (World.init 1)).2

/-- The same with the pointer passed as an rvalue: `sig.connect(&Obs::on1, &o)`. -/
def worldObserverRvalue : World :=
  (connect_call 0 (resolve_member (memFn 1) (deduce_Ptr false observerPtr) 7) 0 (World.init 1)).2

/-- The removal paths of an emitter that go through the registry: `disconnect(callable)`,
`disconnect(obj)`, `disconnect(callable, obj)`, `disconnect(group_id)`, `disconnect_all()`. -/
inductive Removal
  | callable (c : Callable)
  | object (o : ObjRef)
  | both (c : Callable) (o : ObjRef)
  | group (gid : Int)
  | all
deriving DecidableEq, Repr

/-- The program state after the removal call `k` on emitter `e`. -/
def removal (e : SigId) (k : Removal) (w : World) : World :=
  match k with
  | Removal.callable c => (disconnect_callable e c w).2
  | Removal.object o => (disconnect_object e o w).2
  | Removal.both c o => (disconnect_both e c o w).2
  | Removal.group gid => (disconnect_group e gid w).2
  | Removal.all => disconnect_all e w

/-- Some emission in flight holds slot `s` in its snapshot. -/
def World.inFlight (w : World) (s : SlotId) : Bool := w.snaps.any (fun snap => holds snap s)

/-- User code in which the callable with code `1` calls `disconnect_all()` on emitter `0`. -/
def clearer : Prog := fun n _ _ => if n = 1 then [Op.disconnect_all 0] else []

/-- User code in which the callable with code `1` calls `disconnect()` on the connection of
slot `1`. -/
def unhooker : Prog := fun n _ _ => if n = 1 then [Op.conn_disconnect ⟨some 1⟩] else []

/-- User code in which the callable with code `2` raises an exception and the others add their
first argument to the counter. -/
def thrower : Prog := fun n _ a => if n = 2 then [Op.raise] else [Op.add (a.headD 0)]

/-- How a property of the program state is shown to hold after any run. -/
structure Preserved (prog : Prog) (I : World → Prop) (ok : Op → Prop) : Prop where
  code : ∀ n c a, ∀ op ∈ prog n c a, ok op
  prim : ∀ op w, ok op → I w → (∀ e a, op ≠ Op.emit e a) →
    ∀ (step : Op → World → Outcome) (w1 : World), (stepOp prog step op w).final = some w1 → I w1
  push : ∀ w e, I w → I (w.pushSnap e)
  pop : ∀ w, I w → I w.popSnap
  call : ∀ w s a c, I w → (w.slots s).m_connected = true → (w.slots s).m_blocked = false →
    I { w with log := w.log ++ [⟨w.snaps.length, s, a, c⟩] }
  expire : ∀ w s, I w → I (slot_disconnect s w).2

/-- Some registry holds slot `t` in a group with id `gid`. -/
def World.inGroup (w : World) (gid : Int) (t : SlotId) : Prop :=
  ∃ sg ∈ w.sigs, ∃ g ∈ sg.m_slots, g.gid = gid ∧ t ∈ g.slts

/-- Every slot held by a registry exists and sits in a group with the id the slot stores. -/
def GroupIds (w : World) : Prop :=
  ∀ gid t, w.inGroup gid t → (w.slots t).m_group = gid ∧ t < w.nextSlot

/-- Registry `gs1` holds, group by group, only slots that registry `gs` holds in a group with
the same id. -/
def SubGroups (gs1 gs : List Group) : Prop :=
  ∀ g1 ∈ gs1, ∀ t ∈ g1.slts, ∃ g ∈ gs, g.gid = g1.gid ∧ t ∈ g.slts

/-- Every group membership of state `w1` is one of state `w`. -/
def Shrinks (w w1 : World) : Prop := ∀ gid t, w1.inGroup gid t → w.inGroup gid t

/-- The calls that clear the blocked flag of slot `s`, whose stored group id is `g`: `unblock()`
on a connection to `s`, which is also what the release of a blocker on such a connection does,
and `unblock(g)` on an emitter. -/
def unblocks (s : SlotId) (g : Int) : Op → Bool
  | Op.conn_unblock c => decide (c.m_state = some s)
  | Op.unblock_group _ gid => decide (gid = g)
  | _ => false

/-- Slot `s` of group `g` exists and is blocked, the registries are well formed, and no user
call on `s` has been recorded after the first `n0` records. -/
def Guarded (s : SlotId) (g : Int) (n0 : Nat) (w : World) : Prop :=
  GroupIds w ∧ s < w.nextSlot ∧ (w.slots s).m_group = g ∧ (w.slots s).m_blocked = true ∧
  ∀ c ∈ w.log.drop n0, c.slot ≠ s

/-- The number of slots held by the registry of emitter `e` whose connection reports
`connected()`. -/
def connected_count (w : World) (e : SigId) : Nat :=
  ((flat (w.sig e).m_slots).filter (fun s => Connection.connected ⟨some s⟩ w)).length

/-- One emitter with a single tracked slot (owner at address `9`) whose owner has been
released. -/
def worldExpired : World :=
  release_owner 9 (connect_call 0 (ConnectCall.tracked (freeFn 1) 9) 0 (World.init 1)).2

/-- Group `gid` of the registry `gs` holds slot `t`. -/
def inGid (gs : List Group) (gid : Int) (t : SlotId) : Prop :=
  ∃ g ∈ gs, g.gid = gid ∧ t ∈ g.slts

instance (gs : List Group) (gid : Int) (t : SlotId) : Decidable (inGid gs gid t) := by
  unfold inGid; infer_instance

/-- The slot list of the group with id `gid` of a registry, empty when there is no such
group. -/
def groupSlots (gs : List Group) (gid : Int) : List SlotId :=
  (gs.filter (fun g => decide (g.gid = gid))).flatMap Group.slts

/-- A lambda with code `n`: a function object, whose type is its own. -/
def lambdaFn (n : Nat) : Callable := ⟨n, 300 + n, 10 + n, CallableKind.functor⟩

/-- The user code of the cross emission test: the callable with code `1`, connected to the
first emitter, adds an odd argument `i` to the counter (`f(i)`) and for an even one emits
`i + 1` on the second emitter; the callable with code `2`, connected to the second emitter,
does the same towards the first. -/
def cross : Prog := fun n _ a =>
  if a.headD 0 % 2 = 1 then [Op.add (a.headD 0)]
  else [Op.emit (if n = 1 then 1 else 0) [a.headD 0 + 1]]

/-- The two emitters of the cross emission test, each with its one slot. -/
def worldCross : World :=
  (connect_call 1 (ConnectCall.plain (lambdaFn 2)) 0
    (connect_call 0 (ConnectCall.plain (lambdaFn 1)) 0 (World.init 2)).2).2

/-- The emissions `s(0)`, ..., `s(n - 1)` on emitter `e`. -/
def emitRange (e : SigId) (n : Nat) : List Op :=
  (List.range n).map (fun (i : Nat) => Op.emit e [(i : Int)])

/-- What the emission of `i` adds to the counter in the cross emission test. -/
def crossTerm (i : Int) : Int := if i % 2 = 1 then i else i + 1

/-- The state is the one of the cross emission test up to records and counter. -/
def CrossState (w : World) : Prop :=
  w.slots = worldCross.slots ∧ w.sigs = worldCross.sigs ∧ w.snaps = []

/-- Every slot held by the registry `gs` exists and stores its position in its group and the id
of its group. -/
def IndexOK (w : World) (gs : List Group) : Prop :=
  ∀ g ∈ gs, ∀ i s, g.slts[i]? = some s →
    (w.slots s).m_index = i ∧ (w.slots s).m_group = g.gid ∧ s < w.nextSlot

/-- The registries are well formed: group ids strictly ascending, every held slot stores its
position and its group id, and no slot is held by two emitters. -/
def WF (w : World) : Prop :=
  (∀ e, SortedGroups (w.sig e).m_slots) ∧ (∀ e, IndexOK w (w.sig e).m_slots) ∧
  ∀ e1 e2 s, holds (w.sig e1).m_slots s = true → holds (w.sig e2).m_slots s = true → e1 = e2

/-- Every slot held by an emitter was created by that emitter and is connected. This holds as
long as no emitter has been moved. -/
def Owned (w : World) : Prop :=
  ∀ e s, holds (w.sig e).m_slots s = true →
    (w.slots s).cleaner = e ∧ (w.slots s).m_connected = true

/-- Two emitters: the first holds a slot of the observer at address `7` and a plain slot, the
second a slot of the observer at `7` and one of the observer at `8`. -/
def worldObservers : World :=
  (connect_call 1 (ConnectCall.observer (memFn 1) 8) 0
    (connect_call 1 (ConnectCall.observer (memFn 2) 7) 0
      (connect_call 0 (ConnectCall.plain (freeFn 1)) 0
        (connect_call 0 (ConnectCall.observer (memFn 1) 7) 0 (World.init 2)).2).2).2).2

/-- The callable of slot `t`, called in state `w` with the arguments `a`, only adds to the user
counter. -/
def InertAt (prog : Prog) (w : World) (a : Args) (t : SlotId) : Prop :=
  ∀ op ∈ prog (w.slots t).func.code (connArg w t) a, ∃ k, op = Op.add k

/-- User code in which the callable with code `2` calls `disconnect()` on the connection it
receives and the other callables add their first argument to the counter. -/
def selfUnhooker : Prog := fun n c a =>
  if n = 2 then
    match c with
    | some k => [Op.conn_disconnect k]
    | none => []
  else [Op.add (a.headD 0)]

/-- One emitter with a plain slot in group `0` and, in front of it in group `-1`, a slot connected
with `connect_extended`. -/
def worldSelf : World :=
  (connect_call 0 (ConnectCall.extended (freeFn 2)) (-1) worldOne).2

/-- Two emitters: emitter `0` got a plain slot in group `0` and, in front of it in group `-1`, a
slot connected with `connect_extended`, and was then moved into the new emitter `1`
(`signal Y(std::move(X))`). -/
def worldSelfMoved : World :=
  move_construct 1 0
    (connect_call 0 (ConnectCall.extended (freeFn 2)) (-1)
      (connect_call 0 (ConnectCall.plain (freeFn 1)) 0 (World.init 2)).2).2

/-! ## Mutexes and user calls of a run -/

/-- A mutex of the program: `signal_base::m_mutex` of an emitter or `observer_base::m_mutex` of
an observer. -/
inductive Mutex
  | sig (e : SigId)
  | obs (o : Nat)
deriving DecidableEq, Repr

/-- What the thread running a program does, as far as mutexes and user callables go: it takes a
mutex (a `unique_lock` is constructed), gives it back (the `unique_lock` goes out of scope), or
enters the user callable of a slot. -/
inductive LockEvent
  | acquire (m : Mutex)
  | release (m : Mutex)
  | invoke (s : SlotId)
deriving DecidableEq, Repr

/-- The scope `lock_type lock(m_mutex);` of a method of emitter `e` whose body takes no other
mutex: `add_slot`, `disconnect_if`, `disconnect(group_id)`, `disconnect_all`, `block(group_id)`,
`unblock(group_id)`, `clean`, `slots_reference`. -/
def lockScope (e : SigId) : List LockEvent :=
  [LockEvent.acquire (Mutex.sig e), LockEvent.release (Mutex.sig e)]

/-- Mutex events of `slot_state::disconnect`: `clean` of the creating emitter runs when the
connected flag was set. -/
def slotDisconnectEvents (s : SlotId) (w : World) : List LockEvent :=
  if (w.slots s).m_connected then lockScope (w.slots s).cleaner else []

/-- Mutex events of `connection::disconnect`. -/
def connDisconnectEvents (c : Connection) (w : World) : List LockEvent :=
  match c.lock w with
  | none => []
  | some s => slotDisconnectEvents s w

/-- Mutex events of the destructors of the scoped connections of an observer, in order. -/
def teardownEvents : List Connection → World → List LockEvent
  | [], _ => []
  | c :: cs, w => connDisconnectEvents c w ++ teardownEvents cs (c.disconnect w).2

/-- Mutex events of a call that is not an emission. `connect` takes the mutex of the emitter in
`add_slot` and, in the overload for observers, the mutex of the observer in `add_connection`
afterwards; the move assignment holds both emitter mutexes; `observer_base::disconnect_all`
holds the mutex of the observer while the connections are destroyed; `block()`, `unblock()`
and the blocking of a connection are atomic stores. -/
def primEvents (op : Op) (w : World) : List LockEvent :=
  match op with
  | Op.connect e (ConnectCall.observer _ o) _ =>
    lockScope e ++ [LockEvent.acquire (Mutex.obs o), LockEvent.release (Mutex.obs o)]
  | Op.connect e _ _ => lockScope e
  | Op.disconnect_callable e _ => lockScope e
  | Op.disconnect_object e _ => lockScope e
  | Op.disconnect_both e _ _ => lockScope e
  | Op.disconnect_group e _ => lockScope e
  | Op.disconnect_all e => lockScope e
  | Op.block _ => []
  | Op.unblock _ => []
  | Op.block_group e _ => lockScope e
  | Op.unblock_group e _ => lockScope e
  | Op.emit _ _ => []
  | Op.move_construct _ src => lockScope src
  | Op.move_assign dst src =>
    [LockEvent.acquire (Mutex.sig dst), LockEvent.acquire (Mutex.sig src),
      LockEvent.release (Mutex.sig src), LockEvent.release (Mutex.sig dst)]
  | Op.conn_disconnect c => connDisconnectEvents c w
  | Op.conn_block _ => []
  | Op.conn_unblock _ => []
  | Op.observer_disconnect_all o =>
    LockEvent.acquire (Mutex.obs o) :: teardownEvents (w.observers o) w ++
      [LockEvent.release (Mutex.obs o)]
  | Op.release _ => []
  | Op.add _ => []
  | Op.raise => []

/-- Events of calls run in sequence, as `runOps` runs them; `events` gives the events of one. -/
def opsEvents (step : Op → World → Outcome) (events : Op → World → List LockEvent) :
    List Op → World → List LockEvent
  | [], _ => []
  | op :: ops, w =>
    events op w ++
      match step op w with
      | Outcome.done w1 => opsEvents step events ops w1
      | _ => []

/-- Events of `userCall`: the callable is entered, then its code runs. -/
def userCallEvents (prog : Prog) (step : Op → World → Outcome)
    (events : Op → World → List LockEvent) (s : SlotId) (c : Option Connection) (a : Args)
    (w : World) : List LockEvent :=
  LockEvent.invoke s :: opsEvents step events (prog (w.slots s).func.code c a)
    { w with log := w.log ++ [⟨w.snaps.length, s, a, c⟩] }

/-- Events of `call_slot`. -/
def callSlotEvents (prog : Prog) (step : Op → World → Outcome)
    (events : Op → World → List LockEvent) (s : SlotId) (a : Args) (w : World) :
    List LockEvent :=
  match (w.slots s).kind with
  | SlotKind.slot => userCallEvents prog step events s none a w
  | SlotKind.slot_extended => userCallEvents prog step events s (some (w.slots s).conn) a w
  | SlotKind.slot_pmf => userCallEvents prog step events s none a w
  | SlotKind.slot_pmf_extended => userCallEvents prog step events s (some (w.slots s).conn) a w
  | _ =>
    if ptr_expired w (w.slots s).ptr then slotDisconnectEvents s w
    else if (w.slots s).m_connected then userCallEvents prog step events s none a w
    else []

/-- Events of `slot_base::operator()`. -/
def slotInvokeEvents (prog : Prog) (step : Op → World → Outcome)
    (events : Op → World → List LockEvent) (s : SlotId) (a : Args) (w : World) :
    List LockEvent :=
  if (w.slots s).m_connected && !(w.slots s).m_blocked then callSlotEvents prog step events s a w
  else []

/-- Events of the inner loop of `signal_base::operator()`. -/
def emitSlotsEvents (prog : Prog) (step : Op → World → Outcome)
    (events : Op → World → List LockEvent) : List SlotId → Args → World → List LockEvent
  | [], _, _ => []
  | s :: ss, a, w =>
    slotInvokeEvents prog step events s a w ++
      match slot_invoke prog step s a w with
      | Outcome.done w1 => emitSlotsEvents prog step events ss a w1
      | _ => []

/-- Events of the outer loop of `signal_base::operator()`. -/
def emitGroupsEvents (prog : Prog) (step : Op → World → Outcome)
    (events : Op → World → List LockEvent) : List Group → Args → World → List LockEvent
  | [], _, _ => []
  | g :: gs, a, w =>
    emitSlotsEvents prog step events g.slts a w ++
      match emitSlots prog step g.slts a w with
      | Outcome.done w1 => emitGroupsEvents prog step events gs a w1
      | _ => []

/-- Events of `signal_base::operator()`: nothing when the emitter is blocked; otherwise
`slots_reference()` takes the mutex, copies the registry and gives the mutex back, and then the
loops run. -/
def emitEvents (prog : Prog) (step : Op → World → Outcome)
    (events : Op → World → List LockEvent) (e : SigId) (a : Args) (w : World) :
    List LockEvent :=
  if (w.sig e).m_block then []
  else
    lockScope e ++ emitGroupsEvents prog step events (w.sig e).m_slots a
      { w with snaps := (w.sig e).m_slots :: w.snaps }

/-- Events of one call of a program. -/
def stepEvents (prog : Prog) (step : Op → World → Outcome)
    (events : Op → World → List LockEvent) (op : Op) (w : World) : List LockEvent :=
  match op with
  | Op.emit e a => emitEvents prog step events e a w
  | _ => primEvents op w

/-- Events of one call of a program run by `exec`. -/
def execEvents (prog : Prog) : Nat → Op → World → List LockEvent
  | 0, _, _ => []
  | fuel + 1, op, w => stepEvents prog (exec prog fuel) (execEvents prog fuel) op w

/-- Events of a program run by `run`. -/
def runEvents (prog : Prog) (fuel : Nat) (ops : List Op) (w : World) : List LockEvent :=
  opsEvents (exec prog fuel) (execEvents prog fuel) ops w

/-- The mutexes the thread holds after the events `tr`, when it held `h` before. -/
def heldAfter : List Mutex → List LockEvent → List Mutex
  | h, [] => h
  | h, LockEvent.acquire m :: tr => heldAfter (m :: h) tr
  | h, LockEvent.release m :: tr => heldAfter (h.erase m) tr
  | h, LockEvent.invoke _ :: tr => heldAfter h tr

/-- The slots whose callables are entered in the events `tr`, in order. -/
def invoked : List LockEvent → List SlotId
  | [] => []
  | LockEvent.invoke s :: tr => s :: invoked tr
  | _ :: tr => invoked tr

/-- Every user callable in `tr` is entered with no mutex held, and at the end the thread again
holds no mutex. -/
def Unlocked (tr : List LockEvent) : Prop :=
  (∀ pre s post, tr = pre ++ LockEvent.invoke s :: post → heldAfter [] pre = []) ∧
  heldAfter [] tr = []

/-- The events `events` agree with the interpreter `step` on the user calls: whenever a call ends
in a state, the calls it has recorded are the callables entered in its events, in order. -/
def Traced (step : Op → World → Outcome) (events : Op → World → List LockEvent) : Prop :=
  ∀ op w w1, (step op w).final = some w1 →
    ∃ added, w1.log = w.log ++ added ∧ added.map Call.slot = invoked (events op w)

/-! ## Further vocabulary of the statements -/

/-- In every registry the group ids are strictly ascending. -/
def Ascending (w : World) : Prop := ∀ e, SortedGroups (w.sig e).m_slots

/-- User code in which the callable with code `1` calls `block()` on the connection of
slot `1`. -/
def muter : Prog := fun n _ _ => if n = 1 then [Op.conn_block ⟨some 1⟩] else []

/-! ## `copy_on_write` -/

/-- Type `copy_on_write<T>::payload`: the reference count `count` (a `std::size_t`) and the
value. -/
structure Payload (α : Type) where
  count : Nat
  value : α

/-- The payloads allocated with `new payload`, by address; `none` once deleted. -/
abbrev CowHeap (α : Type) := List (Option (Payload α))

/-- Type `copy_on_write<T>`: the member `m_data`, `nullptr` (`none`) after a move. -/
structure CopyOnWrite where
  m_data : Option Nat
deriving DecidableEq, Repr

/-- Dereference of a payload pointer; `none` stands for a pointer to a deleted payload. -/
def payloadAt {α : Type} (h : CowHeap α) (p : Nat) : Option (Payload α) := h.getD p none

/-- Constructor `copy_on_write(U&& x)`: `m_data(new payload(x))`, with `count{1}`. -/
def cow_construct {α : Type} (x : α) (h : CowHeap α) : CopyOnWrite × CowHeap α :=
  (⟨some h.length⟩, h ++ [some ⟨1, x⟩])

/-- Copy constructor: `m_data(x.m_data)`, then `++m_data->count`. -/
def cow_copy_construct {α : Type} (x : CopyOnWrite) (h : CowHeap α) :
    Option (CopyOnWrite × CowHeap α) :=
  match x.m_data with
  | none => none
  | some p =>
    match payloadAt h p with
    | none => none
    | some pl => some (⟨some p⟩, h.set p (some { pl with count := (pl.count + 1) % 2 ^ 64 }))

/-- Destructor: `if (m_data && (--m_data->count == 0)) delete m_data`. -/
def cow_destroy {α : Type} (x : CopyOnWrite) (h : CowHeap α) : Option (CowHeap α) :=
  match x.m_data with
  | none => some h
  | some p =>
    match payloadAt h p with
    | none => none
    | some pl =>
      if (pl.count + 2 ^ 64 - 1) % 2 ^ 64 = 0 then some (h.set p none)
      else some (h.set p (some { pl with count := (pl.count + 2 ^ 64 - 1) % 2 ^ 64 }))

/-- Move assignment `operator=(copy_on_write&& x)`: `tmp` takes the pointer of `x` and leaves
`x` null, `swap(*this, tmp)` exchanges the pointers, and `tmp`, which now has the former pointer
of the target, is destroyed. Returns the target, `x` and the heap. -/
def cow_move_assign {α : Type} (dst x : CopyOnWrite) (h : CowHeap α) :
    Option (CopyOnWrite × CopyOnWrite × CowHeap α) :=
  match cow_destroy ⟨dst.m_data⟩ h with
  | none => none
  | some h1 => some (⟨x.m_data⟩, ⟨none⟩, h1)

/-- Method `unique`: `m_data->count == 1`. -/
def cow_unique {α : Type} (x : CopyOnWrite) (h : CowHeap α) : Option Bool :=
  match x.m_data with
  | none => none
  | some p => (payloadAt h p).map (fun pl => decide (pl.count = 1))

/-- Method `read`: `m_data->value`. -/
def cow_read {α : Type} (x : CopyOnWrite) (h : CowHeap α) : Option α :=
  match x.m_data with
  | none => none
  | some p => (payloadAt h p).map Payload.value

/-- Method `write`: `if (!unique()) *this = copy_on_write(read());`, then the payload of the
object is handed out. Returns the object and the heap. -/
def cow_write {α : Type} (x : CopyOnWrite) (h : CowHeap α) : Option (CopyOnWrite × CowHeap α) :=
  match cow_unique x h with
  | none => none
  | some true => some (x, h)
  | some false =>
    match cow_read x h with
    | none => none
    | some v =>
      match cow_move_assign x (cow_construct v h).1 (cow_construct v h).2 with
      | none => none
      | some r => some (r.1, r.2.2)

/-- A mutation `f` made through the reference returned by `write()`, as in
`cow_write(m_slots).clear()`. -/
def cow_mutate {α : Type} (f : α → α) (x : CopyOnWrite) (h : CowHeap α) :
    Option (CopyOnWrite × CowHeap α) :=
  match cow_write x h with
  | none => none
  | some r =>
    match r.1.m_data with
    | none => none
    | some p =>
      match payloadAt r.2 p with
      | none => none
      | some pl => some (r.1, r.2.set p (some { pl with value := f pl.value }))

/-! ## Callables without a function pointer -/

/-- A generic lambda with code `n`: `function_traits` has no specialisation for it, so the
primary template applies and the function pointer is null. -/
def genericFn (n : Nat) : Callable := ⟨n, 0, 400 + n, CallableKind.other⟩

/-- One emitter with a slot for a generic lambda tracking the owner at address `9`. -/
def worldGeneric : World :=
  (connect_call 0 (ConnectCall.tracked (genericFn 1) 9) 0 (World.init 1)).2

/-! ## The aliases of `signal_base` and `signal_interface` -/

/-- The types that occur as template arguments of the emitter aliases. -/
inductive CppType
  | int32_t
  | named (n : Nat)
deriving DecidableEq, Repr

/-- The lock policy of an emitter. -/
inductive LockPolicy
  | null_mutex
  | std_mutex
deriving DecidableEq, Repr

/-- An instantiation `signal_base<Group, Lockable, T...>`. -/
structure SignalBaseInst where
  group : CppType
  lockable : LockPolicy
  args : List CppType
deriving DecidableEq, Repr

/-- Alias `signal_st<T...>`. -/
def signal_st (T : List CppType) : SignalBaseInst :=
  ⟨CppType.int32_t, LockPolicy.null_mutex, T⟩

/-- Alias `signal_g_st<Group, T...>`. -/
def signal_g_st (Group : CppType) (T : List CppType) : SignalBaseInst :=
  ⟨Group, LockPolicy.null_mutex, T⟩

/-- Alias `signal<T...>`. -/
def signal (T : List CppType) : SignalBaseInst :=
  ⟨CppType.int32_t, LockPolicy.std_mutex, T⟩

/-- Alias `signal_g<Group, T...>`, declared as `signal_base<int32_t, std::mutex, T...>`. -/
def signal_g (_Group : CppType) (T : List CppType) : SignalBaseInst :=
  ⟨CppType.int32_t, LockPolicy.std_mutex, T⟩

/-- An instantiation `signal_interface<Sig, Owner, Group, Args...>`: the wrapped emitter type
`signal_type = Sig<Group, Args...>`, the owner, and the type `Group` of the keys its methods
`block(Group const&)` and `unblock(Group const&)` take. -/
structure SignalInterfaceInst where
  signal_type : SignalBaseInst
  owner : CppType
  group : CppType
deriving DecidableEq, Repr

/-- Class template `signal_interface`. -/
def signal_interface (Sig : CppType → List CppType → SignalBaseInst) (Owner Group : CppType)
    (Args : List CppType) : SignalInterfaceInst :=
  ⟨Sig Group Args, Owner, Group⟩

/-- Alias `signal_ix_g_st<Owner, Group, T...>`. -/
def signal_ix_g_st (Owner Group : CppType) (T : List CppType) : SignalInterfaceInst :=
  signal_interface signal_g_st Owner Group T

/-- Alias `signal_ix_g<Owner, Group, T...>`. -/
def signal_ix_g (Owner Group : CppType) (T : List CppType) : SignalInterfaceInst :=
  signal_interface signal_g Owner Group T

/-! ## Basic facts about the program state -/

@[simp] theorem setSig_slots (w : World) (e : SigId) (s : Signal) : (w.setSig e s).slots = w.slots := rfl
@[simp] theorem setSig_snaps (w : World) (e : SigId) (s : Signal) : (w.setSig e s).snaps = w.snaps := rfl
@[simp] theorem setSig_log (w : World) (e : SigId) (s : Signal) : (w.setSig e s).log = w.log := rfl
@[simp] theorem setSig_sigs_length (w : World) (e : SigId) (s : Signal) :
    (w.setSig e s).sigs.length = w.sigs.length := by simp [World.setSig]
@[simp] theorem setGroups_slots (w : World) (e : SigId) (gs : List Group) : (w.setGroups e gs).slots = w.slots := rfl
@[simp] theorem setGroups_snaps (w : World) (e : SigId) (gs : List Group) : (w.setGroups e gs).snaps = w.snaps := rfl
@[simp] theorem setGroups_log (w : World) (e : SigId) (gs : List Group) : (w.setGroups e gs).log = w.log := rfl
@[simp] theorem setGroups_sigs_length (w : World) (e : SigId) (gs : List Group) :
    (w.setGroups e gs).sigs.length = w.sigs.length := by simp [World.setGroups]
@[simp] theorem modifySlot_sigs (w : World) (s : SlotId) (f : Slot → Slot) : (w.modifySlot s f).sigs = w.sigs := rfl
@[simp] theorem modifySlot_snaps (w : World) (s : SlotId) (f : Slot → Slot) : (w.modifySlot s f).snaps = w.snaps := rfl
@[simp] theorem modifySlot_log (w : World) (s : SlotId) (f : Slot → Slot) : (w.modifySlot s f).log = w.log := rfl
@[simp] theorem modifySlot_sig (w : World) (s : SlotId) (f : Slot → Slot) (e : SigId) :
    (w.modifySlot s f).sig e = w.sig e := rfl
@[simp] theorem setIndex_sigs (w : World) (s : SlotId) (i : Nat) : (w.setIndex s i).sigs = w.sigs := rfl
@[simp] theorem setIndex_snaps (w : World) (s : SlotId) (i : Nat) : (w.setIndex s i).snaps = w.snaps := rfl
@[simp] theorem setIndex_log (w : World) (s : SlotId) (i : Nat) : (w.setIndex s i).log = w.log := rfl
@[simp] theorem setIndex_sig (w : World) (s : SlotId) (i : Nat) (e : SigId) :
    (w.setIndex s i).sig e = w.sig e := rfl

theorem sig_setSig_same (w : World) (e : SigId) (s : Signal) (h : e < w.sigs.length) :
    (w.setSig e s).sig e = s := by
  simp [World.sig, World.setSig, List.getD_eq_getElem?_getD, List.getElem?_set, h]

theorem sig_setSig_ne (w : World) (e e1 : SigId) (s : Signal) (h : e ≠ e1) :
    (w.setSig e s).sig e1 = w.sig e1 := by
  simp [World.sig, World.setSig, List.getD_eq_getElem?_getD, List.getElem?_set, h]

theorem sig_setGroups_same (w : World) (e : SigId) (gs : List Group) (h : e < w.sigs.length) :
    ((w.setGroups e gs).sig e).m_slots = gs := by
  simp [World.setGroups, sig_setSig_same, h]

theorem sig_setGroups_block (w : World) (e e1 : SigId) (gs : List Group) :
    ((w.setGroups e gs).sig e1).m_block = (w.sig e1).m_block := by
  by_cases h : e = e1
  · subst h
    by_cases h2 : e < w.sigs.length
    · simp [World.setGroups, sig_setSig_same, h2]
    · have h3 : w.sigs.length ≤ e := Nat.le_of_not_lt h2
      simp [World.sig, World.setGroups, World.setSig, List.getD_eq_getElem?_getD,
        List.getElem?_set, h2, List.getElem?_eq_none h3]
  · simp [World.setGroups, sig_setSig_ne, h]

theorem sig_setGroups_ne (w : World) (e e1 : SigId) (gs : List Group) (h : e ≠ e1) :
    (w.setGroups e gs).sig e1 = w.sig e1 := by
  simp [World.setGroups, sig_setSig_ne, h]

@[simp] theorem modifySlot_slots_same (w : World) (s : SlotId) (f : Slot → Slot) :
    (w.modifySlot s f).slots s = f (w.slots s) := by
  simp [World.modifySlot]

theorem modifySlot_slots_ne (w : World) (s t : SlotId) (f : Slot → Slot) (h : t ≠ s) :
    (w.modifySlot s f).slots t = w.slots t := by
  simp [World.modifySlot, Function.update_noteq h]

theorem alive_of_holds (w : World) (e : SigId) (s : SlotId) (he : e < w.sigs.length)
    (h : holds (w.sig e).m_slots s = true) : w.alive s = true := by
  unfold World.alive
  rw [Bool.or_eq_true]
  left
  rw [List.any_eq_true]
  refine ⟨w.sigs[e], List.getElem_mem _, ?_⟩
  simpa [World.sig, List.getD_eq_getElem?_getD, he] using h


/-! ## Registry primitives: `add_slot` and `clean` -/

theorem countSlots_cons (g : Group) (gs : List Group) :
    countSlots (g :: gs) = g.slts.length + countSlots gs := by
  simp [countSlots]

@[simp] theorem countSlots_nil : countSlots [] = 0 := rfl

theorem holds_cons (g : Group) (gs : List Group) (s : SlotId) :
    holds (g :: gs) s = (decide (s ∈ g.slts) || holds gs s) := by
  simp [holds]

theorem swapPop_length (slts : List SlotId) (i : Nat) (last : SlotId) :
    (swapPop slts i last).length = slts.length - 1 := by
  simp [swapPop]

theorem swapPop_append_last (slts : List SlotId) (s : SlotId) :
    swapPop (slts ++ [s]) slts.length s = slts := by
  simp [swapPop]

theorem holds_addSlotGroups (s : SlotId) (gid : Int) (gs : List Group) :
    holds (addSlotGroups s gid gs).1 s = true := by
  induction gs with
  | nil => simp [addSlotGroups, holds]
  | cons g gs ih =>
    unfold addSlotGroups
    split_ifs with h1 h2
    · simp only [holds_cons, ih, Bool.or_true]
    · simp [holds_cons]
    · simp [holds_cons]

theorem countSlots_addSlotGroups (s : SlotId) (gid : Int) (gs : List Group) :
    countSlots (addSlotGroups s gid gs).1 = countSlots gs + 1 := by
  induction gs with
  | nil => simp [addSlotGroups, countSlots]
  | cons g gs ih =>
    unfold addSlotGroups
    split_ifs with h1 h2
    · simp only [countSlots_cons, ih]; omega
    · simp only [countSlots_cons, List.length_singleton]; omega
    · simp only [countSlots_cons, List.length_append, List.length_singleton]; omega

theorem cleanGroups_count (state : SlotId) (idx : Nat) (gid : Int) (gs : List Group)
    (h : (cleanGroups state idx gid gs).2.isSome = true) :
    countSlots (cleanGroups state idx gid gs).1 + 1 = countSlots gs := by
  induction gs with
  | nil => simp [cleanGroups] at h
  | cons g gs ih =>
    unfold cleanGroups at h ⊢
    split_ifs at h ⊢ with h1 h2
    · have hlt : idx < g.slts.length := by
        by_contra hc
        rw [List.getElem?_eq_none (Nat.le_of_not_lt hc)] at h2
        exact absurd h2 (by simp)
      simp only [countSlots_cons, swapPop_length]
      omega
    · simp at h
    · simp only [countSlots_cons]
      have := ih h
      omega

theorem cleanGroups_none (state : SlotId) (idx : Nat) (gid : Int) (gs : List Group)
    (h : (cleanGroups state idx gid gs).2 = none) :
    (cleanGroups state idx gid gs).1 = gs := by
  induction gs with
  | nil => rfl
  | cons g gs ih =>
    by_cases h1 : g.gid = gid
    · by_cases h2 : g.slts[idx]? = some state
      · simp [cleanGroups, h1, h2] at h
      · simp [cleanGroups, h1, h2]
    · simp only [cleanGroups, h1, if_false] at h ⊢
      rw [ih h]

theorem cleanGroups_addSlotGroups (s : SlotId) (gid : Int) (gs : List Group) :
    (cleanGroups s (addSlotGroups s gid gs).2 gid (addSlotGroups s gid gs).1).2 = some s := by
  induction gs with
  | nil => simp [addSlotGroups, cleanGroups]
  | cons g gs ih =>
    unfold addSlotGroups
    split_ifs with h1 h2
    · have hne : g.gid ≠ gid := ne_of_lt h1
      simp only [cleanGroups, hne, if_false]
      exact ih
    · simp [cleanGroups]
    · have heq : g.gid = gid := not_not.mp h2
      simp [cleanGroups, heq]



/-! ## The `connect` overloads, `slot_state::disconnect` and claim C3 -/

theorem connect_call_fst (e : SigId) (k : ConnectCall) (gid : Int) (w : World) :
    (connect_call e k gid w).1 = ⟨some w.nextSlot⟩ := by
  cases k <;> rfl

theorem connect_call_sigs (e : SigId) (k : ConnectCall) (gid : Int) (w : World) :
    (connect_call e k gid w).2.sigs =
      (w.setGroups e (addSlotGroups w.nextSlot gid (w.sig e).m_slots).1).sigs := by
  cases k <;>
    simp [connect_call, connect, connect_extended, connect_pmf, connect_observer,
      connect_pmf_extended, connect_pmf_tracked, connect_tracked, connect_slot,
      connect_slot_extended, make_slot, add_slot, add_connection, World.setIndex,
      World.modifySlot, World.setGroups, World.setSig, World.sig]

theorem connect_call_sig (e : SigId) (k : ConnectCall) (gid : Int) (w : World)
    (he : e < w.sigs.length) :
    ((connect_call e k gid w).2.sig e).m_slots =
      (addSlotGroups w.nextSlot gid (w.sig e).m_slots).1 := by
  have h := connect_call_sigs e k gid w
  unfold World.sig at *
  rw [h]
  have := sig_setGroups_same w e (addSlotGroups w.nextSlot gid (w.sig e).m_slots).1 he
  simpa [World.sig] using this

theorem connect_call_slot (e : SigId) (k : ConnectCall) (gid : Int) (w : World) :
    ((connect_call e k gid w).2.slots w.nextSlot).m_index =
        (addSlotGroups w.nextSlot gid (w.sig e).m_slots).2 ∧
      ((connect_call e k gid w).2.slots w.nextSlot).m_group = gid ∧
      ((connect_call e k gid w).2.slots w.nextSlot).cleaner = e ∧
      ((connect_call e k gid w).2.slots w.nextSlot).m_connected = true ∧
      ((connect_call e k gid w).2.slots w.nextSlot).m_blocked = false := by
  cases k <;>
    simp [connect_call, connect, connect_extended, connect_pmf, connect_observer,
      connect_pmf_extended, connect_pmf_tracked, connect_tracked, connect_slot,
      connect_slot_extended, make_slot, add_slot, add_connection, World.setIndex,
      World.modifySlot, World.setGroups, World.setSig, World.sig]



theorem setIndex_connected (w : World) (s t : SlotId) (i : Nat) :
    ((w.setIndex s i).slots t).m_connected = (w.slots t).m_connected := by
  by_cases h : t = s
  · subst h; simp [World.setIndex]
  · simp [World.setIndex, modifySlot_slots_ne _ _ _ _ h]

theorem clean_connected (e : SigId) (s t : SlotId) (w : World) :
    ((clean e s w).slots t).m_connected = (w.slots t).m_connected := by
  unfold clean
  simp only
  split
  · simp [setIndex_connected]
  · simp

theorem clean_slot_count (e : SigId) (s : SlotId) (w : World) (he : e < w.sigs.length)
    (h : (cleanGroups s (w.slots s).m_index (w.slots s).m_group (w.sig e).m_slots).2.isSome
      = true) :
    slot_count (clean e s w) e + 1 = slot_count w e := by
  have hc := cleanGroups_count s (w.slots s).m_index (w.slots s).m_group (w.sig e).m_slots h
  unfold clean slot_count
  simp only
  split
  · simp only [setIndex_sig, sig_setGroups_same _ _ _ he]
    exact hc
  · rename_i hn
    rw [hn] at h
    simp at h

theorem slot_disconnect_removes (w : World) (s : SlotId) (e : SigId) (he : e < w.sigs.length)
    (hc : (w.slots s).m_connected = true) (hcl : (w.slots s).cleaner = e)
    (h : (cleanGroups s (w.slots s).m_index (w.slots s).m_group (w.sig e).m_slots).2.isSome
      = true) :
    (slot_disconnect s w).1 = true ∧
      slot_count (slot_disconnect s w).2 e + 1 = slot_count w e ∧
      ((slot_disconnect s w).2.slots s).m_connected = false := by
  unfold slot_disconnect
  rw [if_pos hc]
  refine ⟨rfl, ?_, ?_⟩
  · simp only [hcl]
    have := clean_slot_count e s (w.modifySlot s (fun x => { x with m_connected := false }))
      (by simpa using he) (by simpa using h)
    simpa [slot_count] using this
  · simp [clean_connected]

theorem conn_disconnect_of_not_connected (c : Connection) (w : World)
    (h : ∀ s, c.m_state = some s → (w.slots s).m_connected = false) :
    c.disconnect w = (false, w) := by
  unfold Connection.disconnect
  cases hl : c.lock w with
  | none => rfl
  | some s =>
    have hs : c.m_state = some s := by
      unfold Connection.lock at hl
      cases hm : c.m_state with
      | none => simp [hm] at hl
      | some t =>
        simp only [hm] at hl
        split_ifs at hl
        simpa using hl
    simp [slot_disconnect, h s hs]

theorem conn_disconnect_of_alive (s : SlotId) (w : World) (h : w.alive s = true) :
    Connection.disconnect ⟨some s⟩ w = slot_disconnect s w := by
  simp [Connection.disconnect, Connection.lock, h]

theorem sig_of_ge (w : World) (e : SigId) (h : w.sigs.length ≤ e) : w.sig e = default := by
  simp [World.sig, List.getD_eq_getElem?_getD, List.getElem?_eq_none h]

theorem setSig_sig_self (w : World) (e : SigId) : w.setSig e (w.sig e) = w := by
  cases w with
  | mk slots nextSlot sigs snaps expired observers log counter =>
    simp only [World.setSig, World.sig, World.mk.injEq, and_true, true_and]
    apply List.ext_getElem?
    intro i
    by_cases h : e = i
    · subst h
      by_cases h2 : e < sigs.length
      · simp [List.getElem?_set, List.getD_eq_getElem?_getD, h2]
      · simp [List.getElem?_set, h2, List.getElem?_eq_none (Nat.le_of_not_lt h2)]
    · simp [List.getElem?_set, h]

theorem setSig_setSig (w : World) (e : SigId) (s t : Signal) :
    (w.setSig e s).setSig e t = w.setSig e t := by
  simp [World.setSig]

/-- C5: on an emitter whose global block flag is set, emit does nothing at all; block() and
unblock() set and clear the flag and change nothing else (registry, slot objects, other
emitters, snapshots, records of user calls); hence emit after block() then unblock() on an
emitter that was not blocked behaves exactly as emit did before block(). -/
theorem C5_global_block (prog : Prog) (step : Op → World → Outcome) (e : SigId) (a : Args)
    (w : World) (he : e < w.sigs.length) :
    ((w.sig e).m_block = true → emit prog step e a w = Outcome.done w) ∧
    (sig_blocked (sig_block e w) e = true ∧ sig_blocked (sig_unblock e w) e = false) ∧
    (((sig_block e w).sig e).m_slots = (w.sig e).m_slots ∧
      ((sig_unblock e w).sig e).m_slots = (w.sig e).m_slots) ∧
    (∀ e1, e1 ≠ e → (sig_block e w).sig e1 = w.sig e1 ∧ (sig_unblock e w).sig e1 = w.sig e1) ∧
    ((sig_block e w).slots = w.slots ∧ (sig_unblock e w).slots = w.slots) ∧
    ((sig_block e w).snaps = w.snaps ∧ (sig_unblock e w).snaps = w.snaps) ∧
    ((sig_block e w).log = w.log ∧ (sig_unblock e w).log = w.log) ∧
    ((w.sig e).m_block = false →
      emit prog step e a (sig_unblock e (sig_block e w)) = emit prog step e a w) := by
  refine ⟨?_, ?_, ?_, ?_, ⟨rfl, rfl⟩, ⟨rfl, rfl⟩, ⟨rfl, rfl⟩, ?_⟩
  · intro h
    simp [emit, h]
  · simp [sig_blocked, sig_block, sig_unblock, sig_setSig_same, he]
  · simp [sig_block, sig_unblock, sig_setSig_same, he]
  · intro e1 h1
    simp [sig_block, sig_unblock, sig_setSig_ne _ _ _ _ (Ne.symm h1)]
  · intro h
    have : sig_unblock e (sig_block e w) = w := by
      unfold sig_unblock sig_block
      rw [sig_setSig_same _ _ _ he, setSig_setSig]
      have h2 : ({ m_slots := (w.sig e).m_slots, m_block := false } : Signal) = w.sig e := by
        cases hs : w.sig e with
        | mk sl bl =>
          rw [hs] at h
          simp only at h
          simp [h]
      simp only [h2]
      exact setSig_sig_self w e
    rw [this]

theorem disconnectGroupGroups_not_mem (gid : Int) (gs : List Group)
    (h : ∀ g ∈ gs, g.gid ≠ gid) :
    disconnectGroupGroups gid gs = (0, gs) := by
  induction gs with
  | nil => rfl
  | cons g gs ih =>
    have h1 : g.gid ≠ gid := h g (List.mem_cons_self _ _)
    have h2 := ih (fun x hx => h x (List.mem_cons_of_mem _ hx))
    simp [disconnectGroupGroups, h1, h2]

theorem countSlots_filter_not_mem (gid : Int) (gs : List Group)
    (h : ∀ g ∈ gs, g.gid ≠ gid) :
    countSlots (gs.filter (fun g => decide (g.gid = gid))) = 0 := by
  have : gs.filter (fun g => decide (g.gid = gid)) = [] := by
    rw [List.filter_eq_nil_iff]
    intro g hg
    simpa using h g hg
  rw [this]; rfl

theorem map_clear_not_mem (gid : Int) (gs : List Group)
    (h : ∀ g ∈ gs, g.gid ≠ gid) :
    gs.map (fun g => if g.gid = gid then (⟨[], g.gid⟩ : Group) else g) = gs := by
  induction gs with
  | nil => rfl
  | cons g gs ih =>
    have h1 : g.gid ≠ gid := h g (List.mem_cons_self _ _)
    simp [h1, ih (fun x hx => h x (List.mem_cons_of_mem _ hx))]

theorem disconnectGroupGroups_spec (gid : Int) (gs : List Group) (hs : SortedGroups gs) :
    (disconnectGroupGroups gid gs).1 = countSlots (gs.filter (fun g => decide (g.gid = gid))) ∧
    (disconnectGroupGroups gid gs).2 =
      gs.map (fun g => if g.gid = gid then (⟨[], g.gid⟩ : Group) else g) ∧
    countSlots (disconnectGroupGroups gid gs).2 + (disconnectGroupGroups gid gs).1
      = countSlots gs := by
  induction gs with
  | nil => simp [disconnectGroupGroups, countSlots]
  | cons g gs ih =>
    have hs2 : SortedGroups gs := by
      unfold SortedGroups at hs ⊢
      simp only [List.map_cons, List.pairwise_cons] at hs
      exact hs.2
    by_cases h1 : g.gid = gid
    · have hrest : ∀ x ∈ gs, x.gid ≠ gid := by
        intro x hx
        unfold SortedGroups at hs
        simp only [List.map_cons, List.pairwise_cons, List.mem_map, forall_exists_index,
          and_imp, forall_apply_eq_imp_iff₂] at hs
        have := hs.1 x hx
        omega
      simp only [disconnectGroupGroups, h1, if_true, List.filter_cons, decide_True,
        List.map_cons, countSlots_cons, List.length_nil, map_clear_not_mem gid gs hrest,
        countSlots_filter_not_mem gid gs hrest]
      refine ⟨by omega, trivial, by omega⟩
    · obtain ⟨i1, i2, i3⟩ := ih hs2
      simp only [disconnectGroupGroups, h1, if_false, List.filter_cons, decide_False,
        List.map_cons, countSlots_cons]
      refine ⟨i1, by rw [i2], by omega⟩

/-- C8: on a registry with strictly ascending group ids, disconnect(g) returns the number of
slots held by the group with id g (0 when there is none), empties that group, leaves every
other group and every slot object as they were, and lowers slot_count() by the value it
returns. -/
theorem C8_disconnect_group (w : World) (e : SigId) (gid : Int) (he : e < w.sigs.length)
    (hs : SortedGroups (w.sig e).m_slots) :
    (disconnect_group e gid w).1
      = countSlots ((w.sig e).m_slots.filter (fun g => decide (g.gid = gid))) ∧
    ((∀ g ∈ (w.sig e).m_slots, g.gid ≠ gid) → (disconnect_group e gid w).1 = 0) ∧
    ((disconnect_group e gid w).2.sig e).m_slots
      = (w.sig e).m_slots.map (fun g => if g.gid = gid then (⟨[], g.gid⟩ : Group) else g) ∧
    (disconnect_group e gid w).2.slots = w.slots ∧
    slot_count (disconnect_group e gid w).2 e + (disconnect_group e gid w).1
      = slot_count w e := by
  obtain ⟨h1, h2, h3⟩ := disconnectGroupGroups_spec gid (w.sig e).m_slots hs
  refine ⟨h1, ?_, ?_, rfl, ?_⟩
  · intro hn
    simp [disconnect_group, disconnectGroupGroups_not_mem gid _ hn]
  · simp only [disconnect_group, sig_setGroups_same _ _ _ he]
    exact h2
  · simp only [disconnect_group, slot_count, sig_setGroups_same _ _ _ he]
    exact h3

/-- C10: after emitter src is moved into emitter dst, by the move constructor or by move
assignment, dst holds exactly the registry src held before (same groups, same slots, and
the slot objects are untouched) and dst.blocked() is what src.blocked() was. -/
theorem C10_move_transfer (w : World) (dst src : SigId) (hd : dst < w.sigs.length)
    (hne : dst ≠ src) :
    ((move_construct dst src w).sig dst).m_slots = (w.sig src).m_slots ∧
    sig_blocked (move_construct dst src w) dst = sig_blocked w src ∧
    (move_construct dst src w).slots = w.slots ∧
    ((move_assign dst src w).sig dst).m_slots = (w.sig src).m_slots ∧
    sig_blocked (move_assign dst src w) dst = sig_blocked w src ∧
    (move_assign dst src w).slots = w.slots := by
  refine ⟨?_, ?_, rfl, ?_, ?_, rfl⟩
  · simp [move_construct, sig_setGroups_ne _ _ _ _ (Ne.symm hne), sig_setSig_same _ _ _ hd]
  · simp [sig_blocked, move_construct, sig_setGroups_ne _ _ _ _ (Ne.symm hne),
      sig_setSig_same _ _ _ hd]
  · simp [move_assign, sig_setSig_ne _ _ _ _ (Ne.symm hne), sig_setSig_same _ _ _ hd]
  · simp [sig_blocked, move_assign, sig_setSig_ne _ _ _ _ (Ne.symm hne),
      sig_setSig_same _ _ _ hd]

/-! ## The swap-remove scan of `disconnect_if` -/

theorem swapPop_perm (slts : List SlotId) (i : Nat) (s : SlotId)
    (h : slts[i]? = some s) :
    List.Perm (s :: swapPop slts i (slts.getLast?.getD s)) slts := by
  have hlt : i < slts.length := by
    by_contra hc
    rw [List.getElem?_eq_none (Nat.le_of_not_lt hc)] at h
    exact absurd h (by simp)
  have hne : slts ≠ [] := by
    intro h0; subst h0; simp at hlt
  obtain ⟨ini, l, rfl⟩ : ∃ ini l, slts = ini ++ [l] :=
    ⟨slts.dropLast, slts.getLast hne, (List.dropLast_append_getLast hne).symm⟩
  have hl : ((ini ++ [l]).getLast?).getD s = l := by simp
  rw [hl]
  by_cases hi : i < ini.length
  · have hs : ini[i]? = some s := by
      rw [List.getElem?_append_left hi] at h; exact h
    have hset : (ini ++ [l]).set i l = ini.set i l ++ [l] := by
      rw [List.set_append_left _ _ hi]
    unfold swapPop
    rw [hset, List.dropLast_concat]
    have hi2 : ini[i] = s := by
      rw [List.getElem?_eq_getElem hi] at hs
      exact Option.some.inj hs
    have hdec : ini = ini.take i ++ s :: ini.drop (i + 1) := by
      have := List.take_append_drop i ini
      rw [List.drop_eq_getElem_cons hi, hi2] at this
      exact this.symm
    have hset2 : ini.set i l = ini.take i ++ l :: ini.drop (i + 1) := by
      rw [List.set_eq_take_append_cons_drop]
      simp [hi]
    rw [hset2]
    conv_rhs => rw [hdec]
    -- s :: (p ++ l :: q) ~ (p ++ s :: q) ++ [l]
    have e1 : List.Perm (s :: (ini.take i ++ l :: ini.drop (i + 1)))
        (s :: l :: (ini.take i ++ ini.drop (i + 1))) :=
      List.Perm.cons _ List.perm_middle
    have e2 : List.Perm ((ini.take i ++ s :: ini.drop (i + 1)) ++ [l])
        (l :: s :: (ini.take i ++ ini.drop (i + 1))) := by
      refine List.Perm.trans (List.perm_append_singleton _ _) ?_
      exact List.Perm.cons _ List.perm_middle
    exact e1.trans ((List.Perm.swap _ _ _).trans e2.symm)
  · have hi3 : i = ini.length := by
      simp at hlt; omega
    subst hi3
    have hs : s = l := by
      simp at h; exact h.symm
    subst hs
    rw [swapPop_append_last]
    exact (List.perm_append_singleton _ _).symm

theorem sameButIndex_refl (w : World) : SameButIndex w w :=
  ⟨rfl, rfl, rfl, rfl, rfl, rfl, rfl, fun t => ⟨(w.slots t).m_index, rfl⟩⟩

theorem sameButIndex_trans {w w1 w2 : World} (h1 : SameButIndex w w1)
    (h2 : SameButIndex w1 w2) : SameButIndex w w2 := by
  obtain ⟨a1, a2, a3, a4, a5, a6, a7, a8⟩ := h1
  obtain ⟨b1, b2, b3, b4, b5, b6, b7, b8⟩ := h2
  refine ⟨b1.trans a1, b2.trans a2, b3.trans a3, b4.trans a4, b5.trans a5, b6.trans a6,
    b7.trans a7, ?_⟩
  intro t
  obtain ⟨i, hi⟩ := a8 t
  obtain ⟨j, hj⟩ := b8 t
  exact ⟨j, by rw [hj, hi]⟩

theorem sameButIndex_setIndex (w : World) (s : SlotId) (i : Nat) :
    SameButIndex w (w.setIndex s i) := by
  refine ⟨rfl, rfl, rfl, rfl, rfl, rfl, rfl, ?_⟩
  intro t
  by_cases h : t = s
  · subst h
    exact ⟨i, by simp [World.setIndex]⟩
  · exact ⟨(w.slots t).m_index, by simp [World.setIndex, modifySlot_slots_ne _ _ _ _ h]⟩

theorem disconnectIfLoop_spec (cond : World → SlotId → Bool) (hc : IndexFree cond) :
    ∀ (n i : Nat) (slts : List SlotId) (w : World) (count : Nat),
      slts.length ≤ n + i →
      (∀ j, j < i → ∀ x, slts[j]? = some x → cond w x = false) →
      List.Perm (disconnectIfLoop cond n i slts w count).1
          (slts.filter (fun s => !cond w s)) ∧
        (disconnectIfLoop cond n i slts w count).2.2 = count + slts.countP (cond w) ∧
        SameButIndex w (disconnectIfLoop cond n i slts w count).2.1 := by
  have hall : ∀ (i : Nat) (slts : List SlotId) (w : World), slts.length ≤ i →
      (∀ j, j < i → ∀ x, slts[j]? = some x → cond w x = false) →
      slts.filter (fun s => !cond w s) = slts ∧ slts.countP (cond w) = 0 := by
    intro i slts w hlen hpre
    have hf : ∀ x ∈ slts, cond w x = false := by
      intro x hx
      obtain ⟨j, hj, hjx⟩ := List.getElem_of_mem hx
      exact hpre j (by omega) x (by rw [List.getElem?_eq_getElem hj, hjx])
    constructor
    · rw [List.filter_eq_self]
      intro x hx; simp [hf x hx]
    · rw [List.countP_eq_zero]
      intro x hx; simp [hf x hx]
  intro n
  induction n with
  | zero =>
    intro i slts w count hlen hpre
    obtain ⟨h1, h2⟩ := hall i slts w (by omega) hpre
    simp only [disconnectIfLoop, h1, h2]
    exact ⟨List.Perm.refl _, rfl, sameButIndex_refl w⟩
  | succ n ih =>
    intro i slts w count hlen hpre
    unfold disconnectIfLoop
    cases hs : slts[i]? with
    | none =>
      have hge : slts.length ≤ i := by
        by_contra hcon
        rw [List.getElem?_eq_getElem (Nat.lt_of_not_le hcon)] at hs
        exact absurd hs (by simp)
      obtain ⟨h1, h2⟩ := hall i slts w hge hpre
      simp only [h1, h2]
      exact ⟨List.Perm.refl _, rfl, sameButIndex_refl w⟩
    | some s =>
      have hlt : i < slts.length := by
        by_contra hcon
        rw [List.getElem?_eq_none (Nat.le_of_not_lt hcon)] at hs
        exact absurd hs (by simp)
      simp only
      by_cases hcs : cond w s = true
      · rw [if_pos hcs]
        have hperm := swapPop_perm slts i s hs
        have hsame := sameButIndex_setIndex w (slts.getLast?.getD s) i
        have hcw : cond (w.setIndex (slts.getLast?.getD s) i) = cond w := by
          funext x
          exact hc _ _ hsame x
        have hpre2 : ∀ j, j < i → ∀ x,
            (swapPop slts i (slts.getLast?.getD s))[j]? = some x →
            cond (w.setIndex (slts.getLast?.getD s) i) x = false := by
          intro j hj x hx
          rw [hcw]
          apply hpre j hj x
          unfold swapPop at hx
          rw [List.getElem?_dropLast] at hx
          split_ifs at hx with hh
          rw [List.getElem?_set] at hx
          have : i ≠ j := by omega
          simpa [this] using hx
        obtain ⟨r1, r2, r3⟩ := ih i (swapPop slts i (slts.getLast?.getD s))
          (w.setIndex (slts.getLast?.getD s) i) (count + 1)
          (by rw [swapPop_length]; omega) hpre2
        refine ⟨?_, ?_, sameButIndex_trans hsame r3⟩
        · refine r1.trans ?_
          rw [hcw]
          have := List.Perm.filter (fun s => !cond w s) hperm
          simpa [List.filter_cons, hcs] using this
        · rw [r2, hcw]
          have := List.Perm.countP_eq (cond w) hperm
          rw [List.countP_cons_of_pos _ _ hcs] at this
          omega
      · have hcs2 : cond w s = false := by simpa using hcs
        rw [if_neg hcs]
        have hpre2 : ∀ j, j < i + 1 → ∀ x, slts[j]? = some x → cond w x = false := by
          intro j hj x hx
          by_cases hji : j = i
          · subst hji
            rw [hs] at hx
            cases hx
            exact hcs2
          · exact hpre j (by omega) x hx
        exact ih (i + 1) slts w count (by omega) hpre2

@[simp] theorem flat_nil : flat [] = [] := rfl

@[simp] theorem flat_cons (g : Group) (gs : List Group) : flat (g :: gs) = g.slts ++ flat gs := by
  simp [flat]

theorem countSlots_eq_flat (gs : List Group) : countSlots gs = (flat gs).length := by
  induction gs with
  | nil => rfl
  | cons g gs ih => simp [countSlots_cons, ih]

theorem disconnectIfGroups_spec (cond : World → SlotId → Bool) (hc : IndexFree cond) :
    ∀ (gs : List Group) (w : World) (count : Nat),
      Filtered (cond w) (disconnectIfGroups cond gs w count).1 gs ∧
      (disconnectIfGroups cond gs w count).2.2 = count + (flat gs).countP (cond w) ∧
      SameButIndex w (disconnectIfGroups cond gs w count).2.1 := by
  intro gs
  induction gs with
  | nil =>
    intro w count
    exact ⟨List.Forall₂.nil, by simp [disconnectIfGroups], sameButIndex_refl w⟩
  | cons g gs ih =>
    intro w count
    obtain ⟨l1, l2, l3⟩ := disconnectIfLoop_spec cond hc g.slts.length 0 g.slts w count
      (by omega) (by intro j hj; omega)
    obtain ⟨r1, r2, r3⟩ := ih (disconnectIfLoop cond g.slts.length 0 g.slts w count).2.1
      (disconnectIfLoop cond g.slts.length 0 g.slts w count).2.2
    have hcw : cond (disconnectIfLoop cond g.slts.length 0 g.slts w count).2.1 = cond w := by
      funext x
      exact hc _ _ l3 x
    simp only [disconnectIfGroups]
    refine ⟨?_, ?_, sameButIndex_trans l3 r3⟩
    · rw [hcw] at r1
      unfold Filtered
      apply List.Forall₂.cons
      · exact ⟨rfl, l1⟩
      · exact r1
    · rw [r2, l2, hcw, flat_cons, List.countP_append]
      omega

theorem filtered_countSlots {p : SlotId → Bool} {gs1 gs : List Group}
    (h : Filtered p gs1 gs) : countSlots gs1 + (flat gs).countP p = countSlots gs := by
  induction h with
  | nil => rfl
  | @cons g1 g l1 l hg _ ih =>
    simp only [countSlots_cons, flat_cons, List.countP_append]
    have h1 : g1.slts.length = (g.slts.filter (fun s => !p s)).length := hg.2.length_eq
    have h2 : (g.slts.filter (fun s => !p s)).length + g.slts.countP p = g.slts.length := by
      have := List.length_eq_countP_add_countP p g.slts
      rw [List.countP_eq_length_filter (fun a => ¬ p a = true)] at this
      simp only [Bool.not_eq_true, Bool.decide_eq_false] at this
      omega
    omega

theorem disconnect_if_spec (cond : World → SlotId → Bool) (hc : IndexFree cond) (e : SigId)
    (w : World) (he : e < w.sigs.length) :
    Filtered (cond w) ((disconnect_if cond e w).2.sig e).m_slots (w.sig e).m_slots ∧
    (disconnect_if cond e w).1 = (flat (w.sig e).m_slots).countP (cond w) ∧
    slot_count (disconnect_if cond e w).2 e + (disconnect_if cond e w).1 = slot_count w e ∧
    (∀ t, ∃ i, (disconnect_if cond e w).2.slots t = { w.slots t with m_index := i }) ∧
    (∀ e1, e1 ≠ e → (disconnect_if cond e w).2.sig e1 = w.sig e1) := by
  obtain ⟨h1, h2, h3⟩ := disconnectIfGroups_spec cond hc (w.sig e).m_slots w 0
  have hlen : e < (disconnectIfGroups cond (w.sig e).m_slots w 0).2.1.sigs.length := by
    rw [h3.1]; exact he
  have hsig : ((disconnect_if cond e w).2.sig e).m_slots
      = (disconnectIfGroups cond (w.sig e).m_slots w 0).1 := by
    simp only [disconnect_if, sig_setGroups_same _ _ _ hlen]
  refine ⟨?_, ?_, ?_, ?_, ?_⟩
  · rw [hsig]; exact h1
  · simp only [disconnect_if, h2, Nat.zero_add]
  · unfold slot_count
    rw [hsig]
    simp only [disconnect_if, h2, Nat.zero_add]
    exact filtered_countSlots h1
  · intro t
    simpa [disconnect_if] using h3.2.2.2.2.2.2.2 t
  · intro e1 h
    simp only [disconnect_if, sig_setGroups_ne _ _ _ _ (Ne.symm h)]
    have := h3.1
    simp only [World.sig] at this ⊢
    rw [this]

/-! ## Emission with inert user code -/

theorem emitSlots_append (prog : Prog) (step : Op → World → Outcome) (l1 l2 : List SlotId)
    (a : Args) (w : World) :
    emitSlots prog step (l1 ++ l2) a w =
      match emitSlots prog step l1 a w with
      | Outcome.done w1 => emitSlots prog step l2 a w1
      | r => r := by
  induction l1 generalizing w with
  | nil => simp [emitSlots]
  | cons s l1 ih =>
    simp only [List.cons_append, emitSlots]
    cases h : slot_invoke prog step s a w with
    | done w1 => exact ih w1
    | threw w1 => rfl
    | stuck => rfl

theorem emitGroups_eq_flat (prog : Prog) (step : Op → World → Outcome) (gs : List Group)
    (a : Args) (w : World) :
    emitGroups prog step gs a w = emitSlots prog step (flat gs) a w := by
  induction gs generalizing w with
  | nil => rfl
  | cons g gs ih =>
    simp only [emitGroups, flat_cons, emitSlots_append]
    cases h : emitSlots prog step g.slts a w with
    | done w1 => simp only [ih]
    | threw w1 => rfl
    | stuck => rfl

theorem exec_add (prog : Prog) (fuel : Nat) (k : Int) (w : World) :
    exec prog (fuel + 1) (Op.add k) w = Outcome.done { w with counter := w.counter + k } := rfl

theorem runOps_adds (prog : Prog) (fuel : Nat) (ops : List Op) (w : World)
    (h : ∀ op ∈ ops, ∃ k, op = Op.add k) :
    runOps (exec prog (fuel + 1)) ops w
      = Outcome.done { w with counter := w.counter + addSum ops } := by
  induction ops generalizing w with
  | nil => simp [runOps, addSum]
  | cons op ops ih =>
    obtain ⟨k, rfl⟩ := h _ (List.mem_cons_self _ _)
    simp only [runOps, exec_add]
    rw [ih _ (fun o ho => h o (List.mem_cons_of_mem _ ho))]
    simp [addSum, add_assoc]

theorem userCall_inert (prog : Prog) (hp : Inert prog) (fuel : Nat) (s : SlotId)
    (c : Option Connection) (a : Args) (w : World) :
    userCall prog (exec prog (fuel + 1)) s c a w
      = Outcome.done { w with
          log := w.log ++ [⟨w.snaps.length, s, a, c⟩]
          counter := w.counter + addSum (prog (w.slots s).func.code c a) } := by
  unfold userCall
  rw [runOps_adds prog fuel _ _ (hp _ _ _)]

theorem slot_invoke_pending (prog : Prog) (step : Op → World → Outcome) (s : SlotId) (a : Args)
    (w : World) (h : pendingExpiry w s = true) :
    slot_invoke prog step s a w = Outcome.done (slot_disconnect s w).2 := by
  unfold pendingExpiry isTracked at h
  unfold slot_invoke call_slot
  cases hk : (w.slots s).kind <;> simp [hk] at h <;> simp [h]

theorem slot_invoke_active (prog : Prog) (hp : Inert prog) (fuel : Nat) (s : SlotId) (a : Args)
    (w : World) (h : active w s = true) :
    slot_invoke prog (exec prog (fuel + 1)) s a w
      = Outcome.done { w with
          log := w.log ++ [callOf w w.snaps.length a s]
          counter := w.counter + addSum (prog (w.slots s).func.code (connArg w s) a) } := by
  unfold active slot_connected slot_blocked at h
  unfold slot_invoke call_slot callOf connArg
  cases hk : (w.slots s).kind <;> simp [hk] at h <;>
    simp [h, userCall_inert prog hp]

theorem slot_invoke_idle (prog : Prog) (step : Op → World → Outcome) (s : SlotId) (a : Args)
    (w : World) (h1 : active w s = false) (h2 : pendingExpiry w s = false) :
    slot_invoke prog step s a w = Outcome.done w := by
  unfold active slot_connected slot_blocked at h1
  unfold pendingExpiry isTracked at h2
  unfold slot_invoke call_slot
  cases hk : (w.slots s).kind <;> simp [hk] at h1 h2 <;>
    cases hc : (w.slots s).m_connected <;> cases hb : (w.slots s).m_blocked <;>
    simp_all

theorem logOnly_refl (w : World) : LogOnly w w := ⟨rfl, rfl, rfl, rfl, rfl, rfl⟩

theorem logOnly_trans {w w1 w2 : World} (h1 : LogOnly w w1) (h2 : LogOnly w1 w2) :
    LogOnly w w2 := by
  exact ⟨h2.1.trans h1.1, h2.2.1.trans h1.2.1, h2.2.2.1.trans h1.2.2.1,
    h2.2.2.2.1.trans h1.2.2.2.1, h2.2.2.2.2.1.trans h1.2.2.2.2.1,
    h2.2.2.2.2.2.trans h1.2.2.2.2.2⟩

theorem logOnly_quiet {w w1 : World} (h : LogOnly w w1) : Quiet w w1 := by
  obtain ⟨a1, a2, a3, a4, a5, -⟩ := h
  refine ⟨a3, a4, a5, by rw [a2], ?_⟩
  intro t
  rw [a1]
  exact ⟨rfl, rfl, rfl, rfl, rfl, rfl, rfl, Or.inl rfl⟩

theorem quiet_refl (w : World) : Quiet w w := logOnly_quiet (logOnly_refl w)

theorem quiet_active_eq {w w1 : World} (h : Quiet w w1) : active w1 = active w := by
  funext t
  obtain ⟨-, h2, -, -, h5⟩ := h
  obtain ⟨k1, -, k3, -, k5, -, -, k8⟩ := h5 t
  unfold active slot_connected slot_blocked ptr_expired
  rw [k1, k3, k5, h2]
  rcases k8 with k8 | ⟨k8, k9⟩
  · rw [k8]
  · unfold pendingExpiry isTracked ptr_expired at k9
    rw [k8]
    cases hk : (w.slots t).kind <;> simp [hk] at k9 ⊢
    · cases hp : (w.slots t).ptr <;> simp [hp] at k9 ⊢
      simp [k9]
    · cases hp : (w.slots t).ptr <;> simp [hp] at k9 ⊢
      simp [k9]

theorem quiet_pending {w w1 : World} (h : Quiet w w1) (t : SlotId)
    (hp : pendingExpiry w1 t = true) : pendingExpiry w t = true := by
  obtain ⟨-, h2, -, -, h5⟩ := h
  obtain ⟨k1, -, k3, -, k5, -, -, k8⟩ := h5 t
  rcases k8 with k8 | ⟨-, k9⟩
  · unfold pendingExpiry isTracked ptr_expired at hp ⊢
    rw [k1, k3, k5, h2, k8] at hp
    exact hp
  · exact k9

theorem quiet_trans {w w1 w2 : World} (h1 : Quiet w w1) (h2 : Quiet w1 w2) : Quiet w w2 := by
  have hpend := fun t => quiet_pending h1 t
  obtain ⟨a1, a2, a3, a4, a5⟩ := h1
  obtain ⟨b1, b2, b3, b4, b5⟩ := h2
  refine ⟨b1.trans a1, b2.trans a2, b3.trans a3, b4.trans a4, ?_⟩
  intro t
  obtain ⟨k1, k2, k3, k4, k5, k6, k7, k8⟩ := a5 t
  obtain ⟨l1, l2, l3, l4, l5, l6, l7, l8⟩ := b5 t
  refine ⟨l1.trans k1, l2.trans k2, l3.trans k3, l4.trans k4, l5.trans k5, l6.trans k6,
    l7.trans k7, ?_⟩
  rcases l8 with l8 | ⟨l8, l9⟩
  · rcases k8 with k8 | ⟨k8, k9⟩
    · exact Or.inl (l8.trans k8)
    · exact Or.inr ⟨l8.trans k8, k9⟩
  · exact Or.inr ⟨l8, hpend t l9⟩

theorem quiet_callOf_eq {w w1 : World} (h : Quiet w w1) (d : Nat) (a : Args) :
    callOf w1 d a = callOf w d a := by
  funext t
  obtain ⟨k1, -, -, k4, -⟩ := h.2.2.2.2 t
  unfold callOf connArg
  rw [k1, k4]

theorem quiet_code_eq {w w1 : World} (h : Quiet w w1) (prog : Prog) (a : Args) :
    (fun t => addSum (prog (w1.slots t).func.code (connArg w1 t) a))
      = (fun t => addSum (prog (w.slots t).func.code (connArg w t) a)) := by
  funext t
  obtain ⟨k1, k2, -, k4, -⟩ := h.2.2.2.2 t
  unfold connArg
  rw [k1, k2, k4]

theorem clean_slots (e : SigId) (s : SlotId) (w : World) (t : SlotId) :
    ∃ i, (clean e s w).slots t = { w.slots t with m_index := i } := by
  unfold clean
  simp only
  split
  · rename_i moved _
    by_cases h : t = moved
    · subst h
      exact ⟨(w.slots s).m_index, by simp [World.setIndex]⟩
    · exact ⟨(w.slots t).m_index, by simp [World.setIndex, modifySlot_slots_ne _ _ _ _ h]⟩
  · exact ⟨(w.slots t).m_index, rfl⟩

theorem clean_frame (e : SigId) (s : SlotId) (w : World) :
    (clean e s w).snaps = w.snaps ∧ (clean e s w).expired = w.expired ∧
    (clean e s w).nextSlot = w.nextSlot ∧ (clean e s w).sigs.length = w.sigs.length ∧
    (clean e s w).log = w.log ∧ (clean e s w).counter = w.counter ∧
    (clean e s w).observers = w.observers := by
  unfold clean
  simp only
  split <;> simp [World.setIndex, World.modifySlot, World.setGroups, World.setSig]

theorem slot_disconnect_frame (s : SlotId) (w : World) :
    (slot_disconnect s w).2.snaps = w.snaps ∧ (slot_disconnect s w).2.expired = w.expired ∧
    (slot_disconnect s w).2.nextSlot = w.nextSlot ∧
    (slot_disconnect s w).2.sigs.length = w.sigs.length ∧
    (slot_disconnect s w).2.log = w.log ∧ (slot_disconnect s w).2.counter = w.counter ∧
    (slot_disconnect s w).2.observers = w.observers := by
  unfold slot_disconnect
  split
  · exact clean_frame _ _ _
  · exact ⟨rfl, rfl, rfl, rfl, rfl, rfl, rfl⟩

theorem slot_disconnect_slots (s : SlotId) (w : World) (t : SlotId) :
    ∃ i c, (slot_disconnect s w).2.slots t = { w.slots t with m_index := i, m_connected := c } ∧
      (c = (w.slots t).m_connected ∨ (c = false ∧ t = s)) := by
  unfold slot_disconnect
  split
  · obtain ⟨i, hi⟩ := clean_slots (w.slots s).cleaner s
      (w.modifySlot s (fun x => { x with m_connected := false })) t
    by_cases h : t = s
    · subst h
      refine ⟨i, false, ?_, Or.inr ⟨rfl, rfl⟩⟩
      rw [hi]; simp
    · refine ⟨i, (w.slots t).m_connected, ?_, Or.inl rfl⟩
      rw [hi, modifySlot_slots_ne _ _ _ _ h]
  · exact ⟨(w.slots t).m_index, (w.slots t).m_connected, rfl, Or.inl rfl⟩

theorem slot_disconnect_quiet (s : SlotId) (w : World) (h : pendingExpiry w s = true) :
    Quiet w (slot_disconnect s w).2 := by
  obtain ⟨f1, f2, f3, f4, -⟩ := slot_disconnect_frame s w
  refine ⟨f1, f2, f3, f4, ?_⟩
  intro t
  obtain ⟨i, c, hs, hc⟩ := slot_disconnect_slots s w t
  rw [hs]
  refine ⟨rfl, rfl, rfl, rfl, rfl, rfl, rfl, ?_⟩
  rcases hc with hc | ⟨hc, ht⟩
  · exact Or.inl hc
  · subst ht
    exact Or.inr ⟨hc, h⟩

theorem pending_not_active (w : World) (s : SlotId) (h : pendingExpiry w s = true) :
    active w s = false := by
  unfold pendingExpiry isTracked at h
  unfold active slot_connected
  cases hk : (w.slots s).kind <;> simp [hk] at h ⊢ <;> simp [h]

theorem emitSlots_inert (prog : Prog) (hp : Inert prog) (fuel : Nat) (a : Args) :
    ∀ (l : List SlotId) (w : World),
      ∃ w1, emitSlots prog (exec prog (fuel + 1)) l a w = Outcome.done w1 ∧
        w1.log = w.log ++ (l.filter (active w)).map (callOf w w.snaps.length a) ∧
        w1.counter = w.counter + ((l.filter (active w)).map
          (fun t => addSum (prog (w.slots t).func.code (connArg w t) a))).sum ∧
        Quiet w w1 ∧ ((∀ t ∈ l, pendingExpiry w t = false) → LogOnly w w1) := by
  intro l
  induction l with
  | nil =>
    intro w
    exact ⟨w, rfl, by simp, by simp, quiet_refl w, fun _ => logOnly_refl w⟩
  | cons s l ih =>
    intro w
    by_cases hpend : pendingExpiry w s = true
    · have hq := slot_disconnect_quiet s w hpend
      obtain ⟨w1, e1, e2, e3, e4, -⟩ := ih (slot_disconnect s w).2
      obtain ⟨f1, -, -, -, f5, f6, -⟩ := slot_disconnect_frame s w
      refine ⟨w1, ?_, ?_, ?_, quiet_trans hq e4, ?_⟩
      · simp only [emitSlots, slot_invoke_pending prog _ s a w hpend]
        exact e1
      · rw [e2, f5, f1, quiet_active_eq hq, quiet_callOf_eq hq]
        simp [List.filter_cons, pending_not_active w s hpend]
      · rw [e3, f6, quiet_active_eq hq, quiet_code_eq hq]
        simp [List.filter_cons, pending_not_active w s hpend]
      · intro hall
        have := hall s (List.mem_cons_self _ _)
        rw [hpend] at this
        exact absurd this (by simp)
    · have hpend2 : pendingExpiry w s = false := by simpa using hpend
      by_cases hact : active w s = true
      · have hlo : LogOnly w { w with
            log := w.log ++ [callOf w w.snaps.length a s]
            counter := w.counter + addSum (prog (w.slots s).func.code (connArg w s) a) } :=
          ⟨rfl, rfl, rfl, rfl, rfl, rfl⟩
        obtain ⟨w1, e1, e2, e3, e4, e5⟩ := ih { w with
            log := w.log ++ [callOf w w.snaps.length a s]
            counter := w.counter + addSum (prog (w.slots s).func.code (connArg w s) a) }
        refine ⟨w1, ?_, ?_, ?_, quiet_trans (logOnly_quiet hlo) e4, ?_⟩
        · simp only [emitSlots, slot_invoke_active prog hp fuel s a w hact]
          exact e1
        · rw [e2, quiet_active_eq (logOnly_quiet hlo), quiet_callOf_eq (logOnly_quiet hlo)]
          simp [List.filter_cons, hact]
        · rw [e3, quiet_active_eq (logOnly_quiet hlo), quiet_code_eq (logOnly_quiet hlo)]
          simp [List.filter_cons, hact, add_assoc]
        · intro hall
          exact logOnly_trans hlo (e5 (fun t ht => hall t (List.mem_cons_of_mem _ ht)))
      · have hact2 : active w s = false := by simpa using hact
        obtain ⟨w1, e1, e2, e3, e4, e5⟩ := ih w
        refine ⟨w1, ?_, ?_, ?_, e4, ?_⟩
        · simp only [emitSlots, slot_invoke_idle prog _ s a w hact2 hpend2]
          exact e1
        · rw [e2]
          simp [List.filter_cons, hact2]
        · rw [e3]
          simp [List.filter_cons, hact2]
        · intro hall
          exact e5 (fun t ht => hall t (List.mem_cons_of_mem _ ht))

theorem emit_eq (prog : Prog) (step : Op → World → Outcome) (e : SigId) (a : Args) (w : World)
    (hb : (w.sig e).m_block = false) :
    emit prog step e a w =
      match emitSlots prog step (flat (w.sig e).m_slots) a (w.pushSnap e) with
      | Outcome.done w1 => Outcome.done w1.popSnap
      | Outcome.threw w1 => Outcome.threw w1.popSnap
      | Outcome.stuck => Outcome.stuck := by
  unfold emit
  rw [hb]
  simp only [Bool.false_eq_true, if_false, emitGroups_eq_flat]
  rfl

theorem emit_inert (prog : Prog) (hp : Inert prog) (fuel : Nat) (e : SigId) (a : Args)
    (w : World) (hb : (w.sig e).m_block = false) :
    ∃ w1, emit prog (exec prog (fuel + 1)) e a w = Outcome.done w1 ∧
      w1.log = w.log ++ ((flat (w.sig e).m_slots).filter (active w)).map
        (callOf w (w.snaps.length + 1) a) ∧
      w1.counter = w.counter + (((flat (w.sig e).m_slots).filter (active w)).map
          (fun t => addSum (prog (w.slots t).func.code (connArg w t) a))).sum ∧
      Quiet w w1 ∧
      ((∀ t ∈ flat (w.sig e).m_slots, pendingExpiry w t = false) → LogOnly w w1) := by
  obtain ⟨w1, e1, e2, e3, e4, e5⟩ :=
    emitSlots_inert prog hp fuel a (flat (w.sig e).m_slots) (w.pushSnap e)
  refine ⟨w1.popSnap, ?_, ?_, ?_, ?_, ?_⟩
  · rw [emit_eq prog _ e a w hb, e1]
  · exact e2
  · exact e3
  · obtain ⟨q1, q2, q3, q4, q5⟩ := e4
    refine ⟨?_, q2, q3, q4, q5⟩
    show w1.snaps.tail = w.snaps
    rw [q1]; rfl
  · intro hall
    obtain ⟨l1, l2, l3, l4, l5, l6⟩ := e5 hall
    refine ⟨l1, l2, ?_, l4, l5, l6⟩
    show w1.snaps.tail = w.snaps
    rw [l3]; rfl

/-! ## Value-based disconnect followed by an emission (C6, C7) -/

theorem filtered_mem_flat {p : SlotId → Bool} {gs1 gs : List Group} (h : Filtered p gs1 gs)
    (t : SlotId) : t ∈ flat gs1 ↔ (t ∈ flat gs ∧ p t = false) := by
  induction h with
  | nil => simp
  | @cons g1 g l1 l hg _ ih =>
    simp only [flat_cons, List.mem_append, ih, hg.2.mem_iff, List.mem_filter,
      Bool.not_eq_true']
    tauto

theorem sameButIndex_quiet {w w1 : World} (h : SameButIndex w w1) : Quiet w w1 := by
  obtain ⟨a1, a2, a3, -, -, -, a7, a8⟩ := h
  refine ⟨a2, a3, a7, by rw [a1], ?_⟩
  intro t
  obtain ⟨i, hi⟩ := a8 t
  rw [hi]
  exact ⟨rfl, rfl, rfl, rfl, rfl, rfl, rfl, Or.inl rfl⟩

theorem setGroups_quiet (w : World) (e : SigId) (gs : List Group) :
    Quiet w (w.setGroups e gs) :=
  ⟨rfl, rfl, rfl, by simp, fun _ => ⟨rfl, rfl, rfl, rfl, rfl, rfl, rfl, Or.inl rfl⟩⟩

theorem disconnect_if_frame (cond : World → SlotId → Bool) (hc : IndexFree cond) (e : SigId)
    (w : World) :
    Quiet w (disconnect_if cond e w).2 ∧ (disconnect_if cond e w).2.log = w.log ∧
    (disconnect_if cond e w).2.counter = w.counter ∧
    (∀ t, ((disconnect_if cond e w).2.slots t).m_connected = (w.slots t).m_connected) ∧
    ((disconnect_if cond e w).2.sig e).m_block = (w.sig e).m_block := by
  obtain ⟨-, -, h3⟩ := disconnectIfGroups_spec cond hc (w.sig e).m_slots w 0
  refine ⟨?_, ?_, ?_, ?_, ?_⟩
  · exact quiet_trans (sameButIndex_quiet h3) (setGroups_quiet _ _ _)
  · simpa [disconnect_if] using h3.2.2.2.2.1
  · simpa [disconnect_if] using h3.2.2.2.2.2.1
  · intro t
    obtain ⟨i, hi⟩ := h3.2.2.2.2.2.2.2 t
    simp only [disconnect_if, setGroups_slots]
    rw [hi]
  · simp only [disconnect_if, sig_setGroups_block]
    have := h3.1
    simp only [World.sig] at this ⊢
    rw [this]

/-- What a value-based disconnect does, and what the next emission (with inert user code)
then invokes. -/
theorem disconnect_if_then_emit (cond : World → SlotId → Bool) (hc : IndexFree cond)
    (prog : Prog) (hp : Inert prog) (fuel : Nat) (e : SigId) (a : Args) (w : World)
    (he : e < w.sigs.length) :
    Filtered (cond w) ((disconnect_if cond e w).2.sig e).m_slots (w.sig e).m_slots ∧
    (disconnect_if cond e w).1 = (flat (w.sig e).m_slots).countP (cond w) ∧
    slot_count (disconnect_if cond e w).2 e + (disconnect_if cond e w).1 = slot_count w e ∧
    (∀ t, ((disconnect_if cond e w).2.slots t).m_connected = (w.slots t).m_connected ∧
      ((disconnect_if cond e w).2.slots t).m_blocked = (w.slots t).m_blocked) ∧
    ((w.sig e).m_block = false →
      ∃ w1, emit prog (exec prog (fuel + 1)) e a (disconnect_if cond e w).2 = Outcome.done w1 ∧
        w1.log = w.log ++ ((flat ((disconnect_if cond e w).2.sig e).m_slots).filter
          (active w)).map (callOf w (w.snaps.length + 1) a)) := by
  obtain ⟨s1, s2, s3, -, -⟩ := disconnect_if_spec cond hc e w he
  obtain ⟨f1, f2, -, f4, f5⟩ := disconnect_if_frame cond hc e w
  refine ⟨s1, s2, s3, ?_, ?_⟩
  · intro t
    exact ⟨f4 t, (f1.2.2.2.2 t).2.2.2.2.1⟩
  · intro hb
    obtain ⟨w1, e1, e2, -⟩ := emit_inert prog hp fuel e a (disconnect_if cond e w).2
      (by rw [f5]; exact hb)
    refine ⟨w1, e1, ?_⟩
    rw [e2, f2, quiet_active_eq f1, quiet_callOf_eq f1, f1.1]

theorem indexFree_has_object (o : ObjRef) : IndexFree (has_object o) := by
  intro w w1 h s
  obtain ⟨-, -, a3, -, -, -, -, a8⟩ := h
  obtain ⟨i, hi⟩ := a8 s
  unfold has_object get_object get_object_ptr
  rw [hi, a3]

theorem indexFree_has_full_callable (c : Callable) : IndexFree (has_full_callable c) := by
  intro w w1 h s
  obtain ⟨-, -, a3, -, -, -, -, a8⟩ := h
  obtain ⟨i, hi⟩ := a8 s
  unfold has_full_callable has_callable check_class_type get_callable
  rw [hi]

theorem adder_inert : Inert adder := by
  intro n c a op h
  exact ⟨a.headD 0, by simpa [adder] using h⟩

/-- C6: disconnect(A), for an object reference that resolves to the address A, removes
from every group exactly the slots whose object pointer is A and returns their number, so
slot_count() drops by that number (by one when one slot is bound to A); every other slot
stays in its group, the connected and blocked flags of all slots are unchanged, and the next
emission (emitter not blocked, inert user code) returns and invokes exactly the remaining
slots that are connected and not blocked. -/
theorem C6_disconnect_owner (prog : Prog) (hp : Inert prog) (fuel : Nat) (e : SigId)
    (a : Args) (w : World) (o : ObjRef) (he : e < w.sigs.length) :
    Filtered (fun s => decide (get_object w s = get_object_ptr w o))
      ((disconnect_object e o w).2.sig e).m_slots (w.sig e).m_slots ∧
    (disconnect_object e o w).1 = (flat (w.sig e).m_slots).countP
      (fun s => decide (get_object w s = get_object_ptr w o)) ∧
    slot_count (disconnect_object e o w).2 e + (disconnect_object e o w).1 = slot_count w e ∧
    ((flat (w.sig e).m_slots).countP (fun s => decide (get_object w s = get_object_ptr w o)) = 1
      → slot_count (disconnect_object e o w).2 e + 1 = slot_count w e) ∧
    (∀ t, t ∈ flat ((disconnect_object e o w).2.sig e).m_slots ↔
      (t ∈ flat (w.sig e).m_slots ∧ get_object w t ≠ get_object_ptr w o)) ∧
    (∀ t, ((disconnect_object e o w).2.slots t).m_connected = (w.slots t).m_connected ∧
      ((disconnect_object e o w).2.slots t).m_blocked = (w.slots t).m_blocked) ∧
    ((w.sig e).m_block = false →
      ∃ w1, emit prog (exec prog (fuel + 1)) e a (disconnect_object e o w).2
          = Outcome.done w1 ∧
        w1.log = w.log ++ ((flat ((disconnect_object e o w).2.sig e).m_slots).filter
          (active w)).map (callOf w (w.snaps.length + 1) a)) := by
  have hcond : has_object o w = fun s => decide (get_object w s = get_object_ptr w o) := by
    funext s; rfl
  obtain ⟨h1, h2, h3, h4, h5⟩ := disconnect_if_then_emit (has_object o)
    (indexFree_has_object o) prog hp fuel e a w he
  rw [hcond] at h1 h2
  have hmem := filtered_mem_flat h1
  refine ⟨h1, h2, h3, ?_, ?_, h4, h5⟩
  · intro hone
    have := h3
    unfold disconnect_object
    rw [h2, hone] at this
    exact this
  · intro t
    rw [show disconnect_object e o w = disconnect_if (has_object o) e w from rfl, hmem t]
    simp

/-- Instance of C6: with one slot bound to object 7 and one to object 8, disconnect of object 7
lowers slot_count() by one. -/
theorem C6_disconnect_owner_witness :
    (Inert adder ∧ 0 < worldAB.sigs.length) ∧
    slot_count (disconnect_object 0 (ObjRef.raw 7) worldAB).2 0 + 1 = slot_count worldAB 0 :=
  ⟨⟨adder_inert, by decide⟩,
    (C6_disconnect_owner adder adder_inert 0 0 [1] worldAB (ObjRef.raw 7)
      (by decide)).2.2.2.1 (by decide)⟩

/-- C7: disconnect(f1) for a free function f1 removes from every group exactly the slots whose
stored callable pointer is the address of f1 and returns how many it removed; every other
slot (those connected with f2 or f3) stays in its group, the connected and blocked flags of
all slots are unchanged, and the next emission (emitter not blocked, inert user code) returns
and invokes exactly the remaining slots that are connected and not blocked. -/
theorem C7_disconnect_callable (prog : Prog) (hp : Inert prog) (fuel : Nat) (e : SigId)
    (a : Args) (w : World) (f1 : Callable) (he : e < w.sigs.length)
    (hf : f1.kind = CallableKind.function) :
    Filtered (fun s => decide (f1.fptr = get_callable w s))
      ((disconnect_callable e f1 w).2.sig e).m_slots (w.sig e).m_slots ∧
    (disconnect_callable e f1 w).1 = (flat (w.sig e).m_slots).countP
      (fun s => decide (f1.fptr = get_callable w s)) ∧
    slot_count (disconnect_callable e f1 w).2 e + (disconnect_callable e f1 w).1
      = slot_count w e ∧
    (∀ t, t ∈ flat ((disconnect_callable e f1 w).2.sig e).m_slots ↔
      (t ∈ flat (w.sig e).m_slots ∧ get_callable w t ≠ f1.fptr)) ∧
    (∀ t, ((disconnect_callable e f1 w).2.slots t).m_connected = (w.slots t).m_connected ∧
      ((disconnect_callable e f1 w).2.slots t).m_blocked = (w.slots t).m_blocked) ∧
    ((w.sig e).m_block = false →
      ∃ w1, emit prog (exec prog (fuel + 1)) e a (disconnect_callable e f1 w).2
          = Outcome.done w1 ∧
        w1.log = w.log ++ ((flat ((disconnect_callable e f1 w).2.sig e).m_slots).filter
          (active w)).map (callOf w (w.snaps.length + 1) a)) := by
  have hcond : has_full_callable f1 w = fun s => decide (f1.fptr = get_callable w s) := by
    funext s
    simp [has_full_callable, must_check_object, has_callable, func_ptr_bool,
      get_function_ptr, hf]
  obtain ⟨h1, h2, h3, h4, h5⟩ := disconnect_if_then_emit (has_full_callable f1)
    (indexFree_has_full_callable f1) prog hp fuel e a w he
  rw [hcond] at h1 h2
  have hmem := filtered_mem_flat h1
  refine ⟨h1, h2, h3, ?_, h4, h5⟩
  intro t
  rw [show disconnect_callable e f1 w = disconnect_if (has_full_callable f1) e w from rfl,
    hmem t]
  simp only [decide_eq_false_iff_not, ne_eq, and_congr_right_iff]
  intro _
  exact ⟨fun h1 h2 => h1 h2.symm, fun h1 h2 => h1 h2.symm⟩

/-- Instance of C7: with slots for f1, f2, f3, f1, disconnect(f1) returns 2 and leaves 2 slots. -/
theorem C7_disconnect_callable_witness :
    (Inert adder ∧ 0 < worldF.sigs.length ∧ (freeFn 1).kind = CallableKind.function) ∧
    (disconnect_callable 0 (freeFn 1) worldF).1 = 2 ∧
    slot_count (disconnect_callable 0 (freeFn 1) worldF).2 0 = 2 := by
  have h := C7_disconnect_callable adder adder_inert 0 0 [1] worldF (freeFn 1) (by decide) rfl
  refine ⟨⟨adder_inert, by decide, rfl⟩, ?_, ?_⟩
  · rw [h.2.1]; decide
  · have h3 := h.2.2.1
    rw [h.2.1] at h3
    have : slot_count worldF 0 = 4 := by decide
    have h2 : (flat (worldF.sig 0).m_slots).countP
        (fun s => decide ((freeFn 1).fptr = get_callable worldF s)) = 2 := by decide
    omega

/-- Instance of C5: an emit on a blocked emitter holding four slots does nothing. -/
theorem C5_global_block_witness :
    0 < worldF.sigs.length ∧
    emit adder (exec adder 1) 0 [1] (sig_block 0 worldF) = Outcome.done (sig_block 0 worldF) :=
  ⟨by decide,
    (C5_global_block adder (exec adder 1) 0 [1] (sig_block 0 worldF) (by decide)).1
      (by decide)⟩

/-- Instance of C8: disconnect of group 5 lowers slot_count() by the value it returns. -/
theorem C8_disconnect_group_witness :
    (0 < worldF.sigs.length ∧ SortedGroups (worldF.sig 0).m_slots) ∧
    slot_count (disconnect_group 0 5 worldF).2 0 + (disconnect_group 0 5 worldF).1
      = slot_count worldF 0 :=
  ⟨⟨by decide, by decide⟩,
    (C8_disconnect_group worldF 0 5 (by decide) (by decide)).2.2.2.2⟩

/-- Instance of C10: a blocked emitter with two slots is move-assigned to an empty emitter. -/
theorem C10_move_transfer_witness :
    (1 < worldMove.sigs.length ∧ 1 ≠ 0) ∧
    sig_blocked (move_assign 1 0 worldMove) 1 = sig_blocked worldMove 0 :=
  ⟨⟨by decide, by decide⟩,
    (C10_move_transfer worldMove 1 0 (by decide) (by decide)).2.2.2.2.1⟩

/-! ## What no operation undoes -/

theorem mono_refl (w : World) : Mono w w :=
  ⟨Nat.le_refl _, fun _ h => h, fun _ _ => ⟨rfl, rfl, rfl, rfl, rfl, rfl, id, id⟩⟩

theorem mono_trans {w w1 w2 : World} (h1 : Mono w w1) (h2 : Mono w1 w2) : Mono w w2 := by
  obtain ⟨a1, a2, a3⟩ := h1
  obtain ⟨b1, b2, b3⟩ := h2
  refine ⟨Nat.le_trans a1 b1, fun a h => b2 a (a2 a h), ?_⟩
  intro s hs
  obtain ⟨k1, k2, k3, k4, k5, k6, k7, k8⟩ := a3 s hs
  obtain ⟨l1, l2, l3, l4, l5, l6, l7, l8⟩ := b3 s (Nat.lt_of_lt_of_le hs a1)
  exact ⟨l1.trans k1, l2.trans k2, l3.trans k3, l4.trans k4, l5.trans k5, l6.trans k6,
    fun h => k7 (l7 h), fun h => k8 (l8 h)⟩

/-- Sufficient conditions for `Mono`, in the form the operations provide them. -/
theorem mono_of (w w1 : World) (h1 : w.nextSlot ≤ w1.nextSlot)
    (h2 : ∀ a, a ∈ w.expired → a ∈ w1.expired)
    (h3 : ∀ s, s < w.nextSlot → ∃ i c b,
      w1.slots s = { w.slots s with m_index := i, m_connected := c, m_blocked := b } ∧
      (c = true → (w.slots s).m_connected = true))
    (h4 : ∀ s, s < w.nextSlot → w1.held s = true → w.held s = true) : Mono w w1 := by
  refine ⟨h1, h2, ?_⟩
  intro s hs
  obtain ⟨i, c, b, hsl, hc⟩ := h3 s hs
  rw [hsl]
  exact ⟨rfl, rfl, rfl, rfl, rfl, rfl, hc, h4 s hs⟩

theorem held_iff (w : World) (s : SlotId) :
    w.held s = true ↔ ∃ g ∈ w.sigs, holds g.m_slots s = true := by
  simp [World.held, List.any_eq_true]

theorem held_of_sig (w : World) (e : SigId) (s : SlotId)
    (h : holds (w.sig e).m_slots s = true) : w.held s = true := by
  by_cases he : e < w.sigs.length
  · rw [held_iff]
    refine ⟨w.sigs[e], List.getElem_mem _, ?_⟩
    simpa [World.sig, List.getD_eq_getElem?_getD, he] using h
  · rw [sig_of_ge w e (Nat.le_of_not_lt he)] at h
    simp [holds] at h
    exact absurd h (by simp [default])

theorem held_setSig (w : World) (e : SigId) (x : Signal) (s : SlotId)
    (h : (w.setSig e x).held s = true) : holds x.m_slots s = true ∨ w.held s = true := by
  rw [held_iff] at h
  obtain ⟨g, hg, hh⟩ := h
  rcases List.mem_or_eq_of_mem_set hg with hg | hg
  · exact Or.inr ((held_iff w s).2 ⟨g, hg, hh⟩)
  · subst hg; exact Or.inl hh

theorem held_setGroups (w : World) (e : SigId) (gs : List Group) (s : SlotId)
    (h : (w.setGroups e gs).held s = true) : holds gs s = true ∨ w.held s = true :=
  held_setSig w e _ s h

theorem held_setGroups_sub (w : World) (e : SigId) (gs : List Group) (s : SlotId)
    (hsub : holds gs s = true → holds (w.sig e).m_slots s = true)
    (h : (w.setGroups e gs).held s = true) : w.held s = true := by
  rcases held_setGroups w e gs s h with h1 | h1
  · exact held_of_sig w e s (hsub h1)
  · exact h1

theorem holds_iff (gs : List Group) (s : SlotId) : holds gs s = true ↔ s ∈ flat gs := by
  induction gs with
  | nil => simp [holds]
  | cons g gs ih => simp [holds_cons, ih]

theorem alive_of_held (w : World) (s : SlotId) (h : w.held s = true) : w.alive s = true := by
  unfold World.alive
  unfold World.held at h
  rw [h]; rfl

theorem silent_refl (w : World) : Silent w w := ⟨mono_refl w, rfl, rfl⟩

theorem silent_trans {w w1 w2 : World} (h1 : Silent w w1) (h2 : Silent w1 w2) : Silent w w2 :=
  ⟨mono_trans h1.1 h2.1, h2.2.1.trans h1.2.1, h2.2.2.trans h1.2.2⟩

theorem mem_flat_addSlotGroups (n : SlotId) (gid : Int) (gs : List Group) (t : SlotId) :
    t ∈ flat (addSlotGroups n gid gs).1 ↔ (t = n ∨ t ∈ flat gs) := by
  induction gs with
  | nil => simp [addSlotGroups]
  | cons g gs ih =>
    unfold addSlotGroups
    split_ifs with h1 h2
    · simp only [flat_cons, List.mem_append, ih]; tauto
    · simp only [flat_cons, List.mem_append, List.mem_singleton]
    · simp only [flat_cons, List.mem_append, List.mem_singleton]; tauto

theorem connect_call_frame (e : SigId) (k : ConnectCall) (gid : Int) (w : World) :
    (connect_call e k gid w).2.snaps = w.snaps ∧ (connect_call e k gid w).2.log = w.log ∧
    (connect_call e k gid w).2.expired = w.expired ∧
    (connect_call e k gid w).2.nextSlot = w.nextSlot + 1 ∧
    (connect_call e k gid w).2.counter = w.counter ∧
    ∀ s, s ≠ w.nextSlot → (connect_call e k gid w).2.slots s = w.slots s := by
  refine ⟨?_, ?_, ?_, ?_, ?_, ?_⟩
  all_goals
    cases k <;>
    simp +contextual [connect_call, connect, connect_extended,
      connect_pmf, connect_observer,
      connect_pmf_extended, connect_pmf_tracked, connect_tracked, connect_slot,
      connect_slot_extended, make_slot, add_slot, add_connection, World.setIndex,
      World.modifySlot, World.setGroups, World.setSig, Function.update_noteq]

theorem silent_connect_call (e : SigId) (k : ConnectCall) (gid : Int) (w : World) :
    Silent w (connect_call e k gid w).2 := by
  obtain ⟨f1, f2, f3, f4, -, f6⟩ := connect_call_frame e k gid w
  refine ⟨mono_of _ _ (by omega) (by rw [f3]; exact fun _ h => h) ?_ ?_, f1, f2⟩
  · intro s hs
    refine ⟨(w.slots s).m_index, (w.slots s).m_connected, (w.slots s).m_blocked, ?_, id⟩
    rw [f6 s (by omega)]
  · intro s hs h
    have hsig := connect_call_sigs e k gid w
    have h2 : (w.setGroups e (addSlotGroups w.nextSlot gid (w.sig e).m_slots).1).held s
        = true := by
      unfold World.held at h ⊢
      rw [← hsig]; exact h
    refine held_setGroups_sub w e _ s ?_ h2
    intro h3
    rw [holds_iff] at h3 ⊢
    rcases (mem_flat_addSlotGroups _ _ _ _).1 h3 with h4 | h4
    · exact absurd h4 (Nat.ne_of_lt hs)
    · exact h4

/-- Sufficient conditions for `Silent` for an operation that only rewrites flags and indices of
slot objects and shrinks (or permutes) registries. -/
theorem silent_of (w w1 : World) (h0 : w1.snaps = w.snaps) (hl : w1.log = w.log)
    (h1 : w1.nextSlot = w.nextSlot) (h2 : w1.expired = w.expired)
    (h3 : ∀ s, ∃ i c b,
      w1.slots s = { w.slots s with m_index := i, m_connected := c, m_blocked := b } ∧
      (c = true → (w.slots s).m_connected = true))
    (h4 : ∀ s, w1.held s = true → w.held s = true) : Silent w w1 :=
  ⟨mono_of w w1 (by rw [h1]) (by rw [h2]; exact fun _ h => h) (fun s _ => h3 s)
    (fun s _ => h4 s), h0, hl⟩

theorem swapPop_mem (slts : List SlotId) (i : Nat) (s x : SlotId) (h : slts[i]? = some s)
    (hx : x ∈ swapPop slts i (slts.getLast?.getD s)) : x ∈ slts :=
  (swapPop_perm slts i s h).mem_iff.1 (List.mem_cons_of_mem _ hx)

theorem disconnectIfLoop_sub (cond : World → SlotId → Bool) :
    ∀ (n i : Nat) (slts : List SlotId) (w : World) (count : Nat),
      (∀ x, x ∈ (disconnectIfLoop cond n i slts w count).1 → x ∈ slts) ∧
      SameButIndex w (disconnectIfLoop cond n i slts w count).2.1 := by
  intro n
  induction n with
  | zero =>
    intro i slts w count
    exact ⟨fun _ h => h, sameButIndex_refl w⟩
  | succ n ih =>
    intro i slts w count
    unfold disconnectIfLoop
    cases hs : slts[i]? with
    | none => exact ⟨fun _ h => h, sameButIndex_refl w⟩
    | some s =>
      simp only
      split_ifs with hc
      · obtain ⟨r1, r2⟩ := ih i (swapPop slts i (slts.getLast?.getD s))
          (w.setIndex (slts.getLast?.getD s) i) (count + 1)
        exact ⟨fun x hx => swapPop_mem slts i s x hs (r1 x hx),
          sameButIndex_trans (sameButIndex_setIndex w _ i) r2⟩
      · exact ih (i + 1) slts w count

theorem disconnectIfGroups_sub (cond : World → SlotId → Bool) :
    ∀ (gs : List Group) (w : World) (count : Nat),
      (∀ x, x ∈ flat (disconnectIfGroups cond gs w count).1 → x ∈ flat gs) ∧
      SameButIndex w (disconnectIfGroups cond gs w count).2.1 := by
  intro gs
  induction gs with
  | nil =>
    intro w count
    exact ⟨fun _ h => h, sameButIndex_refl w⟩
  | cons g gs ih =>
    intro w count
    obtain ⟨l1, l2⟩ := disconnectIfLoop_sub cond g.slts.length 0 g.slts w count
    obtain ⟨r1, r2⟩ := ih (disconnectIfLoop cond g.slts.length 0 g.slts w count).2.1
      (disconnectIfLoop cond g.slts.length 0 g.slts w count).2.2
    simp only [disconnectIfGroups, flat_cons, List.mem_append]
    refine ⟨?_, sameButIndex_trans l2 r2⟩
    intro x hx
    rcases hx with hx | hx
    · exact Or.inl (l1 x hx)
    · exact Or.inr (r1 x hx)

theorem held_sameButIndex {w w1 : World} (h : SameButIndex w w1) (s : SlotId) :
    w1.held s = w.held s := by
  unfold World.held
  rw [h.1]

theorem sig_sameButIndex {w w1 : World} (h : SameButIndex w w1) (e : SigId) :
    w1.sig e = w.sig e := by
  unfold World.sig
  rw [h.1]

theorem silent_disconnect_if (cond : World → SlotId → Bool) (e : SigId) (w : World) :
    Silent w (disconnect_if cond e w).2 := by
  obtain ⟨h1, h2⟩ := disconnectIfGroups_sub cond (w.sig e).m_slots w 0
  have hh := held_sameButIndex h2
  have hs := sig_sameButIndex h2 e
  obtain ⟨a1, a2, a3, -, a5, -, a7, a8⟩ := h2
  refine silent_of _ _ (by simpa [disconnect_if] using a2) (by simpa [disconnect_if] using a5)
    (by simpa [disconnect_if] using a7) (by simpa [disconnect_if] using a3) ?_ ?_
  · intro s
    obtain ⟨i, hi⟩ := a8 s
    refine ⟨i, (w.slots s).m_connected, (w.slots s).m_blocked, ?_, id⟩
    simp only [disconnect_if, setGroups_slots]
    rw [hi]
  · intro s h
    rw [← hh]
    refine held_setGroups_sub _ e _ s ?_ h
    intro h3
    rw [hs]
    rw [holds_iff] at h3 ⊢
    exact h1 s h3

theorem mem_flat_disconnectGroupGroups (gid : Int) (gs : List Group) (x : SlotId)
    (h : x ∈ flat (disconnectGroupGroups gid gs).2) : x ∈ flat gs := by
  induction gs with
  | nil => simp [disconnectGroupGroups] at h
  | cons g gs ih =>
    unfold disconnectGroupGroups at h
    split_ifs at h with h1
    · simp only [flat_cons, List.nil_append] at h
      simp [h]
    · simp only [flat_cons, List.mem_append] at h ⊢
      rcases h with h | h
      · exact Or.inl h
      · exact Or.inr (ih h)

/-- Sufficient conditions for `Silent` for an operation that only replaces one registry by a
part of it. -/
theorem silent_setGroups_sub (w : World) (e : SigId) (gs : List Group)
    (hsub : ∀ x, x ∈ flat gs → x ∈ flat (w.sig e).m_slots) : Silent w (w.setGroups e gs) := by
  refine silent_of _ _ rfl rfl rfl rfl ?_ ?_
  · intro s
    exact ⟨(w.slots s).m_index, (w.slots s).m_connected, (w.slots s).m_blocked, rfl, id⟩
  · intro s h
    refine held_setGroups_sub w e gs s ?_ h
    intro h3
    rw [holds_iff] at h3 ⊢
    exact hsub s h3

theorem silent_disconnect_group (e : SigId) (gid : Int) (w : World) :
    Silent w (disconnect_group e gid w).2 :=
  silent_setGroups_sub w e _ (fun x hx => mem_flat_disconnectGroupGroups gid _ x hx)

theorem silent_disconnect_all (e : SigId) (w : World) : Silent w (disconnect_all e w) :=
  silent_setGroups_sub w e [] (fun x hx => by simp at hx)

theorem silent_setSig_same_slots (w : World) (e : SigId) (b : Bool) :
    Silent w (w.setSig e { w.sig e with m_block := b }) := by
  refine silent_of _ _ rfl rfl rfl rfl ?_ ?_
  · intro s
    exact ⟨(w.slots s).m_index, (w.slots s).m_connected, (w.slots s).m_blocked, rfl, id⟩
  · intro s h
    rcases held_setSig w e _ s h with h1 | h1
    · exact held_of_sig w e s h1
    · exact h1

theorem silent_sig_block (e : SigId) (w : World) : Silent w (sig_block e w) :=
  silent_setSig_same_slots w e true

theorem silent_sig_unblock (e : SigId) (w : World) : Silent w (sig_unblock e w) :=
  silent_setSig_same_slots w e false

theorem silent_move_construct (dst src : SigId) (w : World) :
    Silent w (move_construct dst src w) := by
  refine silent_of _ _ rfl rfl rfl rfl ?_ ?_
  · intro s
    exact ⟨(w.slots s).m_index, (w.slots s).m_connected, (w.slots s).m_blocked, rfl, id⟩
  · intro s h
    unfold move_construct at h
    rcases held_setGroups _ src [] s h with h1 | h1
    · simp [holds] at h1
    · rcases held_setSig w dst _ s h1 with h2 | h2
      · exact held_of_sig w src s h2
      · exact h2

theorem silent_move_assign (dst src : SigId) (w : World) :
    Silent w (move_assign dst src w) := by
  refine silent_of _ _ rfl rfl rfl rfl ?_ ?_
  · intro s
    exact ⟨(w.slots s).m_index, (w.slots s).m_connected, (w.slots s).m_blocked, rfl, id⟩
  · intro s h
    unfold move_assign at h
    rcases held_setSig _ src _ s h with h1 | h1
    · exact held_of_sig w dst s h1
    · rcases held_setSig w dst _ s h1 with h2 | h2
      · exact held_of_sig w src s h2
      · exact h2

theorem mem_flat_cleanGroups (state : SlotId) (idx : Nat) (gid : Int) (gs : List Group)
    (x : SlotId) (h : x ∈ flat (cleanGroups state idx gid gs).1) : x ∈ flat gs := by
  induction gs with
  | nil => simp [cleanGroups] at h
  | cons g gs ih =>
    unfold cleanGroups at h
    split_ifs at h with h1 h2
    · simp only [flat_cons, List.mem_append] at h ⊢
      rcases h with h | h
      · exact Or.inl (swapPop_mem g.slts idx state x h2 h)
      · exact Or.inr h
    · exact h
    · simp only [flat_cons, List.mem_append] at h ⊢
      rcases h with h | h
      · exact Or.inl h
      · exact Or.inr (ih h)

theorem silent_modify_flags (w : World) (s : SlotId) (f : Slot → Slot)
    (hf : ∃ i c b,
      f (w.slots s) = { w.slots s with m_index := i, m_connected := c, m_blocked := b } ∧
      (c = true → (w.slots s).m_connected = true)) :
    Silent w (w.modifySlot s f) := by
  refine silent_of _ _ rfl rfl rfl rfl ?_ (fun _ h => h)
  intro t
  by_cases h : t = s
  · subst h
    obtain ⟨i, c, b, h1, h2⟩ := hf
    exact ⟨i, c, b, by simp [h1], h2⟩
  · exact ⟨(w.slots t).m_index, (w.slots t).m_connected, (w.slots t).m_blocked,
      by rw [modifySlot_slots_ne _ _ _ _ h], id⟩

theorem silent_setIndex (w : World) (s : SlotId) (i : Nat) : Silent w (w.setIndex s i) :=
  silent_modify_flags w s _ ⟨i, (w.slots s).m_connected, (w.slots s).m_blocked, rfl, id⟩

theorem silent_clean (e : SigId) (s : SlotId) (w : World) : Silent w (clean e s w) := by
  have h1 : Silent w (w.setGroups e
      (cleanGroups s (w.slots s).m_index (w.slots s).m_group (w.sig e).m_slots).1) :=
    silent_setGroups_sub w e _ (fun x hx => mem_flat_cleanGroups _ _ _ _ x hx)
  unfold clean
  simp only
  split
  · exact silent_trans h1 (silent_setIndex _ _ _)
  · exact h1

theorem silent_slot_disconnect (s : SlotId) (w : World) : Silent w (slot_disconnect s w).2 := by
  unfold slot_disconnect
  split
  · refine silent_trans (silent_modify_flags w s _ ?_) (silent_clean _ _ _)
    exact ⟨(w.slots s).m_index, false, (w.slots s).m_blocked, rfl, fun h => by simp at h⟩
  · exact silent_refl w

theorem silent_slot_block (s : SlotId) (b : Bool) (w : World) :
    Silent w (w.modifySlot s (fun x => { x with m_blocked := b })) :=
  silent_modify_flags w s _ ⟨(w.slots s).m_index, (w.slots s).m_connected, b, rfl, id⟩

theorem silent_conn_disconnect (c : Connection) (w : World) : Silent w (c.disconnect w).2 := by
  unfold Connection.disconnect
  split
  · exact silent_refl w
  · exact silent_slot_disconnect _ w

theorem silent_conn_block (c : Connection) (w : World) : Silent w (c.block w) := by
  unfold Connection.block
  split
  · exact silent_refl w
  · exact silent_slot_block _ true w

theorem silent_conn_unblock (c : Connection) (w : World) : Silent w (c.unblock w) := by
  unfold Connection.unblock
  split
  · exact silent_refl w
  · exact silent_slot_block _ false w

theorem silent_foldl_block (b : Bool) (l : List SlotId) (w : World) :
    Silent w (l.foldl (fun w1 s => w1.modifySlot s (fun x => { x with m_blocked := b })) w) := by
  induction l generalizing w with
  | nil => exact silent_refl w
  | cons s l ih =>
    simp only [List.foldl_cons]
    exact silent_trans (silent_slot_block s b w) (ih _)

theorem silent_setBlockedGroups (b : Bool) (gid : Int) (gs : List Group) (w : World) :
    Silent w (setBlockedGroups b gid gs w) := by
  induction gs generalizing w with
  | nil => exact silent_refl w
  | cons g gs ih =>
    unfold setBlockedGroups
    split_ifs
    · exact silent_trans (silent_foldl_block b g.slts w) (ih _)
    · exact ih w

theorem silent_block_group (e : SigId) (gid : Int) (w : World) :
    Silent w (block_group e gid w) := silent_setBlockedGroups true gid _ w

theorem silent_unblock_group (e : SigId) (gid : Int) (w : World) :
    Silent w (unblock_group e gid w) := silent_setBlockedGroups false gid _ w

theorem silent_foldl_disconnect (l : List Connection) (w : World) :
    Silent w (l.foldl (fun w1 c => (c.disconnect w1).2) w) := by
  induction l generalizing w with
  | nil => exact silent_refl w
  | cons c l ih =>
    simp only [List.foldl_cons]
    exact silent_trans (silent_conn_disconnect c w) (ih _)

theorem silent_observer_disconnect_all (obs : Nat) (w : World) :
    Silent w (observer_disconnect_all obs w) := by
  have h := silent_foldl_disconnect (w.observers obs) w
  refine silent_trans h ?_
  exact silent_of _ _ rfl rfl rfl rfl
    (fun s => ⟨_, _, _, rfl, id⟩) (fun _ h => h)

theorem silent_release_owner (a : Nat) (w : World) : Silent w (release_owner a w) :=
  ⟨mono_of _ _ (Nat.le_refl _) (fun _ h => List.mem_cons_of_mem _ h)
    (fun _ _ => ⟨_, _, _, rfl, id⟩) (fun _ _ h => h), rfl, rfl⟩

theorem silent_add (n : Int) (w : World) : Silent w { w with counter := w.counter + n } :=
  silent_of _ _ rfl rfl rfl rfl (fun _ => ⟨_, _, _, rfl, id⟩) (fun _ h => h)

/-! ## Runs of arbitrary user code -/

theorem ownerGone_mono {w w1 : World} (h : Mono w w1) (s : SlotId) (hs : s < w.nextSlot)
    (hg : ownerGone w1 s = false) : ownerGone w s = false := by
  obtain ⟨-, h2, h3⟩ := h
  obtain ⟨-, -, k3, -, k5, -⟩ := h3 s hs
  unfold ownerGone isTracked ptr_expired at hg ⊢
  rw [k3, k5] at hg
  cases hk : (w.slots s).kind <;> simp only [hk, Bool.false_and, Bool.true_and] at hg ⊢
  all_goals
    cases hp : (w.slots s).ptr <;> simp only [hp, decide_eq_false_iff_not] at hg ⊢
    exact fun hm => hg (h2 _ hm)

theorem fresh_mono {w w1 : World} (h : Mono w w1) (hs : w1.snaps = w.snaps) (c : Call)
    (hc : Fresh w1 c) : Fresh w c := by
  obtain ⟨c1, c2⟩ := hc
  refine ⟨by rw [← hs]; exact c1, ?_⟩
  intro hlt
  obtain ⟨d1, d2, d3⟩ := c2 (Nat.lt_of_lt_of_le hlt h.1)
  obtain ⟨-, -, -, -, -, -, k7, k8⟩ := h.2.2 c.slot hlt
  exact ⟨k8 d1, k7 d2, ownerGone_mono h c.slot hlt d3⟩

theorem runs_refl (w : World) : Runs w w :=
  ⟨mono_refl w, rfl, [], by simp, by simp⟩

theorem runs_of_silent {w w1 : World} (h : Silent w w1) : Runs w w1 :=
  ⟨h.1, h.2.1, [], by simp [h.2.2], by simp⟩

theorem runs_trans {w w1 w2 : World} (h1 : Runs w w1) (h2 : Runs w1 w2) : Runs w w2 := by
  obtain ⟨a1, a2, ad1, a3, a4⟩ := h1
  obtain ⟨b1, b2, ad2, b3, b4⟩ := h2
  refine ⟨mono_trans a1 b1, b2.trans a2, ad1 ++ ad2, by rw [b3, a3, List.append_assoc], ?_⟩
  intro c hc
  rcases List.mem_append.1 hc with hc | hc
  · exact a4 c hc
  · exact fresh_mono a1 a2 c (b4 c hc)

theorem runOps_runs (step : Op → World → Outcome)
    (hstep : ∀ op w w1, (step op w).final = some w1 → Runs w w1) :
    ∀ (ops : List Op) (w w1 : World), (runOps step ops w).final = some w1 → Runs w w1 := by
  intro ops
  induction ops with
  | nil =>
    intro w w1 h
    simp only [runOps, Outcome.final, Option.some.injEq] at h
    subst h
    exact runs_refl w
  | cons op ops ih =>
    intro w w1 h
    unfold runOps at h
    cases hs : step op w with
    | done w2 =>
      rw [hs] at h
      exact runs_trans (hstep op w w2 (by rw [hs]; rfl)) (ih w2 w1 h)
    | threw w2 =>
      rw [hs] at h
      exact hstep op w w1 (by rw [hs]; exact h)
    | stuck =>
      rw [hs] at h
      simp [Outcome.final] at h

theorem active_facts (w : World) (s : SlotId) (h : active w s = true) :
    (w.slots s).m_connected = true ∧ (w.slots s).m_blocked = false ∧ ownerGone w s = false := by
  unfold active slot_connected slot_blocked at h
  unfold ownerGone isTracked
  cases hk : (w.slots s).kind <;> simp [hk] at h ⊢ <;> simp [h]

theorem not_active_of_flags (w : World) (s : SlotId)
    (h : ((w.slots s).m_connected && !(w.slots s).m_blocked) = false) : active w s = false := by
  unfold active slot_connected slot_blocked
  cases hk : (w.slots s).kind <;>
    cases hc : (w.slots s).m_connected <;> cases hb : (w.slots s).m_blocked <;>
    simp_all

theorem userCall_step (prog : Prog) (step : Op → World → Outcome)
    (hstep : ∀ op w w1, (step op w).final = some w1 → Runs w w1)
    (s : SlotId) (c : Option Connection) (a : Args) (w w1 : World)
    (h : (userCall prog step s c a w).final = some w1) :
    Mono w w1 ∧ w1.snaps = w.snaps ∧ ∃ rest,
      w1.log = w.log ++ (⟨w.snaps.length, s, a, c⟩ :: rest) ∧ ∀ x ∈ rest, Fresh w x := by
  unfold userCall at h
  obtain ⟨m, sn, added, hl, hf⟩ := runOps_runs step hstep _ _ _ h
  refine ⟨m, sn, added, ?_, hf⟩
  rw [hl]
  simp

theorem slot_invoke_step (prog : Prog) (step : Op → World → Outcome)
    (hstep : ∀ op w w1, (step op w).final = some w1 → Runs w w1)
    (s : SlotId) (a : Args) (w w1 : World)
    (h : (slot_invoke prog step s a w).final = some w1) :
    Mono w w1 ∧ w1.snaps = w.snaps ∧ ∃ added, w1.log = w.log ++ added ∧
      ((active w s = false ∧ added = []) ∨
        (active w s = true ∧ ∃ rest, added = callOf w w.snaps.length a s :: rest ∧
          ∀ c ∈ rest, Fresh w c)) := by
  unfold slot_invoke at h
  by_cases hfl : ((w.slots s).m_connected && !(w.slots s).m_blocked) = true
  · rw [if_pos hfl] at h
    have hcon : (w.slots s).m_connected = true := by
      simp only [Bool.and_eq_true] at hfl; exact hfl.1
    have hblk : (w.slots s).m_blocked = false := by
      simp only [Bool.and_eq_true, Bool.not_eq_true'] at hfl; exact hfl.2
    unfold call_slot at h
    cases hk : (w.slots s).kind with
    | slot =>
      simp only [hk] at h
      obtain ⟨m, sn, rest, hl, hf⟩ := userCall_step prog step hstep s _ a w w1 h
      refine ⟨m, sn, _, hl, Or.inr ⟨?_, rest, ?_, hf⟩⟩
      · simp [active, slot_connected, slot_blocked, hk, hcon, hblk]
      · simp [callOf, connArg, hk]
    | slot_extended =>
      simp only [hk] at h
      obtain ⟨m, sn, rest, hl, hf⟩ := userCall_step prog step hstep s _ a w w1 h
      refine ⟨m, sn, _, hl, Or.inr ⟨?_, rest, ?_, hf⟩⟩
      · simp [active, slot_connected, slot_blocked, hk, hcon, hblk]
      · simp [callOf, connArg, hk]
    | slot_pmf =>
      simp only [hk] at h
      obtain ⟨m, sn, rest, hl, hf⟩ := userCall_step prog step hstep s _ a w w1 h
      refine ⟨m, sn, _, hl, Or.inr ⟨?_, rest, ?_, hf⟩⟩
      · simp [active, slot_connected, slot_blocked, hk, hcon, hblk]
      · simp [callOf, connArg, hk]
    | slot_pmf_extended =>
      simp only [hk] at h
      obtain ⟨m, sn, rest, hl, hf⟩ := userCall_step prog step hstep s _ a w w1 h
      refine ⟨m, sn, _, hl, Or.inr ⟨?_, rest, ?_, hf⟩⟩
      · simp [active, slot_connected, slot_blocked, hk, hcon, hblk]
      · simp [callOf, connArg, hk]
    | slot_tracked =>
      simp only [hk] at h
      by_cases hex : ptr_expired w (w.slots s).ptr = true
      · rw [if_pos hex] at h
        simp only [Outcome.final, Option.some.injEq] at h
        subst h
        obtain ⟨m, sn, hl⟩ := silent_slot_disconnect s w
        refine ⟨m, sn, [], by simp [hl], Or.inl ⟨?_, rfl⟩⟩
        simp [active, slot_connected, hk, hex]
      · rw [if_neg hex, if_pos hcon] at h
        obtain ⟨m, sn, rest, hl, hf⟩ := userCall_step prog step hstep s _ a w w1 h
        refine ⟨m, sn, _, hl, Or.inr ⟨?_, rest, ?_, hf⟩⟩
        · simp [active, slot_connected, slot_blocked, hk, hcon, hblk, hex]
        · simp [callOf, connArg, hk]
    | slot_pmf_tracked =>
      simp only [hk] at h
      by_cases hex : ptr_expired w (w.slots s).ptr = true
      · rw [if_pos hex] at h
        simp only [Outcome.final, Option.some.injEq] at h
        subst h
        obtain ⟨m, sn, hl⟩ := silent_slot_disconnect s w
        refine ⟨m, sn, [], by simp [hl], Or.inl ⟨?_, rfl⟩⟩
        simp [active, slot_connected, hk, hex]
      · rw [if_neg hex, if_pos hcon] at h
        obtain ⟨m, sn, rest, hl, hf⟩ := userCall_step prog step hstep s _ a w w1 h
        refine ⟨m, sn, _, hl, Or.inr ⟨?_, rest, ?_, hf⟩⟩
        · simp [active, slot_connected, slot_blocked, hk, hcon, hblk, hex]
        · simp [callOf, connArg, hk]
  · rw [if_neg hfl] at h
    simp only [Outcome.final, Option.some.injEq] at h
    subst h
    exact ⟨mono_refl w, rfl, [], by simp,
      Or.inl ⟨not_active_of_flags w s (by simpa using hfl), rfl⟩⟩

theorem direct_mono {w w1 : World} (h : Mono w w1) (hs : w1.snaps = w.snaps) (a : Args)
    (l : List SlotId) (s : SlotId) (c : Call) (hc : Direct w1 a l c) :
    Direct w a (s :: l) c := by
  obtain ⟨c1, c2, c3, c4⟩ := hc
  refine ⟨by rw [← hs]; exact c1, c2, List.mem_cons_of_mem _ c3, ?_⟩
  intro hlt
  obtain ⟨d1, d2⟩ := c4 (Nat.lt_of_lt_of_le hlt h.1)
  obtain ⟨-, -, -, -, -, -, k7, -⟩ := h.2.2 c.slot hlt
  exact ⟨k7 d1, ownerGone_mono h c.slot hlt d2⟩

theorem filter_depth_fresh (w : World) (l : List Call) (h : ∀ c ∈ l, Fresh w c) :
    l.filter (fun c => decide (c.depth = w.snaps.length)) = [] := by
  rw [List.filter_eq_nil_iff]
  intro c hc
  have := (h c hc).1
  simp only [decide_eq_true_eq]
  omega

theorem emitted_of_step (a : Args) (s : SlotId) (l : List SlotId) (w w1 : World)
    (h : Mono w w1 ∧ w1.snaps = w.snaps ∧ ∃ added, w1.log = w.log ++ added ∧
      ((active w s = false ∧ added = []) ∨
        (active w s = true ∧ ∃ rest, added = callOf w w.snaps.length a s :: rest ∧
          ∀ c ∈ rest, Fresh w c))) :
    Emitted a (s :: l) w w1 := by
  obtain ⟨m, sn, added, hl, hc⟩ := h
  refine ⟨m, sn, added, hl, ?_, ?_⟩
  · rcases hc with ⟨-, rfl⟩ | ⟨-, rest, rfl, hf⟩
    · simp
    · simp only [List.filter_cons, callOf, decide_True, if_true, filter_depth_fresh w rest hf,
        List.map_cons, List.map_nil]
      exact List.Sublist.cons₂ _ (List.nil_sublist _)
  · rcases hc with ⟨-, rfl⟩ | ⟨hact, rest, rfl, hf⟩
    · simp
    · intro c hc
      rcases List.mem_cons.1 hc with rfl | hc
      · obtain ⟨f1, -, f3⟩ := active_facts w s hact
        exact Or.inl ⟨rfl, rfl, List.mem_cons_self _ _, fun _ => ⟨f1, f3⟩⟩
      · exact Or.inr (hf c hc)

theorem emitted_trans (a : Args) (s : SlotId) (l : List SlotId) (w w2 w1 : World)
    (h1 : Emitted a [s] w w2) (h2 : Emitted a l w2 w1) : Emitted a (s :: l) w w1 := by
  obtain ⟨m1, s1, ad1, l1, sub1, c1⟩ := h1
  obtain ⟨m2, s2, ad2, l2, sub2, c2⟩ := h2
  refine ⟨mono_trans m1 m2, s2.trans s1, ad1 ++ ad2, by rw [l2, l1, List.append_assoc], ?_, ?_⟩
  · rw [List.filter_append, List.map_append]
    rw [s1] at sub2
    have := List.Sublist.append sub1 sub2
    simpa using this
  · intro c hc
    rcases List.mem_append.1 hc with hc | hc
    · rcases c1 c hc with hd | hf
      · obtain ⟨d1, d2, d3, d4⟩ := hd
        refine Or.inl ⟨d1, d2, ?_, d4⟩
        simp only [List.mem_singleton] at d3
        rw [d3]; exact List.mem_cons_self _ _
      · exact Or.inr hf
    · rcases c2 c hc with hd | hf
      · exact Or.inl (direct_mono m1 s1 a l s c hd)
      · exact Or.inr (fresh_mono m1 s1 c hf)

theorem emitSlots_emitted (prog : Prog) (step : Op → World → Outcome)
    (hstep : ∀ op w w1, (step op w).final = some w1 → Runs w w1) (a : Args) :
    ∀ (l : List SlotId) (w w1 : World),
      (emitSlots prog step l a w).final = some w1 → Emitted a l w w1 := by
  intro l
  induction l with
  | nil =>
    intro w w1 h
    simp only [emitSlots, Outcome.final, Option.some.injEq] at h
    subst h
    exact ⟨mono_refl w, rfl, [], by simp, by simp, by simp⟩
  | cons s l ih =>
    intro w w1 h
    unfold emitSlots at h
    cases hs : slot_invoke prog step s a w with
    | done w2 =>
      rw [hs] at h
      have h1 := emitted_of_step a s [] w w2
        (slot_invoke_step prog step hstep s a w w2 (by rw [hs]; rfl))
      exact emitted_trans a s l w w2 w1 h1 (ih w2 w1 h)
    | threw w2 =>
      rw [hs] at h
      exact emitted_of_step a s l w w1
        (slot_invoke_step prog step hstep s a w w1 (by rw [hs]; exact h))
    | stuck =>
      rw [hs] at h
      simp [Outcome.final] at h

theorem pushSnap_mono (w : World) (e : SigId) : Mono w (w.pushSnap e) :=
  mono_of _ _ (Nat.le_refl _) (fun _ h => h) (fun _ _ => ⟨_, _, _, rfl, id⟩) (fun _ _ h => h)

theorem mono_popSnap {w w1 : World} (h : Mono w w1) : Mono w w1.popSnap := h

theorem emit_final (prog : Prog) (step : Op → World → Outcome) (e : SigId) (a : Args)
    (w w1 : World) (hb : (w.sig e).m_block = false)
    (h : (emit prog step e a w).final = some w1) :
    ∃ w2, (emitSlots prog step (flat (w.sig e).m_slots) a (w.pushSnap e)).final = some w2 ∧
      w1 = w2.popSnap := by
  rw [emit_eq prog step e a w hb] at h
  cases hs : emitSlots prog step (flat (w.sig e).m_slots) a (w.pushSnap e) with
  | done w2 =>
    rw [hs] at h
    exact ⟨w2, rfl, by simpa [Outcome.final] using h.symm⟩
  | threw w2 =>
    rw [hs] at h
    exact ⟨w2, rfl, by simpa [Outcome.final] using h.symm⟩
  | stuck =>
    rw [hs] at h
    simp [Outcome.final] at h

theorem emit_runs (prog : Prog) (step : Op → World → Outcome)
    (hstep : ∀ op w w1, (step op w).final = some w1 → Runs w w1) (e : SigId) (a : Args)
    (w w1 : World) (h : (emit prog step e a w).final = some w1) : Runs w w1 := by
  by_cases hb : (w.sig e).m_block = true
  · simp only [emit, hb, if_true, Outcome.final, Option.some.injEq] at h
    subst h
    exact runs_refl w
  · have hb2 : (w.sig e).m_block = false := by simpa using hb
    obtain ⟨w2, h2, rfl⟩ := emit_final prog step e a w w1 hb2 h
    obtain ⟨m, sn, added, hl, -, hc⟩ := emitSlots_emitted prog step hstep a _ _ _ h2
    refine ⟨m, ?_, added, hl, ?_⟩
    · show w2.snaps.tail = w.snaps
      rw [sn]; rfl
    · intro c hcm
      rcases hc c hcm with ⟨d1, -, d3, d4⟩ | ⟨f1, f2⟩
      · refine ⟨?_, ?_⟩
        · rw [d1]; simp [World.pushSnap]
        · intro hlt
          obtain ⟨k1, k2⟩ := d4 hlt
          exact ⟨held_of_sig w e c.slot ((holds_iff _ _).2 d3), k1, k2⟩
      · refine ⟨?_, f2⟩
        have : (w.pushSnap e).snaps.length = w.snaps.length + 1 := by simp [World.pushSnap]
        omega

theorem exec_runs (prog : Prog) :
    ∀ (fuel : Nat) (op : Op) (w w1 : World), (exec prog fuel op w).final = some w1 → Runs w w1 := by
  intro fuel
  induction fuel with
  | zero =>
    intro op w w1 h
    simp [exec, Outcome.final] at h
  | succ n ih =>
    intro op w w1 h
    unfold exec at h
    cases op with
    | emit e a => exact emit_runs prog (exec prog n) ih e a w w1 h
    | raise =>
      simp only [stepOp, Outcome.final, Option.some.injEq] at h
      subst h; exact runs_refl w
    | connect e k gid =>
      simp only [stepOp, Outcome.final, Option.some.injEq] at h
      subst h; exact runs_of_silent (silent_connect_call e k gid w)
    | disconnect_callable e c =>
      simp only [stepOp, Outcome.final, Option.some.injEq] at h
      subst h; exact runs_of_silent (silent_disconnect_if _ e w)
    | disconnect_object e o =>
      simp only [stepOp, Outcome.final, Option.some.injEq] at h
      subst h; exact runs_of_silent (silent_disconnect_if _ e w)
    | disconnect_both e c o =>
      simp only [stepOp, Outcome.final, Option.some.injEq] at h
      subst h; exact runs_of_silent (silent_disconnect_if _ e w)
    | disconnect_group e gid =>
      simp only [stepOp, Outcome.final, Option.some.injEq] at h
      subst h; exact runs_of_silent (silent_disconnect_group e gid w)
    | disconnect_all e =>
      simp only [stepOp, Outcome.final, Option.some.injEq] at h
      subst h; exact runs_of_silent (silent_disconnect_all e w)
    | block e =>
      simp only [stepOp, Outcome.final, Option.some.injEq] at h
      subst h; exact runs_of_silent (silent_sig_block e w)
    | unblock e =>
      simp only [stepOp, Outcome.final, Option.some.injEq] at h
      subst h; exact runs_of_silent (silent_sig_unblock e w)
    | block_group e gid =>
      simp only [stepOp, Outcome.final, Option.some.injEq] at h
      subst h; exact runs_of_silent (silent_block_group e gid w)
    | unblock_group e gid =>
      simp only [stepOp, Outcome.final, Option.some.injEq] at h
      subst h; exact runs_of_silent (silent_unblock_group e gid w)
    | move_construct dst src =>
      simp only [stepOp, Outcome.final, Option.some.injEq] at h
      subst h; exact runs_of_silent (silent_move_construct dst src w)
    | move_assign dst src =>
      simp only [stepOp, Outcome.final, Option.some.injEq] at h
      subst h; exact runs_of_silent (silent_move_assign dst src w)
    | conn_disconnect c =>
      simp only [stepOp, Outcome.final, Option.some.injEq] at h
      subst h; exact runs_of_silent (silent_conn_disconnect c w)
    | conn_block c =>
      simp only [stepOp, Outcome.final, Option.some.injEq] at h
      subst h; exact runs_of_silent (silent_conn_block c w)
    | conn_unblock c =>
      simp only [stepOp, Outcome.final, Option.some.injEq] at h
      subst h; exact runs_of_silent (silent_conn_unblock c w)
    | observer_disconnect_all obs =>
      simp only [stepOp, Outcome.final, Option.some.injEq] at h
      subst h; exact runs_of_silent (silent_observer_disconnect_all obs w)
    | release a =>
      simp only [stepOp, Outcome.final, Option.some.injEq] at h
      subst h; exact runs_of_silent (silent_release_owner a w)
    | add k =>
      simp only [stepOp, Outcome.final, Option.some.injEq] at h
      subst h; exact runs_of_silent (silent_add k w)

theorem run_runs (prog : Prog) (fuel : Nat) (ops : List Op) (w w1 : World)
    (h : (run prog fuel ops w).final = some w1) : Runs w w1 :=
  runOps_runs _ (exec_runs prog fuel) ops w w1 h

/-! ## Slots that are never invoked again (C4, C9) -/

theorem neverInvoked_of_retired (s : SlotId) (w : World) (hs : s < w.nextSlot)
    (h : w.held s = false ∨ (w.slots s).m_connected = false ∨ ownerGone w s = true) :
    NeverInvoked s w := by
  intro prog fuel ops w1 hrun c hc
  obtain ⟨-, -, added, hl, hf⟩ := run_runs prog fuel ops w w1 hrun
  rw [hl, List.drop_left] at hc
  intro heq
  obtain ⟨k1, k2, k3⟩ := (hf c hc).2 (by rw [heq]; exact hs)
  rw [heq] at k1 k2 k3
  rcases h with h | h | h
  · rw [h] at k1; exact absurd k1 (by simp)
  · rw [h] at k2; exact absurd k2 (by simp)
  · rw [h] at k3; exact absurd k3 (by simp)

theorem not_held_of (w : World) (e : SigId) (s : SlotId)
    (h1 : ∀ e1, e1 ≠ e → holds (w.sig e1).m_slots s = false)
    (h2 : holds (w.sig e).m_slots s = false) : w.held s = false := by
  by_contra hc
  have hc2 : w.held s = true := by simpa using hc
  rw [held_iff] at hc2
  obtain ⟨g, hg, hh⟩ := hc2
  obtain ⟨i, hi, rfl⟩ := List.getElem_of_mem hg
  have hsig : w.sig i = w.sigs[i] := by
    simp [World.sig, List.getD_eq_getElem?_getD, hi]
  by_cases hie : i = e
  · subst hie
    rw [hsig, hh] at h2
    exact absurd h2 (by simp)
  · have := h1 i hie
    rw [hsig, hh] at this
    exact absurd this (by simp)

theorem not_held_setGroups (w : World) (e : SigId) (gs : List Group) (s : SlotId)
    (h1 : OnlyIn w e s) (h2 : s ∉ flat gs) : (w.setGroups e gs).held s = false := by
  apply not_held_of _ e
  · intro e1 he1
    rw [sig_setGroups_ne _ _ _ _ (Ne.symm he1)]
    exact h1 e1 he1
  · by_cases he : e < w.sigs.length
    · rw [sig_setGroups_same _ _ _ he]
      by_contra hc
      exact h2 ((holds_iff _ _).1 (by simpa using hc))
    · rw [sig_of_ge _ _ (by simpa using he)]
      rfl

theorem held_congr_sigs {w w1 : World} (h : w1.sigs = w.sigs) (s : SlotId) :
    w1.held s = w.held s := by
  unfold World.held
  rw [h]

theorem disconnect_if_not_held (cond : World → SlotId → Bool) (hc : IndexFree cond)
    (e : SigId) (w : World) (s : SlotId) (ho : OnlyIn w e s) (hs : cond w s = true) :
    (disconnect_if cond e w).2.held s = false := by
  obtain ⟨h1, -, h3⟩ := disconnectIfGroups_spec cond hc (w.sig e).m_slots w 0
  have hmem := filtered_mem_flat h1 s
  have hnot : s ∉ flat (disconnectIfGroups cond (w.sig e).m_slots w 0).1 := by
    intro hm
    have := (hmem.1 hm).2
    rw [hs] at this
    exact absurd this (by simp)
  unfold disconnect_if
  simp only
  refine not_held_setGroups _ e _ s ?_ hnot
  intro e1 he1
  rw [sig_sameButIndex h3]
  exact ho e1 he1

theorem mem_flat_map_clear (gid : Int) (gs : List Group) (s : SlotId)
    (h : s ∈ flat (gs.map (fun g => if g.gid = gid then (⟨[], g.gid⟩ : Group) else g))) :
    ∃ g ∈ gs, g.gid ≠ gid ∧ s ∈ g.slts := by
  induction gs with
  | nil => simp at h
  | cons g gs ih =>
    simp only [List.map_cons, flat_cons, List.mem_append] at h
    rcases h with h | h
    · by_cases hg : g.gid = gid
      · simp [hg] at h
      · simp only [hg, if_false] at h
        exact ⟨g, List.mem_cons_self _ _, hg, h⟩
    · obtain ⟨g1, hg1, h1, h2⟩ := ih h
      exact ⟨g1, List.mem_cons_of_mem _ hg1, h1, h2⟩

theorem indexFree_both (f : Callable) (o : ObjRef) :
    IndexFree (fun w1 s => has_object o w1 s && has_callable f w1 s) := by
  intro w w1 h s
  have h1 := indexFree_has_object o w w1 h s
  obtain ⟨-, -, -, -, -, -, -, a8⟩ := h
  obtain ⟨i, hi⟩ := a8 s
  simp only [h1]
  unfold has_callable get_callable
  rw [hi]

theorem slot_disconnect_true (s : SlotId) (w : World) (h : (slot_disconnect s w).1 = true) :
    ((slot_disconnect s w).2.slots s).m_connected = false := by
  unfold slot_disconnect at h ⊢
  by_cases hc : (w.slots s).m_connected = true
  · simp only [hc, if_true]
    rw [clean_connected]
    simp
  · simp [hc] at h

theorem silent_nextSlot {w w1 : World} (h : Silent w w1) : w.nextSlot ≤ w1.nextSlot := h.1.1

/-- C4: once a disconnect operation has removed a slot, no emission started afterwards invokes
it, whatever the user code does in between. This holds after Connection::disconnect returned
true, and, for a slot held by no other emitter, after disconnect(callable),
disconnect(owner) and disconnect(callable, owner) with arguments the slot matches, after
disconnect(group_id) on the only group holding the slot, and after disconnect_all. -/
theorem C4_no_invocation_after_disconnect (w : World) (e : SigId) (s : SlotId)
    (hs : s < w.nextSlot) :
    (∀ c : Connection, c.m_state = some s → (c.disconnect w).1 = true →
      NeverInvoked s (c.disconnect w).2) ∧
    (OnlyIn w e s →
      (∀ f, has_full_callable f w s = true → NeverInvoked s (disconnect_callable e f w).2) ∧
      (∀ o, has_object o w s = true → NeverInvoked s (disconnect_object e o w).2) ∧
      (∀ f o, has_object o w s = true → has_callable f w s = true →
        NeverInvoked s (disconnect_both e f o w).2) ∧
      (∀ gid, SortedGroups (w.sig e).m_slots →
        (∀ g ∈ (w.sig e).m_slots, s ∈ g.slts → g.gid = gid) →
        NeverInvoked s (disconnect_group e gid w).2) ∧
      NeverInvoked s (disconnect_all e w)) := by
  refine ⟨?_, ?_⟩
  · intro c hc hret
    refine neverInvoked_of_retired s _
      (Nat.lt_of_lt_of_le hs (silent_nextSlot (silent_conn_disconnect c w))) (Or.inr (Or.inl ?_))
    unfold Connection.disconnect Connection.lock at hret ⊢
    rw [hc] at hret ⊢
    simp only at hret ⊢
    by_cases ha : w.alive s = true
    · simp only [ha, if_true] at hret ⊢
      exact slot_disconnect_true s w hret
    · simp [ha] at hret
  · intro ho
    refine ⟨?_, ?_, ?_, ?_, ?_⟩
    · intro f hf
      exact neverInvoked_of_retired s _
        (Nat.lt_of_lt_of_le hs (silent_nextSlot (silent_disconnect_if _ e w)))
        (Or.inl (disconnect_if_not_held _ (indexFree_has_full_callable f) e w s ho hf))
    · intro o hob
      exact neverInvoked_of_retired s _
        (Nat.lt_of_lt_of_le hs (silent_nextSlot (silent_disconnect_if _ e w)))
        (Or.inl (disconnect_if_not_held _ (indexFree_has_object o) e w s ho hob))
    · intro f o hob hf
      exact neverInvoked_of_retired s _
        (Nat.lt_of_lt_of_le hs (silent_nextSlot (silent_disconnect_if _ e w)))
        (Or.inl (disconnect_if_not_held _ (indexFree_both f o) e w s ho
          (by simp [hob, hf])))
    · intro gid hsorted honly
      refine neverInvoked_of_retired s _
        (Nat.lt_of_lt_of_le hs (silent_nextSlot (silent_disconnect_group e gid w)))
        (Or.inl ?_)
      unfold disconnect_group
      simp only
      refine not_held_setGroups w e _ s ho ?_
      rw [(disconnectGroupGroups_spec gid _ hsorted).2.1]
      intro hm
      obtain ⟨g, hg, hne, hsg⟩ := mem_flat_map_clear gid _ s hm
      exact hne (honly g hg hsg)
    · exact neverInvoked_of_retired s _
        (Nat.lt_of_lt_of_le hs (silent_nextSlot (silent_disconnect_all e w)))
        (Or.inl (not_held_setGroups w e [] s ho (by simp)))

/-- Counterexample to C9 as stated: a tracked slot that was blocked through its connection
before its owner was released is still held by the registry after the next emit (slot_count() is
unchanged) and its connected flag is still set; no callable was invoked. -/
theorem C9_counterexample :
    ((emit adder (exec adder 1) 0 [1] worldTrackedBlocked).final.map
        (fun w => (slot_count w 0, (w.slots 0).m_connected, w.log)))
      = some (slot_count worldTrackedBlocked 0, true, []) ∧
    slot_count worldTrackedBlocked 0 = 1 ∧
    isTracked worldTrackedBlocked 0 = true ∧
    ptr_expired worldTrackedBlocked (worldTrackedBlocked.slots 0).ptr = true := by
  decide

theorem cleanGroups_some_mem (state : SlotId) (idx : Nat) (gid : Int) (gs : List Group)
    (h : (cleanGroups state idx gid gs).2.isSome = true) : state ∈ flat gs := by
  induction gs with
  | nil => simp [cleanGroups] at h
  | cons g gs ih =>
    by_cases h1 : g.gid = gid
    · by_cases h2 : g.slts[idx]? = some state
      · simp only [flat_cons, List.mem_append]
        exact Or.inl (List.getElem?_mem h2)
      · simp [cleanGroups, h1, h2] at h
    · simp only [cleanGroups, h1, if_false] at h
      simp only [flat_cons, List.mem_append]
      exact Or.inr (ih h)

theorem pending_of_logOnly {w w1 : World} (h : LogOnly w w1) (t : SlotId) :
    pendingExpiry w1 t = pendingExpiry w t := by
  obtain ⟨a1, -, -, a4, -⟩ := h
  unfold pendingExpiry isTracked ptr_expired
  rw [a1, a4]

theorem pending_ownerGone (w : World) (s : SlotId) (h : pendingExpiry w s = true) :
    ownerGone w s = true := by
  unfold pendingExpiry at h
  unfold ownerGone
  simp only [Bool.and_eq_true] at h ⊢
  exact h.1.1

theorem pending_connected (w : World) (s : SlotId) (h : pendingExpiry w s = true) :
    (w.slots s).m_connected = true := by
  unfold pendingExpiry at h
  simp only [Bool.and_eq_true] at h
  exact h.1.2

theorem not_pending_of_disconnected (w : World) (s : SlotId)
    (h : (w.slots s).m_connected = false) : pendingExpiry w s = false := by
  unfold pendingExpiry
  rw [h]
  simp

/-- What an emission with inert user code does when exactly one slot of the snapshot is a
tracked slot with a pending expiry. -/
theorem emitSlots_expiry (prog : Prog) (hp : Inert prog) (fuel : Nat) (a : Args)
    (l : List SlotId) (w : World) (e : SigId) (s : SlotId) (he : e < w.sigs.length)
    (hmem : s ∈ l) (hpend : pendingExpiry w s = true) (hcl : (w.slots s).cleaner = e)
    (hfound : (cleanGroups s (w.slots s).m_index (w.slots s).m_group
      (w.sig e).m_slots).2.isSome = true)
    (hothers : ∀ t ∈ l, t ≠ s → pendingExpiry w t = false) :
    ∃ w1, emitSlots prog (exec prog (fuel + 1)) l a w = Outcome.done w1 ∧
      (∀ c ∈ w1.log.drop w.log.length, c.slot ≠ s) ∧
      (w1.slots s).m_connected = false ∧ slot_count w1 e + 1 = slot_count w e ∧
      w1.snaps = w.snaps ∧ w1.nextSlot = w.nextSlot := by
  obtain ⟨pre, post, rfl, hpre⟩ := List.eq_append_cons_of_mem hmem
  -- the slots before `s`
  obtain ⟨wp, p1, p2, -, -, p5⟩ := emitSlots_inert prog hp fuel a pre w
  have hlo : LogOnly w wp := p5 (fun t ht => hothers t (List.mem_append_left _ ht)
    (fun h => hpre (h ▸ ht)))
  obtain ⟨q1, q2, q3, q4, q5, -⟩ := (show LogOnly w wp from hlo)
  have hpend2 : pendingExpiry wp s = true := by
    rw [pending_of_logOnly hlo]; exact hpend
  -- the slot itself
  have hsig : wp.sig e = w.sig e := by unfold World.sig; rw [q2]
  obtain ⟨-, d2, d3⟩ := slot_disconnect_removes wp s e (by rw [q2]; exact he)
    (pending_connected wp s hpend2) (by rw [q1]; exact hcl) (by rw [q1, hsig]; exact hfound)
  have hquiet := slot_disconnect_quiet s wp hpend2
  obtain ⟨f1, -, f3, -, f5, -, -⟩ := slot_disconnect_frame s wp
  -- the slots after `s`
  obtain ⟨w1, r1, r2, -, -, r5⟩ := emitSlots_inert prog hp fuel a post (slot_disconnect s wp).2
  have hlo2 : LogOnly (slot_disconnect s wp).2 w1 := by
    apply r5
    intro t ht
    by_cases hts : t = s
    · subst hts
      exact not_pending_of_disconnected _ _ d3
    · by_contra hc
      have h1 := quiet_pending hquiet t (by simpa using hc)
      rw [pending_of_logOnly hlo] at h1
      rw [hothers t (List.mem_append_right _ (List.mem_cons_of_mem _ ht)) hts] at h1
      exact absurd h1 (by simp)
  obtain ⟨s1, s2, s3, -, s5, -⟩ := hlo2
  refine ⟨w1, ?_, ?_, ?_, ?_, ?_, ?_⟩
  · rw [emitSlots_append, p1]
    simp only [emitSlots, slot_invoke_pending prog _ s a wp hpend2]
    exact r1
  · rw [r2, f5, p2, List.append_assoc, List.drop_left]
    intro c hc
    rcases List.mem_append.1 hc with hc | hc
    · obtain ⟨t, ht, rfl⟩ := List.mem_map.1 hc
      intro heq
      exact hpre (by simpa [callOf] using heq ▸ (List.mem_filter.1 ht).1)
    · obtain ⟨t, ht, rfl⟩ := List.mem_map.1 hc
      intro heq
      have hts : t = s := by simpa [callOf] using heq
      subst hts
      have hact := (List.mem_filter.1 ht).2
      have := (active_facts _ _ hact).1
      rw [d3] at this
      exact absurd this (by simp)
  · rw [s1]; exact d3
  · have e1 : slot_count w1 e = slot_count (slot_disconnect s wp).2 e := by
      unfold slot_count World.sig; rw [s2]
    have e2 : slot_count wp e = slot_count w e := by
      unfold slot_count World.sig; rw [q2]
    omega
  · rw [s3, f1, q3]
  · rw [s5, f3, q5]

/-- C9 (amended): after the owner of a tracked slot has been released, no emission ever invokes
the callable of the slot again, whatever the user code. When an emission reaches the slot
while it is connected and not blocked, the slot raises nothing, calls no user code and clears
its connected flag. Hence, on an emitter that is not globally blocked, that created the slot
and holds it at its stored index, with inert user code and no other slot pending expiry, the
next emit completes, does not invoke the slot, leaves it disconnected, lowers slot_count() by
exactly one, and the slot is never invoked afterwards. An emission that reaches the slot while
it is blocked leaves the program state as it is. -/
theorem C9_tracked_expiry (w : World) (e : SigId) (s : SlotId) (a : Args)
    (hs : s < w.nextSlot) :
    (ownerGone w s = true → NeverInvoked s w) ∧
    (pendingExpiry w s = true → ∀ (prog : Prog) (step : Op → World → Outcome),
      slot_invoke prog step s a w = Outcome.done (slot_disconnect s w).2 ∧
      (slot_disconnect s w).2.log = w.log ∧
      ((slot_disconnect s w).2.slots s).m_connected = false) ∧
    (∀ (prog : Prog) (fuel : Nat), Inert prog → e < w.sigs.length →
      (w.sig e).m_block = false → pendingExpiry w s = true → (w.slots s).cleaner = e →
      (cleanGroups s (w.slots s).m_index (w.slots s).m_group (w.sig e).m_slots).2.isSome
        = true →
      (∀ t ∈ flat (w.sig e).m_slots, t ≠ s → pendingExpiry w t = false) →
      ∃ w1, emit prog (exec prog (fuel + 1)) e a w = Outcome.done w1 ∧
        (∀ c ∈ w1.log.drop w.log.length, c.slot ≠ s) ∧
        (w1.slots s).m_connected = false ∧ slot_count w1 e + 1 = slot_count w e ∧
        NeverInvoked s w1) ∧
    ((w.slots s).m_blocked = true → ∀ (prog : Prog) (step : Op → World → Outcome),
      slot_invoke prog step s a w = Outcome.done w) := by
  refine ⟨?_, ?_, ?_, ?_⟩
  · intro hg
    exact neverInvoked_of_retired s w hs (Or.inr (Or.inr hg))
  · intro hpend prog step
    refine ⟨slot_invoke_pending prog step s a w hpend, (slot_disconnect_frame s w).2.2.2.2.1, ?_⟩
    apply slot_disconnect_true
    simp [slot_disconnect, pending_connected w s hpend]
  · intro prog fuel hp he hb hpend hcl hfound hothers
    obtain ⟨w1, r1, r2, r3, r4, r5, r6⟩ := emitSlots_expiry prog hp fuel a
      (flat (w.sig e).m_slots) (w.pushSnap e) e s he
      (cleanGroups_some_mem _ _ _ _ hfound) hpend hcl hfound hothers
    refine ⟨w1.popSnap, ?_, r2, r3, r4, ?_⟩
    · rw [emit_eq prog _ e a w hb, r1]
    · refine neverInvoked_of_retired s _ ?_ (Or.inr (Or.inl r3))
      show s < w1.nextSlot
      rw [r6]; exact hs
  · intro hblk prog step
    simp [slot_invoke, hblk]

/-- Instance of the amended C9: a plain slot and an unblocked tracked slot whose owner has been
released. -/
theorem C9_tracked_expiry_witness :
    1 < worldTracked.nextSlot ∧
    ∃ w1, emit adder (exec adder 1) 0 [1] worldTracked = Outcome.done w1 ∧
      (∀ c ∈ w1.log.drop worldTracked.log.length, c.slot ≠ 1) ∧
      (w1.slots 1).m_connected = false ∧ slot_count w1 0 + 1 = slot_count worldTracked 0 ∧
      NeverInvoked 1 w1 :=
  ⟨by decide,
    (C9_tracked_expiry worldTracked 0 1 [1] (by decide)).2.2.1 adder 0 adder_inert (by decide)
      (by decide) (by decide) (by decide) (by decide) (by decide)⟩

/-- Instance of C4: after disconnect_all the first slot is never invoked, and an emission
records no call. -/
theorem C4_no_invocation_after_disconnect_witness :
    0 < worldF.nextSlot ∧ NeverInvoked 0 (disconnect_all 0 worldF) ∧
    ((run adder 2 [Op.emit 0 [1]] (disconnect_all 0 worldF)).final.map (fun w => w.log))
      = some [] :=
  ⟨by decide,
    ((C4_no_invocation_after_disconnect worldF 0 0 (by decide)).2
      (fun e1 h => by
        rw [sig_of_ge worldF e1 (by
          have hlen : worldF.sigs.length = 1 := by decide
          rw [hlen]
          exact Nat.pos_of_ne_zero h)]
        rfl)).2.2.2.2,
    by decide⟩

/-! ## One emission, slot by slot (C1) -/

theorem emitted_direct_mem {a : Args} {l : List SlotId} {w : World} {added : List Call}
    (hc : ∀ c ∈ added, Direct w a l c ∨ Fresh w c) (c : Call) (hm : c ∈ added)
    (hd : c.depth = w.snaps.length) : c.args = a ∧ c.slot ∈ l := by
  rcases hc c hm with ⟨-, d2, d3, -⟩ | ⟨f1, -⟩
  · exact ⟨d2, d3⟩
  · omega

theorem filter_slot_nil {a : Args} {l : List SlotId} {w : World} {added : List Call}
    (hc : ∀ c ∈ added, Direct w a l c ∨ Fresh w c) (s : SlotId) (hs : s ∉ l) (d : Nat)
    (hd : d = w.snaps.length) :
    added.filter (fun c => decide (c.depth = d ∧ c.slot = s)) = [] := by
  rw [List.filter_eq_nil_iff]
  intro c hm
  simp only [decide_eq_true_eq, not_and]
  intro h1 h2
  rcases hc c hm with ⟨-, -, d3, -⟩ | ⟨f1, -⟩
  · exact hs (h2 ▸ d3)
  · omega

theorem emitSlots_done_split (prog : Prog) (step : Op → World → Outcome) (pre : List SlotId)
    (s : SlotId) (post : List SlotId) (a : Args) (w w2 : World)
    (h : emitSlots prog step (pre ++ s :: post) a w = Outcome.done w2) :
    ∃ wt ws, emitSlots prog step pre a w = Outcome.done wt ∧
      slot_invoke prog step s a wt = Outcome.done ws ∧
      emitSlots prog step post a ws = Outcome.done w2 := by
  rw [emitSlots_append] at h
  cases h1 : emitSlots prog step pre a w with
  | done wt =>
    rw [h1] at h
    simp only [emitSlots] at h
    cases h2 : slot_invoke prog step s a wt with
    | done ws =>
      rw [h2] at h
      exact ⟨wt, ws, rfl, h2, h⟩
    | threw ws => rw [h2] at h; simp at h
    | stuck => rw [h2] at h; simp at h
  | threw wt => rw [h1] at h; simp at h
  | stuck => rw [h1] at h; simp at h

/-- The general part of C1, for the loop of an emission. -/
theorem emitSlots_turn (prog : Prog) (step : Op → World → Outcome)
    (hstep : ∀ op w w1, (step op w).final = some w1 → Runs w w1)
    (pre : List SlotId) (s : SlotId) (post : List SlotId) (a : Args) (w w2 : World)
    (added : List Call) (hlog : w2.log = w.log ++ added)
    (hpre : s ∉ pre) (hpost : s ∉ post)
    (h : emitSlots prog step (pre ++ s :: post) a w = Outcome.done w2) :
    ∃ wt, emitSlots prog step pre a w = Outcome.done wt ∧
      added.filter (fun c => decide (c.depth = w.snaps.length ∧ c.slot = s)) =
        if active wt s = true then [callOf wt w.snaps.length a s] else [] := by
  obtain ⟨wt, ws, h1, h2, h3⟩ := emitSlots_done_split prog step pre s post a w w2 h
  refine ⟨wt, h1, ?_⟩
  obtain ⟨-, sn1, ad1, l1, -, c1⟩ := emitSlots_emitted prog step hstep a pre w wt
    (by rw [h1]; rfl)
  obtain ⟨-, sn2, ad2, l2, c2⟩ := slot_invoke_step prog step hstep s a wt ws
    (by rw [h2]; rfl)
  obtain ⟨-, sn3, ad3, l3, -, c3⟩ := emitSlots_emitted prog step hstep a post ws w2
    (by rw [h3]; rfl)
  have hadd : added = ad1 ++ (ad2 ++ ad3) := by
    have : w.log ++ added = w.log ++ (ad1 ++ (ad2 ++ ad3)) := by
      rw [← hlog, l3, l2, l1]
      simp [List.append_assoc]
    exact List.append_cancel_left this
  rw [hadd, List.filter_append, List.filter_append,
    filter_slot_nil c1 s hpre _ rfl,
    filter_slot_nil c3 s hpost _ (by rw [sn2, sn1])]
  simp only [List.nil_append, List.append_nil]
  rcases c2 with ⟨hact, rfl⟩ | ⟨hact, rest, rfl, hf⟩
  · simp [hact]
  · rw [hact, if_pos rfl, List.filter_cons]
    have hrest : rest.filter (fun c => decide (c.depth = w.snaps.length ∧ c.slot = s)) = [] := by
      rw [List.filter_eq_nil_iff]
      intro c hm
      have := (hf c hm).1
      rw [sn1] at this
      simp only [decide_eq_true_eq, not_and]
      intro h1 _
      omega
    rw [hrest]
    simp [callOf, sn1]

theorem active_not_pending (w : World) (s : SlotId) (h : active w s = true) :
    pendingExpiry w s = false := by
  by_contra hc
  have := pending_not_active w s (by simpa using hc)
  rw [h] at this
  exact absurd this (by simp)

theorem emit_repeat (prog : Prog) (hp : Inert prog) (e : SigId) (a : Args) (s : SlotId) :
    ∀ (k : Nat) (w : World), (w.sig e).m_block = false → flat (w.sig e).m_slots = [s] →
      active w s = true →
      ∃ w1, run prog 2 (List.replicate k (Op.emit e a)) w = Outcome.done w1 ∧
        w1.log = w.log ++ List.replicate k (callOf w (w.snaps.length + 1) a s) ∧
        w1.counter = w.counter + k * addSum (prog (w.slots s).func.code (connArg w s) a) := by
  intro k
  induction k with
  | zero =>
    intro w _ _ _
    exact ⟨w, rfl, by simp, by simp⟩
  | succ k ih =>
    intro w hb hflat hact
    obtain ⟨w2, e1, e2, e3, e4, e5⟩ := emit_inert prog hp 0 e a w hb
    have hlo : LogOnly w w2 := e5 (by
      intro t ht
      rw [hflat] at ht
      simp only [List.mem_singleton] at ht
      subst ht
      exact active_not_pending w t hact)
    have hsig : w2.sig e = w.sig e := by unfold World.sig; rw [hlo.2.1]
    obtain ⟨w1, r1, r2, r3⟩ := ih w2 (by rw [hsig]; exact hb) (by rw [hsig]; exact hflat)
      (by rw [quiet_active_eq e4]; exact hact)
    refine ⟨w1, ?_, ?_, ?_⟩
    · unfold run at r1 ⊢
      simp only [List.replicate_succ, runOps]
      have : exec prog 2 (Op.emit e a) w = Outcome.done w2 := e1
      rw [this]
      exact r1
    · rw [r2, e2, hflat, quiet_callOf_eq e4, e4.1]
      simp [List.filter_cons, hact, List.replicate_succ]
    · rw [r3, e3, hflat, hlo.1]
      have hc : connArg w2 s = connArg w s := by
        unfold connArg; rw [hlo.1]
      rw [hc]
      simp [List.filter_cons, hact]
      ring

/-- C1: an emit on an emitter that is not globally blocked, when it returns, has invoked user
callables only for slots of the registry snapshot, in snapshot order and with the emitted
arguments (calls made by nested emissions lie deeper); a slot that occurs once in the
snapshot is invoked exactly once if it is connected and not blocked when the emission reaches
it (connected() holds, which for a tracked slot requires that its owner still exists, and
blocked() does not), and not at all otherwise. In particular, with a single active slot and inert user code,
k emissions return and invoke the slot exactly k times, adding k times what one call adds to
the user counter. -/
theorem C1_emit_invokes :
    (∀ (prog : Prog) (fuel : Nat) (e : SigId) (a : Args) (w w1 : World),
      (w.sig e).m_block = false → emitTop prog fuel e a w = Outcome.done w1 →
      ∃ added, w1.log = w.log ++ added ∧
        List.Sublist
          ((added.filter (fun c => decide (c.depth = w.snaps.length + 1))).map Call.slot)
          (flat (w.sig e).m_slots) ∧
        (∀ c ∈ added, w.snaps.length + 1 ≤ c.depth ∧
          (c.depth = w.snaps.length + 1 → c.args = a ∧ c.slot ∈ flat (w.sig e).m_slots)) ∧
        (∀ pre s post, flat (w.sig e).m_slots = pre ++ s :: post → s ∉ pre → s ∉ post →
          ∃ wt, emitSlots prog (exec prog fuel) pre a (w.pushSnap e) = Outcome.done wt ∧
            added.filter (fun c => decide (c.depth = w.snaps.length + 1 ∧ c.slot = s)) =
              if active wt s = true then [callOf wt (w.snaps.length + 1) a s] else [])) ∧
    (∀ (prog : Prog) (e : SigId) (a : Args) (s : SlotId) (k : Nat) (w : World),
      Inert prog → (w.sig e).m_block = false → flat (w.sig e).m_slots = [s] →
      active w s = true →
      ∃ w1, run prog 2 (List.replicate k (Op.emit e a)) w = Outcome.done w1 ∧
        w1.log = w.log ++ List.replicate k (callOf w (w.snaps.length + 1) a s) ∧
        w1.counter = w.counter + k * addSum (prog (w.slots s).func.code (connArg w s) a)) := by
  refine ⟨?_, ?_⟩
  · intro prog fuel e a w w1 hb h
    unfold emitTop at h
    rw [emit_eq prog _ e a w hb] at h
    cases h2 : emitSlots prog (exec prog fuel) (flat (w.sig e).m_slots) a (w.pushSnap e) with
    | done w2 =>
      rw [h2] at h
      simp only [Outcome.done.injEq] at h
      subst h
      have hlen : (w.pushSnap e).snaps.length = w.snaps.length + 1 := by
        simp [World.pushSnap]
      obtain ⟨-, -, added, hl, hsub, hc⟩ :=
        emitSlots_emitted prog _ (exec_runs prog fuel) a _ _ _ (by rw [h2]; rfl)
      rw [hlen] at hsub
      refine ⟨added, hl, hsub, ?_, ?_⟩
      · intro c hm
        rcases hc c hm with ⟨d1, d2, d3, -⟩ | ⟨f1, -⟩
        · rw [hlen] at d1
          exact ⟨by omega, fun _ => ⟨d2, d3⟩⟩
        · rw [hlen] at f1
          exact ⟨by omega, fun hd => by omega⟩
      · intro pre s post hsplit hpre hpost
        rw [hsplit] at h2
        have := emitSlots_turn prog _ (exec_runs prog fuel) pre s post a (w.pushSnap e) w2
          added hl hpre hpost h2
        rw [hlen] at this
        exact this
    | threw w2 => rw [h2] at h; simp at h
    | stuck => rw [h2] at h; simp at h
  · intro prog e a s k w hp hb hflat hact
    exact emit_repeat prog hp e a s k w hb hflat hact

/-- Instance of C1: the threaded emission test, 100000 emissions of 1 into one adder slot. -/
theorem C1_emit_invokes_witness :
    (Inert adder ∧ (worldOne.sig 0).m_block = false ∧ flat (worldOne.sig 0).m_slots = [0] ∧
      active worldOne 0 = true) ∧
    ∃ w1, run adder 2 (List.replicate 100000 (Op.emit 0 [1])) worldOne = Outcome.done w1 ∧
      w1.log = worldOne.log ++ List.replicate 100000 (callOf worldOne 1 [1] 0) ∧
      w1.counter = 100000 := by
  refine ⟨⟨adder_inert, by decide, by decide, by decide⟩, ?_⟩
  obtain ⟨w1, h1, h2, h3⟩ := C1_emit_invokes.2 adder 0 [1] 0 100000 worldOne adder_inert
    (by decide) (by decide) (by decide)
  refine ⟨w1, h1, h2, ?_⟩
  rw [h3]
  have : addSum (adder (worldOne.slots 0).func.code (connArg worldOne 0) [1]) = 1 := by decide
  rw [this]
  have : worldOne.counter = 0 := by decide
  rw [this]
  norm_num

/-! ## Group order (C2) -/

theorem perm_sixOrders (l : List Int) (h : l.Perm [10, 0, -5]) : l ∈ sixOrders := by
  have hlen := h.length_eq
  match l, hlen with
  | [a, b, c], _ =>
    have ha : a ∈ [(10 : Int), 0, -5] := h.mem_iff.1 (by simp)
    have hb : b ∈ [(10 : Int), 0, -5] := h.mem_iff.1 (by simp)
    have hc : c ∈ [(10 : Int), 0, -5] := h.mem_iff.1 (by simp)
    simp only [List.mem_cons, List.mem_singleton, List.not_mem_nil, or_false] at ha hb hc
    rcases ha with rfl | rfl | rfl <;> rcases hb with rfl | rfl | rfl <;>
      rcases hc with rfl | rfl | rfl <;> revert h <;> decide

theorem six_orders_emit : ∀ l ∈ sixOrders,
    ((emitTop adder 1 0 [] (connectAll 0 (l.map (fun g => (ConnectCall.plain (freeFn 1), g)))
      (World.init 1))).final.map (fun w => groupsOf w w.log)) = some [-5, 0, 10] := by
  decide

theorem addSlotGroups_gid (n : SlotId) (gid : Int) (gs : List Group) :
    ∀ g1 ∈ (addSlotGroups n gid gs).1, g1.gid = gid ∨ ∃ g ∈ gs, g1.gid = g.gid := by
  induction gs with
  | nil =>
    intro g1 h
    simp only [addSlotGroups, List.mem_singleton] at h
    subst h; exact Or.inl rfl
  | cons g gs ih =>
    intro g1 h
    unfold addSlotGroups at h
    split_ifs at h with h1 h2
    · rcases List.mem_cons.1 h with h | h
      · subst h; exact Or.inr ⟨g1, List.mem_cons_self _ _, rfl⟩
      · rcases ih g1 h with h3 | ⟨g2, hg2, h3⟩
        · exact Or.inl h3
        · exact Or.inr ⟨g2, List.mem_cons_of_mem _ hg2, h3⟩
    · rcases List.mem_cons.1 h with h | h
      · subst h; exact Or.inl rfl
      · exact Or.inr ⟨g1, h, rfl⟩
    · rcases List.mem_cons.1 h with h | h
      · subst h; exact Or.inr ⟨g, List.mem_cons_self _ _, rfl⟩
      · exact Or.inr ⟨g1, List.mem_cons_of_mem _ h, rfl⟩

theorem addSlotGroups_sorted (n : SlotId) (gid : Int) (gs : List Group)
    (h : SortedGroups gs) : SortedGroups (addSlotGroups n gid gs).1 := by
  induction gs with
  | nil => simp [addSlotGroups, SortedGroups]
  | cons g gs ih =>
    unfold SortedGroups at h ih ⊢
    simp only [List.map_cons, List.pairwise_cons, List.mem_map, forall_exists_index, and_imp,
      forall_apply_eq_imp_iff₂] at h
    unfold addSlotGroups
    split_ifs with h1 h2
    · simp only [List.map_cons, List.pairwise_cons, List.mem_map, forall_exists_index, and_imp,
        forall_apply_eq_imp_iff₂]
      refine ⟨?_, ih h.2⟩
      intro g1 hg1
      rcases addSlotGroups_gid n gid gs g1 hg1 with h3 | ⟨g2, hg2, h3⟩
      · rw [h3]; exact h1
      · rw [h3]; exact h.1 g2 hg2
    · simp only [List.map_cons, List.pairwise_cons, List.mem_cons, List.mem_map,
        forall_eq_or_imp, forall_exists_index, and_imp, forall_apply_eq_imp_iff₂]
      have hlt : gid < g.gid := by omega
      refine ⟨⟨hlt, fun g1 hg1 => lt_trans hlt (h.1 g1 hg1)⟩, h.1, h.2⟩
    · simp only [List.map_cons, List.pairwise_cons, List.mem_map, forall_exists_index, and_imp,
        forall_apply_eq_imp_iff₂]
      exact h

theorem addSlotGroups_slts (n : SlotId) (gid : Int) (gs : List Group) :
    ∀ g1 ∈ (addSlotGroups n gid gs).1, ∀ s ∈ g1.slts,
      (s = n ∧ g1.gid = gid) ∨ ∃ g ∈ gs, g.gid = g1.gid ∧ s ∈ g.slts := by
  induction gs with
  | nil =>
    intro g1 h s hs
    simp only [addSlotGroups, List.mem_singleton] at h
    subst h
    simp only [List.mem_singleton] at hs
    exact Or.inl ⟨hs, rfl⟩
  | cons g gs ih =>
    intro g1 h s hs
    unfold addSlotGroups at h
    split_ifs at h with h1 h2
    · rcases List.mem_cons.1 h with h | h
      · subst h; exact Or.inr ⟨g1, List.mem_cons_self _ _, rfl, hs⟩
      · rcases ih g1 h s hs with h3 | ⟨g2, hg2, h3⟩
        · exact Or.inl h3
        · exact Or.inr ⟨g2, List.mem_cons_of_mem _ hg2, h3⟩
    · rcases List.mem_cons.1 h with h | h
      · subst h
        simp only [List.mem_singleton] at hs
        exact Or.inl ⟨hs, rfl⟩
      · exact Or.inr ⟨g1, h, rfl, hs⟩
    · rcases List.mem_cons.1 h with h | h
      · subst h
        simp only [List.mem_append, List.mem_singleton] at hs
        rcases hs with hs | hs
        · exact Or.inr ⟨g, List.mem_cons_self _ _, rfl, hs⟩
        · exact Or.inl ⟨hs, not_not.mp h2⟩
      · exact Or.inr ⟨g1, List.mem_cons_of_mem _ h, rfl, hs⟩

theorem groupsOK_connect_call (e : SigId) (k : ConnectCall) (gid : Int) (w : World)
    (h : GroupsOK w e) : GroupsOK (connect_call e k gid w).2 e := by
  obtain ⟨-, -, -, f4, -, f6⟩ := connect_call_frame e k gid w
  obtain ⟨-, hgrp, -⟩ := connect_call_slot e k gid w
  by_cases he : e < w.sigs.length
  · have hsig := connect_call_sig e k gid w he
    refine ⟨by rw [hsig]; exact addSlotGroups_sorted _ _ _ h.1, ?_⟩
    rw [hsig]
    intro g1 hg1 s hs
    rcases addSlotGroups_slts _ _ _ g1 hg1 s hs with ⟨h1, h2⟩ | ⟨g, hg, h1, h2⟩
    · subst h1
      rw [hgrp, h2, f4]
      exact ⟨rfl, Nat.lt_succ_self _⟩
    · obtain ⟨k1, k2⟩ := h.2 g hg s h2
      rw [f6 s (Nat.ne_of_lt k2), f4, ← h1]
      exact ⟨k1, Nat.lt_succ_of_lt k2⟩
  · have hsig : (connect_call e k gid w).2.sig e = w.sig e := by
      have := connect_call_sigs e k gid w
      unfold World.sig
      rw [this]
      simp only [World.setGroups, World.setSig]
      rw [List.set_eq_of_length_le (Nat.le_of_not_lt he)]
    rw [GroupsOK, hsig]
    refine ⟨h.1, ?_⟩
    intro g hg s hs
    obtain ⟨k1, k2⟩ := h.2 g hg s hs
    rw [f6 s (Nat.ne_of_lt k2), f4]
    exact ⟨k1, Nat.lt_succ_of_lt k2⟩

theorem groupsOK_connectAll (e : SigId) (cs : List (ConnectCall × Int)) (w : World)
    (h : GroupsOK w e) : GroupsOK (connectAll e cs w) e := by
  induction cs generalizing w with
  | nil => exact h
  | cons c cs ih => exact ih _ (groupsOK_connect_call e c.1 c.2 w h)

theorem groupsOK_init (n : Nat) (e : SigId) : GroupsOK (World.init n) e := by
  have : (World.init n).sig e = default := by
    unfold World.sig World.init
    simp only [List.getD_eq_getElem?_getD]
    by_cases h : e < n
    · simp [h]
    · simp [h]
  rw [GroupsOK, this]
  exact ⟨by simp [SortedGroups, default], by simp [default]⟩

theorem groupsOK_pairwise (w : World) (gs : List Group) (h1 : SortedGroups gs)
    (h2 : ∀ g ∈ gs, ∀ s ∈ g.slts, (w.slots s).m_group = g.gid) :
    ((flat gs).map (fun s => (w.slots s).m_group)).Pairwise (· ≤ ·) := by
  induction gs with
  | nil => simp
  | cons g gs ih =>
    unfold SortedGroups at h1 ih
    simp only [List.map_cons, List.pairwise_cons, List.mem_map, forall_exists_index, and_imp,
      forall_apply_eq_imp_iff₂] at h1
    simp only [flat_cons, List.map_append, List.pairwise_append]
    refine ⟨?_, ih h1.2 (fun g1 hg1 => h2 g1 (List.mem_cons_of_mem _ hg1)), ?_⟩
    · rw [List.pairwise_map]
      refine List.Pairwise.imp_of_mem ?_ (List.pairwise_of_forall (fun _ _ => trivial) :
        List.Pairwise (fun _ _ => True) g.slts)
      intro a b ha hb _
      rw [(h2 g (List.mem_cons_self _ _) a ha), (h2 g (List.mem_cons_self _ _) b hb)]
    · intro x hx y hy
      obtain ⟨a, ha, rfl⟩ := List.mem_map.1 hx
      obtain ⟨b, hb, rfl⟩ := List.mem_map.1 hy
      rw [h2 g (List.mem_cons_self _ _) a ha]
      simp only [flat, List.mem_flatMap] at hb
      obtain ⟨g1, hg1, hb1⟩ := hb
      rw [h2 g1 (List.mem_cons_of_mem _ hg1) b hb1]
      exact le_of_lt (h1.1 g1 hg1)

/-- C2: on a well-formed registry (in particular the empty one), after any sequence of connect
calls with arbitrary group ids, in any order, the group ids of the slots invoked directly by
one emit, in invocation order, are non-decreasing, whatever the user code does and whether
the emit returns or is ended by an exception. Connecting slots tagged 10, 0 and -5 in any
order gives the invocation order -5, 0, 10. -/
theorem C2_group_order :
    (∀ (prog : Prog) (fuel : Nat) (e : SigId) (a : Args) (cs : List (ConnectCall × Int))
      (w w1 : World), GroupsOK w e →
      (emitTop prog fuel e a (connectAll e cs w)).final = some w1 →
      ∃ added, w1.log = (connectAll e cs w).log ++ added ∧
        (groupsOf (connectAll e cs w) (added.filter
          (fun c => decide (c.depth = (connectAll e cs w).snaps.length + 1)))).Pairwise
            (· ≤ ·)) ∧
    (∀ (n : Nat) (e : SigId), GroupsOK (World.init n) e) ∧
    (∀ l : List Int, l.Perm [10, 0, -5] →
      ((emitTop adder 1 0 [] (connectAll 0
        (l.map (fun g => (ConnectCall.plain (freeFn 1), g))) (World.init 1))).final.map
          (fun w => groupsOf w w.log)) = some [-5, 0, 10]) := by
  refine ⟨?_, groupsOK_init, fun l hl => six_orders_emit l (perm_sixOrders l hl)⟩
  intro prog fuel e a cs w w1 hok h
  have hok2 := groupsOK_connectAll e cs w hok
  generalize connectAll e cs w = w0 at h hok2 ⊢
  unfold emitTop at h
  by_cases hb : (w0.sig e).m_block = true
  · simp only [emit, hb, if_true, Outcome.final, Option.some.injEq] at h
    subst h
    exact ⟨[], by simp, by simp [groupsOf]⟩
  · have hb2 : (w0.sig e).m_block = false := by simpa using hb
    obtain ⟨w2, h2, rfl⟩ := emit_final prog _ e a w0 w1 hb2 h
    obtain ⟨-, -, added, hl, hsub, -⟩ :=
      emitSlots_emitted prog _ (exec_runs prog fuel) a _ _ _ h2
    have hlen : (w0.pushSnap e).snaps.length = w0.snaps.length + 1 := by
      simp [World.pushSnap]
    rw [hlen] at hsub
    refine ⟨added, hl, ?_⟩
    have hpw := groupsOK_pairwise w0 (w0.sig e).m_slots hok2.1
      (fun g hg s hs => (hok2.2 g hg s hs).1)
    have hsub2 := List.Sublist.map (fun s => (w0.slots s).m_group) hsub
    rw [List.map_map] at hsub2
    exact List.Pairwise.sublist hsub2 hpw

/-- Instance of C2: slots tagged 0, -5 and 10 connected in that order on an empty emitter. -/
theorem C2_group_order_witness :
    GroupsOK (World.init 1) 0 ∧
    [(0 : Int), -5, 10].Perm [10, 0, -5] ∧
    ((emitTop adder 1 0 [] (connectAll 0
      ([(0 : Int), -5, 10].map (fun g => (ConnectCall.plain (freeFn 1), g)))
        (World.init 1))).final.map (fun w => groupsOf w w.log)) = some [-5, 0, 10] :=
  ⟨C2_group_order.2.1 1 0, by decide, C2_group_order.2.2 [0, -5, 10] (by decide)⟩

/-! ## The source of a move (C11) -/

theorem slot_count_move_construct (dst src : SigId) (w : World) :
    slot_count (move_construct dst src w) src = 0 := by
  unfold slot_count move_construct
  by_cases h : src < (w.setSig dst ⟨(w.sig src).m_slots, (w.sig src).m_block⟩).sigs.length
  · rw [sig_setGroups_same _ _ _ h]; rfl
  · rw [sig_of_ge _ _ (by simpa using h)]; rfl

theorem sig_move_assign_src (dst src : SigId) (w : World) (h : src < w.sigs.length) :
    (move_assign dst src w).sig src = ⟨(w.sig dst).m_slots, (w.sig dst).m_block⟩ := by
  unfold move_assign
  exact sig_setSig_same _ _ _ (by simpa using h)

/-- C11 (counterexample): emitter `0` is moved by assignment into emitter `1`, which held one
slot; afterwards emitter `0`, the source, reports `slot_count() == 1`, having received the slot
of the destination, while the destination reports the two slots of the source. -/
theorem C11_counterexample :
    slot_count worldTwo 0 = 2 ∧ slot_count worldTwo 1 = 1 ∧
    slot_count (move_assign 1 0 worldTwo) 0 = 1 ∧
    slot_count (move_assign 1 0 worldTwo) 1 = 2 := by
  decide

/-- C11 (amended): after emitter `src` has been moved into emitter `dst`, by move construction
`src` reports `slot_count() == 0`, and by move assignment `src` reports the slot count that
`dst` had before, the registries having been swapped: it is `0` exactly when the destination
held no slot. -/
theorem C11_move_source (dst src : SigId) (w : World) (h : src < w.sigs.length) :
    slot_count (move_construct dst src w) src = 0 ∧
    slot_count (move_assign dst src w) src = slot_count w dst ∧
    (slot_count (move_assign dst src w) src = 0 ↔ slot_count w dst = 0) := by
  have h2 : slot_count (move_assign dst src w) src = slot_count w dst := by
    unfold slot_count; rw [sig_move_assign_src dst src w h]
  exact ⟨slot_count_move_construct dst src w, h2, by rw [h2]⟩

theorem C11_move_source_witness :
    0 < worldTwo.sigs.length ∧
    slot_count (move_construct 1 0 worldTwo) 0 = 0 ∧
    slot_count (move_assign 1 0 worldTwo) 0 = slot_count worldTwo 1 ∧
    (slot_count (move_assign 1 0 worldTwo) 0 = 0 ↔ slot_count worldTwo 1 = 0) :=
  ⟨by decide, C11_move_source 1 0 worldTwo (by decide)⟩

/-! ## Connections whose slot state is gone (C12), release of a blocker (C15) -/

theorem alive_eq (w : World) (s : SlotId) :
    w.alive s = (w.held s || w.snaps.any (fun snap => holds snap s)) := rfl

theorem alive_mono {w w1 : World} (hm : Mono w w1) (hsn : w1.snaps = w.snaps) (s : SlotId)
    (hs : s < w.nextSlot) (h : w1.alive s = true) : w.alive s = true := by
  rw [alive_eq] at h ⊢
  rw [hsn] at h
  rcases Bool.or_eq_true_iff.1 h with h1 | h1
  · rw [(hm.2.2 s hs).2.2.2.2.2.2.2 h1]; rfl
  · rw [h1]; simp

theorem slot_connected_mono {w w1 : World} (hm : Mono w w1) (s : SlotId)
    (hs : s < w.nextSlot) (h : slot_connected w1 s = true) : slot_connected w s = true := by
  obtain ⟨-, hexp, hall⟩ := hm
  obtain ⟨-, -, hk, -, hp, -, hc, -⟩ := hall s hs
  have hpe : ptr_expired w1 (w.slots s).ptr = false → ptr_expired w (w.slots s).ptr = false := by
    unfold ptr_expired
    cases (w.slots s).ptr with
    | weak a =>
      simp only [decide_eq_false_iff_not]
      exact fun h1 h2 => h1 (hexp a h2)
    | none => simp
    | raw a => simp
  unfold slot_connected at h ⊢
  rw [hk, hp] at h
  cases hkk : (w.slots s).kind <;> rw [hkk] at h <;> simp only [] at h ⊢ <;>
    first
    | exact hc h
    | (simp only [Bool.and_eq_true, Bool.not_eq_true'] at h ⊢
       exact ⟨hpe h.1, hc h.2⟩)

theorem lock_none_mono {w w1 : World} (hm : Mono w w1) (hsn : w1.snaps = w.snaps)
    (c : Connection) (ha : ∀ s, c.m_state = some s → s < w.nextSlot) (h : c.lock w = none) :
    c.lock w1 = none := by
  unfold Connection.lock at h ⊢
  cases hc : c.m_state with
  | none => rfl
  | some s =>
    rw [hc] at h
    simp only at h ⊢
    by_cases h1 : w1.alive s = true
    · rw [alive_mono hm hsn s (ha s hc) h1] at h
      simp at h
    · simp [h1]

theorem conn_connected_mono {w w1 : World} (hm : Mono w w1) (hsn : w1.snaps = w.snaps)
    (c : Connection) (ha : ∀ s, c.m_state = some s → s < w.nextSlot)
    (h : c.connected w = false) : c.connected w1 = false := by
  unfold Connection.connected Connection.lock at h ⊢
  cases hc : c.m_state with
  | none => rfl
  | some s =>
    rw [hc] at h
    simp only at h ⊢
    by_cases h1 : w1.alive s = true
    · rw [alive_mono hm hsn s (ha s hc) h1] at h
      simp only [h1, if_true] at h ⊢
      by_contra h2
      rw [slot_connected_mono hm s (ha s hc) (by simpa using h2)] at h
      exact Bool.noConfusion h
    · simp [h1]

theorem stale_ops (c : Connection) (w : World) (h : c.lock w = none) :
    c.valid w = false ∧ c.connected w = false ∧ c.disconnect w = (false, w) ∧
    c.blocked w = false ∧ c.block w = w ∧ c.unblock w = w ∧
    c.blocker w = (⟨c.m_state⟩, w) ∧ ConnectionBlocker.release ⟨c.m_state⟩ w = w := by
  have h2 : Connection.lock ⟨c.m_state⟩ w = none := h
  simp [Connection.valid, Connection.connected, Connection.disconnect, Connection.blocked,
    Connection.block, Connection.unblock, Connection.blocker, ConnectionBlocker.create,
    ConnectionBlocker.release, h, h2]

/-- C12: for a connection that is default-constructed, or whose slot state no longer exists
(no registry and no emission in flight holds the slot it was made for), in that state and in
every state a program reaches from it: `valid()`, `connected()`, `disconnect()` and `blocked()`
return false, `disconnect()`, `block()` and `unblock()` leave the program state unchanged, and
`blocker()` returns a guard whose construction and whose release leave the program state
unchanged. All of these are total functions of the state: none fails. -/
theorem C12_stale_connection (c : Connection) (w : World)
    (halloc : ∀ s, c.m_state = some s → s < w.nextSlot) (hstale : c.lock w = none)
    (prog : Prog) (fuel : Nat) (ops : List Op) (w1 : World)
    (hrun : (run prog fuel ops w).final = some w1) :
    c.valid w1 = false ∧ c.connected w1 = false ∧ c.disconnect w1 = (false, w1) ∧
    c.blocked w1 = false ∧ c.block w1 = w1 ∧ c.unblock w1 = w1 ∧
    c.blocker w1 = (⟨c.m_state⟩, w1) ∧ (c.blocker w).2 = w ∧
    (c.blocker w).1.release w1 = w1 := by
  obtain ⟨hm, hsn, -⟩ := run_runs prog fuel ops w w1 hrun
  have h1 := stale_ops c w1 (lock_none_mono hm hsn c halloc hstale)
  have h0 := stale_ops c w hstale
  refine ⟨h1.1, h1.2.1, h1.2.2.1, h1.2.2.2.1, h1.2.2.2.2.1, h1.2.2.2.2.2.1, h1.2.2.2.2.2.2.1,
    ?_, ?_⟩
  · rw [h0.2.2.2.2.2.2.1]
  · rw [h0.2.2.2.2.2.2.1]; exact h1.2.2.2.2.2.2.2

theorem C12_stale_connection_witness :
    Connection.lock ⟨some 1⟩ (disconnect_all 0 worldF) = none ∧
    Connection.disconnect ⟨some 1⟩
        (connect_call 0 (ConnectCall.plain (freeFn 1)) 0 (disconnect_all 0 worldF)).2 =
      (false, (connect_call 0 (ConnectCall.plain (freeFn 1)) 0 (disconnect_all 0 worldF)).2) :=
  ⟨by decide,
    (C12_stale_connection ⟨some 1⟩ (disconnect_all 0 worldF)
      (fun s h => by cases h; decide) (by decide) adder 1
      [Op.connect 0 (ConnectCall.plain (freeFn 1)) 0] _ rfl).2.2.1⟩

theorem alive_modifySlot (w : World) (s t : SlotId) (f : Slot → Slot) :
    (w.modifySlot s f).alive t = w.alive t := rfl

theorem lock_modifySlot (c : Connection) (w : World) (s : SlotId) (f : Slot → Slot) :
    c.lock (w.modifySlot s f) = c.lock w := rfl

theorem blocked_after_release (b : ConnectionBlocker) (w : World) :
    Connection.blocked ⟨b.m_state⟩ (b.release w) = false := by
  unfold ConnectionBlocker.release
  cases h : Connection.lock ⟨b.m_state⟩ w with
  | none => simp [Connection.blocked, h]
  | some s =>
    simp only [Connection.blocked, slot_unblock, lock_modifySlot, h, slot_blocked,
      modifySlot_slots_same]

theorem blocked_after_blocker (c : Connection) (w : World) (h : c.valid w = true) :
    c.blocked (c.blocker w).2 = true := by
  unfold Connection.valid at h
  have h2 : Connection.lock ⟨c.m_state⟩ w = c.lock w := rfl
  cases h1 : c.lock w with
  | none => rw [h1] at h; exact Bool.noConfusion h
  | some s =>
    simp only [Connection.blocker, ConnectionBlocker.create, h2, h1, Connection.blocked,
      slot_block, lock_modifySlot, slot_blocked, modifySlot_slots_same]

/-- C15 (counterexample): the connection of the only slot is blocked by `block()`, then a
blocker is created on it and released; `blocked()` was true just before the blocker was
created and is false after its release. -/
theorem C15_counterexample :
    Connection.blocked ⟨some 0⟩ (Connection.block ⟨some 0⟩ worldOne) = true ∧
    Connection.blocked ⟨some 0⟩
      ((Connection.blocker ⟨some 0⟩ (Connection.block ⟨some 0⟩ worldOne)).1.release
        (Connection.blocker ⟨some 0⟩ (Connection.block ⟨some 0⟩ worldOne)).2) = false := by
  decide

/-- C15 (amended): a blocker created on a connection whose slot state exists makes `blocked()`
true, and releasing the blocker leaves the connection unblocked whatever its block state was
just before the blocker was created: after the release, in whatever state it happens,
`blocked()` is false. For a connection that was unblocked this is the state it had before; for
one that was already blocked it is not. -/
theorem C15_blocker_release (c : Connection) (w : World) (h : c.valid w = true) :
    c.blocked (c.blocker w).2 = true ∧
    c.blocked ((c.blocker w).1.release (c.blocker w).2) = false ∧
    ∀ w1, c.blocked ((c.blocker w).1.release w1) = false := by
  have hb : (c.blocker w).1 = ⟨c.m_state⟩ := by
    unfold Connection.blocker ConnectionBlocker.create
    cases Connection.lock ⟨c.m_state⟩ w <;> rfl
  refine ⟨blocked_after_blocker c w h, ?_, ?_⟩
  · rw [hb]; exact blocked_after_release ⟨c.m_state⟩ _
  · intro w1; rw [hb]; exact blocked_after_release ⟨c.m_state⟩ w1

theorem C15_blocker_release_witness :
    Connection.valid ⟨some 0⟩ (Connection.block ⟨some 0⟩ worldOne) = true ∧
    Connection.blocked ⟨some 0⟩
      ((Connection.blocker ⟨some 0⟩ (Connection.block ⟨some 0⟩ worldOne)).1.release
        (Connection.blocker ⟨some 0⟩ (Connection.block ⟨some 0⟩ worldOne)).2) = false :=
  ⟨by decide, (C15_blocker_release ⟨some 0⟩ (Connection.block ⟨some 0⟩ worldOne)
    (by decide)).2.1⟩

/-! ## Observers and `connect_extended` (C20) -/

/-- C20 (what the code does): the overload of `connect` for a member function and a pointer to
an observer appends the returned connection to the collection of the observer,
`connect_extended` with the same arguments leaves every collection as it was. So when the observer at address `7` runs
`disconnect_all`, as its destructor does, the slot made by `connect` is removed and the one
made by `connect_extended` stays connected and is invoked by the next emission. -/
theorem C20_connect_extended_observer :
    (∀ (e : SigId) (f : Callable) (obs : Nat) (gid : Int) (w : World),
      (connect_call e (ConnectCall.observer f obs) gid w).2.observers obs =
        w.observers obs ++ [(connect_call e (ConnectCall.observer f obs) gid w).1] ∧
      (connect_call e (ConnectCall.pmf_extended f obs) gid w).2.observers = w.observers) ∧
    worldObserver.observers 7 = [⟨some 0⟩] ∧ worldObserverExt.observers 7 = [] ∧
    slot_count (observer_disconnect_all 7 worldObserver) 0 = 0 ∧
    slot_count (observer_disconnect_all 7 worldObserverExt) 0 = 1 ∧
    Connection.connected ⟨some 0⟩ (observer_disconnect_all 7 worldObserverExt) = true ∧
    (run adder 2 [Op.observer_disconnect_all 7, Op.emit 0 [1]] worldObserverExt).final.map
      (fun w => w.log.map Call.slot) = some [0] := by
  refine ⟨?_, by decide, by decide, by decide, by decide, by decide, by decide⟩
  intro e f obs gid w
  constructor
  · simp [connect_call, connect_observer, add_connection, connect_slot, add_slot, make_slot,
      World.setGroups, World.setSig, World.setIndex, World.modifySlot]
  · simp [connect_call, connect_pmf_extended, connect_slot_extended, add_slot, make_slot,
      World.setGroups, World.setSig, World.setIndex, World.modifySlot]

/-! ## The connected flag never comes back (C18) -/

/-- C18: a slot's connected flag is true at creation, and for a slot that exists no program
ever takes it back from false to true: over every run (calls on emitters, connections, scoped
connections and blockers, owners released, emissions with any user code, nested to any depth)
and over the rest of an emission in flight up to the release of its snapshot, the flag
`m_connected`, the virtual `connected()` of the slot and `connected()` asked through a
connection each stay false once they are false. The destructor and the move assignment of a
scoped connection act on the state as `disconnect()`, the constructor and the release of a
blocker as `block()` and `unblock()`, which are calls a program can make. -/
theorem C18_connected_monotone (prog : Prog) (fuel : Nat) (w : World) (s : SlotId)
    (hs : s < w.nextSlot) :
    (∀ (e : SigId) (k : ConnectCall) (gid : Int) (w0 : World),
      (connect_call e k gid w0).1 = ⟨some w0.nextSlot⟩ ∧
      ((connect_call e k gid w0).2.slots w0.nextSlot).m_connected = true) ∧
    (∀ (ops : List Op) (w1 : World), (run prog fuel ops w).final = some w1 →
      ((w.slots s).m_connected = false → (w1.slots s).m_connected = false) ∧
      (slot_connected w s = false → slot_connected w1 s = false) ∧
      (Connection.connected ⟨some s⟩ w = false → Connection.connected ⟨some s⟩ w1 = false)) ∧
    (∀ (l : List SlotId) (a : Args) (w1 : World),
      (emitSlots prog (exec prog fuel) l a w).final = some w1 →
      ((w.slots s).m_connected = false → (w1.popSnap.slots s).m_connected = false) ∧
      (slot_connected w s = false → slot_connected w1.popSnap s = false) ∧
      (Connection.connected ⟨some s⟩ w = false →
        Connection.connected ⟨some s⟩ w1.popSnap = false)) ∧
    (∀ (c : ScopedConnection) (w0 : World),
      Outcome.done (c.destroy w0) = exec prog 1 (Op.conn_disconnect c.toConnection) w0) ∧
    (∀ (c o : ScopedConnection) (w0 : World),
      Outcome.done (c.move_assign o w0).2.2 = exec prog 1 (Op.conn_disconnect c.toConnection) w0) ∧
    (∀ (c : Connection) (w0 : World),
      Outcome.done (c.blocker w0).2 = exec prog 1 (Op.conn_block c) w0) ∧
    (∀ (b : ConnectionBlocker) (w0 : World),
      Outcome.done (b.release w0) = exec prog 1 (Op.conn_unblock ⟨b.m_state⟩) w0) := by
  have key : ∀ w1 : World, Mono w w1 → w1.snaps = w.snaps →
      ((w.slots s).m_connected = false → (w1.slots s).m_connected = false) ∧
      (slot_connected w s = false → slot_connected w1 s = false) ∧
      (Connection.connected ⟨some s⟩ w = false → Connection.connected ⟨some s⟩ w1 = false) := by
    intro w1 hm hsn
    refine ⟨?_, ?_, ?_⟩
    · intro h
      by_contra h1
      rw [(hm.2.2 s hs).2.2.2.2.2.2.1 (by simpa using h1)] at h
      exact Bool.noConfusion h
    · intro h
      by_contra h1
      rw [slot_connected_mono hm s hs (by simpa using h1)] at h
      exact Bool.noConfusion h
    · exact conn_connected_mono hm hsn ⟨some s⟩ (fun t ht => by cases ht; exact hs)
  refine ⟨?_, ?_, ?_, ?_, ?_, ?_, ?_⟩
  · intro e k gid w0
    exact ⟨connect_call_fst e k gid w0, (connect_call_slot e k gid w0).2.2.2.1⟩
  · intro ops w1 hrun
    obtain ⟨hm, hsn, -⟩ := run_runs prog fuel ops w w1 hrun
    exact key w1 hm hsn
  · intro l a w1 hrun
    obtain ⟨hm, hsn, -⟩ := emitSlots_emitted prog (exec prog fuel) (exec_runs prog fuel) a l w w1
      hrun
    have hm2 : Mono w w1.popSnap := mono_popSnap hm
    refine ⟨(key w1 hm hsn).1, ?_, ?_⟩
    · intro h
      by_contra h1
      rw [slot_connected_mono hm2 s hs (by simpa using h1)] at h
      exact Bool.noConfusion h
    · intro h
      have h2 := (key w1 hm hsn).2.2 h
      unfold Connection.connected Connection.lock at h2 ⊢
      simp only at h2 ⊢
      by_cases ha : w1.popSnap.alive s = true
      · have ha1 : w1.alive s = true := by
          rw [alive_eq] at ha ⊢
          rcases Bool.or_eq_true_iff.1 ha with h3 | h3
          · have : w1.held s = true := h3
            rw [this]; rfl
          · have h4 : w1.snaps.tail.any (fun snap => holds snap s) = true := h3
            have h5 : w1.snaps.any (fun snap => holds snap s) = true := by
              rw [List.any_eq_true] at h4 ⊢
              obtain ⟨x, hx, hx2⟩ := h4
              exact ⟨x, List.mem_of_mem_tail hx, hx2⟩
            rw [h5]; simp
        simp only [ha, ha1, if_true] at h2 ⊢
        exact h2
      · simp [ha]
  · intro c w0; rfl
  · intro c o w0; rfl
  · intro c w0
    show _ = Outcome.done (c.block w0)
    unfold Connection.blocker ConnectionBlocker.create Connection.block
    have : Connection.lock ⟨c.m_state⟩ w0 = c.lock w0 := rfl
    rw [this]
    cases c.lock w0 <;> rfl
  · intro b w0; rfl

theorem C18_connected_monotone_witness :
    0 < (Connection.disconnect ⟨some 0⟩ worldF).2.nextSlot ∧
    ((Connection.disconnect ⟨some 0⟩ worldF).2.slots 0).m_connected = false ∧
    ((((run adder 2 [Op.connect 0 (ConnectCall.plain (freeFn 1)) 0, Op.emit 0 [1]]
      (Connection.disconnect ⟨some 0⟩ worldF).2).final.getD worldF).slots 0).m_connected
        = false) :=
  ⟨by decide, by decide,
    ((C18_connected_monotone adder 2 (Connection.disconnect ⟨some 0⟩ worldF).2 0
      (by decide)).2.1 [Op.connect 0 (ConnectCall.plain (freeFn 1)) 0, Op.emit 0 [1]] _ rfl).1
      (by decide)⟩

/-! ## Removal through the registry and the connected flag (C19) -/

theorem removal_frame (e : SigId) (k : Removal) (w : World) :
    Quiet w (removal e k w) ∧
    ∀ t, ((removal e k w).slots t).m_connected = (w.slots t).m_connected := by
  cases k with
  | callable c =>
    have h := disconnect_if_frame _ (indexFree_has_full_callable c) e w
    exact ⟨h.1, h.2.2.2.1⟩
  | object o =>
    have h := disconnect_if_frame _ (indexFree_has_object o) e w
    exact ⟨h.1, h.2.2.2.1⟩
  | both c o =>
    have h := disconnect_if_frame _ (indexFree_both c o) e w
    exact ⟨h.1, h.2.2.2.1⟩
  | group gid => exact ⟨setGroups_quiet _ _ _, fun _ => rfl⟩
  | all => exact ⟨setGroups_quiet _ _ _, fun _ => rfl⟩

theorem quiet_slot_connected {w w1 : World} (h : Quiet w w1)
    (hc : ∀ t, (w1.slots t).m_connected = (w.slots t).m_connected) (s : SlotId) :
    slot_connected w1 s = slot_connected w s := by
  obtain ⟨-, h2, -, -, h5⟩ := h
  obtain ⟨k1, -, k3, -, -, -, -, -⟩ := h5 s
  unfold slot_connected ptr_expired
  rw [k1, k3, h2, hc s]

theorem slot_disconnect_flag (s : SlotId) (w : World) :
    ((slot_disconnect s w).2.slots s).m_connected = false := by
  unfold slot_disconnect
  by_cases h : (w.slots s).m_connected = true
  · simp only [h, if_true]
    rw [clean_connected]
    simp [World.modifySlot]
  · simp only [h]
    simpa using h

/-- The removal paths through the registry and the connected flag: `disconnect(callable)`,
`disconnect(owner)`, `disconnect(callable, owner)`, `disconnect(group_id)` and
`disconnect_all()` never write the connected flag of a slot, where `disconnect()` through a
connection to a slot that exists leaves the flag false. A slot these calls removed, so that no
registry holds it any more, has its state destroyed when no emission in flight holds it in its
snapshot, and then `connected()` and `valid()` read false through every connection to it;
while an emission in flight holds it, the connection stays valid and `connected()` reads what
it read before the removal. -/
theorem removal_flag_frame (e : SigId) (k : Removal) (w : World) (s : SlotId) :
    ((removal e k w).slots s).m_connected = (w.slots s).m_connected ∧
    (Connection.valid ⟨some s⟩ w = true →
      ((Connection.disconnect ⟨some s⟩ w).2.slots s).m_connected = false) ∧
    ((removal e k w).held s = false → w.inFlight s = false →
      Connection.connected ⟨some s⟩ (removal e k w) = false ∧
      Connection.valid ⟨some s⟩ (removal e k w) = false) ∧
    (w.inFlight s = true →
      Connection.connected ⟨some s⟩ (removal e k w) = Connection.connected ⟨some s⟩ w ∧
      Connection.connected ⟨some s⟩ (removal e k w) = slot_connected w s ∧
      Connection.valid ⟨some s⟩ (removal e k w) = true) := by
  obtain ⟨hq, hc⟩ := removal_frame e k w
  have hsn : (removal e k w).snaps = w.snaps := hq.1
  refine ⟨hc s, ?_, ?_, ?_⟩
  · intro hv
    have ha : w.alive s = true := by
      unfold Connection.valid Connection.lock at hv
      by_contra h
      simp [h] at hv
    rw [conn_disconnect_of_alive s w ha]
    exact slot_disconnect_flag s w
  · intro hh hf
    have ha : (removal e k w).alive s = false := by
      rw [alive_eq, hh, hsn]
      exact hf
    simp [Connection.connected, Connection.valid, Connection.lock, ha]
  · intro hf
    have ha : (removal e k w).alive s = true := by
      rw [alive_eq, hsn]
      have : w.snaps.any (fun snap => holds snap s) = true := hf
      rw [this]; simp
    have ha0 : w.alive s = true := by
      rw [alive_eq]
      have : w.snaps.any (fun snap => holds snap s) = true := hf
      rw [this]; simp
    simp [Connection.connected, Connection.valid, Connection.lock, ha, ha0,
      quiet_slot_connected hq hc s]

/-- C19 (what the code does): `disconnect(callable)`, `disconnect(owner)`,
`disconnect(callable, owner)`, `disconnect(group_id)` and `disconnect_all()` only edit the
registry. In every state the connected flag and the blocked flag of every slot read after the
call what they read before, so a slot that an emission would invoke at its turn is invoked just
the same after its removal; while an emission in flight holds the removed slot in its snapshot,
every connection to it stays valid and `connected()` reads what it read before. `disconnect()`
through a connection to a slot that exists leaves the flag false.

At the failing input emitter `0` holds slots 0 to 3, and the callable of slots 0 and 3 calls
`disconnect_all()` on the emitter: the emission removes every slot at its first call, yet goes
on to invoke the removed slots 1, 2 and 3, whose connected flag reads true, also through a
connection. Had slot 1 been disconnected through its connection instead, the flag would read
false and the emission would skip it. -/
theorem C19_removal_flag :
    (∀ (e : SigId) (k : Removal) (w : World) (s : SlotId),
      ((removal e k w).slots s).m_connected = (w.slots s).m_connected ∧
      ((removal e k w).slots s).m_blocked = (w.slots s).m_blocked ∧
      active (removal e k w) s = active w s ∧
      (Connection.valid ⟨some s⟩ w = true →
        ((Connection.disconnect ⟨some s⟩ w).2.slots s).m_connected = false) ∧
      (w.inFlight s = true →
        Connection.valid ⟨some s⟩ (removal e k w) = true ∧
        Connection.connected ⟨some s⟩ (removal e k w) = Connection.connected ⟨some s⟩ w ∧
        Connection.connected ⟨some s⟩ (removal e k w) = slot_connected w s)) ∧
    ((run clearer 2 [Op.emit 0 [1]] worldF).final.map
        (fun w => (w.log.map Call.slot, slot_count w 0)) = some ([0, 1, 2, 3], 0) ∧
      slot_count (disconnect_all 0 (worldF.pushSnap 0)) 0 = 0 ∧
      ((disconnect_all 0 (worldF.pushSnap 0)).slots 1).m_connected = true ∧
      Connection.connected ⟨some 1⟩ (disconnect_all 0 (worldF.pushSnap 0)) = true ∧
      Connection.connected ⟨some 1⟩ (Connection.disconnect ⟨some 1⟩ (worldF.pushSnap 0)).2
        = false ∧
      (run unhooker 2 [Op.emit 0 [1]] worldF).final.map
        (fun w => (w.log.map Call.slot, slot_count w 0)) = some ([0, 2, 3], 3)) := by
  refine ⟨?_, by decide⟩
  intro e k w s
  obtain ⟨hq, -⟩ := removal_frame e k w
  obtain ⟨h1, h2, -, h4⟩ := removal_flag_frame e k w s
  have hact : active (removal e k w) s = active w s := by
    have hsc := quiet_slot_connected hq (removal_frame e k w).2 s
    unfold active slot_blocked
    rw [hsc, (hq.2.2.2.2 s).2.2.2.2.1]
  exact ⟨h1, (hq.2.2.2.2 s).2.2.2.2.1, hact, h2,
    fun hf => ⟨(h4 hf).2.2, (h4 hf).1, (h4 hf).2.1⟩⟩

/-! ## Scoped connections (C13, C14) -/

theorem emit_repeat_all (prog : Prog) (hp : Inert prog) (e : SigId) (a : Args) :
    ∀ (k : Nat) (w : World), (w.sig e).m_block = false →
      (∀ t ∈ flat (w.sig e).m_slots, pendingExpiry w t = false) →
      ∃ w1, run prog 2 (List.replicate k (Op.emit e a)) w = Outcome.done w1 ∧
        w1.log = w.log ++ (List.replicate k (((flat (w.sig e).m_slots).filter (active w)).map
          (callOf w (w.snaps.length + 1) a))).flatten ∧
        LogOnly w w1 := by
  intro k
  induction k with
  | zero =>
    intro w _ _
    exact ⟨w, rfl, by simp, logOnly_refl w⟩
  | succ k ih =>
    intro w hb hpend
    obtain ⟨w2, e1, e2, -, e4, e5⟩ := emit_inert prog hp 0 e a w hb
    have hlo : LogOnly w w2 := e5 hpend
    have hsig : w2.sig e = w.sig e := by unfold World.sig; rw [hlo.2.1]
    have hpe : ∀ t, pendingExpiry w2 t = pendingExpiry w t := fun t => by
      rw [pending_of_logOnly hlo]
    obtain ⟨w1, r1, r2, r3⟩ := ih w2 (by rw [hsig]; exact hb)
      (by rw [hsig]; intro t ht; rw [hpe]; exact hpend t ht)
    refine ⟨w1, ?_, ?_, logOnly_trans hlo r3⟩
    · unfold run at r1 ⊢
      simp only [List.replicate_succ, runOps]
      have : exec prog 2 (Op.emit e a) w = Outcome.done w2 := e1
      rw [this]
      exact r1
    · rw [r2, e2, hsig, quiet_active_eq e4, quiet_callOf_eq e4, e4.1]
      simp [List.replicate_succ]

theorem connect_slot_eq (e : SigId) (f : Callable) (gid : Int) (w : World) :
    ((connect_call e (ConnectCall.plain f) gid w).2.slots w.nextSlot) =
      ⟨(addSlotGroups w.nextSlot gid (w.sig e).m_slots).2, true, false, gid, e, SlotKind.slot, f,
        ObjRef.none, ⟨none⟩⟩ := by
  simp [connect_call, connect, connect_slot, add_slot, make_slot, World.setGroups, World.setSig,
    World.setIndex, World.modifySlot, World.sig]

theorem connect_scoped_eq (e : SigId) (f : Callable) (gid : Int) (w : World) :
    (connect_scoped e f gid w).1 = ⟨⟨some w.nextSlot⟩⟩ ∧
    (connect_scoped e f gid w).2 = (connect_call e (ConnectCall.plain f) gid w).2 := by
  constructor
  · show (⟨(connect_call e (ConnectCall.plain f) gid w).1⟩ : ScopedConnection) = _
    rw [connect_call_fst]
  · rfl

theorem scoped_destroy_after (e : SigId) (f : Callable) (gid : Int) (w w1 : World)
    (he : e < w.sigs.length) (hlo : LogOnly (connect_scoped e f gid w).2 w1) :
    slot_count ((connect_scoped e f gid w).1.destroy w1) e = slot_count w e ∧
    NeverInvoked w.nextSlot ((connect_scoped e f gid w).1.destroy w1) := by
  obtain ⟨hc1, hc2⟩ := connect_scoped_eq e f gid w
  rw [hc2] at hlo
  rw [hc1]
  obtain ⟨q1, q2, -, -, q5, -⟩ := (show LogOnly _ w1 from hlo)
  have hlen : e < (connect_call e (ConnectCall.plain f) gid w).2.sigs.length := by
    rw [connect_call_sigs]; simpa using he
  have hlen1 : e < w1.sigs.length := by rw [q2]; exact hlen
  obtain ⟨hidx, hgrp, hcl, hcon, -⟩ := connect_call_slot e (ConnectCall.plain f) gid w
  have hsig := connect_call_sig e (ConnectCall.plain f) gid w he
  have hsig1 : w1.sig e = (connect_call e (ConnectCall.plain f) gid w).2.sig e := by
    unfold World.sig; rw [q2]
  have halive : w1.alive w.nextSlot = true :=
    alive_of_holds _ e _ hlen1 (by rw [hsig1, hsig]; exact holds_addSlotGroups _ _ _)
  have hfound : (cleanGroups w.nextSlot (w1.slots w.nextSlot).m_index
      (w1.slots w.nextSlot).m_group (w1.sig e).m_slots).2.isSome = true := by
    rw [q1, hsig1, hidx, hgrp, hsig, cleanGroups_addSlotGroups]; rfl
  obtain ⟨-, h2, h3⟩ := slot_disconnect_removes w1 w.nextSlot e hlen1 (by rw [q1]; exact hcon)
    (by rw [q1]; exact hcl) hfound
  have hd : ScopedConnection.destroy ⟨⟨some w.nextSlot⟩⟩ w1 = (slot_disconnect w.nextSlot w1).2 := by
    unfold ScopedConnection.destroy
    rw [conn_disconnect_of_alive _ _ halive]
  rw [hd]
  constructor
  · have hcnt : slot_count w1 e = slot_count w e + 1 := by
      unfold slot_count
      rw [hsig1, hsig, countSlots_addSlotGroups]
    omega
  · refine neverInvoked_of_retired _ _ ?_ (Or.inr (Or.inl h3))
    have hn := silent_nextSlot (silent_slot_disconnect w.nextSlot w1)
    have hn2 := (connect_call_frame e (ConnectCall.plain f) gid w).2.2.2.1
    rw [q5, hn2] at hn
    exact Nat.lt_of_lt_of_le (Nat.lt_succ_self _) hn

/-- C13 (counterexample): `connect_scoped` is called on an emitter that is blocked. The scoped
connection is alive and reads connected, the emitter holds the slot, yet an emission invokes
nothing (`operator()` returns at once when `m_block` is set). On the same emitter not blocked
the emission invokes the slot. -/
theorem C13_counterexample :
    ((sig_block 0 (World.init 1)).sig 0).m_block = true ∧
    (connect_scoped 0 (freeFn 1) 0 (sig_block 0 (World.init 1))).1.toConnection.connected
      (connect_scoped 0 (freeFn 1) 0 (sig_block 0 (World.init 1))).2 = true ∧
    (run adder 2 [Op.emit 0 [1]]
      (connect_scoped 0 (freeFn 1) 0 (sig_block 0 (World.init 1))).2).final.map
        (fun w => (w.log.map Call.slot, slot_count w 0)) = some ([], 1) ∧
    (run adder 2 [Op.emit 0 [1]] (connect_scoped 0 (freeFn 1) 0 (World.init 1)).2).final.map
        (fun w => (w.log.map Call.slot, slot_count w 0)) = some ([0], 1) := by
  decide

/-- C13 (amended): `connect_scoped(f)` on an existing emitter, in any state, adds one slot, and
the destruction of the returned scoped connection brings `slot_count()` back to its value
before `connect_scoped`, after which no program ever invokes the slot again. With the emitter
not globally blocked, inert user code and no tracked slot whose expiry is pending, any number
`k` of emissions made between the two return, every one of them invokes the slot (each emission
makes the same list of calls, which contains the call of the new slot), and the destruction
after them restores `slot_count()` and retires the slot just the same. -/
theorem C13_scoped_lifetime (e : SigId) (f : Callable) (gid : Int) (w : World)
    (he : e < w.sigs.length) :
    (connect_scoped e f gid w).1.m_state = some w.nextSlot ∧
    slot_count (connect_scoped e f gid w).2 e = slot_count w e + 1 ∧
    slot_count ((connect_scoped e f gid w).1.destroy (connect_scoped e f gid w).2) e
      = slot_count w e ∧
    NeverInvoked w.nextSlot
      ((connect_scoped e f gid w).1.destroy (connect_scoped e f gid w).2) ∧
    ∀ (prog : Prog) (a : Args) (k : Nat), Inert prog → (w.sig e).m_block = false →
      (∀ t ∈ flat (w.sig e).m_slots, pendingExpiry w t = false) →
      ∃ w1 L, run prog 2 (List.replicate k (Op.emit e a)) (connect_scoped e f gid w).2
          = Outcome.done w1 ∧
        w1.log = w.log ++ (List.replicate k L).flatten ∧
        (⟨w.snaps.length + 1, w.nextSlot, a, none⟩ : Call) ∈ L ∧
        slot_count ((connect_scoped e f gid w).1.destroy w1) e = slot_count w e ∧
        NeverInvoked w.nextSlot ((connect_scoped e f gid w).1.destroy w1) := by
  obtain ⟨hc1, hc2⟩ := connect_scoped_eq e f gid w
  have h0 := scoped_destroy_after e f gid w _ he (logOnly_refl _)
  have hsig := connect_call_sig e (ConnectCall.plain f) gid w he
  obtain ⟨f1, f2, f3, f4, -, f6⟩ := connect_call_frame e (ConnectCall.plain f) gid w
  have hslot := connect_slot_eq e f gid w
  refine ⟨by rw [hc1], ?_, h0.1, h0.2, ?_⟩
  · rw [hc2]
    unfold slot_count
    rw [hsig, countSlots_addSlotGroups]
  · intro prog a k hp hb hpend
    have hlen : e < (connect_call e (ConnectCall.plain f) gid w).2.sigs.length := by
      rw [connect_call_sigs]; simpa using he
    have hb2 : ((connect_call e (ConnectCall.plain f) gid w).2.sig e).m_block = false := by
      simp only [connect_call, connect, connect_slot, add_slot, World.setGroups]
      rw [sig_setSig_same _ _ _ (by simpa [make_slot, World.setIndex, World.modifySlot] using he)]
      simpa [make_slot, World.setIndex, World.modifySlot, World.sig] using hb
    have hpend2 : ∀ t ∈ flat ((connect_call e (ConnectCall.plain f) gid w).2.sig e).m_slots,
        pendingExpiry (connect_call e (ConnectCall.plain f) gid w).2 t = false := by
      intro t ht
      by_cases htn : t = w.nextSlot
      · subst htn
        unfold pendingExpiry isTracked
        rw [hslot]
        rfl
      · rw [hsig, mem_flat_addSlotGroups] at ht
        have ht2 : t ∈ flat (w.sig e).m_slots := ht.resolve_left htn
        have := hpend t ht2
        unfold pendingExpiry isTracked ptr_expired at this ⊢
        rw [f6 t htn, f3]
        exact this
    obtain ⟨w1, r1, r2, r3⟩ := emit_repeat_all prog hp e a k _ hb2 hpend2
    refine ⟨w1, _, by rw [hc2]; exact r1, by rw [r2, f2, f1], ?_,
      scoped_destroy_after e f gid w w1 he (by rw [hc2]; exact r3)⟩
    rw [List.mem_map]
    refine ⟨w.nextSlot, ?_, ?_⟩
    · rw [List.mem_filter]
      refine ⟨?_, ?_⟩
      · rw [hsig, mem_flat_addSlotGroups]; exact Or.inl rfl
      · unfold active slot_connected slot_blocked
        rw [hslot]
        rfl
    · unfold callOf connArg
      rw [hslot]

theorem C13_scoped_lifetime_witness :
    0 < (World.init 1).sigs.length ∧
    slot_count ((connect_scoped 0 (freeFn 1) 0 (World.init 1)).1.destroy
      (connect_scoped 0 (freeFn 1) 0 (World.init 1)).2) 0 = slot_count (World.init 1) 0 ∧
    ∃ w1 L, run adder 2 (List.replicate 100 (Op.emit 0 [1]))
          (connect_scoped 0 (freeFn 1) 0 (World.init 1)).2 = Outcome.done w1 ∧
        w1.log = (World.init 1).log ++ (List.replicate 100 L).flatten ∧
        (⟨(World.init 1).snaps.length + 1, (World.init 1).nextSlot, [1], none⟩ : Call) ∈ L ∧
        slot_count ((connect_scoped 0 (freeFn 1) 0 (World.init 1)).1.destroy w1) 0
          = slot_count (World.init 1) 0 ∧
        NeverInvoked (World.init 1).nextSlot
          ((connect_scoped 0 (freeFn 1) 0 (World.init 1)).1.destroy w1) :=
  ⟨by decide, (C13_scoped_lifetime 0 (freeFn 1) 0 (World.init 1) (by decide)).2.2.1,
    (C13_scoped_lifetime 0 (freeFn 1) 0 (World.init 1) (by decide)).2.2.2.2 adder [1] 100
      adder_inert (by decide) (by decide)⟩

theorem slot_disconnect_other (s t : SlotId) (w : World) (h : t ≠ s) :
    ((slot_disconnect s w).2.slots t).m_connected = (w.slots t).m_connected := by
  unfold slot_disconnect
  by_cases hc : (w.slots s).m_connected = true
  · simp only [hc, if_true]
    rw [clean_connected, modifySlot_slots_ne _ _ _ _ h]
  · simp only [hc]
    rfl

theorem slot_disconnect_fst (s : SlotId) (w : World) :
    (slot_disconnect s w).1 = (w.slots s).m_connected := by
  unfold slot_disconnect
  by_cases hc : (w.slots s).m_connected = true
  · simp [hc]
  · simp only [hc]
    simp [hc]

theorem drop_alive (c : Connection) (s : SlotId) (w : World) (hc : c.m_state = some s)
    (ha : w.alive s = true) :
    (c.disconnect w).1 = (w.slots s).m_connected ∧
    ((c.disconnect w).2.slots s).m_connected = false := by
  have : c = ⟨some s⟩ := by cases c; simp at hc; simp [hc]
  rw [this, conn_disconnect_of_alive s w ha]
  exact ⟨slot_disconnect_fst s w, slot_disconnect_flag s w⟩

theorem disconnect_twice_later (c : Connection) (w : World)
    (halloc : ∀ s, c.m_state = some s → s < w.nextSlot)
    {w1 : World} (hm : Mono (c.disconnect w).2 w1) (hsn : w1.snaps = (c.disconnect w).2.snaps) :
    c.disconnect w1 = (false, w1) := by
  have hn := silent_nextSlot (silent_conn_disconnect c w)
  cases hl : c.lock w with
  | none =>
    have hw : (c.disconnect w).2 = w := by simp [Connection.disconnect, hl]
    rw [hw] at hm hsn
    exact (stale_ops c w1 (lock_none_mono hm hsn c halloc hl)).2.2.1
  | some s =>
    have hcs : c.m_state = some s := by
      unfold Connection.lock at hl
      cases hc : c.m_state with
      | none => rw [hc] at hl; simp at hl
      | some t =>
        rw [hc] at hl
        simp only at hl
        split_ifs at hl
        simpa using hl
    have hfl : (((c.disconnect w).2).slots s).m_connected = false := by
      simp only [Connection.disconnect, hl]
      exact slot_disconnect_flag s w
    apply conn_disconnect_of_not_connected
    intro t ht
    rw [hcs] at ht
    cases ht
    by_contra h1
    rw [(hm.2.2 s (Nat.lt_of_lt_of_le (halloc s hcs) hn)).2.2.2.2.2.2.1 (by simpa using h1)]
      at hfl
    exact Bool.noConfusion hfl

/-- C14: moving scoped connection `b` into `a` hands over the obligation to disconnect. After
move construction `a` refers to the slot of `b` and `b` to nothing: destroying `b` changes
nothing in any state, destroying `a` disconnects the slot (`disconnect()` returns the connected
flag of the slot, which is false afterwards). Move assignment first disconnects the slot `a`
referred to, exactly as the destructor of `a` would, leaves the connected flag of a different
slot of `b` untouched, and swaps the two references; in every state a program reaches
afterwards, destroying `b` changes nothing and its `disconnect()` returns false, so the former
slot of `a` is disconnected once only, at the assignment, and destroying `a` disconnects the
slot `b` referred to. -/
theorem C14_scoped_move (a b : ScopedConnection) (w : World)
    (halloc : ∀ s, a.m_state = some s → s < w.nextSlot) :
    (b.move_construct.1.m_state = b.m_state ∧ b.move_construct.2.m_state = none ∧
      (∀ w1, b.move_construct.2.destroy w1 = w1) ∧
      (∀ w1 s, b.m_state = some s → w1.alive s = true →
        (b.move_construct.1.toConnection.disconnect w1).1 = (w1.slots s).m_connected ∧
        ((b.move_construct.1.destroy w1).slots s).m_connected = false)) ∧
    ((a.move_assign b w).1.m_state = b.m_state ∧ (a.move_assign b w).2.1.m_state = a.m_state ∧
      (a.move_assign b w).2.2 = a.destroy w ∧
      (∀ s, a.m_state = some s → w.alive s = true →
        (a.toConnection.disconnect w).1 = (w.slots s).m_connected ∧
        ((a.move_assign b w).2.2.slots s).m_connected = false) ∧
      (∀ s, b.m_state = some s → a.m_state ≠ some s →
        ((a.move_assign b w).2.2.slots s).m_connected = (w.slots s).m_connected) ∧
      (∀ (prog : Prog) (fuel : Nat) (ops : List Op) (w1 : World),
        (run prog fuel ops (a.move_assign b w).2.2).final = some w1 →
        (a.move_assign b w).2.1.toConnection.disconnect w1 = (false, w1) ∧
        (a.move_assign b w).2.1.destroy w1 = w1 ∧
        ∀ s, b.m_state = some s → w1.alive s = true →
          ((a.move_assign b w).1.toConnection.disconnect w1).1 = (w1.slots s).m_connected ∧
          (((a.move_assign b w).1.destroy w1).slots s).m_connected = false)) := by
  refine ⟨⟨rfl, rfl, fun w1 => rfl, ?_⟩, rfl, rfl, rfl, ?_, ?_, ?_⟩
  · intro w1 s hb ha
    exact drop_alive ⟨b.m_state⟩ s w1 hb ha
  · intro s has ha
    exact drop_alive a.toConnection s w has ha
  · intro s hb hne
    show ((a.toConnection.disconnect w).2.slots s).m_connected = _
    unfold Connection.disconnect
    cases hl : a.toConnection.lock w with
    | none => rfl
    | some t =>
      simp only
      apply slot_disconnect_other
      intro hst
      apply hne
      unfold Connection.lock at hl
      cases hc : a.m_state with
      | none => rw [hc] at hl; simp at hl
      | some u =>
        rw [hc] at hl
        simp only at hl
        split_ifs at hl
        simp only [Option.some.injEq] at hl
        rw [hst, hl]
  · intro prog fuel ops w1 hrun
    obtain ⟨hm, hsn, -⟩ := run_runs prog fuel ops _ w1 hrun
    have h1 : Connection.disconnect ⟨a.m_state⟩ w1 = (false, w1) :=
      disconnect_twice_later a.toConnection w halloc hm hsn
    refine ⟨h1, ?_, ?_⟩
    · show (Connection.disconnect ⟨a.m_state⟩ w1).2 = w1
      rw [h1]
    · intro s hb ha
      exact drop_alive ⟨b.m_state⟩ s w1 hb ha

theorem C14_scoped_move_witness :
    (((ScopedConnection.move_assign ⟨⟨some 0⟩⟩ ⟨⟨some 1⟩⟩ worldF).2.2.slots 0).m_connected
      = false) ∧
    (((ScopedConnection.move_assign ⟨⟨some 0⟩⟩ ⟨⟨some 1⟩⟩ worldF).2.2.slots 1).m_connected
      = (worldF.slots 1).m_connected) ∧
    Connection.disconnect ⟨some 0⟩ (ScopedConnection.move_assign ⟨⟨some 0⟩⟩ ⟨⟨some 1⟩⟩ worldF).2.2
      = (false, (ScopedConnection.move_assign ⟨⟨some 0⟩⟩ ⟨⟨some 1⟩⟩ worldF).2.2) ∧
    ((ScopedConnection.destroy ⟨⟨some 1⟩⟩
      (ScopedConnection.move_assign ⟨⟨some 0⟩⟩ ⟨⟨some 1⟩⟩ worldF).2.2).slots 1).m_connected
      = false :=
  ⟨((C14_scoped_move ⟨⟨some 0⟩⟩ ⟨⟨some 1⟩⟩ worldF (fun s h => by cases h; decide)).2.2.2.2.1
      0 rfl (by decide)).2,
    (C14_scoped_move ⟨⟨some 0⟩⟩ ⟨⟨some 1⟩⟩ worldF (fun s h => by cases h; decide)).2.2.2.2.2.1
      1 rfl (by decide),
    ((C14_scoped_move ⟨⟨some 0⟩⟩ ⟨⟨some 1⟩⟩ worldF (fun s h => by cases h; decide)).2.2.2.2.2.2
      adder 1 [] _ rfl).1,
    (((C14_scoped_move ⟨⟨some 0⟩⟩ ⟨⟨some 1⟩⟩ worldF (fun s h => by cases h; decide)).2.2.2.2.2.2
      adder 1 [] _ rfl).2.2 1 rfl (by decide)).2⟩

/-! ## A callable that raises (C17) -/

theorem slot_invoke_threw (prog : Prog) (step : Op → World → Outcome)
    (hstep : ∀ op w w1, (step op w).final = some w1 → Runs w w1)
    (s : SlotId) (a : Args) (w w1 : World)
    (h : slot_invoke prog step s a w = Outcome.threw w1) :
    active w s = true ∧ w1.snaps = w.snaps ∧
    ∃ rest, w1.log = w.log ++ callOf w w.snaps.length a s :: rest ∧
      ∀ c ∈ rest, w.snaps.length < c.depth := by
  have hact : active w s = true := by
    by_contra hn
    have hn2 : active w s = false := by simpa using hn
    by_cases hp : pendingExpiry w s = true
    · rw [slot_invoke_pending prog step s a w hp] at h
      exact Outcome.noConfusion h
    · rw [slot_invoke_idle prog step s a w hn2 (by simpa using hp)] at h
      exact Outcome.noConfusion h
  obtain ⟨-, hsn, added, hl, hcase⟩ := slot_invoke_step prog step hstep s a w w1 (by rw [h]; rfl)
  rcases hcase with ⟨h1, -⟩ | ⟨-, rest, hr, hf⟩
  · rw [hact] at h1; exact Bool.noConfusion h1
  · exact ⟨hact, hsn, rest, by rw [hl, hr], fun c hc => (hf c hc).1⟩

/-- C17: when the emission on an emitter that is not globally blocked has gone through the
slots `pre` of the snapshot and the callable of the next slot `s` raises, the emit ends with
that exception and invokes nothing more: the calls it recorded are the calls of the slots of
`pre` (a slot occurring once in `pre` is invoked exactly once if it is connected and not blocked
at its turn, and not at all otherwise), then the call of `s` with what its callable did before
raising, and no call directly made by this emission is on a slot outside `pre` and other than
`s`. -/
theorem C17_exception_propagates (prog : Prog) (fuel : Nat) (e : SigId) (a : Args)
    (w wt ws : World) (pre post : List SlotId) (s : SlotId)
    (hb : (w.sig e).m_block = false) (hflat : flat (w.sig e).m_slots = pre ++ s :: post)
    (hpre : emitSlots prog (exec prog fuel) pre a (w.pushSnap e) = Outcome.done wt)
    (hs : slot_invoke prog (exec prog fuel) s a wt = Outcome.threw ws) :
    emitTop prog fuel e a w = Outcome.threw ws.popSnap ∧ active wt s = true ∧
    ∃ added rest, wt.log = w.log ++ added ∧
      ws.popSnap.log = w.log ++ added ++ callOf wt (w.snaps.length + 1) a s :: rest ∧
      (∀ c ∈ rest, w.snaps.length + 1 < c.depth) ∧
      List.Sublist
        ((added.filter (fun c => decide (c.depth = w.snaps.length + 1))).map Call.slot) pre ∧
      (∀ c ∈ added, w.snaps.length + 1 ≤ c.depth ∧
        (c.depth = w.snaps.length + 1 → c.args = a ∧ c.slot ∈ pre)) ∧
      (∀ p1 t p2, pre = p1 ++ t :: p2 → t ∉ p1 → t ∉ p2 →
        ∃ w0, emitSlots prog (exec prog fuel) p1 a (w.pushSnap e) = Outcome.done w0 ∧
          added.filter (fun c => decide (c.depth = w.snaps.length + 1 ∧ c.slot = t)) =
            if active w0 t = true then [callOf w0 (w.snaps.length + 1) a t] else []) ∧
      (∀ t, t ∉ pre → t ≠ s →
        ∀ c ∈ added ++ callOf wt (w.snaps.length + 1) a s :: rest,
          c.depth = w.snaps.length + 1 → c.slot ≠ t) := by
  have hlen : (w.pushSnap e).snaps.length = w.snaps.length + 1 := by
    simp [World.pushSnap]
  obtain ⟨-, hsn, added, hl, hsub, hc⟩ :=
    emitSlots_emitted prog _ (exec_runs prog fuel) a pre _ wt (by rw [hpre]; rfl)
  obtain ⟨hact, -, rest, hr, hdeep⟩ :=
    slot_invoke_threw prog _ (exec_runs prog fuel) s a wt ws hs
  rw [hsn, hlen] at hr hdeep
  rw [hlen] at hsub
  have hlog0 : (w.pushSnap e).log = w.log := rfl
  rw [hlog0] at hl
  have hmem : ∀ c ∈ added, w.snaps.length + 1 ≤ c.depth ∧
      (c.depth = w.snaps.length + 1 → c.args = a ∧ c.slot ∈ pre) := by
    intro c hm
    rcases hc c hm with ⟨d1, d2, d3, -⟩ | ⟨f1, -⟩
    · rw [hlen] at d1
      exact ⟨by omega, fun _ => ⟨d2, d3⟩⟩
    · rw [hlen] at f1
      exact ⟨by omega, fun hd => by omega⟩
  refine ⟨?_, hact, added, rest, hl, ?_, hdeep, hsub, hmem, ?_, ?_⟩
  · unfold emitTop
    rw [emit_eq prog _ e a w hb, hflat, emitSlots_append, hpre]
    simp only [emitSlots, hs]
  · show ws.log = _
    rw [hr, hl]
  · intro p1 t p2 hsplit h1 h2
    subst hsplit
    have := emitSlots_turn prog _ (exec_runs prog fuel) p1 t p2 a (w.pushSnap e) wt
      added (by rw [hlog0]; exact hl) h1 h2 hpre
    rw [hlen] at this
    exact this
  · intro t htp hts c hm hd hct
    rcases List.mem_append.1 hm with h1 | h1
    · exact htp (hct ▸ ((hmem c h1).2 hd).2)
    · rcases List.mem_cons.1 h1 with h2 | h2
      · rw [h2] at hct
        exact hts hct.symm
      · have := hdeep c h2
        omega

theorem C17_exception_propagates_witness :
    (worldF.sig 0).m_block = false ∧ flat (worldF.sig 0).m_slots = [0] ++ 1 :: [2, 3] ∧
    ∃ ws, emitTop thrower 1 0 [1] worldF = Outcome.threw ws ∧
      ws.log.map Call.slot = [0, 1] ∧ ws.counter = 1 :=
  ⟨by decide, by decide, _,
    (C17_exception_propagates thrower 1 0 [1] worldF _ _ [0] [2, 3] 1 (by decide) (by decide)
      rfl rfl).1, by decide, by decide⟩

/-! ## Properties kept by every run -/

theorem runOps_preserved (I : World → Prop) (ok : Op → Prop) (step : Op → World → Outcome)
    (hstep : ∀ op w w1, ok op → I w → (step op w).final = some w1 → I w1) :
    ∀ (ops : List Op) (w w1 : World), (∀ op ∈ ops, ok op) → I w →
      (runOps step ops w).final = some w1 → I w1 := by
  intro ops
  induction ops with
  | nil =>
    intro w w1 _ hI h
    simp only [runOps, Outcome.final, Option.some.injEq] at h
    subst h; exact hI
  | cons op ops ih =>
    intro w w1 hok hI h
    simp only [runOps] at h
    cases hs : step op w with
    | done w2 =>
      rw [hs] at h
      exact ih w2 w1 (fun o ho => hok o (List.mem_cons_of_mem _ ho))
        (hstep op w w2 (hok op (List.mem_cons_self _ _)) hI (by rw [hs]; rfl)) h
    | threw w2 =>
      rw [hs] at h
      simp only [Outcome.final, Option.some.injEq] at h
      subst h
      exact hstep op w w2 (hok op (List.mem_cons_self _ _)) hI (by rw [hs]; rfl)
    | stuck =>
      rw [hs] at h
      simp [Outcome.final] at h

theorem userCall_preserved {prog : Prog} {I : World → Prop} {ok : Op → Prop}
    (hp : Preserved prog I ok) (step : Op → World → Outcome)
    (hstep : ∀ op w w1, ok op → I w → (step op w).final = some w1 → I w1)
    (s : SlotId) (c : Option Connection) (a : Args) (w w1 : World) (hI : I w)
    (hc : (w.slots s).m_connected = true) (hb : (w.slots s).m_blocked = false)
    (h : (userCall prog step s c a w).final = some w1) : I w1 := by
  unfold userCall at h
  exact runOps_preserved I ok step hstep _ _ w1 (hp.code _ _ _) (hp.call w s a c hI hc hb) h

theorem slot_invoke_preserved {prog : Prog} {I : World → Prop} {ok : Op → Prop}
    (hp : Preserved prog I ok) (step : Op → World → Outcome)
    (hstep : ∀ op w w1, ok op → I w → (step op w).final = some w1 → I w1)
    (s : SlotId) (a : Args) (w w1 : World) (hI : I w)
    (h : (slot_invoke prog step s a w).final = some w1) : I w1 := by
  unfold slot_invoke at h
  by_cases hg : ((w.slots s).m_connected && !(w.slots s).m_blocked) = true
  · rw [if_pos hg] at h
    simp only [Bool.and_eq_true, Bool.not_eq_true'] at hg
    obtain ⟨hc, hb⟩ := hg
    unfold call_slot at h
    cases hk : (w.slots s).kind <;> rw [hk] at h <;> simp only [] at h
    · exact userCall_preserved hp step hstep s _ a w w1 hI hc hb h
    · exact userCall_preserved hp step hstep s _ a w w1 hI hc hb h
    · exact userCall_preserved hp step hstep s _ a w w1 hI hc hb h
    · exact userCall_preserved hp step hstep s _ a w w1 hI hc hb h
    · by_cases he : ptr_expired w (w.slots s).ptr = true
      · rw [if_pos he] at h
        simp only [Outcome.final, Option.some.injEq] at h
        subst h; exact hp.expire w s hI
      · rw [if_neg he, if_pos hc] at h
        exact userCall_preserved hp step hstep s _ a w w1 hI hc hb h
    · by_cases he : ptr_expired w (w.slots s).ptr = true
      · rw [if_pos he] at h
        simp only [Outcome.final, Option.some.injEq] at h
        subst h; exact hp.expire w s hI
      · rw [if_neg he, if_pos hc] at h
        exact userCall_preserved hp step hstep s _ a w w1 hI hc hb h
  · rw [if_neg hg] at h
    simp only [Outcome.final, Option.some.injEq] at h
    subst h; exact hI

theorem emitSlots_preserved {prog : Prog} {I : World → Prop} {ok : Op → Prop}
    (hp : Preserved prog I ok) (step : Op → World → Outcome)
    (hstep : ∀ op w w1, ok op → I w → (step op w).final = some w1 → I w1) (a : Args) :
    ∀ (l : List SlotId) (w w1 : World), I w →
      (emitSlots prog step l a w).final = some w1 → I w1 := by
  intro l
  induction l with
  | nil =>
    intro w w1 hI h
    simp only [emitSlots, Outcome.final, Option.some.injEq] at h
    subst h; exact hI
  | cons s l ih =>
    intro w w1 hI h
    simp only [emitSlots] at h
    cases hs : slot_invoke prog step s a w with
    | done w2 =>
      rw [hs] at h
      exact ih w2 w1 (slot_invoke_preserved hp step hstep s a w w2 hI (by rw [hs]; rfl)) h
    | threw w2 =>
      rw [hs] at h
      simp only [Outcome.final, Option.some.injEq] at h
      subst h
      exact slot_invoke_preserved hp step hstep s a w w2 hI (by rw [hs]; rfl)
    | stuck =>
      rw [hs] at h
      simp [Outcome.final] at h

theorem emit_preserved {prog : Prog} {I : World → Prop} {ok : Op → Prop}
    (hp : Preserved prog I ok) (step : Op → World → Outcome)
    (hstep : ∀ op w w1, ok op → I w → (step op w).final = some w1 → I w1)
    (e : SigId) (a : Args) (w w1 : World) (hI : I w)
    (h : (emit prog step e a w).final = some w1) : I w1 := by
  by_cases hb : (w.sig e).m_block = true
  · simp only [emit, hb, if_true, Outcome.final, Option.some.injEq] at h
    subst h; exact hI
  · obtain ⟨w2, h2, rfl⟩ := emit_final prog step e a w w1 (by simpa using hb) h
    exact hp.pop _ (emitSlots_preserved hp step hstep a _ _ w2 (hp.push w e hI) h2)

theorem exec_preserved {prog : Prog} {I : World → Prop} {ok : Op → Prop}
    (hp : Preserved prog I ok) :
    ∀ (fuel : Nat) (op : Op) (w w1 : World), ok op → I w →
      (exec prog fuel op w).final = some w1 → I w1 := by
  intro fuel
  induction fuel with
  | zero =>
    intro op w w1 _ _ h
    simp [exec, Outcome.final] at h
  | succ n ih =>
    intro op w w1 hok hI h
    unfold exec at h
    by_cases hem : ∃ e a, op = Op.emit e a
    · obtain ⟨e, a, rfl⟩ := hem
      exact emit_preserved hp (exec prog n) ih e a w w1 hI h
    · exact hp.prim op w hok hI (fun e a he => hem ⟨e, a, he⟩) _ w1 h

theorem run_preserved {prog : Prog} {I : World → Prop} {ok : Op → Prop}
    (hp : Preserved prog I ok) (fuel : Nat) (ops : List Op) (w w1 : World)
    (hok : ∀ op ∈ ops, ok op) (hI : I w) (h : (run prog fuel ops w).final = some w1) : I w1 :=
  runOps_preserved I ok _ (exec_preserved hp fuel) ops w w1 hok hI h

/-! ## Group ids stored in slots -/

theorem inGroup_congr {w w1 : World} (h : w1.sigs = w.sigs) (gid : Int) (t : SlotId) :
    w1.inGroup gid t ↔ w.inGroup gid t := by
  unfold World.inGroup
  rw [h]

theorem inGroup_of_sig (w : World) (e : SigId) (gid : Int) (t : SlotId)
    (h : ∃ g ∈ (w.sig e).m_slots, g.gid = gid ∧ t ∈ g.slts) : w.inGroup gid t := by
  by_cases he : e < w.sigs.length
  · refine ⟨w.sig e, ?_, h⟩
    unfold World.sig
    rw [List.getD_eq_getElem?_getD, List.getElem?_eq_getElem he]
    exact List.getElem_mem _
  · rw [sig_of_ge w e (Nat.le_of_not_lt he)] at h
    obtain ⟨g, hg, -⟩ := h
    exact absurd hg (List.not_mem_nil g)

theorem inGroup_setSig (w : World) (e : SigId) (x : Signal) (gid : Int) (t : SlotId)
    (h : (w.setSig e x).inGroup gid t) :
    (∃ g ∈ x.m_slots, g.gid = gid ∧ t ∈ g.slts) ∨ w.inGroup gid t := by
  obtain ⟨sg, hsg, hh⟩ := h
  rcases List.mem_or_eq_of_mem_set hsg with h1 | h1
  · exact Or.inr ⟨sg, h1, hh⟩
  · subst h1; exact Or.inl hh

theorem inGroup_setGroups (w : World) (e : SigId) (gs : List Group)
    (hsub : SubGroups gs (w.sig e).m_slots) (gid : Int) (t : SlotId)
    (h : (w.setGroups e gs).inGroup gid t) : w.inGroup gid t := by
  rcases inGroup_setSig w e _ gid t h with ⟨g1, hg1, h1, h2⟩ | h1
  · obtain ⟨g, hg, h3, h4⟩ := hsub g1 hg1 t h2
    exact inGroup_of_sig w e gid t ⟨g, hg, h3.trans h1, h4⟩
  · exact h1

theorem groupIds_of {w w1 : World} (hw : GroupIds w) (hm : Mono w w1)
    (h : ∀ gid t, w1.inGroup gid t → w.inGroup gid t) : GroupIds w1 := by
  intro gid t ht
  obtain ⟨h1, h2⟩ := hw gid t (h gid t ht)
  exact ⟨by rw [(hm.2.2 t h2).1, h1], Nat.lt_of_lt_of_le h2 hm.1⟩

theorem subGroups_refl (gs : List Group) : SubGroups gs gs :=
  fun g1 hg1 _ ht => ⟨g1, hg1, rfl, ht⟩

theorem disconnectIfGroups_subGroups (cond : World → SlotId → Bool) :
    ∀ (gs : List Group) (w : World) (count : Nat),
      SubGroups (disconnectIfGroups cond gs w count).1 gs := by
  intro gs
  induction gs with
  | nil =>
    intro w count g1 hg1
    simp [disconnectIfGroups] at hg1
  | cons g gs ih =>
    intro w count g1 hg1 t ht
    simp only [disconnectIfGroups, List.mem_cons] at hg1
    rcases hg1 with h | h
    · subst h
      exact ⟨g, List.mem_cons_self _ _, rfl,
        (disconnectIfLoop_sub cond g.slts.length 0 g.slts w count).1 t ht⟩
    · obtain ⟨g2, hg2, h3, h4⟩ := ih _ _ g1 h t ht
      exact ⟨g2, List.mem_cons_of_mem _ hg2, h3, h4⟩

theorem disconnectGroupGroups_subGroups (gid : Int) (gs : List Group) :
    SubGroups (disconnectGroupGroups gid gs).2 gs := by
  induction gs with
  | nil =>
    intro g1 hg1
    simp [disconnectGroupGroups] at hg1
  | cons g gs ih =>
    intro g1 hg1 t ht
    unfold disconnectGroupGroups at hg1
    split_ifs at hg1 with h1
    · simp only [List.mem_cons] at hg1
      rcases hg1 with h | h
      · subst h; exact absurd ht (List.not_mem_nil t)
      · exact ⟨g1, List.mem_cons_of_mem _ h, rfl, ht⟩
    · simp only [List.mem_cons] at hg1
      rcases hg1 with h | h
      · subst h; exact ⟨g1, List.mem_cons_self _ _, rfl, ht⟩
      · obtain ⟨g2, hg2, h3, h4⟩ := ih g1 h t ht
        exact ⟨g2, List.mem_cons_of_mem _ hg2, h3, h4⟩

theorem cleanGroups_subGroups (state : SlotId) (idx : Nat) (gid : Int) (gs : List Group) :
    SubGroups (cleanGroups state idx gid gs).1 gs := by
  induction gs with
  | nil =>
    intro g1 hg1
    simp [cleanGroups] at hg1
  | cons g gs ih =>
    intro g1 hg1 t ht
    unfold cleanGroups at hg1
    split_ifs at hg1 with h1 h2
    · simp only [List.mem_cons] at hg1
      rcases hg1 with h | h
      · subst h
        exact ⟨g, List.mem_cons_self _ _, rfl, swapPop_mem g.slts idx state t h2 ht⟩
      · exact ⟨g1, List.mem_cons_of_mem _ h, rfl, ht⟩
    · exact ⟨g1, hg1, rfl, ht⟩
    · simp only [List.mem_cons] at hg1
      rcases hg1 with h | h
      · subst h; exact ⟨g1, List.mem_cons_self _ _, rfl, ht⟩
      · obtain ⟨g2, hg2, h3, h4⟩ := ih g1 h t ht
        exact ⟨g2, List.mem_cons_of_mem _ hg2, h3, h4⟩

theorem shrinks_refl (w : World) : Shrinks w w := fun _ _ h => h

theorem shrinks_trans {w w1 w2 : World} (h1 : Shrinks w w1) (h2 : Shrinks w1 w2) :
    Shrinks w w2 := fun gid t h => h1 gid t (h2 gid t h)

theorem shrinks_of_sigs {w w1 : World} (h : w1.sigs = w.sigs) : Shrinks w w1 :=
  fun gid t ht => (inGroup_congr h gid t).1 ht

theorem shrinks_setGroups (w : World) (e : SigId) (gs : List Group)
    (hsub : SubGroups gs (w.sig e).m_slots) : Shrinks w (w.setGroups e gs) :=
  fun gid t h => inGroup_setGroups w e gs hsub gid t h

theorem shrinks_setSig (w : World) (e e1 : SigId) (b : Bool) :
    Shrinks w (w.setSig e ⟨(w.sig e1).m_slots, b⟩) := by
  intro gid t h
  rcases inGroup_setSig w e _ gid t h with h1 | h1
  · exact inGroup_of_sig w e1 gid t h1
  · exact h1

theorem shrinks_disconnect_if (cond : World → SlotId → Bool) (e : SigId) (w : World) :
    Shrinks w (disconnect_if cond e w).2 := by
  obtain ⟨-, h2⟩ := disconnectIfGroups_sub cond (w.sig e).m_slots w 0
  have hsig : (disconnectIfGroups cond (w.sig e).m_slots w 0).2.1.sigs = w.sigs := h2.1
  refine shrinks_trans (shrinks_of_sigs hsig) ?_
  unfold disconnect_if
  apply shrinks_setGroups
  have : (disconnectIfGroups cond (w.sig e).m_slots w 0).2.1.sig e = w.sig e := by
    simp only [World.sig] at hsig ⊢
    rw [hsig]
  rw [this]
  exact disconnectIfGroups_subGroups cond _ _ _

theorem shrinks_disconnect_group (e : SigId) (gid : Int) (w : World) :
    Shrinks w (disconnect_group e gid w).2 :=
  shrinks_setGroups w e _ (disconnectGroupGroups_subGroups gid _)

theorem shrinks_disconnect_all (e : SigId) (w : World) : Shrinks w (disconnect_all e w) :=
  shrinks_setGroups w e [] (fun g1 hg1 => absurd hg1 (List.not_mem_nil g1))

theorem shrinks_move_construct (dst src : SigId) (w : World) :
    Shrinks w (move_construct dst src w) := by
  unfold move_construct
  exact shrinks_trans (shrinks_setSig w dst src _)
    (shrinks_setGroups _ src [] (fun g1 hg1 => absurd hg1 (List.not_mem_nil g1)))

theorem shrinks_move_assign (dst src : SigId) (w : World) :
    Shrinks w (move_assign dst src w) := by
  intro gid t h
  rcases inGroup_setSig _ src _ gid t h with h1 | h1
  · exact inGroup_of_sig w dst gid t h1
  · exact shrinks_setSig w dst src _ gid t h1

theorem shrinks_clean (e : SigId) (s : SlotId) (w : World) : Shrinks w (clean e s w) := by
  unfold clean
  simp only
  split
  · exact shrinks_trans (shrinks_setGroups w e _ (cleanGroups_subGroups _ _ _ _))
      (shrinks_of_sigs rfl)
  · exact shrinks_setGroups w e _ (cleanGroups_subGroups _ _ _ _)

theorem shrinks_slot_disconnect (s : SlotId) (w : World) :
    Shrinks w (slot_disconnect s w).2 := by
  unfold slot_disconnect
  split
  · exact shrinks_trans (shrinks_of_sigs rfl) (shrinks_clean _ s _)
  · exact shrinks_refl w

theorem shrinks_conn_disconnect (c : Connection) (w : World) :
    Shrinks w (c.disconnect w).2 := by
  unfold Connection.disconnect
  split
  · exact shrinks_refl w
  · exact shrinks_slot_disconnect _ w

theorem foldl_modifySlot_sigs (f : Slot → Slot) (l : List SlotId) (w : World) :
    (l.foldl (fun w1 s => w1.modifySlot s f) w).sigs = w.sigs := by
  induction l generalizing w with
  | nil => rfl
  | cons s l ih => simp only [List.foldl_cons]; rw [ih]; rfl

theorem setBlockedGroups_sigs (b : Bool) (gid : Int) (gs : List Group) (w : World) :
    (setBlockedGroups b gid gs w).sigs = w.sigs := by
  induction gs generalizing w with
  | nil => rfl
  | cons g gs ih =>
    unfold setBlockedGroups
    split_ifs
    · rw [ih, foldl_modifySlot_sigs]
    · exact ih w

theorem shrinks_foldl_disconnect (l : List Connection) (w : World) :
    Shrinks w (l.foldl (fun w1 c => (c.disconnect w1).2) w) := by
  induction l generalizing w with
  | nil => exact shrinks_refl w
  | cons c l ih =>
    simp only [List.foldl_cons]
    exact shrinks_trans (shrinks_conn_disconnect c w) (ih _)

theorem shrinks_observer_disconnect_all (obs : Nat) (w : World) :
    Shrinks w (observer_disconnect_all obs w) :=
  shrinks_trans (shrinks_foldl_disconnect _ w) (shrinks_of_sigs rfl)

theorem groupIds_connect_call (e : SigId) (k : ConnectCall) (gid : Int) (w : World)
    (hw : GroupIds w) : GroupIds (connect_call e k gid w).2 := by
  obtain ⟨-, -, -, hn, -, hs⟩ := connect_call_frame e k gid w
  obtain ⟨-, hg, -⟩ := connect_call_slot e k gid w
  have old : ∀ gid1 t, w.inGroup gid1 t →
      ((connect_call e k gid w).2.slots t).m_group = gid1 ∧
        t < (connect_call e k gid w).2.nextSlot := by
    intro gid1 t h
    obtain ⟨h1, h2⟩ := hw gid1 t h
    rw [hs t (Nat.ne_of_lt h2), hn]
    exact ⟨h1, Nat.lt_succ_of_lt h2⟩
  intro gid1 t ht
  rw [inGroup_congr (connect_call_sigs e k gid w)] at ht
  rcases inGroup_setSig w e _ gid1 t ht with ⟨g1, hg1, h1, h2⟩ | h1
  · rcases addSlotGroups_slts _ gid _ g1 hg1 t h2 with ⟨h3, h4⟩ | ⟨g, hg2, h3, h4⟩
    · subst h3
      rw [hg, hn]
      exact ⟨h4.symm.trans h1, Nat.lt_succ_self _⟩
    · exact old gid1 t (inGroup_of_sig w e gid1 t ⟨g, hg2, h3.trans h1, h4⟩)
  · exact old gid1 t h1

/-- A call other than an emission goes through no user code. -/
theorem silent_step (prog : Prog) (step : Op → World → Outcome) (op : Op) (w w1 : World)
    (hne : ∀ e a, op ≠ Op.emit e a) (h : (stepOp prog step op w).final = some w1) :
    Silent w w1 := by
  cases op with
  | emit e a => exact absurd rfl (hne e a)
  | raise =>
    simp only [stepOp, Outcome.final, Option.some.injEq] at h
    subst h; exact silent_refl w
  | connect e k gid =>
    simp only [stepOp, Outcome.final, Option.some.injEq] at h
    subst h; exact silent_connect_call e k gid w
  | disconnect_callable e c =>
    simp only [stepOp, Outcome.final, Option.some.injEq] at h
    subst h; exact silent_disconnect_if _ e w
  | disconnect_object e o =>
    simp only [stepOp, Outcome.final, Option.some.injEq] at h
    subst h; exact silent_disconnect_if _ e w
  | disconnect_both e c o =>
    simp only [stepOp, Outcome.final, Option.some.injEq] at h
    subst h; exact silent_disconnect_if _ e w
  | disconnect_group e gid =>
    simp only [stepOp, Outcome.final, Option.some.injEq] at h
    subst h; exact silent_disconnect_group e gid w
  | disconnect_all e =>
    simp only [stepOp, Outcome.final, Option.some.injEq] at h
    subst h; exact silent_disconnect_all e w
  | block e =>
    simp only [stepOp, Outcome.final, Option.some.injEq] at h
    subst h; exact silent_sig_block e w
  | unblock e =>
    simp only [stepOp, Outcome.final, Option.some.injEq] at h
    subst h; exact silent_sig_unblock e w
  | block_group e gid =>
    simp only [stepOp, Outcome.final, Option.some.injEq] at h
    subst h; exact silent_block_group e gid w
  | unblock_group e gid =>
    simp only [stepOp, Outcome.final, Option.some.injEq] at h
    subst h; exact silent_unblock_group e gid w
  | move_construct dst src =>
    simp only [stepOp, Outcome.final, Option.some.injEq] at h
    subst h; exact silent_move_construct dst src w
  | move_assign dst src =>
    simp only [stepOp, Outcome.final, Option.some.injEq] at h
    subst h; exact silent_move_assign dst src w
  | conn_disconnect c =>
    simp only [stepOp, Outcome.final, Option.some.injEq] at h
    subst h; exact silent_conn_disconnect c w
  | conn_block c =>
    simp only [stepOp, Outcome.final, Option.some.injEq] at h
    subst h; exact silent_conn_block c w
  | conn_unblock c =>
    simp only [stepOp, Outcome.final, Option.some.injEq] at h
    subst h; exact silent_conn_unblock c w
  | observer_disconnect_all obs =>
    simp only [stepOp, Outcome.final, Option.some.injEq] at h
    subst h; exact silent_observer_disconnect_all obs w
  | release a =>
    simp only [stepOp, Outcome.final, Option.some.injEq] at h
    subst h; exact silent_release_owner a w
  | add k =>
    simp only [stepOp, Outcome.final, Option.some.injEq] at h
    subst h; exact silent_add k w

theorem conn_block_sigs (c : Connection) (w : World) : (c.block w).sigs = w.sigs := by
  unfold Connection.block
  split <;> rfl

theorem conn_unblock_sigs (c : Connection) (w : World) : (c.unblock w).sigs = w.sigs := by
  unfold Connection.unblock
  split <;> rfl

/-- Every call other than an emission keeps the registries well formed. -/
theorem groupIds_step (prog : Prog) (step : Op → World → Outcome) (op : Op) (w w1 : World)
    (hne : ∀ e a, op ≠ Op.emit e a) (hw : GroupIds w)
    (h : (stepOp prog step op w).final = some w1) : GroupIds w1 := by
  have hm : Mono w w1 := (silent_step prog step op w w1 hne h).1
  cases op with
  | emit e a => exact absurd rfl (hne e a)
  | connect e k gid =>
    simp only [stepOp, Outcome.final, Option.some.injEq] at h
    subst h; exact groupIds_connect_call e k gid w hw
  | raise =>
    simp only [stepOp, Outcome.final, Option.some.injEq] at h
    subst h; exact hw
  | disconnect_callable e c =>
    simp only [stepOp, Outcome.final, Option.some.injEq] at h
    subst h; exact groupIds_of hw hm (shrinks_disconnect_if _ e w)
  | disconnect_object e o =>
    simp only [stepOp, Outcome.final, Option.some.injEq] at h
    subst h; exact groupIds_of hw hm (shrinks_disconnect_if _ e w)
  | disconnect_both e c o =>
    simp only [stepOp, Outcome.final, Option.some.injEq] at h
    subst h; exact groupIds_of hw hm (shrinks_disconnect_if _ e w)
  | disconnect_group e gid =>
    simp only [stepOp, Outcome.final, Option.some.injEq] at h
    subst h; exact groupIds_of hw hm (shrinks_disconnect_group e gid w)
  | disconnect_all e =>
    simp only [stepOp, Outcome.final, Option.some.injEq] at h
    subst h; exact groupIds_of hw hm (shrinks_disconnect_all e w)
  | block e =>
    simp only [stepOp, Outcome.final, Option.some.injEq] at h
    subst h; exact groupIds_of hw hm (shrinks_setSig w e e true)
  | unblock e =>
    simp only [stepOp, Outcome.final, Option.some.injEq] at h
    subst h; exact groupIds_of hw hm (shrinks_setSig w e e false)
  | block_group e gid =>
    simp only [stepOp, Outcome.final, Option.some.injEq] at h
    subst h; exact groupIds_of hw hm (shrinks_of_sigs (setBlockedGroups_sigs _ _ _ _))
  | unblock_group e gid =>
    simp only [stepOp, Outcome.final, Option.some.injEq] at h
    subst h; exact groupIds_of hw hm (shrinks_of_sigs (setBlockedGroups_sigs _ _ _ _))
  | move_construct dst src =>
    simp only [stepOp, Outcome.final, Option.some.injEq] at h
    subst h; exact groupIds_of hw hm (shrinks_move_construct dst src w)
  | move_assign dst src =>
    simp only [stepOp, Outcome.final, Option.some.injEq] at h
    subst h; exact groupIds_of hw hm (shrinks_move_assign dst src w)
  | conn_disconnect c =>
    simp only [stepOp, Outcome.final, Option.some.injEq] at h
    subst h; exact groupIds_of hw hm (shrinks_conn_disconnect c w)
  | conn_block c =>
    simp only [stepOp, Outcome.final, Option.some.injEq] at h
    subst h; exact groupIds_of hw hm (shrinks_of_sigs (conn_block_sigs c w))
  | conn_unblock c =>
    simp only [stepOp, Outcome.final, Option.some.injEq] at h
    subst h; exact groupIds_of hw hm (shrinks_of_sigs (conn_unblock_sigs c w))
  | observer_disconnect_all obs =>
    simp only [stepOp, Outcome.final, Option.some.injEq] at h
    subst h; exact groupIds_of hw hm (shrinks_observer_disconnect_all obs w)
  | release a =>
    simp only [stepOp, Outcome.final, Option.some.injEq] at h
    subst h; exact groupIds_of hw hm (shrinks_of_sigs rfl)
  | add k =>
    simp only [stepOp, Outcome.final, Option.some.injEq] at h
    subst h; exact groupIds_of hw hm (shrinks_of_sigs rfl)

theorem groupIds_slot_disconnect (s : SlotId) (w : World) (hw : GroupIds w) :
    GroupIds (slot_disconnect s w).2 :=
  groupIds_of hw (silent_slot_disconnect s w).1 (shrinks_slot_disconnect s w)

theorem groupIds_init (n : Nat) : GroupIds (World.init n) := by
  intro gid t h
  obtain ⟨sg, hsg, g, hg, -⟩ := h
  simp only [World.init] at hsg
  rw [List.eq_of_mem_replicate hsg] at hg
  exact absurd hg (List.not_mem_nil g)

/-! ## A slot guarded by a blocker (C16) -/

theorem foldl_block_true (l : List SlotId) (w : World) (s : SlotId)
    (h : (w.slots s).m_blocked = true) :
    ((l.foldl (fun w1 t => w1.modifySlot t (fun x => { x with m_blocked := true })) w).slots
      s).m_blocked = true := by
  induction l generalizing w with
  | nil => exact h
  | cons t l ih =>
    simp only [List.foldl_cons]
    apply ih
    by_cases hts : s = t
    · subst hts; simp
    · rw [modifySlot_slots_ne _ _ _ _ hts]; exact h

theorem setBlockedGroups_true (gid : Int) (gs : List Group) (w : World) (s : SlotId)
    (h : (w.slots s).m_blocked = true) :
    ((setBlockedGroups true gid gs w).slots s).m_blocked = true := by
  induction gs generalizing w with
  | nil => exact h
  | cons g gs ih =>
    unfold setBlockedGroups
    split_ifs
    · exact ih _ (foldl_block_true g.slts w s h)
    · exact ih w h

theorem foldl_modifySlot_other (f : Slot → Slot) (l : List SlotId) (w : World) (s : SlotId)
    (h : s ∉ l) : (l.foldl (fun w1 t => w1.modifySlot t f) w).slots s = w.slots s := by
  induction l generalizing w with
  | nil => rfl
  | cons t l ih =>
    simp only [List.foldl_cons]
    have hne : s ≠ t := fun hst => h (by rw [hst]; exact List.mem_cons_self _ _)
    rw [ih _ (fun hm => h (List.mem_cons_of_mem _ hm)), modifySlot_slots_ne _ _ _ _ hne]

theorem setBlockedGroups_other (b : Bool) (gid : Int) (gs : List Group) (w : World) (s : SlotId)
    (h : ∀ g ∈ gs, g.gid = gid → s ∉ g.slts) :
    (setBlockedGroups b gid gs w).slots s = w.slots s := by
  induction gs generalizing w with
  | nil => rfl
  | cons g gs ih =>
    unfold setBlockedGroups
    split_ifs with h1
    · rw [ih _ (fun x hx => h x (List.mem_cons_of_mem _ hx)),
        foldl_modifySlot_other _ _ _ _ (h g (List.mem_cons_self _ _) h1)]
    · exact ih w (fun x hx => h x (List.mem_cons_of_mem _ hx))

theorem conn_disconnect_blocked (c : Connection) (w : World) (t : SlotId) :
    ((c.disconnect w).2.slots t).m_blocked = (w.slots t).m_blocked := by
  unfold Connection.disconnect
  split
  · rfl
  · rename_i s _
    obtain ⟨i, k, h, -⟩ := slot_disconnect_slots s w t
    rw [h]

theorem foldl_disconnect_blocked (l : List Connection) (w : World) (t : SlotId) :
    ((l.foldl (fun w1 c => (c.disconnect w1).2) w).slots t).m_blocked
      = (w.slots t).m_blocked := by
  induction l generalizing w with
  | nil => rfl
  | cons c l ih =>
    simp only [List.foldl_cons]
    rw [ih, conn_disconnect_blocked]

theorem disconnect_if_blocked (cond : World → SlotId → Bool) (e : SigId) (w : World)
    (t : SlotId) : ((disconnect_if cond e w).2.slots t).m_blocked = (w.slots t).m_blocked := by
  obtain ⟨-, h2⟩ := disconnectIfGroups_sub cond (w.sig e).m_slots w 0
  obtain ⟨i, hi⟩ := h2.2.2.2.2.2.2.2 t
  show ((disconnectIfGroups cond (w.sig e).m_slots w 0).2.1.slots t).m_blocked = _
  rw [hi]

/-- A call other than an emission that does not unblock slot `s` leaves it blocked. -/
theorem blocked_step (prog : Prog) (step : Op → World → Outcome) (s : SlotId) (g : Int)
    (op : Op) (w w1 : World) (hok : unblocks s g op = false) (hne : ∀ e a, op ≠ Op.emit e a)
    (hw : GroupIds w) (hs : s < w.nextSlot) (hg : (w.slots s).m_group = g)
    (hb : (w.slots s).m_blocked = true) (h : (stepOp prog step op w).final = some w1) :
    (w1.slots s).m_blocked = true := by
  cases op with
  | emit e a => exact absurd rfl (hne e a)
  | connect e k gid =>
    simp only [stepOp, Outcome.final, Option.some.injEq] at h
    subst h
    rw [(connect_call_frame e k gid w).2.2.2.2.2 s (Nat.ne_of_lt hs)]; exact hb
  | raise =>
    simp only [stepOp, Outcome.final, Option.some.injEq] at h
    subst h; exact hb
  | disconnect_callable e c =>
    simp only [stepOp, Outcome.final, Option.some.injEq] at h
    subst h; exact (disconnect_if_blocked _ e w s).trans hb
  | disconnect_object e o =>
    simp only [stepOp, Outcome.final, Option.some.injEq] at h
    subst h; exact (disconnect_if_blocked _ e w s).trans hb
  | disconnect_both e c o =>
    simp only [stepOp, Outcome.final, Option.some.injEq] at h
    subst h; exact (disconnect_if_blocked _ e w s).trans hb
  | disconnect_group e gid =>
    simp only [stepOp, Outcome.final, Option.some.injEq] at h
    subst h; exact hb
  | disconnect_all e =>
    simp only [stepOp, Outcome.final, Option.some.injEq] at h
    subst h; exact hb
  | block e =>
    simp only [stepOp, Outcome.final, Option.some.injEq] at h
    subst h; exact hb
  | unblock e =>
    simp only [stepOp, Outcome.final, Option.some.injEq] at h
    subst h; exact hb
  | block_group e gid =>
    simp only [stepOp, Outcome.final, Option.some.injEq] at h
    subst h; exact setBlockedGroups_true gid _ w s hb
  | unblock_group e gid =>
    simp only [stepOp, Outcome.final, Option.some.injEq] at h
    subst h
    have hgid : gid ≠ g := by simpa [unblocks] using hok
    unfold unblock_group
    rw [setBlockedGroups_other false gid _ w s]
    · exact hb
    · intro x hx hxg hmem
      exact hgid ((hw gid s (inGroup_of_sig w e gid s ⟨x, hx, hxg, hmem⟩)).1.symm.trans hg)
  | move_construct dst src =>
    simp only [stepOp, Outcome.final, Option.some.injEq] at h
    subst h; exact hb
  | move_assign dst src =>
    simp only [stepOp, Outcome.final, Option.some.injEq] at h
    subst h; exact hb
  | conn_disconnect c =>
    simp only [stepOp, Outcome.final, Option.some.injEq] at h
    subst h; exact (conn_disconnect_blocked c w s).trans hb
  | conn_block c =>
    simp only [stepOp, Outcome.final, Option.some.injEq] at h
    subst h
    unfold Connection.block
    split
    · exact hb
    · rename_i t _
      unfold slot_block
      by_cases hts : s = t
      · subst hts; simp
      · rw [modifySlot_slots_ne _ _ _ _ hts]; exact hb
  | conn_unblock c =>
    simp only [stepOp, Outcome.final, Option.some.injEq] at h
    subst h
    have hcs : c.m_state ≠ some s := by simpa [unblocks] using hok
    unfold Connection.unblock
    split
    · exact hb
    · rename_i t hl
      have hts : s ≠ t := by
        intro hst
        apply hcs
        unfold Connection.lock at hl
        cases hc : c.m_state with
        | none => rw [hc] at hl; simp at hl
        | some u =>
          rw [hc] at hl
          simp only at hl
          split_ifs at hl
          simp only [Option.some.injEq] at hl
          rw [hst, hl]
      unfold slot_unblock
      rw [modifySlot_slots_ne _ _ _ _ hts]; exact hb
  | observer_disconnect_all obs =>
    simp only [stepOp, Outcome.final, Option.some.injEq] at h
    subst h
    exact (foldl_disconnect_blocked _ w s).trans hb
  | release a =>
    simp only [stepOp, Outcome.final, Option.some.injEq] at h
    subst h; exact hb
  | add k =>
    simp only [stepOp, Outcome.final, Option.some.injEq] at h
    subst h; exact hb

theorem mem_drop_append_single {c x : Call} {l : List Call} {n : Nat}
    (h : x ∈ (l ++ [c]).drop n) : x ∈ l.drop n ∨ x = c := by
  rw [List.drop_append_eq_append_drop] at h
  rcases List.mem_append.1 h with h1 | h1
  · exact Or.inl h1
  · exact Or.inr (List.mem_singleton.1 (List.mem_of_mem_drop h1))

theorem guarded_preserved (prog : Prog) (s : SlotId) (g : Int) (n0 : Nat)
    (hprog : ∀ n c a, ∀ op ∈ prog n c a, unblocks s g op = false) :
    Preserved prog (Guarded s g n0) (fun op => unblocks s g op = false) where
  code := hprog
  prim := by
    intro op w hok hI hne step w1 h
    obtain ⟨h1, h2, h3, h4, h5⟩ := hI
    obtain ⟨hm, -, hl⟩ := silent_step prog step op w w1 hne h
    refine ⟨groupIds_step prog step op w w1 hne h1 h, Nat.lt_of_lt_of_le h2 hm.1,
      (hm.2.2 s h2).1.trans h3, blocked_step prog step s g op w w1 hok hne h1 h2 h3 h4 h, ?_⟩
    rw [hl]; exact h5
  push := fun _ _ hI => hI
  pop := fun _ hI => hI
  call := by
    intro w t a c hI _ hb
    obtain ⟨h1, h2, h3, h4, h5⟩ := hI
    refine ⟨h1, h2, h3, h4, ?_⟩
    intro x hx
    rcases mem_drop_append_single hx with h6 | h6
    · exact h5 x h6
    · subst h6
      intro hst
      have hst2 : t = s := hst
      rw [hst2, h4] at hb
      exact Bool.noConfusion hb
  expire := by
    intro w t hI
    obtain ⟨h1, h2, h3, h4, h5⟩ := hI
    obtain ⟨hm, -, hl⟩ := silent_slot_disconnect t w
    obtain ⟨i, k, hk, -⟩ := slot_disconnect_slots t w s
    refine ⟨groupIds_slot_disconnect t w h1, Nat.lt_of_lt_of_le h2 hm.1,
      (hm.2.2 s h2).1.trans h3, by rw [hk]; exact h4, ?_⟩
    rw [hl]; exact h5

theorem groupIds_preserved (prog : Prog) : Preserved prog GroupIds (fun _ => True) where
  code := fun _ _ _ _ _ => trivial
  prim := fun op w _ hI hne step w1 h => groupIds_step prog step op w w1 hne hI h
  push := fun _ _ hI => hI
  pop := fun _ hI => hI
  call := fun _ _ _ _ hI _ _ => hI
  expire := fun w t hI => groupIds_slot_disconnect t w hI

/-- In every state a program reaches from the initial state the registries are well formed. -/
theorem groupIds_reachable (prog : Prog) (fuel : Nat) (ops : List Op) (n : Nat) (w1 : World)
    (h : (run prog fuel ops (World.init n)).final = some w1) : GroupIds w1 :=
  run_preserved (groupIds_preserved prog) fuel ops _ w1 (fun _ _ => trivial) (groupIds_init n) h

/-- C16 (counterexample): two blockers are created on the connection of the only slot and the
first one is released. The second blocker is still alive and nobody has called `unblock()`,
yet `blocked()` reads false and the next emission invokes the slot. It is the same when the
second one is released and the first stays alive. -/
theorem C16_counterexample :
    Connection.blocked ⟨some 0⟩
      (Connection.blocker ⟨some 0⟩ (Connection.blocker ⟨some 0⟩ worldOne).2).2 = true ∧
    Connection.blocked ⟨some 0⟩
      ((Connection.blocker ⟨some 0⟩ worldOne).1.release
        (Connection.blocker ⟨some 0⟩ (Connection.blocker ⟨some 0⟩ worldOne).2).2) = false ∧
    (run adder 2 [Op.emit 0 [1]]
      ((Connection.blocker ⟨some 0⟩ worldOne).1.release
        (Connection.blocker ⟨some 0⟩ (Connection.blocker ⟨some 0⟩ worldOne).2).2)).final.map
      (fun w => w.log.map Call.slot) = some [0] ∧
    Connection.blocked ⟨some 0⟩
      ((Connection.blocker ⟨some 0⟩ (Connection.blocker ⟨some 0⟩ worldOne).2).1.release
        (Connection.blocker ⟨some 0⟩ (Connection.blocker ⟨some 0⟩ worldOne).2).2) = false := by
  decide

/-- C16 (amended): a blocker is created on a connection to slot `s`, whose state exists, in a
state with well-formed registries. Whatever program runs afterwards, with any user code, as
long as neither the program nor the user code calls `unblock()` on a connection to `s`,
releases another blocker made from such a connection (the release is that same call), or calls
`unblock(g)` with the group id `g` stored in `s`: the blocked flag of `s` stays set,
`blocked()` reads true through the connection while the slot state exists, and no emission
invokes `s`. The release of the blocker then leaves `blocked()` false. With several blockers on
one connection this covers only the time until the first of them is released. -/
theorem C16_blocker_guard (c : Connection) (s : SlotId) (w : World) (prog : Prog) (fuel : Nat)
    (ops : List Op) (w1 : World) (hc : c.m_state = some s) (hv : c.valid w = true)
    (hs : s < w.nextSlot) (hw : GroupIds w)
    (hprog : ∀ n x a, ∀ op ∈ prog n x a, unblocks s (w.slots s).m_group op = false)
    (hops : ∀ op ∈ ops, unblocks s (w.slots s).m_group op = false)
    (hrun : (run prog fuel ops (c.blocker w).2).final = some w1) :
    c.blocked (c.blocker w).2 = true ∧
    (w1.slots s).m_blocked = true ∧ (c.valid w1 = true → c.blocked w1 = true) ∧
    (∀ x ∈ w1.log.drop w.log.length, x.slot ≠ s) ∧
    c.blocked ((c.blocker w).1.release w1) = false := by
  have hc2 : c = ⟨some s⟩ := by cases c; simp at hc; simp [hc]
  subst hc2
  have ha : w.alive s = true := by
    unfold Connection.valid Connection.lock at hv
    by_contra h
    simp [h] at hv
  have hb0 : (Connection.blocker ⟨some s⟩ w).2 = slot_block s w := by
    simp [Connection.blocker, ConnectionBlocker.create, Connection.lock, ha]
  have hb1 : (Connection.blocker ⟨some s⟩ w).1 = ⟨some s⟩ := by
    simp [Connection.blocker, ConnectionBlocker.create, Connection.lock, ha]
  have hI : Guarded s (w.slots s).m_group w.log.length (Connection.blocker ⟨some s⟩ w).2 := by
    rw [hb0]
    refine ⟨?_, hs, by simp [slot_block], by simp [slot_block], ?_⟩
    · exact groupIds_of hw (silent_slot_block s true w).1 (shrinks_of_sigs rfl)
    · intro x hx
      have : (slot_block s w).log = w.log := rfl
      rw [this, List.drop_length] at hx
      exact absurd hx (List.not_mem_nil x)
  obtain ⟨-, -, -, h4, h5⟩ := run_preserved
    (guarded_preserved prog s (w.slots s).m_group w.log.length hprog) fuel ops _ w1 hops hI hrun
  refine ⟨blocked_after_blocker _ w hv, h4, ?_, h5, ?_⟩
  · intro hv1
    have ha1 : w1.alive s = true := by
      unfold Connection.valid Connection.lock at hv1
      by_contra h
      simp [h] at hv1
    simp [Connection.blocked, Connection.lock, ha1, slot_blocked, h4]
  · rw [hb1]
    exact blocked_after_release ⟨some s⟩ w1

theorem groupIds_worldF : GroupIds worldF :=
  groupIds_connect_call _ _ _ _ (groupIds_connect_call _ _ _ _
    (groupIds_connect_call _ _ _ _ (groupIds_connect_call _ _ _ _ (groupIds_init 1))))

theorem C16_blocker_guard_witness :
    Connection.valid ⟨some 1⟩ worldF = true ∧
    ((((run adder 2 [Op.emit 0 [1], Op.conn_unblock ⟨some 0⟩, Op.unblock_group 0 5,
        Op.emit 0 [1]] (Connection.blocker ⟨some 1⟩ worldF).2).final.getD worldF).slots
      1).m_blocked = true) ∧
    (((run adder 2 [Op.emit 0 [1], Op.conn_unblock ⟨some 0⟩, Op.unblock_group 0 5,
        Op.emit 0 [1]] (Connection.blocker ⟨some 1⟩ worldF).2).final.getD worldF).log.map
      Call.slot) = [0, 2, 3, 0, 2, 3] :=
  ⟨by decide,
    (C16_blocker_guard ⟨some 1⟩ 1 worldF adder 2
      [Op.emit 0 [1], Op.conn_unblock ⟨some 0⟩, Op.unblock_group 0 5, Op.emit 0 [1]] _ rfl
      (by decide) (by decide) groupIds_worldF
      (fun n x a op h => by
        simp only [adder, List.mem_singleton] at h
        subst h
        rfl)
      (by decide) rfl).2.1,
    by decide⟩

/-! ## `slot_count` and the connected slots (C26) -/

/-- C26 (what the code does): `slot_count()` is the number of slots the registry holds,
connected or not. With one tracked slot whose owner has been released, `slot_count()` is 1
while no held slot reports `connected()`; with a plain slot next to it, `slot_count()` is 2
and one held slot reports `connected()`. -/
theorem C26_slot_count_held :
    (∀ (w : World) (e : SigId), slot_count w e = (flat (w.sig e).m_slots).length) ∧
    slot_count worldExpired 0 = 1 ∧ Connection.connected ⟨some 0⟩ worldExpired = false ∧
    connected_count worldExpired 0 = 0 ∧
    slot_count worldTracked 0 = 2 ∧ connected_count worldTracked 0 = 1 := by
  refine ⟨?_, by decide, by decide, by decide, by decide, by decide⟩
  intro w e
  unfold slot_count
  rw [countSlots_eq_flat]

/-! ## Blocking a group (C22) -/

theorem foldl_modifySlot_frame (f : Slot → Slot) (l : List SlotId) (w : World) :
    (l.foldl (fun w1 t => w1.modifySlot t f) w).sigs = w.sigs ∧
    (l.foldl (fun w1 t => w1.modifySlot t f) w).snaps = w.snaps ∧
    (l.foldl (fun w1 t => w1.modifySlot t f) w).log = w.log ∧
    (l.foldl (fun w1 t => w1.modifySlot t f) w).counter = w.counter ∧
    (l.foldl (fun w1 t => w1.modifySlot t f) w).expired = w.expired ∧
    (l.foldl (fun w1 t => w1.modifySlot t f) w).observers = w.observers ∧
    (l.foldl (fun w1 t => w1.modifySlot t f) w).nextSlot = w.nextSlot := by
  induction l generalizing w with
  | nil => exact ⟨rfl, rfl, rfl, rfl, rfl, rfl, rfl⟩
  | cons s l ih =>
    simp only [List.foldl_cons]
    obtain ⟨a1, a2, a3, a4, a5, a6, a7⟩ := ih (w.modifySlot s f)
    exact ⟨a1, a2, a3, a4, a5, a6, a7⟩

theorem setBlockedGroups_frame (b : Bool) (gid : Int) (gs : List Group) (w : World) :
    (setBlockedGroups b gid gs w).sigs = w.sigs ∧
    (setBlockedGroups b gid gs w).snaps = w.snaps ∧
    (setBlockedGroups b gid gs w).log = w.log ∧
    (setBlockedGroups b gid gs w).counter = w.counter ∧
    (setBlockedGroups b gid gs w).expired = w.expired ∧
    (setBlockedGroups b gid gs w).observers = w.observers ∧
    (setBlockedGroups b gid gs w).nextSlot = w.nextSlot := by
  induction gs generalizing w with
  | nil => exact ⟨rfl, rfl, rfl, rfl, rfl, rfl, rfl⟩
  | cons g gs ih =>
    unfold setBlockedGroups
    split_ifs
    · obtain ⟨a1, a2, a3, a4, a5, a6, a7⟩ := ih
        (g.slts.foldl (fun w1 s => w1.modifySlot s (fun x => { x with m_blocked := b })) w)
      obtain ⟨b1, b2, b3, b4, b5, b6, b7⟩ :=
        foldl_modifySlot_frame (fun x => { x with m_blocked := b }) g.slts w
      exact ⟨a1.trans b1, a2.trans b2, a3.trans b3, a4.trans b4, a5.trans b5, a6.trans b6,
        a7.trans b7⟩
    · exact ih w

theorem foldl_setBlocked_slots (b : Bool) (l : List SlotId) (w : World) (t : SlotId) :
    (l.foldl (fun w1 s => w1.modifySlot s (fun x => { x with m_blocked := b })) w).slots t =
      if t ∈ l then { w.slots t with m_blocked := b } else w.slots t := by
  induction l generalizing w with
  | nil => simp
  | cons s l ih =>
    simp only [List.foldl_cons]
    rw [ih]
    by_cases hts : t = s
    · subst hts
      by_cases h : t ∈ l <;> simp [h]
    · rw [modifySlot_slots_ne _ _ _ _ hts]
      by_cases h : t ∈ l <;> simp [h, hts]

theorem setBlockedGroups_slots (b : Bool) (gid : Int) (gs : List Group) (w : World)
    (t : SlotId) :
    (setBlockedGroups b gid gs w).slots t =
      if inGid gs gid t then { w.slots t with m_blocked := b } else w.slots t := by
  induction gs generalizing w with
  | nil => simp [setBlockedGroups, inGid]
  | cons g gs ih =>
    unfold setBlockedGroups
    by_cases hg : g.gid = gid
    · rw [if_pos hg, ih, foldl_setBlocked_slots]
      by_cases h1 : t ∈ g.slts
      · have h2 : inGid (g :: gs) gid t := ⟨g, List.mem_cons_self _ _, hg, h1⟩
        rw [if_pos h1, if_pos h2]
        by_cases h3 : inGid gs gid t <;> simp [h3]
      · rw [if_neg h1]
        have h4 : inGid (g :: gs) gid t ↔ inGid gs gid t := by
          constructor
          · rintro ⟨x, hx, hxg, hxt⟩
            rcases List.mem_cons.1 hx with h5 | h5
            · subst h5; exact absurd hxt h1
            · exact ⟨x, h5, hxg, hxt⟩
          · rintro ⟨x, hx, hxg, hxt⟩
            exact ⟨x, List.mem_cons_of_mem _ hx, hxg, hxt⟩
        by_cases h3 : inGid gs gid t
        · rw [if_pos h3, if_pos (h4.2 h3)]
        · rw [if_neg h3, if_neg (fun h => h3 (h4.1 h))]
    · rw [if_neg hg, ih]
      have h4 : inGid (g :: gs) gid t ↔ inGid gs gid t := by
        constructor
        · rintro ⟨x, hx, hxg, hxt⟩
          rcases List.mem_cons.1 hx with h5 | h5
          · subst h5; exact absurd hxg hg
          · exact ⟨x, h5, hxg, hxt⟩
        · rintro ⟨x, hx, hxg, hxt⟩
          exact ⟨x, List.mem_cons_of_mem _ hx, hxg, hxt⟩
      by_cases h3 : inGid gs gid t
      · rw [if_pos h3, if_pos (h4.2 h3)]
      · rw [if_neg h3, if_neg (fun h => h3 (h4.1 h))]

theorem world_ext {w w1 : World} (h1 : w1.slots = w.slots) (h2 : w1.nextSlot = w.nextSlot)
    (h3 : w1.sigs = w.sigs) (h4 : w1.snaps = w.snaps) (h5 : w1.expired = w.expired)
    (h6 : w1.observers = w.observers) (h7 : w1.log = w.log) (h8 : w1.counter = w.counter) :
    w1 = w := by
  cases w; cases w1
  simp only [World.mk.injEq]
  exact ⟨h1, h2, h3, h4, h5, h6, h7, h8⟩

theorem setBlockedGroups_none (b : Bool) (gid : Int) (gs : List Group) (w : World)
    (h : ∀ g ∈ gs, g.gid ≠ gid) : setBlockedGroups b gid gs w = w := by
  induction gs generalizing w with
  | nil => rfl
  | cons g gs ih =>
    unfold setBlockedGroups
    rw [if_neg (h g (List.mem_cons_self _ _))]
    exact ih w (fun x hx => h x (List.mem_cons_of_mem _ hx))

theorem active_setBlocked (gid : Int) (gs : List Group) (w : World) (t : SlotId) :
    active (setBlockedGroups true gid gs w) t = (active w t && !decide (inGid gs gid t)) := by
  unfold active slot_connected slot_blocked ptr_expired
  rw [(setBlockedGroups_frame true gid gs w).2.2.2.2.1, setBlockedGroups_slots]
  by_cases h : inGid gs gid t
  · simp [h]
  · simp [h]

theorem callOf_setBlocked (b : Bool) (gid : Int) (gs : List Group) (w : World) (d : Nat)
    (a : Args) (t : SlotId) :
    callOf (setBlockedGroups b gid gs w) d a t = callOf w d a t := by
  unfold callOf connArg
  rw [setBlockedGroups_slots]
  by_cases h : inGid gs gid t <;> simp [h]

/-- C22: `block(g)` sets and `unblock(g)` clears the blocked flag of every slot held by a group
with id `g` of the registry, and change nothing else: every other slot object, every other
member of the slots of group `g` (the connected flag among them), the registries and global
block flags of all emitters, snapshots, owners, observers, records and counter are as before,
and with no group of id `g` the state is unchanged altogether. After `block(g)` on an emitter
that is not globally blocked, an emit running inert user code invokes exactly the slots it
would have invoked before that are not in group `g`, in the same order. -/
theorem C22_group_block (e : SigId) (gid : Int) (w : World) :
    (∀ b : Bool,
      (setBlockedGroups b gid (w.sig e).m_slots w).sigs = w.sigs ∧
      (setBlockedGroups b gid (w.sig e).m_slots w).snaps = w.snaps ∧
      (setBlockedGroups b gid (w.sig e).m_slots w).log = w.log ∧
      (setBlockedGroups b gid (w.sig e).m_slots w).counter = w.counter ∧
      (setBlockedGroups b gid (w.sig e).m_slots w).expired = w.expired ∧
      (setBlockedGroups b gid (w.sig e).m_slots w).observers = w.observers ∧
      (setBlockedGroups b gid (w.sig e).m_slots w).nextSlot = w.nextSlot ∧
      (∀ t, (setBlockedGroups b gid (w.sig e).m_slots w).slots t =
        if inGid (w.sig e).m_slots gid t then { w.slots t with m_blocked := b }
        else w.slots t) ∧
      ((∀ g ∈ (w.sig e).m_slots, g.gid ≠ gid) →
        setBlockedGroups b gid (w.sig e).m_slots w = w)) ∧
    block_group e gid w = setBlockedGroups true gid (w.sig e).m_slots w ∧
    unblock_group e gid w = setBlockedGroups false gid (w.sig e).m_slots w ∧
    (∀ (prog : Prog) (fuel : Nat) (a : Args), Inert prog → (w.sig e).m_block = false →
      ∃ w2, emitTop prog (fuel + 1) e a (block_group e gid w) = Outcome.done w2 ∧
        w2.log = w.log ++ ((flat (w.sig e).m_slots).filter
          (fun t => active w t && !decide (inGid (w.sig e).m_slots gid t))).map
            (callOf w (w.snaps.length + 1) a)) := by
  refine ⟨?_, rfl, rfl, ?_⟩
  · intro b
    obtain ⟨a1, a2, a3, a4, a5, a6, a7⟩ := setBlockedGroups_frame b gid (w.sig e).m_slots w
    exact ⟨a1, a2, a3, a4, a5, a6, a7, setBlockedGroups_slots b gid _ w,
      setBlockedGroups_none b gid _ w⟩
  · intro prog fuel a hp hb
    obtain ⟨a1, a2, a3, -⟩ := setBlockedGroups_frame true gid (w.sig e).m_slots w
    have hsig : (block_group e gid w).sig e = w.sig e := by
      unfold block_group
      simp only [World.sig] at a1 ⊢
      rw [a1]
    obtain ⟨w2, e1, e2, -⟩ := emit_inert prog hp fuel e a (block_group e gid w)
      (by rw [hsig]; exact hb)
    refine ⟨w2, e1, ?_⟩
    rw [e2, hsig]
    unfold block_group
    rw [a3, a2]
    congr 1
    have hf : active (setBlockedGroups true gid (w.sig e).m_slots w) =
        fun t => active w t && !decide (inGid (w.sig e).m_slots gid t) :=
      funext (active_setBlocked gid _ w)
    have hc : callOf (setBlockedGroups true gid (w.sig e).m_slots w) (w.snaps.length + 1) a =
        callOf w (w.snaps.length + 1) a :=
      funext (callOf_setBlocked true gid _ w _ a)
    rw [hf, hc]

theorem C22_group_block_witness :
    Inert adder ∧ (worldF.sig 0).m_block = false ∧
    ∃ w2, emitTop adder 1 0 [1] (block_group 0 0 worldF) = Outcome.done w2 ∧
      w2.log.map Call.slot = [2, 3] := by
  refine ⟨adder_inert, by decide, ?_⟩
  obtain ⟨w2, h1, h2⟩ := (C22_group_block 0 0 worldF).2.2.2 adder 0 [1] adder_inert (by decide)
  exact ⟨w2, h1, by rw [h2]; decide⟩

/-! ## The blocked flag and the connected flag (C27) -/

theorem modifySlot_idem (w : World) (s : SlotId) (f : Slot → Slot)
    (hf : ∀ x, f (f x) = f x) : (w.modifySlot s f).modifySlot s f = w.modifySlot s f := by
  apply world_ext <;> try rfl
  funext t
  simp [World.modifySlot, hf]

theorem conn_block_idem (c : Connection) (w : World) : c.block (c.block w) = c.block w := by
  unfold Connection.block
  cases h : c.lock w with
  | none => simp only [h]
  | some s =>
    simp only [slot_block, lock_modifySlot, h]
    exact modifySlot_idem w s _ (fun _ => rfl)

theorem conn_unblock_idem (c : Connection) (w : World) :
    c.unblock (c.unblock w) = c.unblock w := by
  unfold Connection.unblock
  cases h : c.lock w with
  | none => simp only [h]
  | some s =>
    simp only [slot_unblock, lock_modifySlot, h]
    exact modifySlot_idem w s _ (fun _ => rfl)

theorem conn_block_connected (c : Connection) (w : World) (t : SlotId) :
    ((c.block w).slots t).m_connected = (w.slots t).m_connected := by
  unfold Connection.block
  split
  · rfl
  · rename_i s _
    unfold slot_block
    by_cases h : t = s
    · subst h; simp
    · rw [modifySlot_slots_ne _ _ _ _ h]

theorem conn_unblock_connected (c : Connection) (w : World) (t : SlotId) :
    ((c.unblock w).slots t).m_connected = (w.slots t).m_connected := by
  unfold Connection.unblock
  split
  · rfl
  · rename_i s _
    unfold slot_unblock
    by_cases h : t = s
    · subst h; simp
    · rw [modifySlot_slots_ne _ _ _ _ h]

theorem blocker_eq_block (c : Connection) (w : World) : (c.blocker w).2 = c.block w := by
  unfold Connection.blocker ConnectionBlocker.create Connection.block
  have : Connection.lock ⟨c.m_state⟩ w = c.lock w := rfl
  rw [this]
  cases c.lock w <;> rfl

theorem setBlockedGroups_connected (b : Bool) (gid : Int) (gs : List Group) (w : World)
    (t : SlotId) :
    ((setBlockedGroups b gid gs w).slots t).m_connected = (w.slots t).m_connected := by
  rw [setBlockedGroups_slots]
  by_cases h : inGid gs gid t <;> simp [h]

/-- C27: the blocked flag and the connected flag of a slot are independent. `block()` and
`unblock()` on a connection, the creation and the release of a blocker, and `block(g)` and
`unblock(g)` on an emitter leave the connected flag of every slot and every registry as they
were; `disconnect()` on a connection leaves the blocked flag of every slot as it was. A second
`block()` changes nothing after a first one, likewise for `unblock()`, and after `block()` then
`unblock()` the connection reads `blocked() == false`. -/
theorem C27_flags_independent (c : Connection) (b : ConnectionBlocker) (e : SigId) (gid : Int)
    (w : World) (t : SlotId) :
    (((c.block w).slots t).m_connected = (w.slots t).m_connected ∧
      (c.block w).sigs = w.sigs) ∧
    (((c.unblock w).slots t).m_connected = (w.slots t).m_connected ∧
      (c.unblock w).sigs = w.sigs) ∧
    (((c.blocker w).2.slots t).m_connected = (w.slots t).m_connected ∧
      (c.blocker w).2.sigs = w.sigs) ∧
    (((b.release w).slots t).m_connected = (w.slots t).m_connected ∧
      (b.release w).sigs = w.sigs) ∧
    (((block_group e gid w).slots t).m_connected = (w.slots t).m_connected ∧
      (block_group e gid w).sigs = w.sigs) ∧
    (((unblock_group e gid w).slots t).m_connected = (w.slots t).m_connected ∧
      (unblock_group e gid w).sigs = w.sigs) ∧
    ((c.disconnect w).2.slots t).m_blocked = (w.slots t).m_blocked ∧
    c.block (c.block w) = c.block w ∧ c.unblock (c.unblock w) = c.unblock w ∧
    c.blocked (c.unblock (c.block w)) = false := by
  refine ⟨⟨conn_block_connected c w t, conn_block_sigs c w⟩,
    ⟨conn_unblock_connected c w t, conn_unblock_sigs c w⟩, ?_,
    ⟨conn_unblock_connected ⟨b.m_state⟩ w t, conn_unblock_sigs ⟨b.m_state⟩ w⟩,
    ⟨setBlockedGroups_connected _ _ _ w t, setBlockedGroups_sigs _ _ _ w⟩,
    ⟨setBlockedGroups_connected _ _ _ w t, setBlockedGroups_sigs _ _ _ w⟩,
    conn_disconnect_blocked c w t, conn_block_idem c w, conn_unblock_idem c w, ?_⟩
  · rw [blocker_eq_block]
    exact ⟨conn_block_connected c w t, conn_block_sigs c w⟩
  · exact blocked_after_release ⟨c.m_state⟩ (c.block w)

/-! ## Insertion into a sorted registry (C24) -/

theorem filter_gid_nil_of_lt (gid : Int) (gs : List Group)
    (h : ∀ g ∈ gs, gid < g.gid) : gs.filter (fun g => decide (g.gid = gid)) = [] := by
  rw [List.filter_eq_nil_iff]
  intro g hg
  have := h g hg
  simp only [decide_eq_true_eq]
  omega

theorem addSlotGroups_spec (n : SlotId) (gid : Int) (gs : List Group) (h : SortedGroups gs) :
    (addSlotGroups n gid gs).1.filter (fun g => decide (g.gid = gid))
      = [⟨groupSlots gs gid ++ [n], gid⟩] ∧
    (addSlotGroups n gid gs).1.filter (fun g => !decide (g.gid = gid))
      = gs.filter (fun g => !decide (g.gid = gid)) ∧
    (addSlotGroups n gid gs).2 = (groupSlots gs gid).length := by
  induction gs with
  | nil => simp [addSlotGroups, groupSlots]
  | cons g gs ih =>
    unfold SortedGroups at h
    simp only [List.map_cons, List.pairwise_cons, List.mem_map, forall_exists_index, and_imp,
      forall_apply_eq_imp_iff₂] at h
    obtain ⟨ih1, ih2, ih3⟩ := ih h.2
    unfold addSlotGroups
    split_ifs with h1 h2
    · have hne : g.gid ≠ gid := ne_of_lt h1
      simp only [List.filter_cons, hne, decide_False, Bool.false_eq_true, if_false,
        Bool.not_false, if_true, groupSlots] at ih1 ih2 ih3 ⊢
      exact ⟨ih1, by rw [ih2], ih3⟩
    · have hlt : gid < g.gid := by omega
      have hall : ∀ x ∈ g :: gs, gid < x.gid := by
        intro x hx
        rcases List.mem_cons.1 hx with hx | hx
        · rw [hx]; exact hlt
        · exact lt_trans hlt (h.1 x hx)
      refine ⟨?_, ?_, ?_⟩
      · rw [List.filter_cons]
        simp only [decide_True, if_true]
        rw [filter_gid_nil_of_lt gid _ hall]
        simp [groupSlots, filter_gid_nil_of_lt gid _ hall]
      · rw [List.filter_cons]
        simp only [decide_True, Bool.not_true, Bool.false_eq_true, if_false]
      · simp [groupSlots, filter_gid_nil_of_lt gid _ hall]
    · have heq : g.gid = gid := not_not.mp h2
      have hall : ∀ x ∈ gs, gid < x.gid := fun x hx => heq ▸ h.1 x hx
      refine ⟨?_, ?_, ?_⟩
      · rw [List.filter_cons]
        simp only [heq, decide_True, if_true]
        rw [filter_gid_nil_of_lt gid _ hall]
        simp [groupSlots, List.filter_cons, heq, filter_gid_nil_of_lt gid _ hall]
      · simp only [List.filter_cons, heq, decide_True, Bool.not_true, Bool.false_eq_true,
          if_false]
      · simp [groupSlots, List.filter_cons, heq, filter_gid_nil_of_lt gid _ hall]

/-- C24: on an existing emitter whose registry has strictly ascending group ids,
`connect(callable, g)` gives a registry, again strictly ascending, with exactly one group of id
`g`, whose slot list is the former list of group `g` (empty if there was none) followed by the
new slot; the stored index of the new slot is that last position, the groups of other ids are
as before, in the same order, and `slot_count()` has grown by one. The registries of the other
emitters and all other slot objects are unchanged, and the returned connection is valid,
connected and not blocked. -/
theorem C24_connect_group (e : SigId) (f : Callable) (gid : Int) (w : World)
    (he : e < w.sigs.length) (hs : SortedGroups (w.sig e).m_slots) :
    SortedGroups ((connect e f gid w).2.sig e).m_slots ∧
    ((connect e f gid w).2.sig e).m_slots.filter (fun g => decide (g.gid = gid))
      = [⟨groupSlots (w.sig e).m_slots gid ++ [w.nextSlot], gid⟩] ∧
    ((connect e f gid w).2.sig e).m_slots.filter (fun g => !decide (g.gid = gid))
      = (w.sig e).m_slots.filter (fun g => !decide (g.gid = gid)) ∧
    (connect e f gid w).1 = ⟨some w.nextSlot⟩ ∧
    ((connect e f gid w).2.slots w.nextSlot).m_index = (groupSlots (w.sig e).m_slots gid).length ∧
    slot_count (connect e f gid w).2 e = slot_count w e + 1 ∧
    (∀ e1, e1 ≠ e → (connect e f gid w).2.sig e1 = w.sig e1) ∧
    (∀ t, t ≠ w.nextSlot → (connect e f gid w).2.slots t = w.slots t) ∧
    (connect e f gid w).1.valid (connect e f gid w).2 = true ∧
    (connect e f gid w).1.connected (connect e f gid w).2 = true ∧
    (connect e f gid w).1.blocked (connect e f gid w).2 = false := by
  have hc : connect e f gid w = connect_call e (ConnectCall.plain f) gid w := rfl
  rw [hc]
  have hsig := connect_call_sig e (ConnectCall.plain f) gid w he
  obtain ⟨s1, s2, s3⟩ := addSlotGroups_spec w.nextSlot gid (w.sig e).m_slots hs
  have hlen : e < (connect_call e (ConnectCall.plain f) gid w).2.sigs.length := by
    rw [connect_call_sigs]; simpa using he
  have halive : (connect_call e (ConnectCall.plain f) gid w).2.alive w.nextSlot = true :=
    alive_of_holds _ e _ hlen (by rw [hsig]; exact holds_addSlotGroups _ _ _)
  have hslot := connect_slot_eq e f gid w
  refine ⟨?_, ?_, ?_, connect_call_fst _ _ _ _, ?_, ?_, ?_,
    (connect_call_frame e _ gid w).2.2.2.2.2, ?_, ?_, ?_⟩
  · rw [hsig]; exact addSlotGroups_sorted _ _ _ hs
  · rw [hsig]; exact s1
  · rw [hsig]; exact s2
  · rw [(connect_call_slot e _ gid w).1]; exact s3
  · unfold slot_count
    rw [hsig, countSlots_addSlotGroups]
  · intro e1 h1
    unfold World.sig
    rw [connect_call_sigs]
    exact sig_setGroups_ne w e e1 _ (Ne.symm h1)
  · rw [connect_call_fst]
    simp [Connection.valid, Connection.lock, halive]
  · rw [connect_call_fst]
    simp only [Connection.connected, Connection.lock, halive, if_true]
    unfold slot_connected
    rw [hslot]
  · rw [connect_call_fst]
    simp only [Connection.blocked, Connection.lock, halive, if_true]
    unfold slot_blocked
    rw [hslot]

theorem C24_connect_group_witness :
    0 < worldF.sigs.length ∧ SortedGroups (worldF.sig 0).m_slots ∧
    ((connect 0 (freeFn 2) 5 worldF).2.sig 0).m_slots.filter (fun g => decide (g.gid = 5))
      = [⟨[2, 3, 4], 5⟩] ∧
    ((connect 0 (freeFn 2) 5 worldF).2.slots 4).m_index = 2 ∧
    ((connect 0 (freeFn 2) 3 worldF).2.sig 0).m_slots.filter (fun g => decide (g.gid = 3))
      = [⟨[4], 3⟩] :=
  ⟨by decide, by decide,
    (C24_connect_group 0 (freeFn 2) 5 worldF (by decide) (by decide)).2.1.trans (by decide),
    (C24_connect_group 0 (freeFn 2) 5 worldF (by decide) (by decide)).2.2.2.2.1.trans
      (by decide),
    (C24_connect_group 0 (freeFn 2) 3 worldF (by decide) (by decide)).2.1.trans (by decide)⟩

/-! ## The cross emission test (C30) -/

theorem cross_emit (w : World) (h : CrossState w) (e : SigId) (he : e = 0 ∨ e = 1) (i : Int) :
    exec cross 3 (Op.emit e [i]) w =
      Outcome.done { w with
        log := w.log ++
          (if i % 2 = 1 then [⟨1, e, [i], none⟩]
           else [⟨1, e, [i], none⟩, ⟨2, 1 - e, [i + 1], none⟩])
        counter := w.counter + crossTerm i } := by
  obtain ⟨h1, h2, h3⟩ := h
  by_cases hi : i % 2 = 1
  · rcases he with rfl | rfl
    · simp [emit, World.sig, h2, h1, h3, worldCross, connect_call, connect, connect_slot,
        add_slot, make_slot, World.setGroups, World.setSig, World.setIndex, World.modifySlot,
        World.init, addSlotGroups, emitGroups, emitSlots, slot_invoke, call_slot, userCall,
        runOps, exec, stepOp, cross, hi, lambdaFn, World.popSnap, crossTerm]
    · simp [emit, World.sig, h2, h1, h3, worldCross, connect_call, connect, connect_slot,
        add_slot, make_slot, World.setGroups, World.setSig, World.setIndex, World.modifySlot,
        World.init, addSlotGroups, emitGroups, emitSlots, slot_invoke, call_slot, userCall,
        runOps, exec, stepOp, cross, hi, lambdaFn, World.popSnap, crossTerm]
  · have hi2 : (i + 1) % 2 = 1 := by omega
    rcases he with rfl | rfl
    · simp [emit, World.sig, h2, h1, h3, worldCross, connect_call, connect, connect_slot,
        add_slot, make_slot, World.setGroups, World.setSig, World.setIndex, World.modifySlot,
        World.init, addSlotGroups, emitGroups, emitSlots, slot_invoke, call_slot, userCall,
        runOps, exec, stepOp, cross, hi, hi2, lambdaFn, World.popSnap, crossTerm]
    · simp [emit, World.sig, h2, h1, h3, worldCross, connect_call, connect, connect_slot,
        add_slot, make_slot, World.setGroups, World.setSig, World.setIndex, World.modifySlot,
        World.init, addSlotGroups, emitGroups, emitSlots, slot_invoke, call_slot, userCall,
        runOps, exec, stepOp, cross, hi, hi2, lambdaFn, World.popSnap, crossTerm]

theorem runOps_append (step : Op → World → Outcome) (l1 l2 : List Op) (w : World) :
    runOps step (l1 ++ l2) w =
      match runOps step l1 w with
      | Outcome.done w1 => runOps step l2 w1
      | r => r := by
  induction l1 generalizing w with
  | nil => rfl
  | cons op l1 ih =>
    simp only [List.cons_append, runOps]
    cases step op w with
    | done w1 => exact ih w1
    | threw w1 => rfl
    | stuck => rfl

theorem cross_range (e : SigId) (he : e = 0 ∨ e = 1) :
    ∀ (n : Nat) (w : World), CrossState w →
      ∃ w1, run cross 3 (emitRange e n) w = Outcome.done w1 ∧ CrossState w1 ∧
        w1.counter = w.counter + Finset.sum (Finset.range n) (fun (i : Nat) => crossTerm (i : Int)) := by
  intro n
  induction n with
  | zero =>
    intro w h
    exact ⟨w, rfl, h, by simp⟩
  | succ n ih =>
    intro w h
    obtain ⟨w1, r1, r2, r3⟩ := ih w h
    refine ⟨{ w1 with
        log := w1.log ++
          (if (n : Int) % 2 = 1 then [⟨1, e, [(n : Int)], none⟩]
           else [⟨1, e, [(n : Int)], none⟩, ⟨2, 1 - e, [(n : Int) + 1], none⟩])
        counter := w1.counter + crossTerm (n : Int) }, ?_, ?_, ?_⟩
    · unfold run emitRange at r1 ⊢
      rw [List.range_succ, List.map_append, runOps_append, r1]
      simp only [List.map_cons, List.map_nil, runOps]
      rw [cross_emit w1 r2 e he n]
    · exact ⟨r2.1, r2.2.1, r2.2.2⟩
    · simp only
      rw [r3, Finset.sum_range_succ]
      ring

theorem crossTerm_sum (m : Nat) :
    Finset.sum (Finset.range (2 * m)) (fun (i : Nat) => crossTerm (i : Int)) = 2 * (m : Int) ^ 2 := by
  induction m with
  | zero => simp
  | succ m ih =>
    have h2 : 2 * (m + 1) = 2 * m + 1 + 1 := by ring
    rw [h2, Finset.sum_range_succ, Finset.sum_range_succ, ih]
    have e1 : crossTerm ((2 * m : Nat) : Int) = 2 * (m : Int) + 1 := by
      unfold crossTerm
      push_cast
      rw [if_neg (by omega)]
    have e2 : crossTerm ((2 * m + 1 : Nat) : Int) = 2 * (m : Int) + 1 := by
      unfold crossTerm
      push_cast
      rw [if_pos (by omega)]
    rw [e1, e2]
    push_cast
    ring

theorem crossState_worldCross : CrossState worldCross := ⟨rfl, rfl, rfl⟩

/-- C30: in the cross emission test (two emitters, each with one slot that adds an odd
argument `i` to the counter and for an even `i` emits `i + 1` on the other emitter), the
emissions of every `i` below `n` on the first emitter and on the second all return and add
to the counter twice the sum over `i` below `n` of `i` if `i` is odd and `i + 1` otherwise;
for `n = 100000` the counter ends at `10000000000`. The arguments stay below `2 ^ 31` and
every emission adds a non-negative amount, so neither `int` nor the 64-bit sum overflows. -/
theorem C30_cross_emission :
    (∀ n : Nat, ∃ w1, run cross 3 (emitRange 0 n ++ emitRange 1 n) worldCross = Outcome.done w1 ∧
      w1.counter = 2 * Finset.sum (Finset.range n)
        (fun (i : Nat) => if (i : Int) % 2 = 1 then (i : Int) else (i : Int) + 1)) ∧
    (∃ w1, run cross 3 (emitRange 0 100000 ++ emitRange 1 100000) worldCross = Outcome.done w1 ∧
      w1.counter = 10000000000) ∧
    (∀ i : Nat, i < 100000 → (i : Int) + 1 < 2 ^ 31 ∧
      0 ≤ (if (i : Int) % 2 = 1 then (i : Int) else (i : Int) + 1)) ∧
    (10000000000 : Int) < 2 ^ 63 := by
  have main : ∀ n : Nat, ∃ w1,
      run cross 3 (emitRange 0 n ++ emitRange 1 n) worldCross = Outcome.done w1 ∧
      w1.counter = 2 * Finset.sum (Finset.range n) (fun (i : Nat) => crossTerm (i : Int)) := by
    intro n
    obtain ⟨w1, r1, r2, r3⟩ := cross_range 0 (Or.inl rfl) n worldCross crossState_worldCross
    obtain ⟨w2, q1, -, q3⟩ := cross_range 1 (Or.inr rfl) n w1 r2
    refine ⟨w2, ?_, ?_⟩
    · unfold run at r1 q1 ⊢
      rw [runOps_append, r1]
      exact q1
    · rw [q3, r3]
      have : worldCross.counter = 0 := rfl
      rw [this]
      ring
  refine ⟨main, ?_, ?_, by norm_num⟩
  · obtain ⟨w1, h1, h2⟩ := main 100000
    refine ⟨w1, h1, ?_⟩
    rw [h2]
    have := crossTerm_sum 50000
    norm_num at this
    rw [this]
    norm_num
  · intro i hi
    constructor
    · have : (i : Int) < 100000 := by exact_mod_cast hi
      norm_num
      omega
    · split_ifs <;> omega

/-! ## Well-formed registries -/

theorem swapPop_getElem (slts : List SlotId) (i : Nat) (last : SlotId) (j : Nat) :
    (swapPop slts i last)[j]? =
      if j < slts.length - 1 then (if j = i then some last else slts[j]?) else none := by
  unfold swapPop
  rw [List.dropLast_eq_take, List.getElem?_take]
  simp only [List.length_set]
  by_cases h1 : j < slts.length - 1
  · rw [if_pos h1, if_pos h1, List.getElem?_set]
    by_cases h2 : i = j
    · subst h2
      have : i < slts.length := by omega
      simp [this]
    · rw [if_neg h2, if_neg (fun h => h2 h.symm)]
  · rw [if_neg h1, if_neg h1]

theorem sorted_tail_gt {g : Group} {gs : List Group} (h : SortedGroups (g :: gs)) :
    (∀ x ∈ gs, g.gid < x.gid) ∧ SortedGroups gs := by
  unfold SortedGroups at h ⊢
  simp only [List.map_cons, List.pairwise_cons, List.mem_map, forall_exists_index, and_imp,
    forall_apply_eq_imp_iff₂] at h
  exact h

theorem sorted_gid_unique {gs : List Group} (h : SortedGroups gs) {g1 g2 : Group}
    (h1 : g1 ∈ gs) (h2 : g2 ∈ gs) (hg : g1.gid = g2.gid) : g1 = g2 := by
  induction gs with
  | nil => exact absurd h1 (List.not_mem_nil _)
  | cons g gs ih =>
    obtain ⟨hgt, hs⟩ := sorted_tail_gt h
    rcases List.mem_cons.1 h1 with a | a <;> rcases List.mem_cons.1 h2 with b | b
    · rw [a, b]
    · subst a
      have := hgt g2 b
      omega
    · subst b
      have := hgt g1 a
      omega
    · exact ih hs a b

/-- What `cleanGroups` does when it finds the slot. -/
theorem cleanGroups_split (state : SlotId) (idx : Nat) (gid : Int) (gs : List Group)
    (moved : SlotId) (h : (cleanGroups state idx gid gs).2 = some moved) :
    ∃ pre g post, gs = pre ++ g :: post ∧ (∀ x ∈ pre, x.gid ≠ gid) ∧ g.gid = gid ∧
      g.slts[idx]? = some state ∧ moved = g.slts.getLast?.getD state ∧
      (cleanGroups state idx gid gs).1 = pre ++ ⟨swapPop g.slts idx moved, g.gid⟩ :: post := by
  induction gs with
  | nil => simp [cleanGroups] at h
  | cons g gs ih =>
    unfold cleanGroups at h ⊢
    by_cases h1 : g.gid = gid
    · by_cases h2 : g.slts[idx]? = some state
      · simp only [h1, h2, if_true, Option.some.injEq] at h ⊢
        exact ⟨[], g, gs, rfl, fun x hx => absurd hx (List.not_mem_nil x), h1, h2, h.symm,
          by rw [h, h1]; rfl⟩
      · simp [h1, h2] at h
    · simp only [h1, if_false] at h ⊢
      obtain ⟨pre, g0, post, e1, e2, e3, e4, e5, e6⟩ := ih h
      refine ⟨g :: pre, g0, post, by rw [e1]; rfl, ?_, e3, e4, e5, by rw [e6]; rfl⟩
      intro x hx
      rcases List.mem_cons.1 hx with hx | hx
      · rw [hx]; exact h1
      · exact e2 x hx

/-- In a registry with ascending group ids, `cleanGroups` finds a slot that sits at its stored
position in the group of its stored id. -/
theorem cleanGroups_finds (state : SlotId) (idx : Nat) (gs : List Group) (hs : SortedGroups gs)
    (g : Group) (hg : g ∈ gs) (h : g.slts[idx]? = some state) :
    (cleanGroups state idx g.gid gs).2.isSome = true := by
  induction gs with
  | nil => exact absurd hg (List.not_mem_nil _)
  | cons x gs ih =>
    unfold cleanGroups
    by_cases h1 : x.gid = g.gid
    · have hx : x = g := sorted_gid_unique hs (List.mem_cons_self _ _) hg h1
      subst hx
      simp [h]
    · simp only [h1, if_false]
      rcases List.mem_cons.1 hg with h2 | h2
      · exact absurd (by rw [h2]) h1
      · exact ih (sorted_tail_gt hs).2 h2

theorem holds_mem_group {gs : List Group} {s : SlotId} :
    holds gs s = true ↔ ∃ g ∈ gs, s ∈ g.slts := by
  simp [holds]

theorem sorted_append_gt {pre : List Group} {g : Group} {post : List Group}
    (h : SortedGroups (pre ++ g :: post)) : ∀ x ∈ post, g.gid < x.gid := by
  unfold SortedGroups at h
  rw [List.map_append, List.pairwise_append] at h
  have h2 := h.2.1
  simp only [List.map_cons, List.pairwise_cons, List.mem_map, forall_exists_index, and_imp,
    forall_apply_eq_imp_iff₂] at h2
  exact h2.1

theorem setGroups_self (w : World) (e : SigId) : w.setGroups e (w.sig e).m_slots = w :=
  setSig_sig_self w e

theorem clean_of_none (e : SigId) (s : SlotId) (w : World)
    (h : (cleanGroups s (w.slots s).m_index (w.slots s).m_group (w.sig e).m_slots).2 = none) :
    clean e s w = w := by
  unfold clean
  simp only [h]
  rw [cleanGroups_none _ _ _ _ h, setGroups_self]

theorem clean_of_some (e : SigId) (s : SlotId) (w : World) (moved : SlotId)
    (h : (cleanGroups s (w.slots s).m_index (w.slots s).m_group (w.sig e).m_slots).2
      = some moved) :
    clean e s w =
      (w.setGroups e (cleanGroups s (w.slots s).m_index (w.slots s).m_group
        (w.sig e).m_slots).1).setIndex moved (w.slots s).m_index := by
  unfold clean
  simp only [h]

theorem getLast_getElem (l : List SlotId) (d x : SlotId) (h : x ∈ l) :
    l[l.length - 1]? = some (l.getLast?.getD d) := by
  cases l with
  | nil => exact absurd h (List.not_mem_nil x)
  | cons a l =>
    rw [List.getLast?_eq_getElem?]
    simp

theorem wf_clean (e : SigId) (s : SlotId) (w : World) (h : WF w) : WF (clean e s w) := by
  cases hr : (cleanGroups s (w.slots s).m_index (w.slots s).m_group (w.sig e).m_slots).2 with
  | none => rw [clean_of_none e s w hr]; exact h
  | some moved =>
    obtain ⟨hsort, hidx, huniq⟩ := h
    rw [clean_of_some e s w moved hr]
    obtain ⟨pre, g, post, q1, q2, q3, q4, q5, q6⟩ := cleanGroups_split _ _ _ _ _ hr
    have he : e < w.sigs.length := by
      by_contra hc
      rw [sig_of_ge w e (Nat.le_of_not_lt hc)] at q1
      exact absurd q1 (by simp [default])
    have hg : g ∈ (w.sig e).m_slots := by rw [q1]; simp
    have hsmem : s ∈ g.slts := List.getElem?_mem q4
    have hlast : g.slts[g.slts.length - 1]? = some moved := by
      rw [q5]; exact getLast_getElem g.slts s s hsmem
    obtain ⟨m1, m2, m3⟩ := hidx e g hg _ _ hlast
    have hilt : (w.slots s).m_index < g.slts.length := by
      by_contra hc
      rw [List.getElem?_eq_none (Nat.le_of_not_lt hc)] at q4
      exact absurd q4 (by simp)
    have hmovedheld : holds (w.sig e).m_slots moved = true :=
      holds_mem_group.2 ⟨g, hg, List.getElem?_mem hlast⟩
    -- the registries afterwards
    have hsame : ((w.setGroups e (cleanGroups s (w.slots s).m_index (w.slots s).m_group
        (w.sig e).m_slots).1).setIndex moved (w.slots s).m_index).sig e =
        ⟨pre ++ ⟨swapPop g.slts (w.slots s).m_index moved, g.gid⟩ :: post,
          (w.sig e).m_block⟩ := by
      rw [setIndex_sig]
      unfold World.setGroups
      rw [sig_setSig_same _ _ _ he, q6]
    have hother : ∀ e1, e1 ≠ e →
        ((w.setGroups e (cleanGroups s (w.slots s).m_index (w.slots s).m_group
          (w.sig e).m_slots).1).setIndex moved (w.slots s).m_index).sig e1 = w.sig e1 := by
      intro e1 h1
      rw [setIndex_sig, sig_setGroups_ne _ _ _ _ (Ne.symm h1)]
    have hslots : ∀ t, t ≠ moved →
        ((w.setGroups e (cleanGroups s (w.slots s).m_index (w.slots s).m_group
          (w.sig e).m_slots).1).setIndex moved (w.slots s).m_index).slots t = w.slots t := by
      intro t ht
      unfold World.setIndex
      rw [modifySlot_slots_ne _ _ _ _ ht]
      rfl
    have hmoved :
        ((w.setGroups e (cleanGroups s (w.slots s).m_index (w.slots s).m_group
          (w.sig e).m_slots).1).setIndex moved (w.slots s).m_index).slots moved =
          { w.slots moved with m_index := (w.slots s).m_index } := by
      unfold World.setIndex
      rw [modifySlot_slots_same]
      rfl
    have hsubholds : ∀ e1 t,
        holds (((w.setGroups e (cleanGroups s (w.slots s).m_index (w.slots s).m_group
          (w.sig e).m_slots).1).setIndex moved (w.slots s).m_index).sig e1).m_slots t = true →
        holds (w.sig e1).m_slots t = true := by
      intro e1 t ht
      by_cases h1 : e1 = e
      · rw [h1] at ht ⊢
        rw [hsame] at ht
        rw [holds_iff] at ht ⊢
        rw [← q6] at ht
        exact mem_flat_cleanGroups _ _ _ _ t ht
      · rw [hother e1 h1] at ht; exact ht
    refine ⟨?_, ?_, ?_⟩
    · intro e1
      by_cases h1 : e1 = e
      · rw [h1, hsame]
        have := hsort e
        rw [q1] at this
        unfold SortedGroups at this ⊢
        simpa using this
      · rw [hother e1 h1]; exact hsort e1
    · intro e1
      by_cases h1 : e1 = e
      · rw [h1, hsame]
        intro x hx i t hit
        simp only [List.mem_append, List.mem_cons] at hx
        have hold : ∀ y ∈ (w.sig e).m_slots, y.gid ≠ g.gid → y.slts[i]? = some t →
            (((w.setGroups e (cleanGroups s (w.slots s).m_index (w.slots s).m_group
              (w.sig e).m_slots).1).setIndex moved (w.slots s).m_index).slots t).m_index
              = i ∧
            (((w.setGroups e (cleanGroups s (w.slots s).m_index (w.slots s).m_group
              (w.sig e).m_slots).1).setIndex moved (w.slots s).m_index).slots t).m_group
              = y.gid ∧ t < w.nextSlot := by
          intro y hy hne hyt
          obtain ⟨a1, a2, a3⟩ := hidx e y hy i t hyt
          have htm : t ≠ moved := by
            intro hc
            rw [hc, m2] at a2
            exact hne a2.symm
          rw [hslots t htm]
          exact ⟨a1, a2, a3⟩
        rcases hx with hx | hx | hx
        · exact hold x (by rw [q1]; simp [hx]) (by rw [q3]; exact q2 x hx) hit
        · subst hx
          simp only at hit ⊢
          rw [swapPop_getElem] at hit
          split_ifs at hit with c1 c2
          · simp only [Option.some.injEq] at hit
            subst hit
            rw [hmoved]
            exact ⟨c2.symm, m2, m3⟩
          · obtain ⟨a1, a2, a3⟩ := hidx e g hg i t hit
            have htm : t ≠ moved := by
              intro hc
              rw [hc, m1] at a1
              omega
            rw [hslots t htm]
            exact ⟨a1, a2, a3⟩
        · have hlt := sorted_append_gt (by rw [← q1]; exact hsort e) x hx
          exact hold x (by rw [q1]; simp [hx]) (by omega) hit
      · rw [hother e1 h1]
        intro x hx i t hit
        obtain ⟨a1, a2, a3⟩ := hidx e1 x hx i t hit
        have htm : t ≠ moved := by
          intro hc
          subst hc
          exact h1 (huniq e1 e t (holds_mem_group.2 ⟨x, hx, List.getElem?_mem hit⟩)
            hmovedheld)
        rw [hslots t htm]
        exact ⟨a1, a2, a3⟩
    · intro a b t ha hb
      exact huniq a b t (hsubholds a t ha) (hsubholds b t hb)

theorem wf_of_same {w w1 : World} (h : WF w) (hs : w1.sigs = w.sigs)
    (hn : w.nextSlot ≤ w1.nextSlot)
    (ht : ∀ t, t < w.nextSlot → (w1.slots t).m_index = (w.slots t).m_index ∧
      (w1.slots t).m_group = (w.slots t).m_group) : WF w1 := by
  have hsig : ∀ e, w1.sig e = w.sig e := fun e => by unfold World.sig; rw [hs]
  obtain ⟨h1, h2, h3⟩ := h
  refine ⟨fun e => by rw [hsig]; exact h1 e, ?_, ?_⟩
  · intro e g hg i t hit
    rw [hsig] at hg
    obtain ⟨a1, a2, a3⟩ := h2 e g hg i t hit
    obtain ⟨b1, b2⟩ := ht t a3
    exact ⟨b1.trans a1, b2.trans a2, Nat.lt_of_lt_of_le a3 hn⟩
  · intro e1 e2 t ha hb
    rw [hsig] at ha hb
    exact h3 e1 e2 t ha hb

theorem wf_slot_disconnect (s : SlotId) (w : World) (h : WF w) :
    WF (slot_disconnect s w).2 := by
  unfold slot_disconnect
  split
  · apply wf_clean
    refine wf_of_same h rfl (Nat.le_refl _) ?_
    intro t _
    by_cases hts : t = s
    · subst hts; simp
    · rw [modifySlot_slots_ne _ _ _ _ hts]
      exact ⟨rfl, rfl⟩
  · exact h

theorem wf_conn_disconnect (c : Connection) (w : World) (h : WF w) :
    WF (c.disconnect w).2 := by
  unfold Connection.disconnect
  split
  · exact h
  · exact wf_slot_disconnect _ w h

theorem wf_init (n : Nat) : WF (World.init n) := by
  have hsig : ∀ e, ((World.init n).sig e).m_slots = [] := by
    intro e
    by_cases he : e < (World.init n).sigs.length
    · unfold World.sig
      rw [List.getD_eq_getElem?_getD, List.getElem?_eq_getElem he]
      simp [World.init, default]
    · rw [sig_of_ge _ e (Nat.le_of_not_lt he)]; rfl
  refine ⟨?_, ?_, ?_⟩
  · intro e; rw [hsig]; simp [SortedGroups]
  · intro e g hg; rw [hsig] at hg; exact absurd hg (List.not_mem_nil g)
  · intro e1 e2 s h1
    rw [hsig] at h1
    simp [holds] at h1

theorem group_nodup {w : World} {gs : List Group} (h : IndexOK w gs) (g : Group)
    (hg : g ∈ gs) : g.slts.Nodup := by
  rw [List.nodup_iff_getElem?_ne_getElem?]
  intro i j hij hj hc
  have hi : i < g.slts.length := lt_trans hij hj
  have h1 := h g hg i g.slts[i] (List.getElem?_eq_getElem hi)
  have h2 := h g hg j g.slts[i] (by rw [← hc]; exact List.getElem?_eq_getElem hi)
  omega

theorem registry_nodup {w : World} {gs : List Group} (hs : SortedGroups gs)
    (h : IndexOK w gs) : (flat gs).Nodup := by
  induction gs with
  | nil => simp [flat]
  | cons g gs ih =>
    obtain ⟨hgt, hs2⟩ := sorted_tail_gt hs
    rw [flat_cons, List.nodup_append]
    refine ⟨group_nodup h g (List.mem_cons_self _ _),
      ih hs2 (fun x hx => h x (List.mem_cons_of_mem _ hx)), ?_⟩
    intro t ht1 ht2
    obtain ⟨i, hi⟩ := List.getElem?_of_mem ht1
    have a := h g (List.mem_cons_self _ _) i t hi
    rw [← holds_iff, holds_mem_group] at ht2
    obtain ⟨x, hx, hxt⟩ := ht2
    obtain ⟨j, hj⟩ := List.getElem?_of_mem hxt
    have b := h x (List.mem_cons_of_mem _ hx) j t hj
    have := hgt x hx
    omega

theorem addSlotGroups_pos (n : SlotId) (gid : Int) (gs : List Group) :
    ∀ g1 ∈ (addSlotGroups n gid gs).1, ∀ i s, g1.slts[i]? = some s →
      (s = n ∧ g1.gid = gid ∧ i = (addSlotGroups n gid gs).2) ∨
      ∃ g ∈ gs, g.gid = g1.gid ∧ g.slts[i]? = some s := by
  induction gs with
  | nil =>
    intro g1 h i s hs
    simp only [addSlotGroups, List.mem_singleton] at h
    subst h
    cases i with
    | zero => simp at hs; exact Or.inl ⟨hs.symm, rfl, rfl⟩
    | succ i => simp at hs
  | cons g gs ih =>
    intro g1 h i s hs
    unfold addSlotGroups at h ⊢
    split_ifs at h ⊢ with h1 h2
    · rcases List.mem_cons.1 h with h | h
      · subst h; exact Or.inr ⟨g1, List.mem_cons_self _ _, rfl, hs⟩
      · rcases ih g1 h i s hs with h3 | ⟨g2, hg2, h3, h4⟩
        · exact Or.inl h3
        · exact Or.inr ⟨g2, List.mem_cons_of_mem _ hg2, h3, h4⟩
    · rcases List.mem_cons.1 h with h | h
      · subst h
        cases i with
        | zero => simp at hs; exact Or.inl ⟨hs.symm, rfl, rfl⟩
        | succ i => simp at hs
      · exact Or.inr ⟨g1, h, rfl, hs⟩
    · have heq : g.gid = gid := not_not.mp h2
      rcases List.mem_cons.1 h with h | h
      · subst h
        simp only at hs ⊢
        by_cases hi : i < g.slts.length
        · rw [List.getElem?_append_left hi] at hs
          exact Or.inr ⟨g, List.mem_cons_self _ _, rfl, hs⟩
        · rw [List.getElem?_append_right (Nat.le_of_not_lt hi)] at hs
          have hi0 : i - g.slts.length = 0 := by
            by_contra hc
            obtain ⟨k, hk⟩ := Nat.exists_eq_succ_of_ne_zero hc
            rw [hk] at hs
            simp at hs
          rw [hi0] at hs
          simp at hs
          exact Or.inl ⟨hs.symm, heq, by omega⟩
      · exact Or.inr ⟨g1, List.mem_cons_of_mem _ h, rfl, hs⟩

theorem wf_connect_call (e : SigId) (k : ConnectCall) (gid : Int) (w : World) (h : WF w) :
    WF (connect_call e k gid w).2 := by
  obtain ⟨hsort, hidx, huniq⟩ := h
  obtain ⟨-, -, -, hn, -, hs⟩ := connect_call_frame e k gid w
  obtain ⟨hi, hg, -⟩ := connect_call_slot e k gid w
  have hlt : ∀ e1 t, holds (w.sig e1).m_slots t = true → t < w.nextSlot := by
    intro e1 t ht
    obtain ⟨g, hg1, hgt⟩ := holds_mem_group.1 ht
    obtain ⟨i, hi1⟩ := List.getElem?_of_mem hgt
    exact (hidx e1 g hg1 i t hi1).2.2
  have hother : ∀ e1, e1 ≠ e → (connect_call e k gid w).2.sig e1 = w.sig e1 := by
    intro e1 h1
    unfold World.sig
    rw [connect_call_sigs]
    exact sig_setGroups_ne w e e1 _ (Ne.symm h1)
  by_cases he : e < w.sigs.length
  · have hsig := connect_call_sig e k gid w he
    have hholds : ∀ e1 t, holds ((connect_call e k gid w).2.sig e1).m_slots t = true →
        (t = w.nextSlot ∧ e1 = e) ∨ holds (w.sig e1).m_slots t = true := by
      intro e1 t ht
      by_cases h1 : e1 = e
      · rw [h1, hsig, holds_iff, mem_flat_addSlotGroups] at ht
        rcases ht with ht | ht
        · exact Or.inl ⟨ht, h1⟩
        · exact Or.inr (by rw [h1, holds_iff]; exact ht)
      · rw [hother e1 h1] at ht; exact Or.inr ht
    refine ⟨?_, ?_, ?_⟩
    · intro e1
      by_cases h1 : e1 = e
      · rw [h1, hsig]; exact addSlotGroups_sorted _ _ _ (hsort e)
      · rw [hother e1 h1]; exact hsort e1
    · intro e1
      have hold : ∀ g ∈ (w.sig e1).m_slots, ∀ i t, g.slts[i]? = some t →
          ((connect_call e k gid w).2.slots t).m_index = i ∧
          ((connect_call e k gid w).2.slots t).m_group = g.gid ∧
          t < (connect_call e k gid w).2.nextSlot := by
        intro g hg1 i t hit
        obtain ⟨a1, a2, a3⟩ := hidx e1 g hg1 i t hit
        rw [hs t (Nat.ne_of_lt a3), hn]
        exact ⟨a1, a2, Nat.lt_succ_of_lt a3⟩
      by_cases h1 : e1 = e
      · rw [h1, hsig]
        intro g1 hg1 i t hit
        rcases addSlotGroups_pos _ gid _ g1 hg1 i t hit with ⟨b1, b2, b3⟩ | ⟨g, hg2, b1, b2⟩
        · rw [b1, hi, hg, hn]
          exact ⟨b3.symm, b2.symm, Nat.lt_succ_self _⟩
        · rw [← b1]
          exact (h1 ▸ hold) g hg2 i t b2
      · rw [hother e1 h1]
        exact hold
    · intro a b t ha hb
      rcases hholds a t ha with ⟨a1, a2⟩ | a1 <;> rcases hholds b t hb with ⟨b1, b2⟩ | b1
      · rw [a2, b2]
      · rw [a1] at b1
        exact absurd (hlt b _ b1) (Nat.lt_irrefl _)
      · rw [b1] at a1
        exact absurd (hlt a _ a1) (Nat.lt_irrefl _)
      · exact huniq a b t a1 b1
  · have hsigs : (connect_call e k gid w).2.sigs = w.sigs := by
      rw [connect_call_sigs]
      simp [World.setGroups, World.setSig, List.set_eq_of_length_le (Nat.le_of_not_lt he)]
    refine wf_of_same ⟨hsort, hidx, huniq⟩ hsigs (by rw [hn]; exact Nat.le_succ _) ?_
    intro t ht
    rw [hs t (Nat.ne_of_lt ht)]
    exact ⟨rfl, rfl⟩

/-! ## Teardown of an observer -/

theorem flat_split (pre : List Group) (g : Group) (post : List Group) :
    flat (pre ++ g :: post) = flat pre ++ (g.slts ++ flat post) := by
  simp [flat]

theorem not_mem_filter_id (l : List SlotId) (s : SlotId) (h : s ∉ l) :
    l.filter (fun t => decide (t ≠ s)) = l := by
  rw [List.filter_eq_self]
  intro t ht
  simp only [ne_eq, decide_not, Bool.not_eq_true', decide_eq_false_iff_not]
  intro hc
  exact h (hc ▸ ht)

/-- What `slot_state::disconnect` does to the registries of a well-formed state in which every
held slot is owned by its emitter: the slot leaves the registry that holds it. -/
theorem slot_disconnect_effect (s : SlotId) (w : World) (hwf : WF w) (hown : Owned w) :
    WF (slot_disconnect s w).2 ∧ Owned (slot_disconnect s w).2 ∧
    (∀ e, List.Perm (flat ((slot_disconnect s w).2.sig e).m_slots)
      ((flat (w.sig e).m_slots).filter (fun t => decide (t ≠ s)))) ∧
    (∀ e, ((slot_disconnect s w).2.sig e).m_block = (w.sig e).m_block) := by
  have hwf1 := wf_slot_disconnect s w hwf
  obtain ⟨hsort, hidx, huniq⟩ := hwf
  by_cases hc : (w.slots s).m_connected = true
  · -- the flag is cleared, then `clean` runs on the emitter that created the slot
    have hsd : (slot_disconnect s w).2 = clean (w.slots s).cleaner s
        (w.modifySlot s (fun x => { x with m_connected := false })) := by
      unfold slot_disconnect
      rw [if_pos hc]
    set w0 := w.modifySlot s (fun x => { x with m_connected := false }) with hw0
    have hsig0 : ∀ e, w0.sig e = w.sig e := fun e => rfl
    have hi0 : (w0.slots s).m_index = (w.slots s).m_index := by simp [hw0]
    have hg0 : (w0.slots s).m_group = (w.slots s).m_group := by simp [hw0]
    by_cases hheld : holds (w.sig (w.slots s).cleaner).m_slots s = true
    · -- the slot is found and removed
      obtain ⟨g, hg, hsg⟩ := holds_mem_group.1 hheld
      obtain ⟨i, hi⟩ := List.getElem?_of_mem hsg
      obtain ⟨a1, a2, -⟩ := hidx _ g hg i s hi
      have hfound := cleanGroups_finds s i _ (hsort (w.slots s).cleaner) g hg hi
      rw [← a1, ← a2] at hfound
      obtain ⟨moved, hmoved⟩ := Option.isSome_iff_exists.1 hfound
      have hmoved0 : (cleanGroups s (w0.slots s).m_index (w0.slots s).m_group
          (w0.sig (w.slots s).cleaner).m_slots).2 = some moved := by
        rw [hi0, hg0, hsig0]; exact hmoved
      obtain ⟨pre, g1, post, q1, -, -, q4, q5, q6⟩ := cleanGroups_split _ _ _ _ _ hmoved
      have he : (w.slots s).cleaner < w.sigs.length := by
        by_contra hcc
        rw [sig_of_ge w _ (Nat.le_of_not_lt hcc)] at q1
        exact absurd q1 (by simp [default])
      have hclean := clean_of_some (w.slots s).cleaner s w0 moved hmoved0
      have hreg : ((slot_disconnect s w).2.sig (w.slots s).cleaner).m_slots =
          pre ++ ⟨swapPop g1.slts (w.slots s).m_index moved, g1.gid⟩ :: post := by
        rw [hsd, hclean, setIndex_sig, sig_setGroups_same w0 _ _ he, hi0, hg0, hsig0, q6]
      have hoth : ∀ e, e ≠ (w.slots s).cleaner →
          (slot_disconnect s w).2.sig e = w.sig e := by
        intro e h1
        rw [hsd, hclean, setIndex_sig, sig_setGroups_ne _ _ _ _ (Ne.symm h1), hsig0]
      have hperm : List.Perm (s :: flat ((slot_disconnect s w).2.sig (w.slots s).cleaner).m_slots)
          (flat (w.sig (w.slots s).cleaner).m_slots) := by
        rw [hreg, q1, flat_split, flat_split]
        simp only
        have hp := swapPop_perm g1.slts (w.slots s).m_index s q4
        rw [← q5] at hp
        exact List.perm_middle.symm.trans
          (List.Perm.append_left _ (List.Perm.append_right _ hp))
      have hnd := registry_nodup (hsort (w.slots s).cleaner) (hidx (w.slots s).cleaner)
      have hnd2 : (s :: flat ((slot_disconnect s w).2.sig (w.slots s).cleaner).m_slots).Nodup :=
        hperm.nodup_iff.2 hnd
      have hnot : s ∉ flat ((slot_disconnect s w).2.sig (w.slots s).cleaner).m_slots :=
        (List.nodup_cons.1 hnd2).1
      have hperm_all : ∀ e, List.Perm (flat ((slot_disconnect s w).2.sig e).m_slots)
          ((flat (w.sig e).m_slots).filter (fun t => decide (t ≠ s))) := by
        intro e
        by_cases h1 : e = (w.slots s).cleaner
        · rw [h1]
          have := hperm.filter (fun t => decide (t ≠ s))
          rw [List.filter_cons] at this
          simp only [ne_eq, not_true_eq_false, decide_False, Bool.false_eq_true, if_false]
            at this
          rw [not_mem_filter_id _ s hnot] at this
          exact this
        · rw [hoth e h1]
          have hns : s ∉ flat (w.sig e).m_slots := by
            intro hm
            exact h1 (huniq e _ s ((holds_iff _ _).2 hm) hheld)
          rw [not_mem_filter_id _ s hns]
      refine ⟨hwf1, ?_, hperm_all, ?_⟩
      · intro e t ht
        have htm : t ∈ (flat (w.sig e).m_slots).filter (fun t => decide (t ≠ s)) :=
          (hperm_all e).mem_iff.1 ((holds_iff _ _).1 ht)
        rw [List.mem_filter] at htm
        have hts : t ≠ s := by simpa using htm.2
        obtain ⟨b1, b2⟩ := hown e t ((holds_iff _ _).2 htm.1)
        obtain ⟨j, k, hk, hk2⟩ := slot_disconnect_slots s w t
        rw [hk]
        refine ⟨b1, ?_⟩
        rcases hk2 with hk2 | ⟨-, hk2⟩
        · simp only; rw [hk2]; exact b2
        · exact absurd hk2 hts
      · intro e
        rw [hsd, hclean, setIndex_sig, sig_setGroups_block, hsig0]
    · -- no registry of the cleaner holds the slot: nothing is removed
      have hnone : (cleanGroups s (w0.slots s).m_index (w0.slots s).m_group
          (w0.sig (w.slots s).cleaner).m_slots).2 = none := by
        by_contra hcc
        have hsome : (cleanGroups s (w0.slots s).m_index (w0.slots s).m_group
            (w0.sig (w.slots s).cleaner).m_slots).2.isSome = true := by
          cases h9 : (cleanGroups s (w0.slots s).m_index (w0.slots s).m_group
            (w0.sig (w.slots s).cleaner).m_slots).2 with
          | none => exact absurd h9 hcc
          | some _ => rfl
        have := cleanGroups_some_mem _ _ _ _ hsome
        rw [hsig0] at this
        exact hheld ((holds_iff _ _).2 this)
      have hclean := clean_of_none (w.slots s).cleaner s w0 hnone
      have hnoheld : ∀ e, s ∉ flat (w.sig e).m_slots := by
        intro e hm
        have h1 := hown e s ((holds_iff _ _).2 hm)
        rw [← h1.1] at hm
        exact hheld ((holds_iff _ _).2 hm)
      refine ⟨hwf1, ?_, ?_, ?_⟩
      · intro e t ht
        rw [hsd, hclean] at ht ⊢
        rw [hsig0] at ht
        have hts : t ≠ s := fun h => hnoheld e (h ▸ (holds_iff _ _).1 ht)
        rw [hw0, modifySlot_slots_ne _ _ _ _ hts]
        exact hown e t ht
      · intro e
        rw [hsd, hclean, hsig0, not_mem_filter_id _ s (hnoheld e)]
      · intro e
        rw [hsd, hclean, hsig0]
  · -- already disconnected: nothing happens, and no registry holds the slot
    have hsd : (slot_disconnect s w).2 = w := by
      unfold slot_disconnect
      rw [if_neg hc]
    have hnoheld : ∀ e, s ∉ flat (w.sig e).m_slots := by
      intro e hm
      exact hc (hown e s ((holds_iff _ _).2 hm)).2
    refine ⟨hwf1, by rw [hsd]; exact hown, ?_, ?_⟩
    · intro e
      rw [hsd, not_mem_filter_id _ s (hnoheld e)]
    · intro e; rw [hsd]

theorem held_exists_sig (w : World) (s : SlotId) (h : w.held s = true) :
    ∃ e, holds (w.sig e).m_slots s = true := by
  rw [held_iff] at h
  obtain ⟨g, hg, hh⟩ := h
  obtain ⟨e, he, rfl⟩ := List.mem_iff_getElem.1 hg
  refine ⟨e, ?_⟩
  simpa [World.sig, List.getD_eq_getElem?_getD, he] using hh

theorem conn_disconnect_effect (c : Connection) (w : World) (hwf : WF w) (hown : Owned w) :
    WF (c.disconnect w).2 ∧ Owned (c.disconnect w).2 ∧
    (∀ e, List.Perm (flat ((c.disconnect w).2.sig e).m_slots)
      ((flat (w.sig e).m_slots).filter (fun t => decide (c.m_state ≠ some t)))) ∧
    (∀ e, ((c.disconnect w).2.sig e).m_block = (w.sig e).m_block) := by
  cases hl : c.lock w with
  | none =>
    have hw : (c.disconnect w).2 = w := by simp [Connection.disconnect, hl]
    rw [hw]
    refine ⟨hwf, hown, ?_, fun _ => rfl⟩
    intro e
    have : (flat (w.sig e).m_slots).filter (fun t => decide (c.m_state ≠ some t))
        = flat (w.sig e).m_slots := by
      rw [List.filter_eq_self]
      intro t ht
      simp only [ne_eq, decide_not, Bool.not_eq_true', decide_eq_false_iff_not]
      intro hc
      unfold Connection.lock at hl
      rw [hc] at hl
      simp only at hl
      have ha : w.alive t = true :=
        alive_of_held w t (held_of_sig w e t ((holds_iff _ _).2 ht))
      rw [if_pos ha] at hl
      exact Option.noConfusion hl
    rw [this]
  | some s =>
    have hcs : c.m_state = some s := by
      unfold Connection.lock at hl
      cases hc : c.m_state with
      | none => rw [hc] at hl; simp at hl
      | some t =>
        rw [hc] at hl
        simp only at hl
        split_ifs at hl
        simpa using hl
    have hw : (c.disconnect w).2 = (slot_disconnect s w).2 := by
      simp [Connection.disconnect, hl]
    rw [hw]
    obtain ⟨a1, a2, a3, a4⟩ := slot_disconnect_effect s w hwf hown
    refine ⟨a1, a2, ?_, a4⟩
    intro e
    have : (fun t => decide (c.m_state ≠ some t)) = (fun t => decide (t ≠ s)) := by
      funext t
      rw [hcs]
      simp only [ne_eq, Option.some.injEq, decide_not]
      congr 1
      exact decide_eq_decide.2 ⟨fun h => h.symm, fun h => h.symm⟩
    rw [this]
    exact a3 e

theorem teardown_fold (l : List Connection) :
    ∀ (w : World), WF w → Owned w →
      WF (l.foldl (fun w1 c => (c.disconnect w1).2) w) ∧
      Owned (l.foldl (fun w1 c => (c.disconnect w1).2) w) ∧
      (∀ e, List.Perm (flat ((l.foldl (fun w1 c => (c.disconnect w1).2) w).sig e).m_slots)
        ((flat (w.sig e).m_slots).filter
          (fun t => decide ((⟨some t⟩ : Connection) ∉ l)))) ∧
      (∀ e, ((l.foldl (fun w1 c => (c.disconnect w1).2) w).sig e).m_block
        = (w.sig e).m_block) := by
  induction l with
  | nil =>
    intro w hwf hown
    refine ⟨hwf, hown, ?_, fun _ => rfl⟩
    intro e
    simp
  | cons c l ih =>
    intro w hwf hown
    obtain ⟨a1, a2, a3, a4⟩ := conn_disconnect_effect c w hwf hown
    obtain ⟨b1, b2, b3, b4⟩ := ih (c.disconnect w).2 a1 a2
    simp only [List.foldl_cons]
    refine ⟨b1, b2, ?_, fun e => (b4 e).trans (a4 e)⟩
    intro e
    refine (b3 e).trans ?_
    have h1 := (a3 e).filter (fun t => decide ((⟨some t⟩ : Connection) ∉ l))
    refine h1.trans ?_
    rw [List.filter_filter]
    apply List.Perm.of_eq
    apply List.filter_congr
    intro t _
    have hc : c.m_state ≠ some t ↔ (⟨some t⟩ : Connection) ≠ c := by
      constructor
      · intro h hh; apply h; rw [← hh]
      · intro h hh; apply h; cases c; simp at hh; simp [hh]
    by_cases h2 : (⟨some t⟩ : Connection) ∈ l <;> by_cases h3 : c.m_state = some t
    · simp [h2, h3]
    · simp [h2, h3]
    · have : (⟨some t⟩ : Connection) = c := by cases c; simp at h3; simp [h3]
      simp [h2, h3, this]
    · have : (⟨some t⟩ : Connection) ≠ c := hc.1 h3
      simp [h2, h3, this]

theorem slot_connected_of_flag (w : World) (s : SlotId)
    (h : (w.slots s).m_connected = false) : slot_connected w s = false := by
  unfold slot_connected
  cases (w.slots s).kind <;> simp [h]

theorem conn_connected_of_flag (w : World) (s : SlotId)
    (h : (w.slots s).m_connected = false) : Connection.connected ⟨some s⟩ w = false := by
  unfold Connection.connected Connection.lock
  by_cases ha : w.alive s = true
  · simp [ha, slot_connected_of_flag w s h]
  · simp [ha]

theorem filter_length_compl (l : List SlotId) (p : SlotId → Prop) [DecidablePred p] :
    (l.filter (fun t => decide (¬ p t))).length + (l.filter (fun t => decide (p t))).length
      = l.length := by
  induction l with
  | nil => rfl
  | cons a l ih =>
    by_cases h : p a
    · simp only [List.filter_cons, h, not_true_eq_false, decide_False, decide_True,
        Bool.false_eq_true, if_false, if_true, List.length_cons]
      omega
    · simp only [List.filter_cons, h, not_false_eq_true, decide_True, decide_False,
        Bool.false_eq_true, if_false, if_true, List.length_cons]
      omega

theorem connect_observer_registers (e : SigId) (f : Callable) (obs : Nat) (gid : Int) (w : World) :
    (connect_call e (ConnectCall.observer f obs) gid w).2.observers obs =
      w.observers obs ++ [(connect_call e (ConnectCall.observer f obs) gid w).1] := by
  simp [connect_call, connect_observer, add_connection, connect_slot, add_slot, make_slot,
    World.setGroups, World.setSig, World.setIndex, World.modifySlot]

/-- Teardown of an observer whose connections were registered: in a state with well-formed
registries in which every held slot belongs to the emitter
that created it and is connected (no emitter has been moved), the teardown
`disconnect_all()` of an observer empties its collection and removes from every emitter
exactly the slots its collection refers to: the registry of each emitter keeps its other slots,
`slot_count()` drops by the number of slots of the collection the emitter held, each such slot
is held by no emitter any more, reads `connected() == false` and is never invoked again by any
program. The overload of `connect(member_function, owner)` for observers puts the connection
it returns into the collection of the owner. -/
theorem observer_teardown_registered (obs : Nat) (w : World) (hwf : WF w) (hown : Owned w) :
    (observer_disconnect_all obs w).observers obs = [] ∧
    (∀ e, List.Perm (flat ((observer_disconnect_all obs w).sig e).m_slots)
      ((flat (w.sig e).m_slots).filter
        (fun t => decide ((⟨some t⟩ : Connection) ∉ w.observers obs)))) ∧
    (∀ e, slot_count (observer_disconnect_all obs w) e +
      ((flat (w.sig e).m_slots).filter
        (fun t => decide ((⟨some t⟩ : Connection) ∈ w.observers obs))).length
      = slot_count w e) ∧
    (∀ s, (⟨some s⟩ : Connection) ∈ w.observers obs → s < w.nextSlot →
      (observer_disconnect_all obs w).held s = false ∧
      Connection.connected ⟨some s⟩ (observer_disconnect_all obs w) = false ∧
      NeverInvoked s (observer_disconnect_all obs w)) ∧
    WF (observer_disconnect_all obs w) ∧ Owned (observer_disconnect_all obs w) ∧
    (∀ (e : SigId) (f : Callable) (gid : Int) (w0 : World),
      (connect_call e (ConnectCall.observer f obs) gid w0).1 ∈
        (connect_call e (ConnectCall.observer f obs) gid w0).2.observers obs) := by
  obtain ⟨a1, a2, a3, -⟩ := teardown_fold (w.observers obs) w hwf hown
  have hsig : ∀ e, (observer_disconnect_all obs w).sig e =
      ((w.observers obs).foldl (fun w1 c => (c.disconnect w1).2) w).sig e := fun _ => rfl
  have hsil := silent_observer_disconnect_all obs w
  have hnotheld : ∀ s, (⟨some s⟩ : Connection) ∈ w.observers obs →
      (observer_disconnect_all obs w).held s = false := by
    intro s hs
    by_contra hc
    obtain ⟨e, he⟩ := held_exists_sig _ s (by simpa using hc)
    rw [hsig, holds_iff] at he
    have := (a3 e).mem_iff.1 he
    rw [List.mem_filter] at this
    simp [hs] at this
  refine ⟨by simp [observer_disconnect_all], fun e => by rw [hsig]; exact a3 e, ?_, ?_,
    ?_, ?_, ?_⟩
  · intro e
    unfold slot_count
    rw [countSlots_eq_flat, countSlots_eq_flat, hsig, (a3 e).length_eq]
    exact filter_length_compl _ (fun t => (⟨some t⟩ : Connection) ∈ w.observers obs)
  · intro s hs hlt
    have hh := hnotheld s hs
    have hlt2 : s < (observer_disconnect_all obs w).nextSlot :=
      Nat.lt_of_lt_of_le hlt (silent_nextSlot hsil)
    refine ⟨hh, ?_, neverInvoked_of_retired s _ hlt2 (Or.inl hh)⟩
    -- the flag is cleared by the step that disconnects the slot and never set again
    have key : ∀ (l : List Connection) (w0 : World), (⟨some s⟩ : Connection) ∈ l →
        s < w0.nextSlot →
        Connection.connected ⟨some s⟩ (l.foldl (fun w1 c => (c.disconnect w1).2) w0)
          = false := by
      intro l
      induction l with
      | nil => intro w0 hm; exact absurd hm (List.not_mem_nil _)
      | cons c l ih =>
        intro w0 hm hlt0
        simp only [List.foldl_cons]
        have hn := silent_nextSlot (silent_conn_disconnect c w0)
        rcases List.mem_cons.1 hm with h1 | h1
        · subst h1
          have hsl := silent_foldl_disconnect l
            (Connection.disconnect ⟨some s⟩ w0).2
          refine conn_connected_mono hsl.1 hsl.2.1 ⟨some s⟩
            (fun t ht => by cases ht; exact Nat.lt_of_lt_of_le hlt0 hn) ?_
          by_cases ha : w0.alive s = true
          · exact conn_connected_of_flag _ s (drop_alive ⟨some s⟩ s w0 rfl ha).2
          · have hl0 : Connection.lock ⟨some s⟩ w0 = none := by
              simp [Connection.lock, ha]
            have hw0 : (Connection.disconnect ⟨some s⟩ w0).2 = w0 := by
              simp [Connection.disconnect, hl0]
            rw [hw0]
            simp [Connection.connected, hl0]
        · exact ih _ h1 (Nat.lt_of_lt_of_le hlt0 hn)
    have := key (w.observers obs) w hs hlt
    unfold Connection.connected Connection.lock at this ⊢
    exact this
  · exact wf_of_same a1 rfl (Nat.le_refl _) (fun _ _ => ⟨rfl, rfl⟩)
  · intro e t ht
    exact a2 e t ht
  · intro e f gid w0
    rw [(connect_observer_registers e f obs gid w0)]
    simp

theorem holds_connect_call (e : SigId) (k : ConnectCall) (gid : Int) (w : World) (e1 : SigId)
    (t : SlotId) (h : holds ((connect_call e k gid w).2.sig e1).m_slots t = true) :
    (t = w.nextSlot ∧ e1 = e) ∨ holds (w.sig e1).m_slots t = true := by
  by_cases h1 : e1 = e
  · by_cases he : e < w.sigs.length
    · rw [h1, connect_call_sig e k gid w he, holds_iff, mem_flat_addSlotGroups] at h
      rcases h with h | h
      · exact Or.inl ⟨h, h1⟩
      · exact Or.inr (by rw [h1, holds_iff]; exact h)
    · have hsigs : (connect_call e k gid w).2.sigs = w.sigs := by
        rw [connect_call_sigs]
        simp [World.setGroups, World.setSig, List.set_eq_of_length_le (Nat.le_of_not_lt he)]
      have : (connect_call e k gid w).2.sig e1 = w.sig e1 := by
        unfold World.sig; rw [hsigs]
      rw [this] at h
      exact Or.inr h
  · have : (connect_call e k gid w).2.sig e1 = w.sig e1 := by
      unfold World.sig
      rw [connect_call_sigs]
      exact sig_setGroups_ne w e e1 _ (Ne.symm h1)
    rw [this] at h
    exact Or.inr h

theorem owned_connect_call (e : SigId) (k : ConnectCall) (gid : Int) (w : World) (hwf : WF w)
    (h : Owned w) : Owned (connect_call e k gid w).2 := by
  intro e1 t ht
  rcases holds_connect_call e k gid w e1 t ht with ⟨h1, h2⟩ | h1
  · rw [h1, h2]
    obtain ⟨-, -, c3, c4, -⟩ := connect_call_slot e k gid w
    exact ⟨c3, c4⟩
  · obtain ⟨g, hg, hgt⟩ := holds_mem_group.1 h1
    obtain ⟨i, hi⟩ := List.getElem?_of_mem hgt
    have hlt := (hwf.2.1 e1 g hg i t hi).2.2
    rw [(connect_call_frame e k gid w).2.2.2.2.2 t (Nat.ne_of_lt hlt)]
    exact h e1 t h1

theorem owned_init (n : Nat) : Owned (World.init n) := by
  intro e s h
  have hsig : ((World.init n).sig e).m_slots = [] := by
    by_cases he : e < (World.init n).sigs.length
    · unfold World.sig
      rw [List.getD_eq_getElem?_getD, List.getElem?_eq_getElem he]
      simp [World.init, default]
    · rw [sig_of_ge _ e (Nat.le_of_not_lt he)]; rfl
  rw [hsig] at h
  simp [holds] at h

theorem wf_worldObservers : WF worldObservers ∧ Owned worldObservers := by
  have w0 := wf_init 2
  have o0 := owned_init 2
  have w1 := wf_connect_call 0 (ConnectCall.observer (memFn 1) 7) 0 _ w0
  have o1 := owned_connect_call 0 (ConnectCall.observer (memFn 1) 7) 0 _ w0 o0
  have w2 := wf_connect_call 0 (ConnectCall.plain (freeFn 1)) 0 _ w1
  have o2 := owned_connect_call 0 (ConnectCall.plain (freeFn 1)) 0 _ w1 o1
  have w3 := wf_connect_call 1 (ConnectCall.observer (memFn 2) 7) 0 _ w2
  have o3 := owned_connect_call 1 (ConnectCall.observer (memFn 2) 7) 0 _ w2 o2
  exact ⟨wf_connect_call 1 (ConnectCall.observer (memFn 1) 8) 0 _ w3,
    owned_connect_call 1 (ConnectCall.observer (memFn 1) 8) 0 _ w3 o3⟩

theorem observer_teardown_registered_example :
    (WF worldObservers ∧ Owned worldObservers) ∧
    worldObservers.observers 7 = [⟨some 0⟩, ⟨some 2⟩] ∧
    (slot_count worldObservers 0 = 2 ∧ slot_count worldObservers 1 = 2) ∧
    (slot_count (observer_disconnect_all 7 worldObservers) 0 = 1 ∧
      slot_count (observer_disconnect_all 7 worldObservers) 1 = 1) ∧
    (observer_disconnect_all 7 worldObservers).observers 7 = [] ∧
    NeverInvoked 2 (observer_disconnect_all 7 worldObservers) ∧
    ((run adder 2 [Op.emit 0 [1], Op.emit 1 [1]]
      (observer_disconnect_all 7 worldObservers)).final.map (fun w => w.log.map Call.slot))
      = some [1, 3] :=
  ⟨wf_worldObservers, by decide, by decide, by decide,
    (observer_teardown_registered 7 worldObservers wf_worldObservers.1 wf_worldObservers.2).1,
    ((observer_teardown_registered 7 worldObservers wf_worldObservers.1 wf_worldObservers.2).2.2.2.1
      2 (by decide) (by decide)).2.2,
    by decide⟩

/-! ## Validity of a connection (C25) -/

theorem valid_iff (s : SlotId) (w : World) :
    Connection.valid ⟨some s⟩ w = true ↔ (w.held s = true ∨ w.inFlight s = true) := by
  have ha : w.alive s = (w.held s || w.inFlight s) := rfl
  unfold Connection.valid Connection.lock
  simp only
  rw [← Bool.or_eq_true, ← ha]
  by_cases h : w.alive s = true
  · simp [h]
  · simp [h]

theorem connect_valid (e : SigId) (k : ConnectCall) (gid : Int) (w : World)
    (he : e < w.sigs.length) :
    (connect_call e k gid w).1.valid (connect_call e k gid w).2 = true := by
  have hlen : e < (connect_call e k gid w).2.sigs.length := by
    rw [connect_call_sigs]; simpa using he
  have halive : (connect_call e k gid w).2.alive w.nextSlot = true :=
    alive_of_holds _ e _ hlen (by
      rw [connect_call_sig e k gid w he]; exact holds_addSlotGroups _ _ _)
  rw [connect_call_fst]
  simp [Connection.valid, Connection.lock, halive]

theorem valid_false_of (s : SlotId) (w : World) (h1 : w.held s = false)
    (h2 : w.inFlight s = false) : Connection.valid ⟨some s⟩ w = false := by
  by_contra hc
  rcases (valid_iff s w).1 (by simpa using hc) with h | h
  · rw [h1] at h; exact Bool.noConfusion h
  · rw [h2] at h; exact Bool.noConfusion h

theorem removal_inFlight (e : SigId) (k : Removal) (w : World) (s : SlotId) :
    (removal e k w).inFlight s = w.inFlight s := by
  unfold World.inFlight
  rw [(removal_frame e k w).1.1]

theorem conn_disconnect_inFlight (c : Connection) (w : World) (s : SlotId) :
    (c.disconnect w).2.inFlight s = w.inFlight s := by
  unfold World.inFlight
  rw [(silent_conn_disconnect c w).2.1]

theorem conn_disconnect_not_held (s : SlotId) (w : World) (hwf : WF w) (hown : Owned w) :
    (Connection.disconnect ⟨some s⟩ w).2.held s = false := by
  by_contra hc
  obtain ⟨e, he⟩ := held_exists_sig _ s (by simpa using hc)
  rw [holds_iff] at he
  have := ((conn_disconnect_effect ⟨some s⟩ w hwf hown).2.2.1 e).mem_iff.1 he
  rw [List.mem_filter] at this
  simp at this

/-- C25: a connection to slot `s` is valid exactly when the slot state exists, that is when a
registry or the snapshot of an emission in flight holds the slot; nothing else in the program
state matters, so keeping connections (in variables, in an observer, in an extended slot) never
keeps a slot alive. The connection returned by `connect` is valid. With no emission in flight
holding the slot, `valid()` is false after any removal call that leaves the slot held by no
registry: for a slot held by one emitter only, after `disconnect_all()` and the destruction of
that emitter and after `disconnect(callable)`, `disconnect(owner)` and
`disconnect(callable, owner)` with matching arguments, and, in a well-formed state without
moved emitters, after `disconnect()` on the connection. While an emission in flight holds the
slot, the connection stays valid through all of these. -/
theorem C25_valid_iff_exists (c : Connection) (s : SlotId) (w : World)
    (hc : c.m_state = some s) :
    (c.valid w = true ↔ (w.held s = true ∨ w.inFlight s = true)) ∧
    (∀ w1 : World, w1.sigs = w.sigs → w1.snaps = w.snaps → c.valid w1 = c.valid w) ∧
    (∀ e f gid, e < w.sigs.length → (connect e f gid w).1.valid (connect e f gid w).2 = true) ∧
    (w.inFlight s = false →
      (∀ e k, (removal e k w).held s = false → c.valid (removal e k w) = false) ∧
      (∀ e, OnlyIn w e s →
        c.valid (disconnect_all e w) = false ∧ c.valid (sig_destroy e w) = false ∧
        (∀ f, has_full_callable f w s = true → c.valid (disconnect_callable e f w).2 = false) ∧
        (∀ o, has_object o w s = true → c.valid (disconnect_object e o w).2 = false) ∧
        (∀ f o, has_object o w s = true → has_callable f w s = true →
          c.valid (disconnect_both e f o w).2 = false)) ∧
      (WF w → Owned w → c.valid (c.disconnect w).2 = false)) ∧
    (w.inFlight s = true →
      (∀ e k, c.valid (removal e k w) = true) ∧ (∀ e, c.valid (sig_destroy e w) = true) ∧
      c.valid (c.disconnect w).2 = true) := by
  have hc2 : c = ⟨some s⟩ := by cases c; simp at hc; simp [hc]
  subst hc2
  refine ⟨valid_iff s w, ?_, ?_, ?_, ?_⟩
  · intro w1 h1 h2
    unfold Connection.valid Connection.lock World.alive
    rw [h1, h2]
  · intro e f gid he
    exact connect_valid e (ConnectCall.plain f) gid w he
  · intro hf
    have key : ∀ e k, (removal e k w).held s = false →
        Connection.valid ⟨some s⟩ (removal e k w) = false := by
      intro e k hh
      exact valid_false_of s _ hh (by rw [removal_inFlight]; exact hf)
    refine ⟨key, ?_, ?_⟩
    · intro e ho
      refine ⟨?_, ?_, ?_, ?_, ?_⟩
      · exact key e Removal.all (not_held_setGroups w e [] s ho (by simp [flat]))
      · exact key e Removal.all (not_held_setGroups w e [] s ho (by simp [flat]))
      · intro f hfc
        exact key e (Removal.callable f)
          (disconnect_if_not_held _ (indexFree_has_full_callable f) e w s ho hfc)
      · intro o ho2
        exact key e (Removal.object o)
          (disconnect_if_not_held _ (indexFree_has_object o) e w s ho ho2)
      · intro f o ho2 hf2
        exact key e (Removal.both f o)
          (disconnect_if_not_held _ (indexFree_both f o) e w s ho (by simp [ho2, hf2]))
    · intro hwf hown
      exact valid_false_of s _ (conn_disconnect_not_held s w hwf hown)
        (by rw [conn_disconnect_inFlight]; exact hf)
  · intro hf
    refine ⟨?_, ?_, ?_⟩
    · intro e k
      exact (valid_iff s _).2 (Or.inr (by rw [removal_inFlight]; exact hf))
    · intro e; exact (valid_iff s _).2 (Or.inr hf)
    · exact (valid_iff s _).2 (Or.inr (by rw [conn_disconnect_inFlight]; exact hf))

theorem onlyIn_worldF (s : SlotId) : OnlyIn worldF 0 s := by
  intro e1 h
  rw [sig_of_ge worldF e1 (by
    have hlen : worldF.sigs.length = 1 := by decide
    rw [hlen]
    exact Nat.pos_of_ne_zero h)]
  rfl

theorem C25_valid_iff_exists_witness :
    Connection.valid ⟨some 1⟩ worldF = true ∧
    Connection.valid ⟨some 1⟩ (disconnect_all 0 worldF) = false ∧
    Connection.valid ⟨some 1⟩ (sig_destroy 0 worldF) = false ∧
    Connection.valid ⟨some 1⟩ (removal 0 Removal.all (worldF.pushSnap 0)) = true :=
  ⟨(C25_valid_iff_exists ⟨some 1⟩ 1 worldF rfl).1.2 (Or.inl (by decide)),
    (((C25_valid_iff_exists ⟨some 1⟩ 1 worldF rfl).2.2.2.1 (by decide)).2.1 0
      (onlyIn_worldF 1)).1,
    (((C25_valid_iff_exists ⟨some 1⟩ 1 worldF rfl).2.2.2.1 (by decide)).2.1 0
      (onlyIn_worldF 1)).2.1,
    ((C25_valid_iff_exists ⟨some 1⟩ 1 (worldF.pushSnap 0) rfl).2.2.2.2 (by decide)).1 0
      Removal.all⟩

/-! ## Extended slots -/

theorem slot_invoke_active_on (prog : Prog) (fuel : Nat) (s : SlotId) (a : Args) (w : World)
    (hp : InertAt prog w a s) (h : active w s = true) :
    slot_invoke prog (exec prog (fuel + 1)) s a w
      = Outcome.done { w with
          log := w.log ++ [callOf w w.snaps.length a s]
          counter := w.counter + addSum (prog (w.slots s).func.code (connArg w s) a) } := by
  unfold InertAt connArg at hp
  unfold active slot_connected slot_blocked at h
  unfold slot_invoke call_slot callOf connArg userCall
  cases hk : (w.slots s).kind <;> simp [hk] at h hp <;>
    simp [h, runOps_adds prog fuel _ _ hp]

theorem emitSlots_inert_on (prog : Prog) (fuel : Nat) (a : Args) :
    ∀ (l : List SlotId) (w : World),
      (∀ t ∈ l, InertAt prog w a t ∧ pendingExpiry w t = false) →
      ∃ w1, emitSlots prog (exec prog (fuel + 1)) l a w = Outcome.done w1 ∧
        w1.log = w.log ++ (l.filter (active w)).map (callOf w w.snaps.length a) ∧
        LogOnly w w1 := by
  intro l
  induction l with
  | nil =>
    intro w _
    exact ⟨w, rfl, by simp, logOnly_refl w⟩
  | cons s l ih =>
    intro w h
    obtain ⟨hs1, hs2⟩ := h s (List.mem_cons_self _ _)
    by_cases hact : active w s = true
    · have hlo : LogOnly w { w with
          log := w.log ++ [callOf w w.snaps.length a s]
          counter := w.counter + addSum (prog (w.slots s).func.code (connArg w s) a) } :=
        ⟨rfl, rfl, rfl, rfl, rfl, rfl⟩
      obtain ⟨w1, e1, e2, e3⟩ := ih { w with
          log := w.log ++ [callOf w w.snaps.length a s]
          counter := w.counter + addSum (prog (w.slots s).func.code (connArg w s) a) }
        (fun t ht => h t (List.mem_cons_of_mem _ ht))
      refine ⟨w1, ?_, ?_, logOnly_trans hlo e3⟩
      · simp only [emitSlots, slot_invoke_active_on prog fuel s a w hs1 hact]
        exact e1
      · rw [e2, quiet_active_eq (logOnly_quiet hlo), quiet_callOf_eq (logOnly_quiet hlo)]
        simp [List.filter_cons, hact]
    · have hact2 : active w s = false := by simpa using hact
      obtain ⟨w1, e1, e2, e3⟩ := ih w (fun t ht => h t (List.mem_cons_of_mem _ ht))
      refine ⟨w1, ?_, ?_, e3⟩
      · simp only [emitSlots, slot_invoke_idle prog _ s a w hact2 hs2]
        exact e1
      · rw [e2]
        simp [List.filter_cons, hact2]

theorem connect_ext_slot_eq (e : SigId) (f : Callable) (gid : Int) (w : World) :
    ((connect_extended e f gid w).2.slots w.nextSlot) =
      ⟨(addSlotGroups w.nextSlot gid (w.sig e).m_slots).2, true, false, gid, e,
        SlotKind.slot_extended, f, ObjRef.none, ⟨some w.nextSlot⟩⟩ := by
  simp [connect_extended, connect_slot_extended, add_slot, make_slot, World.setGroups,
    World.setSig, World.setIndex, World.modifySlot, World.sig]

theorem connect_pmf_ext_slot_eq (e : SigId) (f : Callable) (obj : Nat) (gid : Int)
    (w : World) :
    ((connect_pmf_extended e f obj gid w).2.slots w.nextSlot) =
      ⟨(addSlotGroups w.nextSlot gid (w.sig e).m_slots).2, true, false, gid, e,
        SlotKind.slot_pmf_extended, f, ObjRef.raw obj, ⟨some w.nextSlot⟩⟩ := by
  simp [connect_pmf_extended, connect_slot_extended, add_slot, make_slot, World.setGroups,
    World.setSig, World.setIndex, World.modifySlot, World.sig]

theorem owned_of_same {w w1 : World} (h : Owned w) (hs : w1.sigs = w.sigs)
    (ht : ∀ t, (w1.slots t).cleaner = (w.slots t).cleaner ∧
      (w1.slots t).m_connected = (w.slots t).m_connected) : Owned w1 := by
  intro e t hh
  have hsig : w1.sig e = w.sig e := by unfold World.sig; rw [hs]
  rw [hsig] at hh
  obtain ⟨a1, a2⟩ := h e t hh
  exact ⟨(ht t).1.trans a1, (ht t).2.trans a2⟩

theorem filter_ne_middle (pre post : List SlotId) (n : SlotId) (h1 : n ∉ pre) (h2 : n ∉ post) :
    (pre ++ n :: post).filter (fun t => decide (t ≠ n)) = pre ++ post := by
  rw [List.filter_append, List.filter_cons, not_mem_filter_id pre n h1,
    not_mem_filter_id post n h2]
  simp

/-- An emission over a registry that holds an extended slot whose callable disconnects the
connection it receives, the other callables only adding to the counter. -/
theorem self_disconnect_emit (e : SigId) (n : SlotId) (w : World) (prog : Prog) (a : Args)
    (fuel : Nat) (hwf : WF w) (hown : Owned w) (hb : (w.sig e).m_block = false)
    (hmem : n ∈ flat (w.sig e).m_slots) (hconn : connArg w n = some ⟨some n⟩)
    (hnb : (w.slots n).m_blocked = false)
    (hin : ∀ t ∈ flat (w.sig e).m_slots, t ≠ n →
      InertAt prog w a t ∧ pendingExpiry w t = false)
    (hprog : prog (w.slots n).func.code (some ⟨some n⟩) a = [Op.conn_disconnect ⟨some n⟩]) :
    ∃ w2 l1 l2, emitTop prog (fuel + 1) e a w = Outcome.done w2 ∧
      w2.log = w.log ++ l1 ++ [⟨w.snaps.length + 1, n, a, some ⟨some n⟩⟩] ++ l2 ∧
      (∀ c ∈ l1 ++ l2, c.slot ≠ n) ∧
      slot_count w2 e + 1 = slot_count w e ∧
      (w2.slots n).m_connected = false ∧ w2.held n = false ∧ n < w2.nextSlot := by
  have hheld : holds (w.sig e).m_slots n = true := (holds_iff _ _).2 hmem
  obtain ⟨-, hcon⟩ := hown e n hheld
  have hnlt : n < w.nextSlot := by
    rw [← holds_iff, holds_mem_group] at hmem
    obtain ⟨g, hg, hgn⟩ := hmem
    obtain ⟨i, hi⟩ := List.getElem?_of_mem hgn
    exact (hwf.2.1 e g hg i n hi).2.2
  -- the snapshot: the slot occurs once
  have hnd := registry_nodup (hwf.1 e) (hwf.2.1 e)
  obtain ⟨pre, post, hsplit⟩ := List.append_of_mem hmem
  rw [hsplit] at hnd
  have hnd2 := List.nodup_middle.1 hnd
  have hnot : n ∉ pre ++ post := (List.nodup_cons.1 hnd2).1
  have hnpre : n ∉ pre := fun h => hnot (List.mem_append_left _ h)
  have hnpost : n ∉ post := fun h => hnot (List.mem_append_right _ h)
  have hinert1 : ∀ t ∈ pre ++ post, InertAt prog w a t ∧ pendingExpiry w t = false := by
    intro t ht
    have hne : t ≠ n := fun h => hnot (h ▸ ht)
    refine hin t ?_ hne
    rw [hsplit]
    rcases List.mem_append.1 ht with h | h
    · exact List.mem_append_left _ h
    · exact List.mem_append_right _ (List.mem_cons_of_mem _ h)
  -- the slots before it
  obtain ⟨wp, p1, p2, p3⟩ := emitSlots_inert_on prog fuel a pre (w.pushSnap e)
    (fun t ht => hinert1 t (List.mem_append_left _ ht))
  obtain ⟨q1, q2, q3, q4, q5, -⟩ := (show LogOnly _ wp from p3)
  have hlen : wp.snaps.length = w.snaps.length + 1 := by
    rw [q3]; simp [World.pushSnap]
  have hslotp : wp.slots n = w.slots n := by rw [q1]; rfl
  -- the slot is invoked and disconnects itself
  have hinv : slot_invoke prog (exec prog (fuel + 1)) n a wp =
      Outcome.done (Connection.disconnect ⟨some n⟩
        { wp with log := wp.log ++ [⟨wp.snaps.length, n, a, some ⟨some n⟩⟩] }).2 := by
    unfold connArg at hconn
    unfold slot_invoke call_slot userCall
    rw [hslotp, hcon, hnb]
    cases hk : (w.slots n).kind <;> simp [hk] at hconn <;>
      simp [hconn, hprog, runOps, exec, stepOp]
  have hsigl : ∀ e1, World.sig { wp with log := wp.log ++
      [⟨wp.snaps.length, n, a, some ⟨some n⟩⟩] } e1 = w.sig e1 := by
    intro e1
    show wp.sig e1 = _
    unfold World.sig
    rw [q2]
    rfl
  have hwfl : WF { wp with log := wp.log ++ [⟨wp.snaps.length, n, a, some ⟨some n⟩⟩] } :=
    wf_of_same hwf q2 (by rw [q5]; exact Nat.le_refl _) (fun t _ => by
      show (wp.slots t).m_index = _ ∧ (wp.slots t).m_group = _
      rw [q1]; exact ⟨rfl, rfl⟩)
  have hownl : Owned { wp with log := wp.log ++ [⟨wp.snaps.length, n, a, some ⟨some n⟩⟩] } :=
    owned_of_same hown q2 (fun t => by
      show (wp.slots t).cleaner = _ ∧ (wp.slots t).m_connected = _
      rw [q1]; exact ⟨rfl, rfl⟩)
  obtain ⟨c1, -, c3, -⟩ := conn_disconnect_effect ⟨some n⟩ _ hwfl hownl
  have halive : World.alive { wp with log := wp.log ++
      [⟨wp.snaps.length, n, a, some ⟨some n⟩⟩] } n = true :=
    alive_of_held _ _ (held_of_sig _ e _ (by rw [hsigl]; exact hheld))
  have hdis := conn_disconnect_of_alive n _ halive
  have hflag := (drop_alive ⟨some n⟩ n _ rfl halive).2
  obtain ⟨-, g2, g3, -, g5, -, -⟩ := slot_disconnect_frame n { wp with log := wp.log ++
      [⟨wp.snaps.length, n, a, some ⟨some n⟩⟩] }
  rw [← hdis] at g2 g3 g5
  have hslots_s : ∀ t, t ≠ n → ∃ i,
      (Connection.disconnect ⟨some n⟩ { wp with log := wp.log ++
        [⟨wp.snaps.length, n, a, some ⟨some n⟩⟩] }).2.slots t =
        { w.slots t with m_index := i } := by
    intro t ht
    obtain ⟨i, c, hk, hk2⟩ := slot_disconnect_slots n { wp with log := wp.log ++
      [⟨wp.snaps.length, n, a, some ⟨some n⟩⟩] } t
    rw [← hdis] at hk
    refine ⟨i, ?_⟩
    rw [hk]
    rcases hk2 with hk2 | ⟨-, hk2⟩
    · rw [hk2]
      show ({ wp.slots t with m_index := i, m_connected := (wp.slots t).m_connected } : Slot) = _
      rw [q1]
      rfl
    · exact absurd hk2 ht
  have hinert_s : ∀ t ∈ post,
      InertAt prog (Connection.disconnect ⟨some n⟩ { wp with log := wp.log ++
        [⟨wp.snaps.length, n, a, some ⟨some n⟩⟩] }).2 a t ∧
      pendingExpiry (Connection.disconnect ⟨some n⟩ { wp with log := wp.log ++
        [⟨wp.snaps.length, n, a, some ⟨some n⟩⟩] }).2 t = false := by
    intro t ht
    obtain ⟨h3, h4⟩ := hinert1 t (List.mem_append_right _ ht)
    obtain ⟨i, hi⟩ := hslots_s t (fun h => hnpost (h ▸ ht))
    unfold InertAt connArg at h3 ⊢
    unfold pendingExpiry isTracked ptr_expired at h4 ⊢
    rw [hi, g2]
    have hexp : wp.expired = w.expired := q4
    simp only [hexp]
    exact ⟨h3, h4⟩
  -- the slots after it
  obtain ⟨w3, r1, r2, r3⟩ := emitSlots_inert_on prog fuel a post _ hinert_s
  obtain ⟨s1, s2, -, -, s5, -⟩ := (show LogOnly _ w3 from r3)
  rw [g5] at r2
  obtain ⟨l2, hl2, hm2⟩ : ∃ l2, w3.log = (wp.log ++
      [⟨wp.snaps.length, n, a, some ⟨some n⟩⟩]) ++ l2 ∧ ∀ c ∈ l2, c.slot ≠ n := by
    refine ⟨_, r2, ?_⟩
    intro c h
    obtain ⟨t, ht, rfl⟩ := List.mem_map.1 h
    intro hcc
    exact hnpost (hcc ▸ (List.mem_filter.1 ht).1)
  obtain ⟨l1, hl1, hm1⟩ : ∃ l1, wp.log = w.log ++ l1 ∧ ∀ c ∈ l1, c.slot ≠ n := by
    refine ⟨_, p2, ?_⟩
    intro c h
    obtain ⟨t, ht, rfl⟩ := List.mem_map.1 h
    intro hcc
    exact hnpre (hcc ▸ (List.mem_filter.1 ht).1)
  have hfilt : ∀ l : List SlotId,
      l.filter (fun t => decide ((⟨some n⟩ : Connection).m_state ≠ some t)) =
      l.filter (fun t => decide (t ≠ n)) := by
    intro l
    apply List.filter_congr
    intro x _
    simp [eq_comm]
  have hsig3 : ∀ e1, w3.popSnap.sig e1 = (Connection.disconnect ⟨some n⟩ { wp with log :=
      wp.log ++ [⟨wp.snaps.length, n, a, some ⟨some n⟩⟩] }).2.sig e1 := by
    intro e1
    show w3.sig e1 = _
    unfold World.sig
    rw [s2]
  have hgone : ∀ e1, n ∉ flat (w3.popSnap.sig e1).m_slots := by
    intro e1 hmem1
    rw [hsig3, (c3 e1).mem_iff, hfilt, List.mem_filter] at hmem1
    simp at hmem1
  have hc : slot_count w3.popSnap e = (pre ++ post).length := by
    unfold slot_count
    rw [hsig3, countSlots_eq_flat, (c3 e).length_eq, hsigl, hsplit, hfilt,
      filter_ne_middle pre post _ hnpre hnpost]
  have h2 : slot_count w e = (pre ++ post).length + 1 := by
    unfold slot_count
    rw [countSlots_eq_flat, hsplit]
    simp
    omega
  refine ⟨w3.popSnap, l1, l2, ?_, ?_, ?_, ?_, ?_, ?_, ?_⟩
  · unfold emitTop
    rw [emit_eq prog _ e a _ hb, hsplit, emitSlots_append, p1]
    simp only [emitSlots, hinv, r1]
  · show w3.log = _
    rw [hl2, hl1, hlen]
  · intro c hc
    rcases List.mem_append.1 hc with h | h
    · exact hm1 c h
    · exact hm2 c h
  · rw [hc, h2]
  · show (w3.slots n).m_connected = false
    rw [s1]; exact hflag
  · cases hh : w3.popSnap.held n with
    | false => rfl
    | true =>
      rw [held_iff] at hh
      obtain ⟨g, hg, hgn⟩ := hh
      obtain ⟨i, hi, hgi⟩ := List.getElem_of_mem hg
      exfalso
      apply hgone i
      rw [← holds_iff]
      have : w3.popSnap.sig i = g := by
        unfold World.sig
        rw [List.getD_eq_getElem?_getD, List.getElem?_eq_getElem hi, hgi]
        rfl
      rw [this]
      exact hgn
  · show n < w3.nextSlot
    rw [s5, g3]
    show n < wp.nextSlot
    have : wp.nextSlot = w.nextSlot := q5
    rw [this]
    exact hnlt

theorem extended_slot_later (e : SigId) (k : ConnectCall) (gid : Int) (w : World)
    (f : Callable) (obj : Nat)
    (hk : k = ConnectCall.extended f ∨ k = ConnectCall.pmf_extended f obj)
    {w1 : World} (hm : Mono (connect_call e k gid w).2 w1) :
    ((w1.slots w.nextSlot).kind = SlotKind.slot_extended ∨
      (w1.slots w.nextSlot).kind = SlotKind.slot_pmf_extended) ∧
    (w1.slots w.nextSlot).conn = ⟨some w.nextSlot⟩ ∧ (w1.slots w.nextSlot).func = f := by
  obtain ⟨-, -, hs⟩ := hm
  have hlt : w.nextSlot < (connect_call e k gid w).2.nextSlot := by
    rw [(connect_call_frame e k gid w).2.2.2.1]
    exact Nat.lt_succ_self _
  obtain ⟨-, -, m3, m4, -, m6, -, -⟩ := hs w.nextSlot hlt
  rw [m3, m4, m6]
  rcases hk with rfl | rfl
  · have := connect_ext_slot_eq e f gid w
    have h2 : (connect_call e (ConnectCall.extended f) gid w).2 = (connect_extended e f gid w).2 :=
      rfl
    rw [h2, this]
    exact ⟨Or.inl rfl, rfl, rfl⟩
  · have := connect_pmf_ext_slot_eq e f obj gid w
    have h2 : (connect_call e (ConnectCall.pmf_extended f obj) gid w).2 =
        (connect_pmf_extended e f obj gid w).2 := rfl
    rw [h2, this]
    exact ⟨Or.inr rfl, rfl, rfl⟩

/-- Extended slots on an emitter that has not been moved: the slot made by `connect_extended`
(either overload) stores a connection equal to the one `connect_extended` returns, and that connection refers to the slot itself. In every state
`w1` a program reaches afterwards, an invocation of the slot is a call of its callable with this
connection in front of the emitted arguments. If in such a state the registries are well
formed, no emitter has been moved, the emitter still holds the slot and the slot is not
blocked, the callable disconnects the connection it receives, and the other callables of the
emitter only add to the counter, then an emission invokes the slot exactly once, with the
connection and the emitted arguments, `slot_count()` is one less afterwards, the connection
reads `connected() == false`, and no program run afterwards invokes the slot again. -/
theorem extended_connection_unmoved (e : SigId) (k : ConnectCall) (gid : Int) (w : World)
    (f : Callable) (obj : Nat) (prog : Prog) (he : e < w.sigs.length)
    (hk : k = ConnectCall.extended f ∨ k = ConnectCall.pmf_extended f obj) :
    (connect_call e k gid w).1 = ⟨some w.nextSlot⟩ ∧
    (connect_call e k gid w).1.lock (connect_call e k gid w).2 = some w.nextSlot ∧
    ∀ (fuel : Nat) (ops : List Op) (w1 : World),
      (run prog fuel ops (connect_call e k gid w).2).final = some w1 →
      connArg w1 w.nextSlot = some (connect_call e k gid w).1 ∧
      (∀ (step : Op → World → Outcome) (b : Args), active w1 w.nextSlot = true →
        slot_invoke prog step w.nextSlot b w1 =
          userCall prog step w.nextSlot (some (connect_call e k gid w).1) b w1) ∧
      ∀ (a : Args) (fuel1 : Nat), WF w1 → Owned w1 → (w1.sig e).m_block = false →
        w.nextSlot ∈ flat (w1.sig e).m_slots → (w1.slots w.nextSlot).m_blocked = false →
        (∀ t ∈ flat (w1.sig e).m_slots, t ≠ w.nextSlot →
          InertAt prog w1 a t ∧ pendingExpiry w1 t = false) →
        prog f.code (some (connect_call e k gid w).1) a =
          [Op.conn_disconnect (connect_call e k gid w).1] →
        ∃ w2 l1 l2, emitTop prog (fuel1 + 1) e a w1 = Outcome.done w2 ∧
          w2.log = w1.log ++ l1 ++
            [⟨w1.snaps.length + 1, w.nextSlot, a, some (connect_call e k gid w).1⟩] ++ l2 ∧
          (∀ c ∈ l1 ++ l2, c.slot ≠ w.nextSlot) ∧
          slot_count w2 e + 1 = slot_count w1 e ∧
          (connect_call e k gid w).1.connected w2 = false ∧
          NeverInvoked w.nextSlot w2 := by
  have hfst : (connect_call e k gid w).1 = ⟨some w.nextSlot⟩ := connect_call_fst e k gid w
  refine ⟨hfst, ?_, ?_⟩
  · have hv := connect_valid e k gid w he
    unfold Connection.valid at hv
    rw [hfst] at hv ⊢
    unfold Connection.lock at hv ⊢
    simp only at hv ⊢
    by_cases ha : (connect_call e k gid w).2.alive w.nextSlot = true
    · rw [if_pos ha]
    · rw [if_neg ha] at hv
      simp at hv
  intro fuel ops w1 hrun
  obtain ⟨hm, -, -⟩ := run_runs prog fuel ops _ w1 hrun
  obtain ⟨hkind, hcn, hfn⟩ := extended_slot_later e k gid w f obj hk hm
  have hca : connArg w1 w.nextSlot = some ⟨some w.nextSlot⟩ := by
    unfold connArg
    rcases hkind with h | h <;> simp [h, hcn]
  rw [hfst]
  refine ⟨hca, ?_, ?_⟩
  · intro step b hact
    unfold active slot_connected slot_blocked at hact
    unfold slot_invoke call_slot
    rcases hkind with h | h <;> simp [h] at hact <;> simp [h, hact, hcn]
  · intro a fuel1 hwf hown hb hmem hnb hin hprog
    rw [← hfn] at hprog
    obtain ⟨w2, l1, l2, r1, r2, r3, r4, r5, r6, r7⟩ :=
      self_disconnect_emit e w.nextSlot w1 prog a fuel1 hwf hown hb hmem hca hnb hin hprog
    refine ⟨w2, l1, l2, r1, r2, r3, r4, ?_, neverInvoked_of_retired _ _ r7 (Or.inl r6)⟩
    exact conn_connected_of_flag _ _ r5

theorem wf_worldSelf : WF worldSelf ∧ Owned worldSelf := by
  have w0 := wf_init 1
  have o0 := owned_init 1
  have w1 := wf_connect_call 0 (ConnectCall.plain (freeFn 1)) 0 _ w0
  have o1 := owned_connect_call 0 (ConnectCall.plain (freeFn 1)) 0 _ w0 o0
  exact ⟨wf_connect_call 0 (ConnectCall.extended (freeFn 2)) (-1) _ w1,
    owned_connect_call 0 (ConnectCall.extended (freeFn 2)) (-1) _ w1 o1⟩

theorem extended_connection_unmoved_example :
    (0 < worldOne.sigs.length ∧ WF worldSelf ∧ Owned worldSelf) ∧
    (∃ w2, emitTop selfUnhooker 1 0 [5] worldSelf = Outcome.done w2 ∧
      slot_count w2 0 + 1 = slot_count worldSelf 0 ∧
      Connection.connected ⟨some 1⟩ w2 = false ∧ NeverInvoked 1 w2) ∧
    (run selfUnhooker 2 [Op.emit 0 [5], Op.emit 0 [5]] worldSelf).final.map
      (fun w => (w.log.map (fun c => (c.slot, c.args, c.conn)), slot_count w 0))
      = some ([(1, [5], some ⟨some 1⟩), (0, [5], none), (0, [5], none)], 1) := by
  refine ⟨⟨by decide, wf_worldSelf⟩, ?_, by decide⟩
  obtain ⟨w2, l1, l2, h1, -, -, h4, h5, h6⟩ :=
    (extended_connection_unmoved 0 (ConnectCall.extended (freeFn 2)) (-1) worldOne (freeFn 2) 0
      selfUnhooker (by decide) (Or.inl rfl)).2.2 1 [] worldSelf rfl |>.2.2 [5] 0
      wf_worldSelf.1 wf_worldSelf.2 (by decide) (by decide) (by decide)
      (by
        intro t ht hne
        have : t = 0 := by
          have h0 : flat (worldSelf.sig 0).m_slots = [1, 0] := by decide
          rw [h0] at ht
          simp at ht
          rcases ht with h | h
          · exact absurd h hne
          · exact h
        subst this
        refine ⟨?_, by decide⟩
        have hp : selfUnhooker (worldSelf.slots 0).func.code (connArg worldSelf 0) [5]
            = [Op.add 5] := by decide
        intro op hop
        rw [hp] at hop
        exact ⟨5, List.mem_singleton.1 hop⟩)
      rfl
  exact ⟨w2, h1, h4, h5, h6⟩

/-! ## Mutexes held during user calls (C28) -/

theorem heldAfter_append (t1 t2 : List LockEvent) :
    ∀ h, heldAfter h (t1 ++ t2) = heldAfter (heldAfter h t1) t2 := by
  induction t1 with
  | nil => intro h; rfl
  | cons ev t1 ih =>
    intro h
    cases ev <;> exact ih _

theorem invoked_append (t1 t2 : List LockEvent) :
    invoked (t1 ++ t2) = invoked t1 ++ invoked t2 := by
  induction t1 with
  | nil => rfl
  | cons ev t1 ih =>
    cases ev with
    | acquire m => exact ih
    | release m => exact ih
    | invoke s => exact congrArg (List.cons s) ih

theorem mem_invoked (tr : List LockEvent) (s : SlotId) :
    s ∈ invoked tr ↔ LockEvent.invoke s ∈ tr := by
  induction tr with
  | nil => simp [invoked]
  | cons ev tr ih =>
    cases ev <;> simp [invoked, ih]

theorem unlocked_nil : Unlocked [] := by
  refine ⟨?_, rfl⟩
  intro pre s post h
  simp at h

theorem unlocked_append {t1 t2 : List LockEvent} (h1 : Unlocked t1) (h2 : Unlocked t2) :
    Unlocked (t1 ++ t2) := by
  refine ⟨?_, ?_⟩
  · intro pre s post h
    rcases List.append_eq_append_iff.1 h with ⟨x, hx1, hx2⟩ | ⟨x, hx1, hx2⟩
    · rw [hx1, heldAfter_append, h1.2]
      exact h2.1 x s post hx2
    · cases x with
      | nil =>
        simp only [List.append_nil] at hx1
        simp only [List.nil_append] at hx2
        rw [← hx1]
        exact h1.2
      | cons y x =>
        simp only [List.cons_append, List.cons.injEq] at hx2
        obtain ⟨rfl, -⟩ := hx2
        exact h1.1 pre s x hx1
  · rw [heldAfter_append, h1.2, h2.2]

theorem unlocked_invoke (s : SlotId) {tr : List LockEvent} (h : Unlocked tr) :
    Unlocked (LockEvent.invoke s :: tr) := by
  have h1 : Unlocked [LockEvent.invoke s] := by
    refine ⟨?_, rfl⟩
    intro pre t post hp
    cases pre with
    | nil => rfl
    | cons y pre =>
      simp only [List.cons_append, List.cons.injEq] at hp
      have := hp.2
      simp at this
  exact unlocked_append h1 h

theorem unlocked_of_quiet {tr : List LockEvent} (h1 : invoked tr = [])
    (h2 : heldAfter [] tr = []) : Unlocked tr := by
  refine ⟨?_, h2⟩
  intro pre s post h
  have : s ∈ invoked tr := by
    rw [mem_invoked, h]
    simp
  rw [h1] at this
  simp at this

theorem lockScope_quiet (e : SigId) (h : List Mutex) :
    invoked (lockScope e) = [] ∧ heldAfter h (lockScope e) = h := by
  simp [lockScope, invoked, heldAfter]

theorem slotDisconnectEvents_quiet (s : SlotId) (w : World) (h : List Mutex) :
    invoked (slotDisconnectEvents s w) = [] ∧ heldAfter h (slotDisconnectEvents s w) = h := by
  unfold slotDisconnectEvents
  split
  · exact lockScope_quiet _ h
  · exact ⟨rfl, rfl⟩

theorem connDisconnectEvents_quiet (c : Connection) (w : World) (h : List Mutex) :
    invoked (connDisconnectEvents c w) = [] ∧ heldAfter h (connDisconnectEvents c w) = h := by
  unfold connDisconnectEvents
  split
  · exact ⟨rfl, rfl⟩
  · exact slotDisconnectEvents_quiet _ w h

theorem teardownEvents_quiet (cs : List Connection) (h : List Mutex) :
    ∀ w, invoked (teardownEvents cs w) = [] ∧ heldAfter h (teardownEvents cs w) = h := by
  induction cs with
  | nil => intro w; exact ⟨rfl, rfl⟩
  | cons c cs ih =>
    intro w
    obtain ⟨a1, a2⟩ := connDisconnectEvents_quiet c w h
    obtain ⟨b1, b2⟩ := ih (c.disconnect w).2
    simp [teardownEvents, invoked_append, heldAfter_append, a1, a2, b1, b2]

theorem primEvents_quiet (op : Op) (w : World) :
    invoked (primEvents op w) = [] ∧ heldAfter [] (primEvents op w) = [] := by
  cases op with
  | connect e k gid =>
    cases k <;> simp [primEvents, lockScope, invoked, heldAfter]
  | conn_disconnect c => exact connDisconnectEvents_quiet c w []
  | observer_disconnect_all o =>
    obtain ⟨a1, a2⟩ := teardownEvents_quiet (w.observers o) [Mutex.obs o] w
    simp [primEvents, invoked, heldAfter, invoked_append, heldAfter_append, a1, a2]
  | _ => simp [primEvents, lockScope, invoked, heldAfter]

theorem unlocked_ops (step : Op → World → Outcome) (events : Op → World → List LockEvent)
    (h : ∀ op w, Unlocked (events op w)) :
    ∀ ops w, Unlocked (opsEvents step events ops w) := by
  intro ops
  induction ops with
  | nil => intro w; exact unlocked_nil
  | cons op ops ih =>
    intro w
    simp only [opsEvents]
    apply unlocked_append (h op w)
    cases step op w with
    | done w1 => exact ih w1
    | threw w1 => exact unlocked_nil
    | stuck => exact unlocked_nil

theorem unlocked_slotInvoke (prog : Prog) (step : Op → World → Outcome)
    (events : Op → World → List LockEvent) (h : ∀ op w, Unlocked (events op w))
    (s : SlotId) (a : Args) (w : World) : Unlocked (slotInvokeEvents prog step events s a w) := by
  have hu : ∀ c, Unlocked (userCallEvents prog step events s c a w) :=
    fun c => unlocked_invoke s (unlocked_ops step events h _ _)
  have hd : Unlocked (slotDisconnectEvents s w) :=
    unlocked_of_quiet (slotDisconnectEvents_quiet s w []).1 (slotDisconnectEvents_quiet s w []).2
  unfold slotInvokeEvents callSlotEvents
  split
  · split
    · exact hu _
    · exact hu _
    · exact hu _
    · exact hu _
    · split
      · exact hd
      · split
        · exact hu _
        · exact unlocked_nil
  · exact unlocked_nil

theorem unlocked_emitSlots (prog : Prog) (step : Op → World → Outcome)
    (events : Op → World → List LockEvent) (h : ∀ op w, Unlocked (events op w)) (a : Args) :
    ∀ l w, Unlocked (emitSlotsEvents prog step events l a w) := by
  intro l
  induction l with
  | nil => intro w; exact unlocked_nil
  | cons s l ih =>
    intro w
    simp only [emitSlotsEvents]
    apply unlocked_append (unlocked_slotInvoke prog step events h s a w)
    cases slot_invoke prog step s a w with
    | done w1 => exact ih w1
    | threw w1 => exact unlocked_nil
    | stuck => exact unlocked_nil

theorem unlocked_emitGroups (prog : Prog) (step : Op → World → Outcome)
    (events : Op → World → List LockEvent) (h : ∀ op w, Unlocked (events op w)) (a : Args) :
    ∀ gs w, Unlocked (emitGroupsEvents prog step events gs a w) := by
  intro gs
  induction gs with
  | nil => intro w; exact unlocked_nil
  | cons g gs ih =>
    intro w
    simp only [emitGroupsEvents]
    apply unlocked_append (unlocked_emitSlots prog step events h a g.slts w)
    cases emitSlots prog step g.slts a w with
    | done w1 => exact ih w1
    | threw w1 => exact unlocked_nil
    | stuck => exact unlocked_nil

theorem unlocked_step (prog : Prog) (step : Op → World → Outcome)
    (events : Op → World → List LockEvent) (h : ∀ op w, Unlocked (events op w))
    (op : Op) (w : World) : Unlocked (stepEvents prog step events op w) := by
  have hp : ∀ op1, Unlocked (primEvents op1 w) :=
    fun op1 => unlocked_of_quiet (primEvents_quiet op1 w).1 (primEvents_quiet op1 w).2
  cases op with
  | emit e a =>
    simp only [stepEvents, emitEvents]
    split
    · exact unlocked_nil
    · exact unlocked_append
        (unlocked_of_quiet (lockScope_quiet e []).1 (lockScope_quiet e []).2)
        (unlocked_emitGroups prog step events h a _ _)
  | _ =>
    simp only [stepEvents]
    exact hp _

theorem unlocked_exec (prog : Prog) :
    ∀ fuel op w, Unlocked (execEvents prog fuel op w) := by
  intro fuel
  induction fuel with
  | zero => intro op w; exact unlocked_nil
  | succ n ih =>
    intro op w
    exact unlocked_step prog (exec prog n) (execEvents prog n) ih op w

theorem traced_ops (step : Op → World → Outcome) (events : Op → World → List LockEvent)
    (h : Traced step events) :
    ∀ ops w w1, (runOps step ops w).final = some w1 →
      ∃ added, w1.log = w.log ++ added ∧
        added.map Call.slot = invoked (opsEvents step events ops w) := by
  intro ops
  induction ops with
  | nil =>
    intro w w1 hr
    simp only [runOps, Outcome.final, Option.some.injEq] at hr
    subst hr
    exact ⟨[], by simp, rfl⟩
  | cons op ops ih =>
    intro w w1 hr
    simp only [runOps] at hr
    simp only [opsEvents, invoked_append]
    cases hs : step op w with
    | done w2 =>
      rw [hs] at hr
      obtain ⟨x, hx1, hx2⟩ := h op w w2 (by rw [hs]; rfl)
      obtain ⟨y, hy1, hy2⟩ := ih w2 w1 hr
      refine ⟨x ++ y, ?_, ?_⟩
      · rw [hy1, hx1, List.append_assoc]
      · rw [List.map_append, hx2, hy2]
    | threw w2 =>
      rw [hs] at hr
      obtain ⟨x, hx1, hx2⟩ := h op w w1 (by rw [hs]; exact hr)
      exact ⟨x, hx1, by rw [hx2]; simp [invoked]⟩
    | stuck =>
      rw [hs] at hr
      simp [Outcome.final] at hr

theorem traced_userCall (prog : Prog) (step : Op → World → Outcome)
    (events : Op → World → List LockEvent) (h : Traced step events) (s : SlotId)
    (c : Option Connection) (a : Args) (w w1 : World)
    (hr : (userCall prog step s c a w).final = some w1) :
    ∃ added, w1.log = w.log ++ added ∧
      added.map Call.slot = invoked (userCallEvents prog step events s c a w) := by
  unfold userCall at hr
  obtain ⟨y, hy1, hy2⟩ := traced_ops step events h _ _ w1 hr
  refine ⟨⟨w.snaps.length, s, a, c⟩ :: y, ?_, ?_⟩
  · rw [hy1]; simp
  · unfold userCallEvents
    simp only [List.map_cons, invoked, hy2]

theorem traced_slotInvoke (prog : Prog) (step : Op → World → Outcome)
    (events : Op → World → List LockEvent) (h : Traced step events) (s : SlotId) (a : Args)
    (w w1 : World) (hr : (slot_invoke prog step s a w).final = some w1) :
    ∃ added, w1.log = w.log ++ added ∧
      added.map Call.slot = invoked (slotInvokeEvents prog step events s a w) := by
  have hnone : ∀ w2 : World, w2.log = w.log → (Outcome.done w2).final = some w1 →
      ∃ added, w1.log = w.log ++ added ∧ added.map Call.slot = invoked [] := by
    intro w2 hl he
    simp only [Outcome.final, Option.some.injEq] at he
    subst he
    exact ⟨[], by simp [hl], rfl⟩
  have htracked : (if ptr_expired w (w.slots s).ptr then Outcome.done (slot_disconnect s w).2
        else if (w.slots s).m_connected then userCall prog step s none a w
        else Outcome.done w).final = some w1 →
      ∃ added, w1.log = w.log ++ added ∧ added.map Call.slot = invoked
        (if ptr_expired w (w.slots s).ptr then slotDisconnectEvents s w
          else if (w.slots s).m_connected then userCallEvents prog step events s none a w
          else []) := by
    intro hr
    by_cases hexp : ptr_expired w (w.slots s).ptr = true
    · rw [if_pos hexp] at hr ⊢
      rw [(slotDisconnectEvents_quiet s w []).1]
      exact hnone _ (slot_disconnect_frame s w).2.2.2.2.1 hr
    · rw [if_neg hexp] at hr ⊢
      by_cases hc : (w.slots s).m_connected = true
      · rw [if_pos hc] at hr ⊢
        exact traced_userCall prog step events h s _ a w w1 hr
      · rw [if_neg hc] at hr ⊢
        exact hnone w rfl hr
  unfold slot_invoke at hr
  unfold slotInvokeEvents
  by_cases hact : ((w.slots s).m_connected && !(w.slots s).m_blocked) = true
  · rw [if_pos hact] at hr ⊢
    unfold call_slot at hr
    unfold callSlotEvents
    cases hk : (w.slots s).kind with
    | slot =>
      simp only [hk] at hr ⊢
      exact traced_userCall prog step events h s _ a w w1 hr
    | slot_extended =>
      simp only [hk] at hr ⊢
      exact traced_userCall prog step events h s _ a w w1 hr
    | slot_pmf =>
      simp only [hk] at hr ⊢
      exact traced_userCall prog step events h s _ a w w1 hr
    | slot_pmf_extended =>
      simp only [hk] at hr ⊢
      exact traced_userCall prog step events h s _ a w w1 hr
    | slot_tracked =>
      simp only [hk] at hr ⊢
      exact htracked hr
    | slot_pmf_tracked =>
      simp only [hk] at hr ⊢
      exact htracked hr
  · rw [if_neg hact] at hr ⊢
    exact hnone w rfl hr

theorem traced_emitSlots (prog : Prog) (step : Op → World → Outcome)
    (events : Op → World → List LockEvent) (h : Traced step events) (a : Args) :
    ∀ l w w1, (emitSlots prog step l a w).final = some w1 →
      ∃ added, w1.log = w.log ++ added ∧
        added.map Call.slot = invoked (emitSlotsEvents prog step events l a w) := by
  intro l
  induction l with
  | nil =>
    intro w w1 hr
    simp only [emitSlots, Outcome.final, Option.some.injEq] at hr
    subst hr
    exact ⟨[], by simp, rfl⟩
  | cons s l ih =>
    intro w w1 hr
    simp only [emitSlots] at hr
    simp only [emitSlotsEvents, invoked_append]
    cases hs : slot_invoke prog step s a w with
    | done w2 =>
      rw [hs] at hr
      obtain ⟨x, hx1, hx2⟩ := traced_slotInvoke prog step events h s a w w2 (by rw [hs]; rfl)
      obtain ⟨y, hy1, hy2⟩ := ih w2 w1 hr
      refine ⟨x ++ y, ?_, ?_⟩
      · rw [hy1, hx1, List.append_assoc]
      · rw [List.map_append, hx2, hy2]
    | threw w2 =>
      rw [hs] at hr
      obtain ⟨x, hx1, hx2⟩ := traced_slotInvoke prog step events h s a w w1 (by rw [hs]; exact hr)
      exact ⟨x, hx1, by rw [hx2]; simp [invoked]⟩
    | stuck =>
      rw [hs] at hr
      simp [Outcome.final] at hr

theorem traced_emitGroups (prog : Prog) (step : Op → World → Outcome)
    (events : Op → World → List LockEvent) (h : Traced step events) (a : Args) :
    ∀ gs w w1, (emitGroups prog step gs a w).final = some w1 →
      ∃ added, w1.log = w.log ++ added ∧
        added.map Call.slot = invoked (emitGroupsEvents prog step events gs a w) := by
  intro gs
  induction gs with
  | nil =>
    intro w w1 hr
    simp only [emitGroups, Outcome.final, Option.some.injEq] at hr
    subst hr
    exact ⟨[], by simp, rfl⟩
  | cons g gs ih =>
    intro w w1 hr
    simp only [emitGroups] at hr
    simp only [emitGroupsEvents, invoked_append]
    cases hs : emitSlots prog step g.slts a w with
    | done w2 =>
      rw [hs] at hr
      obtain ⟨x, hx1, hx2⟩ := traced_emitSlots prog step events h a g.slts w w2 (by rw [hs]; rfl)
      obtain ⟨y, hy1, hy2⟩ := ih w2 w1 hr
      refine ⟨x ++ y, ?_, ?_⟩
      · rw [hy1, hx1, List.append_assoc]
      · rw [List.map_append, hx2, hy2]
    | threw w2 =>
      rw [hs] at hr
      obtain ⟨x, hx1, hx2⟩ :=
        traced_emitSlots prog step events h a g.slts w w1 (by rw [hs]; exact hr)
      exact ⟨x, hx1, by rw [hx2]; simp [invoked]⟩
    | stuck =>
      rw [hs] at hr
      simp [Outcome.final] at hr

theorem traced_step (prog : Prog) (step : Op → World → Outcome)
    (events : Op → World → List LockEvent) (h : Traced step events) :
    Traced (stepOp prog step) (stepEvents prog step events) := by
  intro op w w1 hr
  by_cases hem : ∃ e a, op = Op.emit e a
  · obtain ⟨e, a, rfl⟩ := hem
    simp only [stepOp, emit] at hr
    simp only [stepEvents, emitEvents]
    split at hr
    · rename_i hb
      rw [if_pos hb]
      simp only [Outcome.final, Option.some.injEq] at hr
      subst hr
      exact ⟨[], by simp, rfl⟩
    · rename_i hb
      rw [if_neg hb, invoked_append, (lockScope_quiet e []).1, List.nil_append]
      cases hs : emitGroups prog step (w.sig e).m_slots a
          { w with snaps := (w.sig e).m_slots :: w.snaps } with
      | done w2 =>
        rw [hs] at hr
        simp only [Outcome.final, Option.some.injEq] at hr
        subst hr
        exact traced_emitGroups prog step events h a _ _ w2 (by rw [hs]; rfl)
      | threw w2 =>
        rw [hs] at hr
        simp only [Outcome.final, Option.some.injEq] at hr
        subst hr
        exact traced_emitGroups prog step events h a _ _ w2 (by rw [hs]; rfl)
      | stuck =>
        rw [hs] at hr
        simp [Outcome.final] at hr
  · have hne : ∀ e a, op ≠ Op.emit e a := fun e a he => hem ⟨e, a, he⟩
    obtain ⟨-, -, hl⟩ := silent_step prog step op w w1 hne hr
    have hev : stepEvents prog step events op w = primEvents op w := by
      cases op <;> first | rfl | exact absurd rfl (hne _ _)
    rw [hev, (primEvents_quiet op w).1]
    exact ⟨[], by simp [hl], rfl⟩

theorem traced_exec (prog : Prog) :
    ∀ fuel, Traced (exec prog fuel) (execEvents prog fuel) := by
  intro fuel
  induction fuel with
  | zero =>
    intro op w w1 hr
    simp [exec, Outcome.final] at hr
  | succ n ih => exact traced_step prog (exec prog n) (execEvents prog n) ih

/-- C28: in the events of any program run by one thread, every user callable is entered while
the thread holds no mutex, neither the one of an emitter nor the one of an observer, and the
thread holds none when the run ends; the callables entered are exactly the user calls the run
records. `operator()` of an emitter that is not blocked takes the mutex of the emitter once, in
`slots_reference()`, and gives it back before the loops over the snapshot start. The events of
any call that is not an emission (`connect`, the overloads of `disconnect`, `block`/`unblock` of
a group, `connection::disconnect` and with it `clean`, the moves, the teardown of an observer)
contain no entry into a user callable. In the cross emission test the nested emission takes the
mutex of the second emitter while the first emission is running and holds no mutex. -/
theorem C28_calls_outside_lock (prog : Prog) (fuel : Nat) (ops : List Op) (w : World) :
    Unlocked (runEvents prog fuel ops w) ∧
    (∀ w1, (run prog fuel ops w).final = some w1 →
      (w1.log.drop w.log.length).map Call.slot = invoked (runEvents prog fuel ops w)) ∧
    (∀ e a, (w.sig e).m_block = false →
      execEvents prog (fuel + 1) (Op.emit e a) w =
        LockEvent.acquire (Mutex.sig e) :: LockEvent.release (Mutex.sig e) ::
          emitGroupsEvents prog (exec prog fuel) (execEvents prog fuel) (w.sig e).m_slots a
            (w.pushSnap e)) ∧
    (∀ op, (∀ e a, op ≠ Op.emit e a) →
      ∀ s, LockEvent.invoke s ∉ execEvents prog (fuel + 1) op w) ∧
    runEvents cross 3 [Op.emit 0 [0]] worldCross =
      [LockEvent.acquire (Mutex.sig 0), LockEvent.release (Mutex.sig 0), LockEvent.invoke 0,
        LockEvent.acquire (Mutex.sig 1), LockEvent.release (Mutex.sig 1), LockEvent.invoke 1] := by
  refine ⟨unlocked_ops _ _ (unlocked_exec prog fuel) ops w, ?_, ?_, ?_, by decide⟩
  · intro w1 hr
    obtain ⟨added, h1, h2⟩ := traced_ops _ _ (traced_exec prog fuel) ops w w1 hr
    rw [h1, List.drop_left]
    exact h2
  · intro e a hb
    simp [execEvents, stepEvents, emitEvents, hb, lockScope, World.pushSnap]
  · intro op hne s hmem
    have hev : execEvents prog (fuel + 1) op w = primEvents op w := by
      cases op <;> first | rfl | exact absurd rfl (hne _ _)
    rw [hev, ← mem_invoked, (primEvents_quiet op w).1] at hmem
    simp at hmem

/-! ## Ascending group ids (C31) -/

theorem sorted_of_gids {gs1 gs : List Group} (h : gs1.map Group.gid = gs.map Group.gid)
    (hs : SortedGroups gs) : SortedGroups gs1 := by
  unfold SortedGroups at hs ⊢
  rw [h]; exact hs

theorem sorted_nil : SortedGroups [] := by
  simp [SortedGroups]

theorem cleanGroups_gids (state : SlotId) (idx : Nat) (gid : Int) (gs : List Group) :
    (cleanGroups state idx gid gs).1.map Group.gid = gs.map Group.gid := by
  induction gs with
  | nil => rfl
  | cons g gs ih =>
    unfold cleanGroups
    split_ifs
    · rfl
    · rfl
    · simp only [List.map_cons, ih]

theorem disconnectIfGroups_gids (cond : World → SlotId → Bool) :
    ∀ (gs : List Group) (w : World) (count : Nat),
      (disconnectIfGroups cond gs w count).1.map Group.gid = gs.map Group.gid := by
  intro gs
  induction gs with
  | nil => intro w count; rfl
  | cons g gs ih =>
    intro w count
    simp only [disconnectIfGroups, List.map_cons, ih]

theorem disconnectGroupGroups_gids (gid : Int) (gs : List Group) :
    (disconnectGroupGroups gid gs).2.map Group.gid = gs.map Group.gid := by
  induction gs with
  | nil => rfl
  | cons g gs ih =>
    unfold disconnectGroupGroups
    split_ifs
    · rfl
    · simp only [List.map_cons, ih]

theorem sig_setSig_slots (w : World) (e e1 : SigId) (s : Signal) :
    ((w.setSig e s).sig e1).m_slots =
      if e1 = e ∧ e < w.sigs.length then s.m_slots else (w.sig e1).m_slots := by
  by_cases h : e1 = e
  · subst h
    by_cases h2 : e1 < w.sigs.length
    · rw [sig_setSig_same w e1 s h2, if_pos ⟨rfl, h2⟩]
    · rw [if_neg (fun hc => h2 hc.2)]
      have h3 : w.sigs.length ≤ e1 := Nat.le_of_not_lt h2
      rw [sig_of_ge w e1 h3, sig_of_ge _ e1 (by simpa [World.setSig] using h3)]
  · rw [if_neg (fun hc => h hc.1), sig_setSig_ne w e e1 s (fun hc => h hc.symm)]

theorem sig_setGroups_slots (w : World) (e e1 : SigId) (gs : List Group) :
    ((w.setGroups e gs).sig e1).m_slots =
      if e1 = e ∧ e < w.sigs.length then gs else (w.sig e1).m_slots := by
  unfold World.setGroups
  rw [sig_setSig_slots]

theorem ascending_of_slots {w w1 : World} (h : Ascending w)
    (hs : ∀ e, (w1.sig e).m_slots = [] ∨ ∃ e1, (w1.sig e).m_slots.map Group.gid =
      (w.sig e1).m_slots.map Group.gid) : Ascending w1 := by
  intro e
  rcases hs e with h1 | ⟨e1, h1⟩
  · rw [h1]; exact sorted_nil
  · exact sorted_of_gids h1 (h e1)

theorem ascending_of_sigs {w w1 : World} (h : Ascending w) (hs : w1.sigs = w.sigs) :
    Ascending w1 := by
  intro e
  have : w1.sig e = w.sig e := by unfold World.sig; rw [hs]
  rw [this]; exact h e

theorem ascending_setGroups {w : World} (h : Ascending w) (e : SigId) (gs : List Group)
    (hs : SortedGroups gs) : Ascending (w.setGroups e gs) := by
  intro e1
  rw [sig_setGroups_slots]
  split_ifs
  · exact hs
  · exact h e1

theorem ascending_init (n : Nat) : Ascending (World.init n) := (wf_init n).1

theorem ascending_connect_call (e : SigId) (k : ConnectCall) (gid : Int) (w : World)
    (h : Ascending w) : Ascending (connect_call e k gid w).2 :=
  ascending_of_sigs
    (ascending_setGroups h e _ (addSlotGroups_sorted w.nextSlot gid _ (h e)))
    (connect_call_sigs e k gid w)

theorem clean_sigs (e : SigId) (s : SlotId) (w : World) :
    (clean e s w).sigs = (w.setGroups e
      (cleanGroups s (w.slots s).m_index (w.slots s).m_group (w.sig e).m_slots).1).sigs := by
  unfold clean
  simp only
  split <;> rfl

theorem ascending_clean (e : SigId) (s : SlotId) (w : World) (h : Ascending w) :
    Ascending (clean e s w) :=
  ascending_of_sigs
    (ascending_setGroups h e _ (sorted_of_gids (cleanGroups_gids _ _ _ _) (h e)))
    (clean_sigs e s w)

theorem ascending_slot_disconnect (s : SlotId) (w : World) (h : Ascending w) :
    Ascending (slot_disconnect s w).2 := by
  unfold slot_disconnect
  split
  · exact ascending_clean _ _ _ (ascending_of_sigs h rfl)
  · exact h

theorem ascending_conn_disconnect (c : Connection) (w : World) (h : Ascending w) :
    Ascending (c.disconnect w).2 := by
  unfold Connection.disconnect
  split
  · exact h
  · exact ascending_slot_disconnect _ w h

theorem ascending_disconnect_if (cond : World → SlotId → Bool) (e : SigId) (w : World)
    (h : Ascending w) : Ascending (disconnect_if cond e w).2 := by
  have hs := (disconnectIfGroups_sub cond (w.sig e).m_slots w 0).2
  exact ascending_setGroups (ascending_of_sigs h hs.1) e _
    (sorted_of_gids (disconnectIfGroups_gids cond _ w 0) (h e))

theorem ascending_disconnect_group (e : SigId) (gid : Int) (w : World) (h : Ascending w) :
    Ascending (disconnect_group e gid w).2 :=
  ascending_setGroups h e _ (sorted_of_gids (disconnectGroupGroups_gids gid _) (h e))

theorem ascending_disconnect_all (e : SigId) (w : World) (h : Ascending w) :
    Ascending (disconnect_all e w) :=
  ascending_setGroups h e [] sorted_nil

theorem ascending_setBlocked (b : Bool) (gid : Int) (gs : List Group) (w : World)
    (h : Ascending w) : Ascending (setBlockedGroups b gid gs w) :=
  ascending_of_sigs h (setBlockedGroups_sigs b gid gs w)

theorem ascending_setFlag (e : SigId) (b : Bool) (w : World) (h : Ascending w) :
    Ascending (w.setSig e { w.sig e with m_block := b }) := by
  intro e1
  rw [sig_setSig_slots]
  split_ifs with hc
  · rw [← hc.1]; exact h e1
  · exact h e1

theorem move_construct_slots (dst src : SigId) (w : World) (e : SigId) :
    ((move_construct dst src w).sig e).m_slots =
      if e = src ∧ src < w.sigs.length then []
      else if e = dst ∧ dst < w.sigs.length then (w.sig src).m_slots
      else (w.sig e).m_slots := by
  unfold move_construct
  simp only
  rw [sig_setGroups_slots, sig_setSig_slots]
  simp [World.setSig]

theorem move_assign_slots (dst src : SigId) (w : World) (e : SigId) :
    ((move_assign dst src w).sig e).m_slots =
      if e = src ∧ src < w.sigs.length then (w.sig dst).m_slots
      else if e = dst ∧ dst < w.sigs.length then (w.sig src).m_slots
      else (w.sig e).m_slots := by
  unfold move_assign
  simp only
  rw [sig_setSig_slots, sig_setSig_slots]
  simp [World.setSig]

theorem ascending_move_construct (dst src : SigId) (w : World) (h : Ascending w) :
    Ascending (move_construct dst src w) := by
  intro e
  rw [move_construct_slots]
  split_ifs
  · exact sorted_nil
  · exact h src
  · exact h e

theorem ascending_move_assign (dst src : SigId) (w : World) (h : Ascending w) :
    Ascending (move_assign dst src w) := by
  intro e
  rw [move_assign_slots]
  split_ifs
  · exact h dst
  · exact h src
  · exact h e

theorem ascending_foldl_disconnect (l : List Connection) :
    ∀ w, Ascending w → Ascending (l.foldl (fun w1 c => (c.disconnect w1).2) w) := by
  induction l with
  | nil => intro w h; exact h
  | cons c l ih =>
    intro w h
    exact ih _ (ascending_conn_disconnect c w h)

theorem ascending_step (prog : Prog) (step : Op → World → Outcome) (op : Op) (w w1 : World)
    (hne : ∀ e a, op ≠ Op.emit e a) (hw : Ascending w)
    (h : (stepOp prog step op w).final = some w1) : Ascending w1 := by
  cases op with
  | emit e a => exact absurd rfl (hne e a)
  | connect e k gid =>
    simp only [stepOp, Outcome.final, Option.some.injEq] at h
    subst h; exact ascending_connect_call e k gid w hw
  | raise =>
    simp only [stepOp, Outcome.final, Option.some.injEq] at h
    subst h; exact hw
  | disconnect_callable e c =>
    simp only [stepOp, Outcome.final, Option.some.injEq] at h
    subst h; exact ascending_disconnect_if _ e w hw
  | disconnect_object e o =>
    simp only [stepOp, Outcome.final, Option.some.injEq] at h
    subst h; exact ascending_disconnect_if _ e w hw
  | disconnect_both e c o =>
    simp only [stepOp, Outcome.final, Option.some.injEq] at h
    subst h; exact ascending_disconnect_if _ e w hw
  | disconnect_group e gid =>
    simp only [stepOp, Outcome.final, Option.some.injEq] at h
    subst h; exact ascending_disconnect_group e gid w hw
  | disconnect_all e =>
    simp only [stepOp, Outcome.final, Option.some.injEq] at h
    subst h; exact ascending_disconnect_all e w hw
  | block e =>
    simp only [stepOp, Outcome.final, Option.some.injEq] at h
    subst h; exact ascending_setFlag e true w hw
  | unblock e =>
    simp only [stepOp, Outcome.final, Option.some.injEq] at h
    subst h; exact ascending_setFlag e false w hw
  | block_group e gid =>
    simp only [stepOp, Outcome.final, Option.some.injEq] at h
    subst h; exact ascending_setBlocked true gid _ w hw
  | unblock_group e gid =>
    simp only [stepOp, Outcome.final, Option.some.injEq] at h
    subst h; exact ascending_setBlocked false gid _ w hw
  | move_construct dst src =>
    simp only [stepOp, Outcome.final, Option.some.injEq] at h
    subst h; exact ascending_move_construct dst src w hw
  | move_assign dst src =>
    simp only [stepOp, Outcome.final, Option.some.injEq] at h
    subst h; exact ascending_move_assign dst src w hw
  | conn_disconnect c =>
    simp only [stepOp, Outcome.final, Option.some.injEq] at h
    subst h; exact ascending_conn_disconnect c w hw
  | conn_block c =>
    simp only [stepOp, Outcome.final, Option.some.injEq] at h
    subst h; exact ascending_of_sigs hw (conn_block_sigs c w)
  | conn_unblock c =>
    simp only [stepOp, Outcome.final, Option.some.injEq] at h
    subst h; exact ascending_of_sigs hw (conn_unblock_sigs c w)
  | observer_disconnect_all obs =>
    simp only [stepOp, Outcome.final, Option.some.injEq] at h
    subst h
    exact ascending_of_sigs (ascending_foldl_disconnect (w.observers obs) w hw) rfl
  | release a =>
    simp only [stepOp, Outcome.final, Option.some.injEq] at h
    subst h; exact ascending_of_sigs hw rfl
  | add n =>
    simp only [stepOp, Outcome.final, Option.some.injEq] at h
    subst h; exact ascending_of_sigs hw rfl

theorem ascending_preserved (prog : Prog) : Preserved prog Ascending (fun _ => True) where
  code := fun _ _ _ _ _ => trivial
  prim := fun op w _ hI hne step w1 h => ascending_step prog step op w w1 hne hI h
  push := fun _ _ hI => ascending_of_sigs hI rfl
  pop := fun _ hI => ascending_of_sigs hI rfl
  call := fun _ _ _ _ hI _ _ => ascending_of_sigs hI rfl
  expire := fun w t hI => ascending_slot_disconnect t w hI

theorem ascending_worldF : Ascending worldF :=
  ascending_connect_call _ _ _ _ (ascending_connect_call _ _ _ _
    (ascending_connect_call _ _ _ _ (ascending_connect_call _ _ _ _ (ascending_init 1))))

/-- C31: strictly ascending group ids (hence no two groups with the same id) hold for the empty
registries of new emitters and are kept by every operation: `connect` and `connect_extended`
(every overload, every group id), `clean`, `disconnect_if` with any predicate,
`disconnect(group_id)`, `block(group_id)`, `unblock(group_id)`, `disconnect_all`, the move
constructor and the move assignment, and by every run of every program (emissions with user
callables that call any of these included). So the property holds in every state reached from
new emitters. -/
theorem C31_group_ids_ascending (w : World) (h : Ascending w) :
    (∀ e, ((w.sig e).m_slots.map Group.gid).Nodup) ∧
    (∀ e k gid, Ascending (connect_call e k gid w).2) ∧
    (∀ e s, Ascending (clean e s w)) ∧
    (∀ cond e, Ascending (disconnect_if cond e w).2) ∧
    (∀ e gid, Ascending (disconnect_group e gid w).2) ∧
    (∀ e gid, Ascending (block_group e gid w) ∧ Ascending (unblock_group e gid w)) ∧
    (∀ e, Ascending (disconnect_all e w)) ∧
    (∀ dst src, Ascending (move_construct dst src w) ∧ Ascending (move_assign dst src w)) ∧
    (∀ (prog : Prog) (fuel : Nat) (ops : List Op) (w1 : World),
      (run prog fuel ops w).final = some w1 → Ascending w1) ∧
    (∀ n, Ascending (World.init n)) ∧
    (∀ (n : Nat) (prog : Prog) (fuel : Nat) (ops : List Op) (w1 : World),
      (run prog fuel ops (World.init n)).final = some w1 → Ascending w1) := by
  refine ⟨?_, fun e k gid => ascending_connect_call e k gid w h,
    fun e s => ascending_clean e s w h, fun cond e => ascending_disconnect_if cond e w h,
    fun e gid => ascending_disconnect_group e gid w h,
    fun e gid => ⟨ascending_setBlocked true gid _ w h, ascending_setBlocked false gid _ w h⟩,
    fun e => ascending_disconnect_all e w h,
    fun dst src => ⟨ascending_move_construct dst src w h, ascending_move_assign dst src w h⟩,
    ?_, ascending_init, ?_⟩
  · intro e
    have := h e
    unfold SortedGroups at this
    exact this.imp (fun hlt => ne_of_lt hlt)
  · intro prog fuel ops w1 hr
    exact run_preserved (ascending_preserved prog) fuel ops w w1 (fun _ _ => trivial) h hr
  · intro n prog fuel ops w1 hr
    exact run_preserved (ascending_preserved prog) fuel ops _ w1 (fun _ _ => trivial)
      (ascending_init n) hr

theorem C31_group_ids_ascending_witness :
    Ascending worldF ∧ (worldF.sig 0).m_slots.map Group.gid = [0, 5] ∧
    Ascending (connect_call 0 (ConnectCall.plain (freeFn 9)) 3 worldF).2 ∧
    ((connect_call 0 (ConnectCall.plain (freeFn 9)) 3 worldF).2.sig 0).m_slots.map Group.gid
      = [0, 3, 5] ∧
    ((disconnect_group 0 0 worldF).2.sig 0).m_slots.map Group.gid = [0, 5] :=
  ⟨ascending_worldF, by decide,
    (C31_group_ids_ascending worldF ascending_worldF).2.1 0 (ConnectCall.plain (freeFn 9)) 3,
    by decide, by decide⟩

/-! ## Registries stay well formed (C32) -/

theorem disconnectIfLoop_index (cond : World → SlotId → Bool) (gid : Int) :
    ∀ (n i : Nat) (slts : List SlotId) (w : World) (count : Nat),
      IndexOK w [⟨slts, gid⟩] →
      IndexOK (disconnectIfLoop cond n i slts w count).2.1
        [⟨(disconnectIfLoop cond n i slts w count).1, gid⟩] ∧
      ∀ t, t ∉ slts → (disconnectIfLoop cond n i slts w count).2.1.slots t = w.slots t := by
  intro n
  induction n with
  | zero =>
    intro i slts w count h
    exact ⟨h, fun _ _ => rfl⟩
  | succ n ih =>
    intro i slts w count h
    unfold disconnectIfLoop
    cases hs : slts[i]? with
    | none => exact ⟨h, fun _ _ => rfl⟩
    | some s =>
      simp only
      split_ifs with hc
      · have hsm : s ∈ slts := List.getElem?_mem hs
        have hlast : slts[slts.length - 1]? = some (slts.getLast?.getD s) :=
          getLast_getElem slts s s hsm
        have hlastmem : slts.getLast?.getD s ∈ slts := List.getElem?_mem hlast
        obtain ⟨b1, b2, b3⟩ := h _ (List.mem_singleton.2 rfl) _ _ hlast
        have h2 : IndexOK (w.setIndex (slts.getLast?.getD s) i)
            [⟨swapPop slts i (slts.getLast?.getD s), gid⟩] := by
          intro g hg j t hjt
          rw [List.mem_singleton] at hg
          subst hg
          simp only at hjt ⊢
          rw [swapPop_getElem] at hjt
          split_ifs at hjt with c1 c2
          · simp only [Option.some.injEq] at hjt
            subst hjt
            unfold World.setIndex
            rw [modifySlot_slots_same]
            exact ⟨c2.symm, b2, b3⟩
          · obtain ⟨a1, a2, a3⟩ := h _ (List.mem_singleton.2 rfl) j t hjt
            have hne : t ≠ slts.getLast?.getD s := by
              intro hc2
              rw [hc2] at a1
              have := a1.symm.trans b1
              omega
            unfold World.setIndex
            rw [modifySlot_slots_ne _ _ _ _ hne]
            exact ⟨a1, a2, a3⟩
        obtain ⟨r1, r2⟩ := ih i (swapPop slts i (slts.getLast?.getD s))
          (w.setIndex (slts.getLast?.getD s) i) (count + 1) h2
        refine ⟨r1, ?_⟩
        intro t ht
        rw [r2 t (fun hc2 => ht (swapPop_mem slts i s t hs hc2))]
        have hne : t ≠ slts.getLast?.getD s := fun hc2 => ht (hc2 ▸ hlastmem)
        unfold World.setIndex
        rw [modifySlot_slots_ne _ _ _ _ hne]
      · exact ih (i + 1) slts w count h

theorem indexOK_cons {w : World} {g : Group} {gs : List Group} :
    IndexOK w (g :: gs) ↔ IndexOK w [g] ∧ IndexOK w gs := by
  unfold IndexOK
  simp only [List.mem_cons, List.mem_singleton, List.not_mem_nil, or_false]
  constructor
  · intro h
    exact ⟨fun x hx => h x (Or.inl hx), fun x hx => h x (Or.inr hx)⟩
  · rintro ⟨h1, h2⟩ x (hx | hx)
    · exact h1 x hx
    · exact h2 x hx

theorem indexOK_of_slots {w w1 : World} {gs : List Group} (h : IndexOK w gs)
    (hn : w.nextSlot ≤ w1.nextSlot)
    (hs : ∀ t ∈ flat gs, (w1.slots t).m_index = (w.slots t).m_index ∧
      (w1.slots t).m_group = (w.slots t).m_group) : IndexOK w1 gs := by
  intro g hg i t hit
  obtain ⟨a1, a2, a3⟩ := h g hg i t hit
  have hm : t ∈ flat gs := by
    rw [← holds_iff, holds_mem_group]
    exact ⟨g, hg, List.getElem?_mem hit⟩
  obtain ⟨b1, b2⟩ := hs t hm
  exact ⟨b1.trans a1, b2.trans a2, Nat.lt_of_lt_of_le a3 hn⟩

theorem disconnectIfGroups_index (cond : World → SlotId → Bool) :
    ∀ (gs : List Group) (w : World) (count : Nat),
      IndexOK w gs → (flat gs).Nodup →
      IndexOK (disconnectIfGroups cond gs w count).2.1 (disconnectIfGroups cond gs w count).1 ∧
      ∀ t, t ∉ flat gs → (disconnectIfGroups cond gs w count).2.1.slots t = w.slots t := by
  intro gs
  induction gs with
  | nil =>
    intro w count h _
    exact ⟨h, fun _ _ => rfl⟩
  | cons g gs ih =>
    intro w count h hnd
    rw [flat_cons, List.nodup_append] at hnd
    obtain ⟨-, hnd2, hdis⟩ := hnd
    obtain ⟨hg, hgs⟩ := indexOK_cons.1 h
    obtain ⟨l1, l2⟩ := disconnectIfLoop_index cond g.gid g.slts.length 0 g.slts w count hg
    obtain ⟨l3, l4⟩ := disconnectIfLoop_sub cond g.slts.length 0 g.slts w count
    have hgs2 : IndexOK (disconnectIfLoop cond g.slts.length 0 g.slts w count).2.1 gs :=
      indexOK_of_slots hgs (Nat.le_of_eq l4.2.2.2.2.2.2.1.symm) (fun t ht => by
        rw [l2 t (fun hc => hdis hc ht)]
        exact ⟨rfl, rfl⟩)
    obtain ⟨r1, r2⟩ := ih (disconnectIfLoop cond g.slts.length 0 g.slts w count).2.1
      (disconnectIfLoop cond g.slts.length 0 g.slts w count).2.2 hgs2 hnd2
    obtain ⟨r3, r4⟩ := disconnectIfGroups_sub cond gs
      (disconnectIfLoop cond g.slts.length 0 g.slts w count).2.1
      (disconnectIfLoop cond g.slts.length 0 g.slts w count).2.2
    simp only [disconnectIfGroups]
    refine ⟨indexOK_cons.2 ⟨?_, r1⟩, ?_⟩
    · refine indexOK_of_slots l1 (Nat.le_of_eq r4.2.2.2.2.2.2.1.symm) (fun t ht => ?_)
      have ht2 : t ∈ g.slts := by
        simp only [flat_cons, flat_nil, List.append_nil] at ht
        exact l3 t ht
      rw [r2 t (fun hc => hdis ht2 hc)]
      exact ⟨rfl, rfl⟩
    · intro t ht
      simp only [flat_cons, List.mem_append, not_or] at ht
      rw [r2 t ht.2, l2 t ht.1]

theorem wf_disconnect_if (cond : World → SlotId → Bool) (e : SigId) (w : World) (h : WF w) :
    WF (disconnect_if cond e w).2 := by
  have hasc : Ascending (disconnect_if cond e w).2 := ascending_disconnect_if cond e w h.1
  obtain ⟨hsort, hidx, huniq⟩ := h
  have hnd := registry_nodup (hsort e) (hidx e)
  obtain ⟨i1, i2⟩ := disconnectIfGroups_index cond (w.sig e).m_slots w 0 (hidx e) hnd
  obtain ⟨s1, s2⟩ := disconnectIfGroups_sub cond (w.sig e).m_slots w 0
  have hsig : ∀ e1, (disconnectIfGroups cond (w.sig e).m_slots w 0).2.1.sig e1 = w.sig e1 :=
    sig_sameButIndex s2
  have hslots : ∀ e1, ((disconnect_if cond e w).2.sig e1).m_slots =
      if e1 = e ∧ e < w.sigs.length then (disconnectIfGroups cond (w.sig e).m_slots w 0).1
      else (w.sig e1).m_slots := by
    intro e1
    unfold disconnect_if
    simp only
    rw [sig_setGroups_slots, hsig, s2.1]
  have hsub : ∀ e1 t, holds ((disconnect_if cond e w).2.sig e1).m_slots t = true →
      holds (w.sig e1).m_slots t = true := by
    intro e1 t ht
    rw [hslots] at ht
    split_ifs at ht with hc
    · rw [hc.1, holds_iff]
      exact s1 t ((holds_iff _ _).1 ht)
    · exact ht
  refine ⟨hasc, ?_, ?_⟩
  · intro e1
    rw [hslots]
    split_ifs with hc
    · exact i1
    · refine indexOK_of_slots (hidx e1) (Nat.le_of_eq s2.2.2.2.2.2.2.1.symm) (fun t ht => ?_)
      have hne : t ∉ flat (w.sig e).m_slots := by
        intro hc2
        have := huniq e1 e t ((holds_iff _ _).2 ht) ((holds_iff _ _).2 hc2)
        subst this
        have hlt : ¬ e1 < w.sigs.length := fun hlt => hc ⟨rfl, hlt⟩
        rw [sig_of_ge w e1 (Nat.le_of_not_lt hlt)] at ht
        simp [default, flat] at ht
      have : (disconnect_if cond e w).2.slots t = w.slots t := i2 t hne
      rw [this]
      exact ⟨rfl, rfl⟩
  · intro e1 e2 t h1 h2
    exact huniq e1 e2 t (hsub e1 t h1) (hsub e2 t h2)

theorem wf_of_groups {w w1 : World} (ρ : SigId → SigId) (h : WF w)
    (hn : w.nextSlot ≤ w1.nextSlot)
    (ht : ∀ t, t < w.nextSlot → (w1.slots t).m_index = (w.slots t).m_index ∧
      (w1.slots t).m_group = (w.slots t).m_group)
    (hsort : Ascending w1)
    (hg : ∀ e g1, g1 ∈ (w1.sig e).m_slots → g1.slts = [] ∨ g1 ∈ (w.sig (ρ e)).m_slots)
    (hinj : ∀ e1 e2, (w1.sig e1).m_slots ≠ [] → (w1.sig e2).m_slots ≠ [] →
      ρ e1 = ρ e2 → e1 = e2) : WF w1 := by
  obtain ⟨-, hidx, huniq⟩ := h
  have hsub : ∀ e t, holds (w1.sig e).m_slots t = true →
      holds (w.sig (ρ e)).m_slots t = true ∧ (w1.sig e).m_slots ≠ [] := by
    intro e t hh
    rw [holds_mem_group] at hh
    obtain ⟨g1, hg1, htg⟩ := hh
    refine ⟨?_, List.ne_nil_of_mem hg1⟩
    rcases hg e g1 hg1 with h0 | h0
    · rw [h0] at htg; exact absurd htg (List.not_mem_nil _)
    · exact holds_mem_group.2 ⟨g1, h0, htg⟩
  refine ⟨hsort, ?_, ?_⟩
  · intro e g1 hg1 i t hit
    rcases hg e g1 hg1 with h0 | h0
    · rw [h0] at hit; simp at hit
    · obtain ⟨a1, a2, a3⟩ := hidx (ρ e) g1 h0 i t hit
      obtain ⟨b1, b2⟩ := ht t a3
      exact ⟨b1.trans a1, b2.trans a2, Nat.lt_of_lt_of_le a3 hn⟩
  · intro e1 e2 t h1 h2
    obtain ⟨a1, a2⟩ := hsub e1 t h1
    obtain ⟨b1, b2⟩ := hsub e2 t h2
    exact hinj e1 e2 a2 b2 (huniq _ _ t a1 b1)

theorem disconnectGroupGroups_mem (gid : Int) (gs : List Group) :
    ∀ g1 ∈ (disconnectGroupGroups gid gs).2, g1.slts = [] ∨ g1 ∈ gs := by
  induction gs with
  | nil =>
    intro g1 h
    simp [disconnectGroupGroups] at h
  | cons g gs ih =>
    intro g1 h
    unfold disconnectGroupGroups at h
    split_ifs at h
    · rcases List.mem_cons.1 h with h1 | h1
      · exact Or.inl (by rw [h1])
      · exact Or.inr (List.mem_cons_of_mem _ h1)
    · rcases List.mem_cons.1 h with h1 | h1
      · exact Or.inr (by rw [h1]; exact List.mem_cons_self _ _)
      · rcases ih g1 h1 with h2 | h2
        · exact Or.inl h2
        · exact Or.inr (List.mem_cons_of_mem _ h2)

theorem wf_disconnect_group (e : SigId) (gid : Int) (w : World) (h : WF w) :
    WF (disconnect_group e gid w).2 := by
  refine wf_of_groups id h (Nat.le_refl _) (fun _ _ => ⟨rfl, rfl⟩)
    (ascending_disconnect_group e gid w h.1) ?_ (fun _ _ _ _ hh => hh)
  intro e1 g1 hg1
  unfold disconnect_group at hg1
  simp only at hg1
  rw [sig_setGroups_slots] at hg1
  split_ifs at hg1 with hc
  · rw [hc.1]
    exact disconnectGroupGroups_mem gid _ g1 hg1
  · exact Or.inr hg1

theorem wf_disconnect_all (e : SigId) (w : World) (h : WF w) : WF (disconnect_all e w) := by
  refine wf_of_groups id h (Nat.le_refl _) (fun _ _ => ⟨rfl, rfl⟩)
    (ascending_disconnect_all e w h.1) ?_ (fun _ _ _ _ hh => hh)
  intro e1 g1 hg1
  unfold disconnect_all at hg1
  rw [sig_setGroups_slots] at hg1
  split_ifs at hg1 with hc
  · exact absurd hg1 (List.not_mem_nil _)
  · exact Or.inr hg1

theorem wf_setFlag (e : SigId) (b : Bool) (w : World) (h : WF w) :
    WF (w.setSig e { w.sig e with m_block := b }) := by
  refine wf_of_groups id h (Nat.le_refl _) (fun _ _ => ⟨rfl, rfl⟩)
    (ascending_setFlag e b w h.1) ?_ (fun _ _ _ _ hh => hh)
  intro e1 g1 hg1
  rw [sig_setSig_slots] at hg1
  split_ifs at hg1 with hc
  · rw [hc.1]; exact Or.inr hg1
  · exact Or.inr hg1

theorem wf_move_construct (dst src : SigId) (w : World) (h : WF w) :
    WF (move_construct dst src w) := by
  refine wf_of_groups (fun e => if e = dst then src else e) h (Nat.le_refl _)
    (fun _ _ => ⟨rfl, rfl⟩) (ascending_move_construct dst src w h.1) ?_ ?_
  · intro e g1 hg1
    rw [move_construct_slots] at hg1
    split_ifs at hg1 with c1 c2
    · exact absurd hg1 (List.not_mem_nil _)
    · right
      simp only [c2.1, if_true]
      exact hg1
    · right
      by_cases hd : e = dst
      · have hlt : ¬ dst < w.sigs.length := fun hlt => c2 ⟨hd, hlt⟩
        rw [hd, sig_of_ge w dst (Nat.le_of_not_lt hlt)] at hg1
        simp [default] at hg1
      · simp only [hd, if_false]
        exact hg1
  · intro e1 e2 n1 n2 hr
    have key : ∀ e, ((move_construct dst src w).sig e).m_slots ≠ [] → e ≠ src ∨
        ¬ src < w.sigs.length := by
      intro e hne
      by_contra hc
      push_neg at hc
      apply hne
      rw [move_construct_slots, if_pos hc]
    have key2 : ∀ e, ((move_construct dst src w).sig e).m_slots ≠ [] → e ≠ src := by
      intro e hne hes
      rcases key e hne with k | k
      · exact k hes
      · apply hne
        rw [move_construct_slots, if_neg (fun hc => k hc.2)]
        split_ifs with c2
        · rw [sig_of_ge w src (Nat.le_of_not_lt k)]; rfl
        · rw [hes, sig_of_ge w src (Nat.le_of_not_lt k)]; rfl
    have a1 := key2 e1 n1
    have a2 := key2 e2 n2
    simp only at hr
    split_ifs at hr with c1 c2 c2
    · rw [c1, c2]
    · exact absurd hr.symm a2
    · exact absurd hr a1
    · exact hr

theorem wf_move_assign (dst src : SigId) (w : World) (h : WF w) :
    WF (move_assign dst src w) := by
  refine wf_of_groups (fun e => if e = src then dst else if e = dst then src else e) h
    (Nat.le_refl _) (fun _ _ => ⟨rfl, rfl⟩) (ascending_move_assign dst src w h.1) ?_ ?_
  · intro e g1 hg1
    rw [move_assign_slots] at hg1
    split_ifs at hg1 with c1 c2
    · right
      simp only [c1.1, if_true]
      exact hg1
    · right
      obtain ⟨hd, hdl⟩ := c2
      have hs : e ≠ src := fun hs => c1 ⟨hs, by rw [← hs, hd]; exact hdl⟩
      show g1 ∈ (w.sig (if e = src then dst else if e = dst then src else e)).m_slots
      rw [if_neg hs, if_pos hd]
      exact hg1
    · right
      by_cases hs : e = src
      · have hlt : ¬ src < w.sigs.length := fun hlt => c1 ⟨hs, hlt⟩
        rw [hs, sig_of_ge w src (Nat.le_of_not_lt hlt)] at hg1
        simp [default] at hg1
      · by_cases hd : e = dst
        · have hlt : ¬ dst < w.sigs.length := fun hlt => c2 ⟨hd, hlt⟩
          rw [hd, sig_of_ge w dst (Nat.le_of_not_lt hlt)] at hg1
          simp [default] at hg1
        · simp only [hs, hd, if_false]
          exact hg1
  · intro e1 e2 _ _ hr
    simp only at hr
    split_ifs at hr with c1 c2 c3 c4 c5 c6 <;> simp_all

theorem wf_foldl_disconnect (l : List Connection) :
    ∀ w, WF w → WF (l.foldl (fun w1 c => (c.disconnect w1).2) w) := by
  induction l with
  | nil => intro w h; exact h
  | cons c l ih =>
    intro w h
    exact ih _ (wf_conn_disconnect c w h)

theorem wf_setBlocked (b : Bool) (gid : Int) (gs : List Group) (w : World) (h : WF w) :
    WF (setBlockedGroups b gid gs w) := by
  refine wf_of_same h (setBlockedGroups_sigs b gid gs w)
    (Nat.le_of_eq (setBlockedGroups_frame b gid gs w).2.2.2.2.2.2.symm) ?_
  intro t _
  rw [setBlockedGroups_slots]
  split_ifs <;> exact ⟨rfl, rfl⟩

theorem wf_conn_block (c : Connection) (w : World) (h : WF w) : WF (c.block w) := by
  unfold Connection.block
  split
  · exact h
  · rename_i s _
    refine wf_of_same h rfl (Nat.le_refl _) ?_
    intro t _
    unfold slot_block
    by_cases hts : t = s
    · subst hts; simp
    · rw [modifySlot_slots_ne _ _ _ _ hts]
      exact ⟨rfl, rfl⟩

theorem wf_conn_unblock (c : Connection) (w : World) (h : WF w) : WF (c.unblock w) := by
  unfold Connection.unblock
  split
  · exact h
  · rename_i s _
    refine wf_of_same h rfl (Nat.le_refl _) ?_
    intro t _
    unfold slot_unblock
    by_cases hts : t = s
    · subst hts; simp
    · rw [modifySlot_slots_ne _ _ _ _ hts]
      exact ⟨rfl, rfl⟩

theorem wf_step (prog : Prog) (step : Op → World → Outcome) (op : Op) (w w1 : World)
    (hne : ∀ e a, op ≠ Op.emit e a) (hw : WF w)
    (h : (stepOp prog step op w).final = some w1) : WF w1 := by
  cases op with
  | emit e a => exact absurd rfl (hne e a)
  | connect e k gid =>
    simp only [stepOp, Outcome.final, Option.some.injEq] at h
    subst h; exact wf_connect_call e k gid w hw
  | raise =>
    simp only [stepOp, Outcome.final, Option.some.injEq] at h
    subst h; exact hw
  | disconnect_callable e c =>
    simp only [stepOp, Outcome.final, Option.some.injEq] at h
    subst h; exact wf_disconnect_if _ e w hw
  | disconnect_object e o =>
    simp only [stepOp, Outcome.final, Option.some.injEq] at h
    subst h; exact wf_disconnect_if _ e w hw
  | disconnect_both e c o =>
    simp only [stepOp, Outcome.final, Option.some.injEq] at h
    subst h; exact wf_disconnect_if _ e w hw
  | disconnect_group e gid =>
    simp only [stepOp, Outcome.final, Option.some.injEq] at h
    subst h; exact wf_disconnect_group e gid w hw
  | disconnect_all e =>
    simp only [stepOp, Outcome.final, Option.some.injEq] at h
    subst h; exact wf_disconnect_all e w hw
  | block e =>
    simp only [stepOp, Outcome.final, Option.some.injEq] at h
    subst h; exact wf_setFlag e true w hw
  | unblock e =>
    simp only [stepOp, Outcome.final, Option.some.injEq] at h
    subst h; exact wf_setFlag e false w hw
  | block_group e gid =>
    simp only [stepOp, Outcome.final, Option.some.injEq] at h
    subst h; exact wf_setBlocked true gid _ w hw
  | unblock_group e gid =>
    simp only [stepOp, Outcome.final, Option.some.injEq] at h
    subst h; exact wf_setBlocked false gid _ w hw
  | move_construct dst src =>
    simp only [stepOp, Outcome.final, Option.some.injEq] at h
    subst h; exact wf_move_construct dst src w hw
  | move_assign dst src =>
    simp only [stepOp, Outcome.final, Option.some.injEq] at h
    subst h; exact wf_move_assign dst src w hw
  | conn_disconnect c =>
    simp only [stepOp, Outcome.final, Option.some.injEq] at h
    subst h; exact wf_conn_disconnect c w hw
  | conn_block c =>
    simp only [stepOp, Outcome.final, Option.some.injEq] at h
    subst h; exact wf_conn_block c w hw
  | conn_unblock c =>
    simp only [stepOp, Outcome.final, Option.some.injEq] at h
    subst h; exact wf_conn_unblock c w hw
  | observer_disconnect_all obs =>
    simp only [stepOp, Outcome.final, Option.some.injEq] at h
    subst h
    exact wf_of_same (wf_foldl_disconnect (w.observers obs) w hw) rfl (Nat.le_refl _)
      (fun _ _ => ⟨rfl, rfl⟩)
  | release a =>
    simp only [stepOp, Outcome.final, Option.some.injEq] at h
    subst h; exact wf_of_same hw rfl (Nat.le_refl _) (fun _ _ => ⟨rfl, rfl⟩)
  | add n =>
    simp only [stepOp, Outcome.final, Option.some.injEq] at h
    subst h; exact wf_of_same hw rfl (Nat.le_refl _) (fun _ _ => ⟨rfl, rfl⟩)

theorem wf_preserved (prog : Prog) : Preserved prog WF (fun _ => True) where
  code := fun _ _ _ _ _ => trivial
  prim := fun op w _ hI hne step w1 h => wf_step prog step op w w1 hne hI h
  push := fun _ _ hI => wf_of_same hI rfl (Nat.le_refl _) (fun _ _ => ⟨rfl, rfl⟩)
  pop := fun _ hI => wf_of_same hI rfl (Nat.le_refl _) (fun _ _ => ⟨rfl, rfl⟩)
  call := fun _ _ _ _ hI _ _ => wf_of_same hI rfl (Nat.le_refl _) (fun _ _ => ⟨rfl, rfl⟩)
  expire := fun w t hI => wf_slot_disconnect t w hI

theorem wf_worldF : WF worldF :=
  wf_connect_call _ _ _ _ (wf_connect_call _ _ _ _
    (wf_connect_call _ _ _ _ (wf_connect_call _ _ _ _ (wf_init 1))))

/-- C32: in a state with well-formed registries (group ids strictly ascending, every held slot
stores its position and the id of its group, no slot held by two emitters) every slot at
position `i` of a group stores index `i` and the id of that group, and the registries are well
formed again after `connect` and `connect_extended` (every overload), `clean` (the removal that
swaps with the last slot), `disconnect_if` with any predicate, `disconnect(group_id)`,
`disconnect_all`, the moves, and after every run of every program. New emitters are well formed,
so the index property holds in every state reached from new emitters. -/
theorem C32_index_invariant (w : World) (h : WF w) :
    (∀ e, ∀ g ∈ (w.sig e).m_slots, ∀ (i : Nat) (s : SlotId), g.slts[i]? = some s →
      (w.slots s).m_index = i ∧ (w.slots s).m_group = g.gid) ∧
    (∀ e k gid, WF (connect_call e k gid w).2) ∧
    (∀ e s, WF (clean e s w)) ∧
    (∀ cond e, WF (disconnect_if cond e w).2) ∧
    (∀ e gid, WF (disconnect_group e gid w).2) ∧
    (∀ e, WF (disconnect_all e w)) ∧
    (∀ dst src, WF (move_construct dst src w) ∧ WF (move_assign dst src w)) ∧
    (∀ (prog : Prog) (fuel : Nat) (ops : List Op) (w1 : World),
      (run prog fuel ops w).final = some w1 → WF w1) ∧
    (∀ (n : Nat) (prog : Prog) (fuel : Nat) (ops : List Op) (w1 : World),
      (run prog fuel ops (World.init n)).final = some w1 →
      ∀ e, ∀ g ∈ (w1.sig e).m_slots, ∀ (i : Nat) (s : SlotId), g.slts[i]? = some s →
        (w1.slots s).m_index = i ∧ (w1.slots s).m_group = g.gid) := by
  refine ⟨?_, fun e k gid => wf_connect_call e k gid w h, fun e s => wf_clean e s w h,
    fun cond e => wf_disconnect_if cond e w h, fun e gid => wf_disconnect_group e gid w h,
    fun e => wf_disconnect_all e w h,
    fun dst src => ⟨wf_move_construct dst src w h, wf_move_assign dst src w h⟩, ?_, ?_⟩
  · intro e g hg i s his
    obtain ⟨a1, a2, -⟩ := h.2.1 e g hg i s his
    exact ⟨a1, a2⟩
  · intro prog fuel ops w1 hr
    exact run_preserved (wf_preserved prog) fuel ops w w1 (fun _ _ => trivial) h hr
  · intro n prog fuel ops w1 hr e g hg i s his
    have hw := run_preserved (wf_preserved prog) fuel ops _ w1 (fun _ _ => trivial)
      (wf_init n) hr
    obtain ⟨a1, a2, -⟩ := hw.2.1 e g hg i s his
    exact ⟨a1, a2⟩

theorem C32_index_invariant_witness :
    WF worldF ∧ (worldF.sig 0).m_slots = [⟨[0, 1], 0⟩, ⟨[2, 3], 5⟩] ∧
    WF (disconnect_if (has_full_callable (freeFn 1)) 0 worldF).2 ∧
    ((disconnect_if (has_full_callable (freeFn 1)) 0 worldF).2.sig 0).m_slots
      = [⟨[1], 0⟩, ⟨[2], 5⟩] ∧
    ((disconnect_if (has_full_callable (freeFn 1)) 0 worldF).2.slots 1).m_index = 0 ∧
    ((disconnect_if (has_full_callable (freeFn 1)) 0 worldF).2.slots 2).m_index = 0 :=
  ⟨wf_worldF, by decide,
    (C32_index_invariant worldF wf_worldF).2.2.2.1 (has_full_callable (freeFn 1)) 0,
    by decide, by decide, by decide⟩

/-! ## The scan of `disconnect_if` (C33) -/

theorem disconnectIfLoop_fuel (cond : World → SlotId → Bool) (k : Nat) :
    ∀ (n i : Nat) (slts : List SlotId) (w : World) (count : Nat), slts.length ≤ n + i →
      disconnectIfLoop cond (n + k) i slts w count = disconnectIfLoop cond n i slts w count := by
  intro n
  induction n with
  | zero =>
    intro i slts w count hl
    have hnone : slts[i]? = none := List.getElem?_eq_none (by omega)
    cases k with
    | zero => rfl
    | succ k =>
      rw [Nat.zero_add]
      unfold disconnectIfLoop
      rw [hnone]
  | succ n ih =>
    intro i slts w count hl
    rw [Nat.add_right_comm]
    unfold disconnectIfLoop
    cases hs : slts[i]? with
    | none => rfl
    | some s =>
      simp only
      split_ifs with hc
      · apply ih
        rw [swapPop_length]
        omega
      · apply ih
        omega

/-- C33: for a predicate that does not read the stored indices (the three predicates of the
library are of this kind) and an existing emitter, `disconnect_if` returns the number of slots
of the registry that satisfy the predicate; afterwards the registry has the same groups, with
the same ids in the same order, and each group holds, as a multiset, its former slots that do
not satisfy the predicate; `slot_count()` has dropped by the returned value; the other emitters
are unchanged and the slot objects are unchanged except for stored indices. The scan of a group
ends because the position reaches the end of the vector: a larger bound on the number of
iterations gives the same result. `disconnect(callable, owner)` is `disconnect_if` with the
predicate "matches the owner and the callable", hence it removes exactly the slots matching
both and returns their number. -/
theorem C33_disconnect_if (cond : World → SlotId → Bool) (hc : IndexFree cond) (e : SigId)
    (w : World) (he : e < w.sigs.length) :
    (disconnect_if cond e w).1 = (flat (w.sig e).m_slots).countP (cond w) ∧
    List.Forall₂ (fun g1 g => g1.gid = g.gid ∧
        List.Perm g1.slts (g.slts.filter (fun s => !cond w s)))
      ((disconnect_if cond e w).2.sig e).m_slots (w.sig e).m_slots ∧
    ((disconnect_if cond e w).2.sig e).m_slots.map Group.gid = (w.sig e).m_slots.map Group.gid ∧
    slot_count (disconnect_if cond e w).2 e + (disconnect_if cond e w).1 = slot_count w e ∧
    (∀ t, t ∈ flat ((disconnect_if cond e w).2.sig e).m_slots ↔
      (t ∈ flat (w.sig e).m_slots ∧ cond w t = false)) ∧
    (∀ e1, e1 ≠ e → (disconnect_if cond e w).2.sig e1 = w.sig e1) ∧
    (∀ t, ∃ i, (disconnect_if cond e w).2.slots t = { w.slots t with m_index := i }) ∧
    (∀ (k i : Nat) (slts : List SlotId) (w0 : World) (count : Nat), i ≤ slts.length →
      disconnectIfLoop cond (slts.length - i + k) i slts w0 count =
        disconnectIfLoop cond (slts.length - i) i slts w0 count) ∧
    (∀ (f : Callable) (o : ObjRef),
      (disconnect_both e f o w).1 =
        (flat (w.sig e).m_slots).countP (fun s => has_object o w s && has_callable f w s) ∧
      (∀ t, t ∈ flat ((disconnect_both e f o w).2.sig e).m_slots ↔
        (t ∈ flat (w.sig e).m_slots ∧ ¬ (has_object o w t = true ∧ has_callable f w t = true))) ∧
      slot_count (disconnect_both e f o w).2 e + (disconnect_both e f o w).1 = slot_count w e) := by
  obtain ⟨h1, h2, h3, h4, h5⟩ := disconnect_if_spec cond hc e w he
  refine ⟨h2, h1, ?_, h3, filtered_mem_flat h1, h5, h4, ?_, ?_⟩
  · have hsig : ((disconnect_if cond e w).2.sig e).m_slots
        = (disconnectIfGroups cond (w.sig e).m_slots w 0).1 := by
      have hs := (disconnectIfGroups_sub cond (w.sig e).m_slots w 0).2
      unfold disconnect_if
      simp only
      rw [sig_setGroups_slots, if_pos ⟨rfl, by rw [hs.1]; exact he⟩]
    rw [hsig]
    exact disconnectIfGroups_gids cond _ w 0
  · intro k i slts w0 count hi
    exact disconnectIfLoop_fuel cond k _ i slts w0 count (by omega)
  · intro f o
    obtain ⟨b1, b2, b3, -, -⟩ := disconnect_if_spec _ (indexFree_both f o) e w he
    refine ⟨b2, ?_, b3⟩
    intro t
    have := filtered_mem_flat b1 t
    unfold disconnect_both
    rw [this]
    simp only [Bool.and_eq_false_imp, Bool.and_eq_true, not_and, Bool.not_eq_true]

theorem C33_disconnect_if_witness :
    (IndexFree (has_full_callable (freeFn 1)) ∧ 0 < worldF.sigs.length) ∧
    (disconnect_if (has_full_callable (freeFn 1)) 0 worldF).1 = 2 ∧
    (flat (worldF.sig 0).m_slots).countP (has_full_callable (freeFn 1) worldF) = 2 ∧
    slot_count (disconnect_if (has_full_callable (freeFn 1)) 0 worldF).2 0 + 2 = 4 :=
  ⟨⟨indexFree_has_full_callable (freeFn 1), by decide⟩, by decide,
    (C33_disconnect_if (has_full_callable (freeFn 1)) (indexFree_has_full_callable (freeFn 1)) 0
      worldF (by decide)).1.symm.trans (by decide), by decide⟩

/-! ## The guard of `clean` (C34) -/

theorem cleanGroups_none_of (state : SlotId) (idx : Nat) (gid : Int) (gs : List Group)
    (h : ∀ g ∈ gs, g.gid = gid → g.slts[idx]? ≠ some state) :
    (cleanGroups state idx gid gs).2 = none := by
  induction gs with
  | nil => rfl
  | cons g gs ih =>
    unfold cleanGroups
    by_cases h1 : g.gid = gid
    · rw [if_pos h1, if_neg (h g (List.mem_cons_self _ _) h1)]
    · rw [if_neg h1]
      exact ih (fun x hx => h x (List.mem_cons_of_mem _ hx))

/-- C34: on an existing emitter with strictly ascending group ids, `clean(slot)` removes
something only when the group with the stored group id of the slot holds that very slot at the
stored index. Then the index is inside the vector and the vector has a last element, that group
loses exactly this slot, the former last slot sits at the index and stores it, all other groups,
emitters and slot objects are unchanged, and `slot_count()` drops by one. In every other case
(no group with that id, the index past the end, another slot at the index) the program state is
unchanged; in a state with well-formed registries a second `clean` of the same slot changes
nothing. -/
theorem C34_clean_guard (e : SigId) (s : SlotId) (w : World) (he : e < w.sigs.length)
    (hs : SortedGroups (w.sig e).m_slots) :
    (∀ g ∈ (w.sig e).m_slots, g.gid = (w.slots s).m_group →
      g.slts[(w.slots s).m_index]? = some s →
      (w.slots s).m_index < g.slts.length ∧
      g.slts.getLast? = some (g.slts.getLast?.getD s) ∧
      (∃ pre post, (w.sig e).m_slots = pre ++ g :: post ∧
        ((clean e s w).sig e).m_slots = pre ++
          ⟨swapPop g.slts (w.slots s).m_index (g.slts.getLast?.getD s), g.gid⟩ :: post) ∧
      List.Perm (s :: swapPop g.slts (w.slots s).m_index (g.slts.getLast?.getD s)) g.slts ∧
      (swapPop g.slts (w.slots s).m_index (g.slts.getLast?.getD s))[(w.slots s).m_index]? =
        (if (w.slots s).m_index < g.slts.length - 1 then some (g.slts.getLast?.getD s)
          else none) ∧
      (clean e s w).slots (g.slts.getLast?.getD s) =
        { w.slots (g.slts.getLast?.getD s) with m_index := (w.slots s).m_index } ∧
      (∀ t, t ≠ g.slts.getLast?.getD s → (clean e s w).slots t = w.slots t) ∧
      (∀ e1, e1 ≠ e → (clean e s w).sig e1 = w.sig e1) ∧
      slot_count (clean e s w) e + 1 = slot_count w e) ∧
    ((∀ g ∈ (w.sig e).m_slots, g.gid = (w.slots s).m_group →
      g.slts[(w.slots s).m_index]? ≠ some s) → clean e s w = w) ∧
    (WF w → clean e s (clean e s w) = clean e s w) := by
  refine ⟨?_, ?_, ?_⟩
  · intro g hg hgid hat
    have hsome := cleanGroups_finds s (w.slots s).m_index (w.sig e).m_slots hs g hg hat
    rw [hgid] at hsome
    obtain ⟨moved, hm⟩ := Option.isSome_iff_exists.1 hsome
    obtain ⟨pre, g1, post, q1, -, q3, q4, q5, q6⟩ := cleanGroups_split _ _ _ _ _ hm
    have hg1 : g1 = g :=
      sorted_gid_unique hs (by rw [q1]; simp) hg (q3.trans hgid.symm)
    subst hg1
    have hlt : (w.slots s).m_index < g1.slts.length := by
      by_contra hc
      rw [List.getElem?_eq_none (Nat.le_of_not_lt hc)] at hat
      exact absurd hat (by simp)
    have hne : g1.slts ≠ [] := by
      intro h0
      rw [h0] at hlt
      simp at hlt
    have hcl := clean_of_some e s w moved hm
    rw [← q5]
    refine ⟨hlt, ?_, ⟨pre, post, q1, ?_⟩, ?_, ?_, ?_, ?_, ?_, ?_⟩
    · rw [q5]
      cases hl : g1.slts.getLast? with
      | none => exact absurd (List.getLast?_eq_none_iff.1 hl) hne
      | some x => rfl
    · rw [hcl, setIndex_sig, sig_setGroups_same _ _ _ he, q6]
    · rw [q5]; exact swapPop_perm g1.slts _ s hat
    · rw [swapPop_getElem]
      simp
    · rw [hcl]
      unfold World.setIndex
      rw [modifySlot_slots_same]
      rfl
    · intro t ht
      rw [hcl]
      unfold World.setIndex
      rw [modifySlot_slots_ne _ _ _ _ ht]
      rfl
    · intro e1 h1
      rw [hcl, setIndex_sig, sig_setGroups_ne _ _ _ _ (Ne.symm h1)]
    · exact clean_slot_count e s w he (by rw [hm]; rfl)
  · intro h
    exact clean_of_none e s w (cleanGroups_none_of _ _ _ _ h)
  · intro hwf
    cases hr : (cleanGroups s (w.slots s).m_index (w.slots s).m_group (w.sig e).m_slots).2 with
    | none => rw [clean_of_none e s w hr, clean_of_none e s w hr]
    | some moved =>
      apply clean_of_none
      cases hr2 : (cleanGroups s ((clean e s w).slots s).m_index ((clean e s w).slots s).m_group
          ((clean e s w).sig e).m_slots).2 with
      | none => rfl
      | some m2 =>
        exfalso
        have hmem := cleanGroups_some_mem s _ _ _ (by rw [hr2]; rfl)
        obtain ⟨pre, g1, post, q1, -, q3, q4, q5, q6⟩ := cleanGroups_split _ _ _ _ _ hr
        have hsig : ((clean e s w).sig e).m_slots =
            pre ++ ⟨swapPop g1.slts (w.slots s).m_index moved, g1.gid⟩ :: post := by
          rw [clean_of_some e s w moved hr, setIndex_sig, sig_setGroups_same _ _ _ he, q6]
        have hnd := registry_nodup (hwf.1 e) (hwf.2.1 e)
        rw [q1] at hnd
        have hp := swapPop_perm g1.slts _ s q4
        rw [← q5] at hp
        rw [hsig] at hmem
        simp only [flat, List.flatMap_append, List.flatMap_cons, List.mem_append] at hmem hnd
        have hnd2 : (flat pre ++ ((s :: swapPop g1.slts (w.slots s).m_index moved) ++
            flat post)).Nodup := by
          refine (List.Perm.nodup_iff ?_).2 hnd
          exact List.Perm.append_left _ (List.Perm.append_right _ hp)
        simp only [flat] at hnd2
        rw [List.nodup_append] at hnd2
        obtain ⟨-, n2, n3⟩ := hnd2
        simp only [List.cons_append, List.nodup_cons, List.mem_append, not_or] at n2
        rcases hmem with hm1 | hm1 | hm1
        · exact n3 hm1 (List.mem_cons_self _ _)
        · exact n2.1.1 hm1
        · exact n2.1.2 hm1

theorem C34_clean_guard_witness :
    (0 < worldF.sigs.length ∧ SortedGroups (worldF.sig 0).m_slots) ∧
    ((clean 0 0 worldF).sig 0).m_slots = [⟨[1], 0⟩, ⟨[2, 3], 5⟩] ∧
    ((clean 0 0 worldF).slots 1).m_index = 0 ∧
    slot_count (clean 0 0 worldF) 0 + 1 = slot_count worldF 0 ∧
    clean 0 0 (clean 0 0 worldF) = clean 0 0 worldF :=
  ⟨⟨by decide, by decide⟩, by decide, by decide, by decide,
    (C34_clean_guard 0 0 worldF (by decide) (by decide)).2.2 wf_worldF⟩

/-! ## Flags are read at the turn of a slot (C36) -/

theorem slot_invoke_of_active (prog : Prog) (step : Op → World → Outcome) (s : SlotId)
    (a : Args) (w : World) (h : active w s = true) :
    slot_invoke prog step s a w = userCall prog step s (connArg w s) a w := by
  unfold active slot_connected slot_blocked at h
  unfold slot_invoke call_slot connArg
  cases hk : (w.slots s).kind <;> simp [hk] at h <;> simp [h]

theorem runOps_done_split (step : Op → World → Outcome) (ops1 : List Op) (op : Op)
    (ops2 : List Op) (w w2 : World)
    (h : runOps step (ops1 ++ op :: ops2) w = Outcome.done w2) :
    ∃ wa wb, runOps step ops1 w = Outcome.done wa ∧ step op wa = Outcome.done wb ∧
      runOps step ops2 wb = Outcome.done w2 := by
  rw [runOps_append] at h
  cases h1 : runOps step ops1 w with
  | done wa =>
    rw [h1] at h
    simp only [runOps] at h
    cases h2 : step op wa with
    | done wb =>
      rw [h2] at h
      exact ⟨wa, wb, rfl, h2, h⟩
    | threw wb => rw [h2] at h; simp at h
    | stuck => rw [h2] at h; simp at h
  | threw wa => rw [h1] at h; simp at h
  | stuck => rw [h1] at h; simp at h

theorem connArg_mono {w w1 : World} (hm : Mono w w1) (s : SlotId) (hs : s < w.nextSlot) :
    connArg w1 s = connArg w s ∧ (w1.slots s).func = (w.slots s).func := by
  obtain ⟨-, -, k3, k4, -, k6, -, -⟩ := hm.2.2 s hs
  unfold connArg
  rw [k3, k6]
  exact ⟨rfl, k4⟩

/-- The state in which the turn of slot `t` comes, when the callable of an earlier slot `s` of
the same snapshot has called `disconnect()` or `block()` on a connection to `t`. -/
theorem later_slot_inactive (prog : Prog) (fuel : Nat) (a : Args) (wt ws wm : World)
    (s t : SlotId) (mid : List SlotId) (ops1 ops2 : List Op) (op : Op)
    (ht : t < wt.nextSlot) (hfl : wt.inFlight t = true)
    (hact : active wt s = true)
    (hcode : prog (wt.slots s).func.code (connArg wt s) a = ops1 ++ op :: ops2)
    (h2 : slot_invoke prog (exec prog fuel) s a wt = Outcome.done ws)
    (h3 : emitSlots prog (exec prog fuel) mid a ws = Outcome.done wm)
    (hop : op = Op.conn_disconnect ⟨some t⟩ ∨
      (op = Op.conn_block ⟨some t⟩ ∧ GroupIds wt ∧
        ∀ n x b, ∀ o ∈ prog n x b, unblocks t (wt.slots t).m_group o = false)) :
    active wm t = false := by
  have hstep := exec_runs prog fuel
  rw [slot_invoke_of_active prog _ s a wt hact] at h2
  unfold userCall at h2
  rw [hcode] at h2
  obtain ⟨wa, wb, r1, r2, r3⟩ := runOps_done_split _ ops1 op ops2 _ ws h2
  obtain ⟨m1, sn1, -⟩ := runOps_runs _ hstep ops1 _ wa (by rw [r1]; rfl)
  obtain ⟨m2, sn2, -⟩ := hstep op wa wb (by rw [r2]; rfl)
  obtain ⟨m3, sn3, -⟩ := runOps_runs _ hstep ops2 wb ws (by rw [r3]; rfl)
  obtain ⟨m4, sn4, -⟩ := emitSlots_emitted prog _ hstep a mid ws wm (by rw [h3]; rfl)
  have hta : t < wa.nextSlot := Nat.lt_of_lt_of_le ht m1.1
  have htb : t < wb.nextSlot := Nat.lt_of_lt_of_le hta m2.1
  have halive : wa.alive t = true := by
    rw [alive_eq]
    have : wa.snaps = wt.snaps := sn1
    rw [this]
    unfold World.inFlight at hfl
    rw [hfl]
    simp
  have hlock : Connection.lock ⟨some t⟩ wa = some t := by
    simp [Connection.lock, halive]
  cases fuel with
  | zero => simp [exec] at r2
  | succ n =>
    rcases hop with rfl | ⟨rfl, hg, hprog⟩
    · -- the connected flag is cleared and never comes back
      simp only [exec, stepOp, Outcome.done.injEq] at r2
      have hflag := (drop_alive ⟨some t⟩ t wa rfl halive).2
      rw [r2] at hflag
      apply not_active_of_flags
      cases hc : (wm.slots t).m_connected with
      | false => rfl
      | true =>
        have := (mono_trans m3 m4).2.2 t htb |>.2.2.2.2.2.2.1 hc
        rw [hflag] at this
        exact absurd this (by simp)
    · -- the blocked flag is set and nothing clears it
      simp only [exec, stepOp, Outcome.done.injEq] at r2
      have hwb : wb = slot_block t wa := by
        rw [← r2]
        simp [Connection.block, hlock]
      obtain ⟨c1, c2, c3⟩ := active_facts wt s hact
      have hI := exec_preserved (groupIds_preserved prog) (n + 1)
      have g1 : GroupIds wa :=
        runOps_preserved GroupIds (fun _ => True) _ hI ops1 _ wa (fun _ _ => trivial)
          ((groupIds_preserved prog).call wt s a (connArg wt s) hg c1 c2) (by rw [r1]; rfl)
      have g2 : GroupIds wb :=
        hI (Op.conn_block ⟨some t⟩) wa wb trivial g1 (by
          show (exec prog (n + 1) (Op.conn_block ⟨some t⟩) wa).final = some wb
          simp only [exec, stepOp, Outcome.final, r2])
      have hgrp : (wb.slots t).m_group = (wt.slots t).m_group :=
        ((mono_trans m1 m2).2.2 t ht).1
      have hG : Guarded t (wt.slots t).m_group wb.log.length wb := by
        refine ⟨g2, htb, hgrp, ?_, ?_⟩
        · rw [hwb]; simp [slot_block]
        · intro c hc
          rw [List.drop_length] at hc
          exact absurd hc (List.not_mem_nil c)
      have hP := guarded_preserved prog t (wt.slots t).m_group wb.log.length hprog
      have hok2 : ∀ o ∈ ops2, unblocks t (wt.slots t).m_group o = false := by
        intro o ho
        apply hprog _ _ _ o
        rw [hcode]
        exact List.mem_append_right _ (List.mem_cons_of_mem _ ho)
      have hGs := runOps_preserved _ _ _ (exec_preserved hP (n + 1)) ops2 wb ws hok2 hG
        (by rw [r3]; rfl)
      have hGm := emitSlots_preserved hP _ (exec_preserved hP (n + 1)) a mid ws wm hGs
        (by rw [h3]; rfl)
      apply not_active_of_flags
      rw [hGm.2.2.2.1]
      simp

/-- C36: the flags of a slot are read when its turn comes, not when the snapshot is taken. Let
an emission run over a snapshot in which slot `s` comes before slot `t`, and let the callable of
`s`, when called with the emitted arguments, call `disconnect()` on a connection to `t`, or call
`block()` on one while no user code unblocks `t` (neither through a connection nor through its
group). If the emission returns and `s` was invoked at its turn, then the emission has recorded
exactly one call of `s` and no call of `t`. -/
theorem C36_flags_read_at_turn (prog : Prog) (fuel : Nat) (e : SigId) (a : Args) (w w1 : World)
    (pre : List SlotId) (s : SlotId) (mid : List SlotId) (t : SlotId) (post : List SlotId)
    (ops1 ops2 : List Op) (op : Op)
    (hb : (w.sig e).m_block = false)
    (hsnap : flat (w.sig e).m_slots = pre ++ s :: (mid ++ t :: post))
    (hnd : (flat (w.sig e).m_slots).Nodup)
    (hs : s < w.nextSlot) (ht : t < w.nextSlot)
    (hcode : prog (w.slots s).func.code (connArg w s) a = ops1 ++ op :: ops2)
    (hop : op = Op.conn_disconnect ⟨some t⟩ ∨
      (op = Op.conn_block ⟨some t⟩ ∧ GroupIds w ∧
        ∀ n x b, ∀ o ∈ prog n x b, unblocks t (w.slots t).m_group o = false))
    (hrun : emitTop prog fuel e a w = Outcome.done w1) :
    ∃ wt, emitSlots prog (exec prog fuel) pre a (w.pushSnap e) = Outcome.done wt ∧
      (active wt s = true →
        (w1.log.drop w.log.length).filter
          (fun c => decide (c.depth = w.snaps.length + 1 ∧ c.slot = s))
            = [callOf wt (w.snaps.length + 1) a s] ∧
        (w1.log.drop w.log.length).filter
          (fun c => decide (c.depth = w.snaps.length + 1 ∧ c.slot = t)) = []) := by
  have hstep := exec_runs prog fuel
  unfold emitTop at hrun
  rw [emit_eq prog _ e a w hb, hsnap] at hrun
  cases hfull : emitSlots prog (exec prog fuel) (pre ++ s :: (mid ++ t :: post)) a
      (w.pushSnap e) with
  | threw w2 => rw [hfull] at hrun; simp at hrun
  | stuck => rw [hfull] at hrun; simp at hrun
  | done w2 =>
    rw [hfull] at hrun
    simp only [Outcome.done.injEq] at hrun
    obtain ⟨wt, ws, h1, h2, h3⟩ := emitSlots_done_split prog _ pre s _ a _ w2 hfull
    obtain ⟨wm, -, hmid, -, -⟩ := emitSlots_done_split prog _ mid t post a ws w2 h3
    refine ⟨wt, h1, ?_⟩
    intro hact
    -- the records of the emission
    obtain ⟨-, -, added, hlog, -, -⟩ := emitSlots_emitted prog _ hstep a _ _ w2
      (by rw [hfull]; rfl)
    have hdrop : w1.log.drop w.log.length = added := by
      rw [← hrun]
      show w2.log.drop w.log.length = added
      rw [hlog]
      show (w.log ++ added).drop w.log.length = added
      rw [List.drop_left]
    have hdepth : (w.pushSnap e).snaps.length = w.snaps.length + 1 := by
      simp [World.pushSnap]
    -- the snapshot holds every slot once
    rw [hsnap] at hnd
    have hnd1 := List.nodup_middle.1 hnd
    have hs1 : s ∉ pre ++ (mid ++ t :: post) := (List.nodup_cons.1 hnd1).1
    have hass : pre ++ s :: (mid ++ t :: post) = (pre ++ s :: mid) ++ t :: post := by simp
    rw [hass] at hnd hfull
    have hnd2 := List.nodup_middle.1 hnd
    have ht1 : t ∉ (pre ++ s :: mid) ++ post := (List.nodup_cons.1 hnd2).1
    -- the state in which the turn of `t` comes
    obtain ⟨m0, sn0, -⟩ := emitSlots_emitted prog _ hstep a pre _ wt (by rw [h1]; rfl)
    have mwt : Mono w wt := mono_trans (pushSnap_mono w e) m0
    obtain ⟨ca, cf⟩ := connArg_mono mwt s hs
    have hfl : wt.inFlight t = true := by
      unfold World.inFlight
      rw [sn0]
      have : holds (w.sig e).m_slots t = true := by
        rw [holds_iff, hsnap]; simp
      simp [World.pushSnap, this]
    have hgrp : (wt.slots t).m_group = (w.slots t).m_group := (mwt.2.2 t ht).1
    have hinact : active wm t = false := by
      refine later_slot_inactive prog fuel a wt ws wm s t mid ops1 ops2 op
        (Nat.lt_of_lt_of_le ht mwt.1) hfl hact (by rw [ca, cf]; exact hcode) h2 hmid ?_
      rcases hop with h0 | ⟨h0, hg, hp⟩
      · exact Or.inl h0
      · refine Or.inr ⟨h0, ?_, by rw [hgrp]; exact hp⟩
        exact emitSlots_preserved (groupIds_preserved prog) _
          (exec_preserved (groupIds_preserved prog) fuel) a pre _ wt
          ((groupIds_preserved prog).push w e hg) (by rw [h1]; rfl)
    rw [hdrop]
    constructor
    · obtain ⟨wt2, k1, k2⟩ := emitSlots_turn prog _ hstep pre s (mid ++ t :: post) a _ w2 added
        hlog (fun h => hs1 (List.mem_append_left _ h))
        (fun h => hs1 (List.mem_append_right _ h)) (by rw [hass]; exact hfull)
      rw [h1] at k1
      simp only [Outcome.done.injEq] at k1
      subst k1
      rw [hdepth] at k2
      rw [k2, if_pos hact]
    · obtain ⟨wt2, k1, k2⟩ := emitSlots_turn prog _ hstep (pre ++ s :: mid) t post a _ w2 added
        hlog (fun h => ht1 (List.mem_append_left _ h))
        (fun h => ht1 (List.mem_append_right _ h)) hfull
      have hm2 : emitSlots prog (exec prog fuel) (pre ++ s :: mid) a (w.pushSnap e)
          = Outcome.done wm := by
        rw [emitSlots_append, h1]
        simp only [emitSlots, h2, hmid]
      rw [hm2] at k1
      simp only [Outcome.done.injEq] at k1
      subst k1
      rw [hdepth] at k2
      rw [k2, hinact]
      simp

theorem C36_flags_read_at_turn_witness :
    ((worldF.sig 0).m_block = false ∧ flat (worldF.sig 0).m_slots = [0, 1, 2, 3]) ∧
    (∃ w1, emitTop unhooker 2 0 [1] worldF = Outcome.done w1 ∧
      (w1.log.drop worldF.log.length).filter
        (fun c => decide (c.depth = worldF.snaps.length + 1 ∧ c.slot = 1)) = []) ∧
    (run unhooker 2 [Op.emit 0 [1]] worldF).final.map (fun w => w.log.map Call.slot)
      = some [0, 2, 3] ∧
    (run muter 2 [Op.emit 0 [1], Op.emit 0 [1]] worldF).final.map
      (fun w => w.log.map Call.slot) = some [0, 2, 3, 0, 2, 3] := by
  refine ⟨⟨by decide, by decide⟩, ?_, by decide, by decide⟩
  obtain ⟨wt, hwt, himp⟩ := C36_flags_read_at_turn unhooker 2 0 [1] worldF _ [] 0 [] 1 [2, 3]
    [] [] (Op.conn_disconnect ⟨some 1⟩) (by decide) (by decide) (by decide) (by decide)
    (by decide) (by decide) (Or.inl rfl) rfl
  have hw : wt = worldF.pushSnap 0 := by
    simp only [emitSlots, Outcome.done.injEq] at hwt
    exact hwt.symm
  subst hw
  exact ⟨_, rfl, (himp (by decide)).2⟩

/-! ## Clone on write (C35) -/

theorem payloadAt_lt {α : Type} (h : CowHeap α) (p : Nat) (pl : Payload α)
    (hp : payloadAt h p = some pl) : p < h.length := by
  by_contra hc
  unfold payloadAt at hp
  rw [List.getD_eq_getElem?_getD, List.getElem?_eq_none (Nat.le_of_not_lt hc)] at hp
  simp at hp

theorem payloadAt_set {α : Type} (h : CowHeap α) (p q : Nat) (x : Option (Payload α))
    (hp : p < h.length) :
    payloadAt (h.set p x) q = if q = p then x else payloadAt h q := by
  unfold payloadAt
  rw [List.getD_eq_getElem?_getD, List.getD_eq_getElem?_getD, List.getElem?_set]
  by_cases hq : p = q
  · subst hq
    simp [hp]
  · simp [hq, Ne.symm hq]

theorem payloadAt_append {α : Type} (h : CowHeap α) (q : Nat) (x : Option (Payload α)) :
    payloadAt (h ++ [x]) q = if q = h.length then x else payloadAt h q := by
  unfold payloadAt
  rw [List.getD_eq_getElem?_getD, List.getD_eq_getElem?_getD]
  by_cases hq : q < h.length
  · rw [List.getElem?_append_left hq, if_neg (by omega)]
  · by_cases hq2 : q = h.length
    · subst hq2
      simp
    · rw [if_neg hq2, List.getElem?_eq_none (by simp; omega),
        List.getElem?_eq_none (by omega)]

theorem cow_copy_eq {α : Type} (h : CowHeap α) (p c : Nat) (v : α)
    (hp : payloadAt h p = some (Payload.mk c (v))) (hc : c + 1 < 2 ^ 64) :
    cow_copy_construct ⟨some p⟩ h = some (⟨some p⟩, h.set p (some (Payload.mk (c + 1) (v)))) := by
  unfold cow_copy_construct
  simp only [hp]
  rw [Nat.mod_eq_of_lt hc]

theorem cow_write_shared {α : Type} (h : CowHeap α) (p c : Nat) (v : α)
    (hp : payloadAt h p = some (Payload.mk (c + 1) (v))) (h1 : 1 ≤ c) (hc : c + 1 < 2 ^ 64) :
    cow_write ⟨some p⟩ h =
      some (⟨some h.length⟩, (h ++ [some (Payload.mk 1 (v))]).set p (some (Payload.mk c (v)))) := by
  have hlt := payloadAt_lt h p _ hp
  have hne : ¬ c + 1 = 1 := by omega
  have hdec : (c + 1 + 2 ^ 64 - 1) % 2 ^ 64 = c := by
    have : c + 1 + 2 ^ 64 - 1 = c + 2 ^ 64 := by omega
    rw [this, Nat.add_mod_right, Nat.mod_eq_of_lt (by omega)]
  have hc0 : c ≠ 0 := by omega
  have hp2 : payloadAt (h ++ [some (Payload.mk 1 (v))]) p = some (Payload.mk (c + 1) (v)) := by
    rw [payloadAt_append, if_neg (by omega)]
    exact hp
  unfold cow_write cow_unique cow_read
  simp only [hp, Option.map_some', hne, decide_False]
  unfold cow_move_assign cow_destroy cow_construct
  simp only [hp2, hdec, hc0, if_false]

theorem cow_write_unique {α : Type} (h : CowHeap α) (p : Nat) (v : α)
    (hp : payloadAt h p = some (Payload.mk 1 (v))) : cow_write ⟨some p⟩ h = some (⟨some p⟩, h) := by
  unfold cow_write cow_unique
  simp only [hp, Option.map_some', decide_True]

/-- C35: let `x` be a `copy_on_write` object whose payload has count `c` and value `v`, and `y`
a copy of it (copy constructor, count `c + 1`). A mutation `f` made through `x.write()` clones
the payload: afterwards `x` points to a new payload with count `1` and value `f v`, `x` is
unique, and `y` still reads `v` from the old payload, whose count is `c` again. When `x` is the
only object of its payload (count `1`), `write()` hands out the existing payload and the
mutation is made in place. In an emitter the registry `m_slots` is such an object and the
snapshot of an emission is a copy of it, so the group list the emission iterates is the one of
the time the snapshot was taken: no call other than an emission changes the snapshots in
flight. -/
theorem C35_copy_on_write {α : Type} (h : CowHeap α) (p c : Nat) (v : α) (f : α → α)
    (hp : payloadAt h p = some (Payload.mk c (v))) (h1 : 1 ≤ c) (hc : c + 1 < 2 ^ 64) :
    (∃ y h1 x1 h2, cow_copy_construct ⟨some p⟩ h = some (y, h1) ∧
      cow_read y h1 = some v ∧ cow_unique ⟨some p⟩ h1 = some false ∧
      cow_mutate f ⟨some p⟩ h1 = some (x1, h2) ∧
      cow_read y h2 = some v ∧ cow_read x1 h2 = some (f v) ∧
      cow_unique x1 h2 = some true ∧ x1.m_data ≠ y.m_data ∧
      payloadAt h2 p = some (Payload.mk c (v))) ∧
    (c = 1 → cow_write ⟨some p⟩ h = some (⟨some p⟩, h) ∧
      cow_mutate f ⟨some p⟩ h = some (⟨some p⟩, h.set p (some (Payload.mk 1 (f v)))) ∧
      cow_read ⟨some p⟩ (h.set p (some (Payload.mk 1 (f v)))) = some (f v)) ∧
    (∀ (prog : Prog) (step : Op → World → Outcome) (op : Op) (w w1 : World),
      (∀ e a, op ≠ Op.emit e a) → (stepOp prog step op w).final = some w1 →
      w1.snaps = w.snaps) := by
  have hlt := payloadAt_lt h p _ hp
  have hlen : (h.set p (some (Payload.mk (c + 1) (v)))).length = h.length := List.length_set _ _ _
  have hp1 : payloadAt (h.set p (some (Payload.mk (c + 1) (v)))) p = some (Payload.mk (c + 1) (v)) := by
    rw [payloadAt_set _ _ _ _ hlt, if_pos rfl]
  have hw := cow_write_shared (h.set p (some (Payload.mk (c + 1) (v)))) p c v hp1 h1 hc
  rw [hlen] at hw
  have hlt2 : p < (h.set p (some (Payload.mk (c + 1) (v))) ++ [some (Payload.mk 1 (v))]).length := by
    simp; omega
  have hlt3 : h.length < ((h.set p (some (Payload.mk (c + 1) (v))) ++ [some (Payload.mk 1 (v))]).set p
      (some (Payload.mk c (v)))).length := by
    simp
  have hnew : payloadAt ((h.set p (some (Payload.mk (c + 1) (v))) ++ [some (Payload.mk 1 (v))]).set p (some (Payload.mk c (v))))
      h.length = some (Payload.mk 1 (v)) := by
    rw [payloadAt_set _ _ _ _ hlt2, if_neg (by omega), payloadAt_append, hlen, if_pos rfl]
  have hpne : p ≠ h.length := by omega
  refine ⟨⟨⟨some p⟩, _, ⟨some h.length⟩,
    ((h.set p (some (Payload.mk (c + 1) v)) ++ [some (Payload.mk 1 v)]).set p
      (some (Payload.mk c v))).set h.length (some (Payload.mk 1 (f v))),
    cow_copy_eq h p c v hp hc, ?_, ?_, ?_, ?_, ?_, ?_,
    ?_, ?_⟩, ?_, ?_⟩
  · simp only [cow_read, hp1, Option.map_some']
  · have : ¬ c + 1 = 1 := by omega
    simp only [cow_unique, hp1, Option.map_some', this, decide_False]
  · unfold cow_mutate
    simp only [hw, hnew]
  · simp only [cow_read]
    rw [payloadAt_set _ _ _ _ hlt3, if_neg hpne, payloadAt_set _ _ _ _ hlt2, if_pos rfl]
    rfl
  · simp only [cow_read]
    rw [payloadAt_set _ _ _ _ hlt3, if_pos rfl]
    rfl
  · simp only [cow_unique]
    rw [payloadAt_set _ _ _ _ hlt3, if_pos rfl]
    rfl
  · simp only [ne_eq, Option.some.injEq]
    omega
  · rw [payloadAt_set _ _ _ _ hlt3, if_neg hpne, payloadAt_set _ _ _ _ hlt2, if_pos rfl]
  · intro hc1
    subst hc1
    have hwu := cow_write_unique h p v hp
    refine ⟨hwu, ?_, ?_⟩
    · unfold cow_mutate
      simp only [hwu, hp]
    · simp only [cow_read]
      rw [payloadAt_set _ _ _ _ hlt, if_pos rfl]
      rfl
  · intro prog step op w w1 hne hf
    exact (silent_step prog step op w w1 hne hf).2.1

theorem C35_copy_on_write_witness :
    (payloadAt [some (Payload.mk 1 ([3, 4]))] 0 = some (Payload.mk 1 ([3, 4])) ∧ 1 ≤ 1 ∧ 1 + 1 < 2 ^ 64) ∧
    (∃ y h1 x1 h2, cow_copy_construct ⟨some 0⟩ [some (Payload.mk 1 ([3, 4]))] = some (y, h1) ∧
      cow_mutate (fun l => 5 :: l) ⟨some 0⟩ h1 = some (x1, h2) ∧
      cow_read y h2 = some [3, 4] ∧ cow_read x1 h2 = some [5, 3, 4]) := by
  refine ⟨⟨rfl, by decide, by decide⟩, ?_⟩
  obtain ⟨y, h1, x1, h2, a1, -, -, a4, a5, a6, -⟩ :=
    (C35_copy_on_write [some (Payload.mk 1 ([3, 4]))] 0 1 [3, 4] (fun l => 5 :: l) rfl (by decide)
      (by decide)).1
  exact ⟨y, h1, x1, h2, a1, a4, a5, a6⟩

/-! ## Handles after a move (C37) -/

/-- C37 (what the code does): a slot keeps the reference `cleaner` to the emitter that created
it, and a move does not change it. After emitter `X` has been moved into `Y`, `disconnect()` on a
connection made by `X.connect` returns true and clears the connected flag, but `clean` runs on
`X`, whose registry is now empty: the slot stays in the registry of `Y` and `Y.slot_count()` is
unchanged. In the examples the count of the target stays 2, after the move constructor and after
the move assignment. -/
theorem C37_stale_cleaner :
    (∀ (w : World) (X Y : SigId) (s : SlotId), X ≠ Y → X < w.sigs.length →
      Y < w.sigs.length → (w.slots s).cleaner = X → (w.slots s).m_connected = true →
      holds (w.sig X).m_slots s = true →
      holds ((move_construct Y X w).sig Y).m_slots s = true ∧
      (Connection.disconnect ⟨some s⟩ (move_construct Y X w)).1 = true ∧
      ((Connection.disconnect ⟨some s⟩ (move_construct Y X w)).2.sig Y).m_slots
        = ((move_construct Y X w).sig Y).m_slots ∧
      slot_count (Connection.disconnect ⟨some s⟩ (move_construct Y X w)).2 Y
        = slot_count (move_construct Y X w) Y ∧
      ((Connection.disconnect ⟨some s⟩ (move_construct Y X w)).2.slots s).m_connected = false) ∧
    (slot_count (move_construct 1 0 worldMove) 1 = 2 ∧
      (Connection.disconnect ⟨some 0⟩ (move_construct 1 0 worldMove)).1 = true ∧
      slot_count (Connection.disconnect ⟨some 0⟩ (move_construct 1 0 worldMove)).2 1 = 2 ∧
      flat ((Connection.disconnect ⟨some 0⟩ (move_construct 1 0 worldMove)).2.sig 1).m_slots
        = [0, 1]) ∧
    (slot_count (move_assign 1 0 worldTwo) 1 = 2 ∧
      (Connection.disconnect ⟨some 0⟩ (move_assign 1 0 worldTwo)).1 = true ∧
      slot_count (Connection.disconnect ⟨some 0⟩ (move_assign 1 0 worldTwo)).2 1 = 2) ∧
    (slot_count worldMove 0 = 2 ∧ (Connection.disconnect ⟨some 0⟩ worldMove).1 = true ∧
      slot_count (Connection.disconnect ⟨some 0⟩ worldMove).2 0 = 1) := by
  refine ⟨?_, by decide, by decide, by decide⟩
  intro w X Y s hne hX hY hcl hcon hh
  have hsY : ((move_construct Y X w).sig Y).m_slots = (w.sig X).m_slots := by
    rw [move_construct_slots, if_neg (fun hc => hne hc.1.symm), if_pos ⟨rfl, hY⟩]
  have hsX : ((move_construct Y X w).sig X).m_slots = [] := by
    rw [move_construct_slots, if_pos ⟨rfl, hX⟩]
  have hslots : (move_construct Y X w).slots = w.slots := rfl
  have hheld : holds ((move_construct Y X w).sig Y).m_slots s = true := by rw [hsY]; exact hh
  have halive : (move_construct Y X w).alive s = true :=
    alive_of_held _ _ (held_of_sig _ Y _ hheld)
  have hd := conn_disconnect_of_alive s _ halive
  have hsd : slot_disconnect s (move_construct Y X w) = (true, clean X s
      ((move_construct Y X w).modifySlot s (fun x => { x with m_connected := false }))) := by
    unfold slot_disconnect
    rw [hslots, hcon, hcl]
    rfl
  have hnone : (cleanGroups s
      (((move_construct Y X w).modifySlot s
        (fun x => { x with m_connected := false })).slots s).m_index
      (((move_construct Y X w).modifySlot s
        (fun x => { x with m_connected := false })).slots s).m_group
      (((move_construct Y X w).modifySlot s
        (fun x => { x with m_connected := false })).sig X).m_slots).2 = none := by
    have : (((move_construct Y X w).modifySlot s
        (fun x => { x with m_connected := false })).sig X).m_slots = [] := hsX
    rw [this]
    rfl
  have hcl2 := clean_of_none X s _ hnone
  have hsig : ((Connection.disconnect ⟨some s⟩ (move_construct Y X w)).2.sig Y)
      = (move_construct Y X w).sig Y := by
    rw [hd, hsd]
    simp only
    rw [hcl2]
    rfl
  refine ⟨hheld, ?_, by rw [hsig], ?_, ?_⟩
  · rw [hd, hsd]
  · unfold slot_count
    rw [hsig]
  · rw [hd, hsd]
    simp only
    rw [hcl2]
    simp

/-! ## An extended slot disconnects itself after a move (C23) -/

theorem holds_false_getElem (gs : List Group) (s : SlotId) (h : holds gs s = false) :
    ∀ g ∈ gs, ∀ i : Nat, g.slts[i]? ≠ some s := by
  intro g hg i hi
  have : holds gs s = true := by
    rw [holds_mem_group]
    exact ⟨g, hg, List.mem_iff_getElem?.2 ⟨i, hi⟩⟩
  rw [h] at this
  exact Bool.noConfusion this

/-- An extended slot whose callable disconnects the connection it receives, invoked while the
emitter its `cleaner` refers to does not hold it: the call is made, the flag is cleared, and no
registry changes. -/
theorem self_disconnect_stale (prog : Prog) (fuel : Nat) (w : World) (s : SlotId) (a : Args)
    (hk : (w.slots s).kind = SlotKind.slot_extended ∨
      (w.slots s).kind = SlotKind.slot_pmf_extended)
    (hc : (w.slots s).conn = ⟨some s⟩) (hact : active w s = true) (hal : w.alive s = true)
    (hno : holds (w.sig (w.slots s).cleaner).m_slots s = false)
    (hp : prog (w.slots s).func.code (some ⟨some s⟩) a = [Op.conn_disconnect ⟨some s⟩]) :
    slot_invoke prog (exec prog (fuel + 1)) s a w = Outcome.done
      (World.modifySlot { w with log := w.log ++ [⟨w.snaps.length, s, a, some ⟨some s⟩⟩] } s
        (fun x => { x with m_connected := false })) := by
  have hcon : (w.slots s).m_connected = true ∧ (w.slots s).m_blocked = false := by
    unfold active slot_connected slot_blocked at hact
    rcases hk with h | h <;> simpa [h] using hact
  have hal2 : World.alive { w with log := w.log ++ [⟨w.snaps.length, s, a, some ⟨some s⟩⟩] } s
      = true := hal
  have hd := conn_disconnect_of_alive s _ hal2
  have hsd : slot_disconnect s { w with log := w.log ++ [⟨w.snaps.length, s, a, some ⟨some s⟩⟩] }
      = (true, clean (w.slots s).cleaner s
        (World.modifySlot { w with log := w.log ++ [⟨w.snaps.length, s, a, some ⟨some s⟩⟩] } s
          (fun x => { x with m_connected := false }))) := by
    unfold slot_disconnect
    have h1 : (World.slots { w with log := w.log ++ [⟨w.snaps.length, s, a, some ⟨some s⟩⟩] } s)
        = w.slots s := rfl
    rw [h1, hcon.1]
    rfl
  have hnone : (cleanGroups s
      ((World.modifySlot { w with log := w.log ++ [⟨w.snaps.length, s, a, some ⟨some s⟩⟩] } s
        (fun x => { x with m_connected := false })).slots s).m_index
      ((World.modifySlot { w with log := w.log ++ [⟨w.snaps.length, s, a, some ⟨some s⟩⟩] } s
        (fun x => { x with m_connected := false })).slots s).m_group
      ((World.modifySlot { w with log := w.log ++ [⟨w.snaps.length, s, a, some ⟨some s⟩⟩] } s
        (fun x => { x with m_connected := false })).sig (w.slots s).cleaner).m_slots).2
      = none := by
    apply cleanGroups_none_of
    intro g hg _
    exact holds_false_getElem _ s hno g hg _
  have hcl := clean_of_none (w.slots s).cleaner s _ hnone
  unfold slot_invoke call_slot userCall
  rw [hcon.1, hcon.2]
  rcases hk with h | h <;>
    simp [h, hc, hp, runOps, exec, stepOp, hd, hsd, hcl]

/-- C23 (what the code does): a slot keeps the reference `cleaner` to the emitter that created
it. When an extended slot whose callable calls `disconnect()` on the connection it receives is
invoked while that emitter does not hold it, as after the emitter has been moved, the call is
made with the connection and the emitted arguments and the connected flag is cleared, but
`clean` finds nothing to remove: no registry changes and `slot_count()` of every emitter is
what it was. At the failing input emitter `0` is moved into emitter `1` after
`connect_extended`: the emission on emitter `1` invokes the slot with its connection, the
connection reads disconnected afterwards and a second emission skips the slot, but
`slot_count()` of emitter `1` is still `2`. Without the move the count drops to `1`. -/
theorem C23_self_disconnect_after_move :
    (∀ (prog : Prog) (fuel : Nat) (w : World) (s : SlotId) (a : Args),
      ((w.slots s).kind = SlotKind.slot_extended ∨
        (w.slots s).kind = SlotKind.slot_pmf_extended) →
      (w.slots s).conn = ⟨some s⟩ → active w s = true → w.alive s = true →
      holds (w.sig (w.slots s).cleaner).m_slots s = false →
      prog (w.slots s).func.code (some ⟨some s⟩) a = [Op.conn_disconnect ⟨some s⟩] →
      ∃ w1, slot_invoke prog (exec prog (fuel + 1)) s a w = Outcome.done w1 ∧
        w1.log = w.log ++ [⟨w.snaps.length, s, a, some ⟨some s⟩⟩] ∧
        (w1.slots s).m_connected = false ∧ w1.sigs = w.sigs ∧
        ∀ e, slot_count w1 e = slot_count w e) ∧
    (slot_count worldSelfMoved 1 = 2 ∧ flat (worldSelfMoved.sig 1).m_slots = [1, 0] ∧
      (worldSelfMoved.slots 1).cleaner = 0 ∧ (worldSelfMoved.slots 1).conn = ⟨some 1⟩ ∧
      (run selfUnhooker 2 [Op.emit 1 [5]] worldSelfMoved).final.map
        (fun w => (w.log.map (fun c => (c.slot, c.args, c.conn)), slot_count w 1))
        = some ([(1, [5], some ⟨some 1⟩), (0, [5], none)], 2) ∧
      (run selfUnhooker 2 [Op.emit 1 [5]] worldSelfMoved).final.map
        (fun w => Connection.connected ⟨some 1⟩ w) = some false ∧
      (run selfUnhooker 2 [Op.emit 1 [5], Op.emit 1 [5]] worldSelfMoved).final.map
        (fun w => (w.log.map (fun c => (c.slot, c.args, c.conn)), slot_count w 1))
        = some ([(1, [5], some ⟨some 1⟩), (0, [5], none), (0, [5], none)], 2)) ∧
    (slot_count worldSelf 0 = 2 ∧
      (run selfUnhooker 2 [Op.emit 0 [5], Op.emit 0 [5]] worldSelf).final.map
        (fun w => (w.log.map (fun c => (c.slot, c.args, c.conn)), slot_count w 0))
        = some ([(1, [5], some ⟨some 1⟩), (0, [5], none), (0, [5], none)], 1)) := by
  refine ⟨?_, ⟨by decide, by decide, by decide, by decide, by decide, by decide, by decide⟩,
    by decide⟩
  intro prog fuel w s a hk hc hact hal hno hp
  refine ⟨_, self_disconnect_stale prog fuel w s a hk hc hact hal hno hp, rfl, ?_, rfl,
    fun e => rfl⟩
  simp [World.modifySlot]

/-! ## Observers connected through an lvalue pointer (C21) -/

theorem swapPop_mem_of_ne (slts : List SlotId) (i : Nat) (s x : SlotId) (h : slts[i]? = some s)
    (hx : x ∈ slts) (hne : x ≠ s) : x ∈ swapPop slts i (slts.getLast?.getD s) := by
  have := (swapPop_perm slts i s h).mem_iff.2 hx
  rcases List.mem_cons.1 this with h1 | h1
  · exact absurd h1 hne
  · exact h1

theorem mem_flat_cleanGroups_of_ne (state : SlotId) (idx : Nat) (gid : Int) (gs : List Group)
    (x : SlotId) (hne : x ≠ state) (h : x ∈ flat gs) :
    x ∈ flat (cleanGroups state idx gid gs).1 := by
  induction gs with
  | nil => simp [flat] at h
  | cons g gs ih =>
    unfold cleanGroups
    simp only [flat_cons, List.mem_append] at h
    split_ifs with h1 h2
    · simp only [flat_cons, List.mem_append]
      rcases h with h | h
      · exact Or.inl (swapPop_mem_of_ne g.slts idx state x h2 h hne)
      · exact Or.inr h
    · simp only [flat_cons, List.mem_append]
      exact h
    · simp only [flat_cons, List.mem_append]
      rcases h with h | h
      · exact Or.inl h
      · exact Or.inr (ih h)

/-- A slot that is connected and held by emitter `e` stays so when another slot is
disconnected. -/
theorem slot_disconnect_keeps (t s : SlotId) (e : SigId) (w : World) (hne : s ≠ t)
    (hm : s ∈ flat (w.sig e).m_slots) :
    s ∈ flat ((slot_disconnect t w).2.sig e).m_slots ∧
    (slot_disconnect t w).2.sigs.length = w.sigs.length ∧
    ((slot_disconnect t w).2.slots s).m_connected = (w.slots s).m_connected ∧
    ((slot_disconnect t w).2.slots s).kind = (w.slots s).kind ∧
    ((slot_disconnect t w).2.slots s).ptr = (w.slots s).ptr ∧
    (slot_disconnect t w).2.expired = w.expired := by
  obtain ⟨i, c, h1, h2⟩ := slot_disconnect_slots t w s
  obtain ⟨-, f2, -, f4, -, -, -⟩ := slot_disconnect_frame t w
  have hc : c = (w.slots s).m_connected := by
    rcases h2 with h2 | ⟨-, h2⟩
    · exact h2
    · exact absurd h2 hne
  refine ⟨?_, f4, by rw [h1, hc], by rw [h1], by rw [h1], f2⟩
  unfold slot_disconnect
  by_cases hcon : (w.slots t).m_connected = true
  · simp only [hcon, if_true]
    have hsig : ((clean (w.slots t).cleaner t
        (w.modifySlot t (fun x => { x with m_connected := false }))).sig e) =
        (((w.modifySlot t (fun x => { x with m_connected := false })).setGroups
          (w.slots t).cleaner
          (cleanGroups t
            ((w.modifySlot t (fun x => { x with m_connected := false })).slots t).m_index
            ((w.modifySlot t (fun x => { x with m_connected := false })).slots t).m_group
            ((w.modifySlot t (fun x => { x with m_connected := false })).sig
              (w.slots t).cleaner).m_slots).1).sig e) := by
      exact congrArg (fun l : List Signal => l.getD e default) (clean_sigs _ _ _)
    rw [hsig, sig_setGroups_slots]
    split_ifs with h3
    · apply mem_flat_cleanGroups_of_ne _ _ _ _ _ hne
      rw [← h3.1]
      exact hm
    · exact hm
  · simp only [hcon]
    exact hm

theorem teardown_keeps (s : SlotId) (e : SigId) :
    ∀ (l : List Connection) (w : World), (⟨some s⟩ : Connection) ∉ l →
      s ∈ flat (w.sig e).m_slots →
      s ∈ flat ((l.foldl (fun w1 c => (c.disconnect w1).2) w).sig e).m_slots ∧
      (l.foldl (fun w1 c => (c.disconnect w1).2) w).sigs.length = w.sigs.length ∧
      ((l.foldl (fun w1 c => (c.disconnect w1).2) w).slots s).m_connected
        = (w.slots s).m_connected ∧
      ((l.foldl (fun w1 c => (c.disconnect w1).2) w).slots s).kind = (w.slots s).kind ∧
      ((l.foldl (fun w1 c => (c.disconnect w1).2) w).slots s).ptr = (w.slots s).ptr ∧
      (l.foldl (fun w1 c => (c.disconnect w1).2) w).expired = w.expired := by
  intro l
  induction l with
  | nil => intro w _ hm; exact ⟨hm, rfl, rfl, rfl, rfl, rfl⟩
  | cons c l ih =>
    intro w hnot hm
    have hc : c ≠ ⟨some s⟩ := fun h => hnot (h ▸ List.mem_cons_self _ _)
    have hl : (⟨some s⟩ : Connection) ∉ l := fun h => hnot (List.mem_cons_of_mem _ h)
    have hstep : s ∈ flat ((c.disconnect w).2.sig e).m_slots ∧
        (c.disconnect w).2.sigs.length = w.sigs.length ∧
        ((c.disconnect w).2.slots s).m_connected = (w.slots s).m_connected ∧
        ((c.disconnect w).2.slots s).kind = (w.slots s).kind ∧
        ((c.disconnect w).2.slots s).ptr = (w.slots s).ptr ∧
        (c.disconnect w).2.expired = w.expired := by
      unfold Connection.disconnect
      cases hlk : c.lock w with
      | none => exact ⟨hm, rfl, rfl, rfl, rfl, rfl⟩
      | some t =>
        have hts : s ≠ t := by
          intro h
          subst h
          apply hc
          unfold Connection.lock at hlk
          cases hcs : c.m_state with
          | none => simp [hcs] at hlk
          | some u =>
            simp only [hcs] at hlk
            split_ifs at hlk
            cases c
            simp only at hcs
            rw [hcs]
            simp at hlk
            rw [hlk]
        exact slot_disconnect_keeps t s e w hts hm
    obtain ⟨a1, a2, a3, a4, a5, a6⟩ := hstep
    obtain ⟨b1, b2, b3, b4, b5, b6⟩ := ih (c.disconnect w).2 hl a1
    simp only [List.foldl_cons]
    exact ⟨b1, b2.trans a2, b3.trans a3, b4.trans a4, b5.trans a5, b6.trans a6⟩

/-- The general overload of `connect` for pointers, which a pointer to an observer passed as an
lvalue selects, followed by the teardown of the observer: the new slot is still held by the
emitter and reads connected. -/
theorem lvalue_observer_survives (e : SigId) (pmf : Callable) (obj : Nat) (gid : Int)
    (w : World) (he : e < w.sigs.length)
    (hn : (⟨some w.nextSlot⟩ : Connection) ∉ w.observers obj) :
    holds ((observer_disconnect_all obj
      (connect_call e (ConnectCall.pmf pmf obj) gid w).2).sig e).m_slots w.nextSlot = true ∧
    Connection.connected ⟨some w.nextSlot⟩ (observer_disconnect_all obj
      (connect_call e (ConnectCall.pmf pmf obj) gid w).2) = true := by
  have hobs : (connect_call e (ConnectCall.pmf pmf obj) gid w).2.observers = w.observers := by
    simp [connect_call, connect_pmf, connect_slot, add_slot, make_slot,
      World.setGroups, World.setSig, World.setIndex, World.modifySlot]
  have hslot : ((connect_call e (ConnectCall.pmf pmf obj) gid w).2.slots w.nextSlot).kind
      = SlotKind.slot_pmf := by
    simp [connect_call, connect_pmf, connect_slot, add_slot, make_slot,
      World.setGroups, World.setSig, World.setIndex, World.modifySlot]
  have hcon := (connect_call_slot e (ConnectCall.pmf pmf obj) gid w).2.2.2.1
  have hm : w.nextSlot ∈ flat ((connect_call e (ConnectCall.pmf pmf obj) gid w).2.sig e).m_slots := by
    rw [← holds_iff, connect_call_sig e _ gid w he]
    exact holds_addSlotGroups _ _ _
  have hlen : e < (connect_call e (ConnectCall.pmf pmf obj) gid w).2.sigs.length := by
    rw [connect_call_sigs]; simpa using he
  obtain ⟨k1, k2, k3, k4, -, -⟩ := teardown_keeps w.nextSlot e
    ((connect_call e (ConnectCall.pmf pmf obj) gid w).2.observers obj) _
    (by rw [hobs]; exact hn) hm
  have hsig : ∀ e1, (observer_disconnect_all obj
      (connect_call e (ConnectCall.pmf pmf obj) gid w).2).sig e1 =
      (((connect_call e (ConnectCall.pmf pmf obj) gid w).2.observers obj).foldl
        (fun w1 c => (c.disconnect w1).2) (connect_call e (ConnectCall.pmf pmf obj) gid w).2).sig e1 :=
    fun _ => rfl
  have hheld : holds ((observer_disconnect_all obj
      (connect_call e (ConnectCall.pmf pmf obj) gid w).2).sig e).m_slots w.nextSlot = true := by
    rw [hsig, holds_iff]
    exact k1
  refine ⟨hheld, ?_⟩
  have hal : (observer_disconnect_all obj
      (connect_call e (ConnectCall.pmf pmf obj) gid w).2).alive w.nextSlot = true :=
    alive_of_holds _ e _ (by
      show (((connect_call e (ConnectCall.pmf pmf obj) gid w).2.observers obj).foldl
        (fun w1 c => (c.disconnect w1).2)
          (connect_call e (ConnectCall.pmf pmf obj) gid w).2).sigs.length > e
      rw [k2]; exact hlen) hheld
  unfold Connection.connected Connection.lock
  simp only [hal, if_true]
  unfold slot_connected
  have hk : ((observer_disconnect_all obj
      (connect_call e (ConnectCall.pmf pmf obj) gid w).2).slots w.nextSlot).kind
      = SlotKind.slot_pmf := k4.trans hslot
  have hc : ((observer_disconnect_all obj
      (connect_call e (ConnectCall.pmf pmf obj) gid w).2).slots w.nextSlot).m_connected
      = true := k3.trans hcon
  rw [hk]
  exact hc

/-- C21 (what the code does): `trait::Observer<Ptr>` is
`is_base_of_v<observer_type, remove_pointer_t<Ptr>>`, and `remove_pointer_t` does not look
through a reference. A pointer to an observer passed as an rvalue (`Ptr` is `Obs*`) selects the
overload of `connect` that calls `add_connection`; the same pointer passed as an lvalue (`Ptr`
is `Obs*&`) selects the general overload for pointers, which leaves every collection as it was:
in every state in which the collection of the observer does not refer to the new slot, the
teardown `disconnect_all()` of the observer leaves the new slot held by its emitter and
connected. At the failing input the observer at address `7` is connected through an lvalue
pointer: its collection is empty, so after its teardown `disconnect_all()` the emitter still
holds the slot, the connection reads connected, and the next emission calls the member
function on the observer. With the rvalue pointer the teardown removes the slot and the
emission calls nothing. -/
theorem C21_observer_lvalue_pointer :
    (trait_Observer (deduce_Ptr false observerPtr) = true ∧
      trait_Observer (deduce_Ptr true observerPtr) = false) ∧
    (∀ (pmf : Callable) (obj : Nat),
      resolve_member pmf (deduce_Ptr false observerPtr) obj = ConnectCall.observer pmf obj ∧
      resolve_member pmf (deduce_Ptr true observerPtr) obj = ConnectCall.pmf pmf obj) ∧
    (∀ (e : SigId) (pmf : Callable) (obj : Nat) (gid : Int) (w : World),
      (connect_call e (resolve_member pmf (deduce_Ptr true observerPtr) obj) gid w).2.observers
        = w.observers ∧
      (connect_call e (resolve_member pmf (deduce_Ptr false observerPtr) obj) gid w).2.observers
          obj
        = w.observers obj ++
          [(connect_call e (resolve_member pmf (deduce_Ptr false observerPtr) obj) gid w).1]) ∧
    (∀ (e : SigId) (pmf : Callable) (obj : Nat) (gid : Int) (w : World),
      e < w.sigs.length → (⟨some w.nextSlot⟩ : Connection) ∉ w.observers obj →
      holds ((observer_disconnect_all obj (connect_call e
        (resolve_member pmf (deduce_Ptr true observerPtr) obj) gid w).2).sig e).m_slots
          w.nextSlot = true ∧
      Connection.connected ⟨some w.nextSlot⟩ (observer_disconnect_all obj (connect_call e
        (resolve_member pmf (deduce_Ptr true observerPtr) obj) gid w).2) = true) ∧
    (worldObserverLvalue.observers 7 = [] ∧ slot_count worldObserverLvalue 0 = 1 ∧
      slot_count (observer_disconnect_all 7 worldObserverLvalue) 0 = 1 ∧
      Connection.connected ⟨some 0⟩ (observer_disconnect_all 7 worldObserverLvalue) = true ∧
      (run adder 2 [Op.observer_disconnect_all 7, Op.emit 0 [1]] worldObserverLvalue).final.map
        (fun w => (w.log.map Call.slot, slot_count w 0)) = some ([0], 1)) ∧
    (worldObserverRvalue.observers 7 = [⟨some 0⟩] ∧ slot_count worldObserverRvalue 0 = 1 ∧
      slot_count (observer_disconnect_all 7 worldObserverRvalue) 0 = 0 ∧
      Connection.connected ⟨some 0⟩ (observer_disconnect_all 7 worldObserverRvalue) = false ∧
      (run adder 2 [Op.observer_disconnect_all 7, Op.emit 0 [1]] worldObserverRvalue).final.map
        (fun w => (w.log.map Call.slot, slot_count w 0)) = some ([], 0)) := by
  refine ⟨by decide, fun pmf obj => ⟨rfl, rfl⟩, ?_,
    fun e pmf obj gid w he hn => lvalue_observer_survives e pmf obj gid w he hn,
    by decide, by decide⟩
  intro e pmf obj gid w
  have h1 : resolve_member pmf (deduce_Ptr true observerPtr) obj = ConnectCall.pmf pmf obj := rfl
  have h2 : resolve_member pmf (deduce_Ptr false observerPtr) obj
      = ConnectCall.observer pmf obj := rfl
  rw [h1, h2]
  refine ⟨?_, connect_observer_registers e pmf obj gid w⟩
  simp [connect_call, connect_pmf, connect_slot, add_slot, make_slot,
    World.setGroups, World.setSig, World.setIndex, World.modifySlot]

/-! ## Slots without owner and `disconnect(owner)` (C38) -/

/-- C38 (what the code does): a slot without an owner reports `nullptr` as its object, so it
matches every argument of `disconnect(owner)` that resolves to `nullptr`: a null pointer, an
empty or expired reference, an object that is not a pointer. Such a call removes every slot
without owner from the registry and counts it. For an argument that resolves to an address
other than `nullptr`, the slots without owner stay. -/
theorem C38_null_owner :
    (∀ (w : World) (o : ObjRef) (s : SlotId), get_object_ptr w o = 0 →
      ((w.slots s).kind = SlotKind.slot ∨ (w.slots s).kind = SlotKind.slot_extended) →
      has_object o w s = true) ∧
    (∀ (w : World) (o : ObjRef) (s : SlotId) (e : SigId), e < w.sigs.length →
      get_object_ptr w o = 0 →
      ((w.slots s).kind = SlotKind.slot ∨ (w.slots s).kind = SlotKind.slot_extended) →
      s ∈ flat (w.sig e).m_slots →
      s ∉ flat ((disconnect_object e o w).2.sig e).m_slots ∧ 1 ≤ (disconnect_object e o w).1) ∧
    (∀ (w : World) (o : ObjRef) (s : SlotId) (e : SigId), e < w.sigs.length →
      get_object_ptr w o ≠ 0 →
      ((w.slots s).kind = SlotKind.slot ∨ (w.slots s).kind = SlotKind.slot_extended) →
      (s ∈ flat ((disconnect_object e o w).2.sig e).m_slots ↔ s ∈ flat (w.sig e).m_slots)) ∧
    (∀ w : World, get_object_ptr w (ObjRef.raw 0) = 0 ∧ get_object_ptr w ObjRef.none = 0 ∧
      get_object_ptr w (ObjRef.weak 0) = 0 ∧
      ∀ a, a ∈ w.expired → get_object_ptr w (ObjRef.weak a) = 0) ∧
    (slot_count worldOne 0 = 1 ∧ (worldOne.slots 0).kind = SlotKind.slot ∧
      (disconnect_object 0 (ObjRef.raw 0) worldOne).1 = 1 ∧
      slot_count (disconnect_object 0 (ObjRef.raw 0) worldOne).2 0 = 0 ∧
      (disconnect_object 0 (ObjRef.weak 9) (release_owner 9 worldOne)).1 = 1 ∧
      (disconnect_object 0 (ObjRef.raw 7) worldOne).1 = 0) := by
  have key : ∀ (w : World) (o : ObjRef) (s : SlotId),
      ((w.slots s).kind = SlotKind.slot ∨ (w.slots s).kind = SlotKind.slot_extended) →
      has_object o w s = decide (0 = get_object_ptr w o) := by
    intro w o s hk
    unfold has_object get_object
    rcases hk with h | h <;> rw [h]
  refine ⟨?_, ?_, ?_, ?_, by decide⟩
  · intro w o s h0 hk
    rw [key w o s hk, h0]
    rfl
  · intro w o s e he h0 hk hmem
    have hobj : has_object o w s = true := by rw [key w o s hk, h0]; rfl
    obtain ⟨b1, b2, -, -, -⟩ := disconnect_if_spec _ (indexFree_has_object o) e w he
    constructor
    · intro hc
      unfold disconnect_object at hc
      rw [filtered_mem_flat b1] at hc
      rw [hobj] at hc
      exact absurd hc.2 (by simp)
    · unfold disconnect_object
      rw [b2]
      exact List.countP_pos_iff.2 ⟨s, hmem, hobj⟩
  · intro w o s e he h0 hk
    have hobj : has_object o w s = false := by
      rw [key w o s hk]
      simp only [decide_eq_false_iff_not]
      exact fun h => h0 h.symm
    obtain ⟨b1, -, -, -, -⟩ := disconnect_if_spec _ (indexFree_has_object o) e w he
    unfold disconnect_object
    rw [filtered_mem_flat b1, hobj]
    simp
  · intro w
    refine ⟨rfl, rfl, ?_, ?_⟩
    · simp [get_object_ptr]
    · intro a ha
      simp [get_object_ptr, ha]

/-! ## Null function pointers (C40) -/

/-- C40 (what the code does): `func_ptr::operator bool` compares the address of the buffer with
`nullptr` and is always true, so `has_callable` is plain equality of the buffers: two callables
whose function pointer is null (generic lambdas) match each other. `disconnect(callable, owner)`
with a generic lambda removes the slots of that owner that hold any generic lambda. -/
theorem C40_null_function_pointer :
    (∀ p, func_ptr_bool p = true) ∧
    (∀ (c : Callable) (w : World) (s : SlotId),
      has_callable c w s = decide (get_function_ptr c = get_callable w s)) ∧
    (∀ (c : Callable) (w : World) (s : SlotId), c.kind = CallableKind.other →
      (w.slots s).func.kind = CallableKind.other →
      get_function_ptr c = 0 ∧ get_callable w s = 0 ∧ has_callable c w s = true) ∧
    (get_function_ptr (genericFn 2) = 0 ∧ get_callable worldGeneric 0 = 0 ∧
      (worldGeneric.slots 0).func = genericFn 1 ∧
      has_callable (genericFn 2) worldGeneric 0 = true ∧
      slot_count worldGeneric 0 = 1 ∧
      (disconnect_both 0 (genericFn 2) (ObjRef.weak 9) worldGeneric).1 = 1 ∧
      slot_count (disconnect_both 0 (genericFn 2) (ObjRef.weak 9) worldGeneric).2 0 = 0) := by
  refine ⟨fun _ => rfl, ?_, ?_, by decide⟩
  · intro c w s
    simp [has_callable, func_ptr_bool]
  · intro c w s h1 h2
    have a1 : get_function_ptr c = 0 := by simp [get_function_ptr, h1]
    have a2 : get_callable w s = 0 := by simp [get_callable, get_function_ptr, h2]
    refine ⟨a1, a2, ?_⟩
    simp [has_callable, func_ptr_bool, a1, a2]

/-! ## The aliases of `signal_base` (C39) -/

/-- C39 (what the code does): `signal_g<Group, T...>` is `signal_base<int32_t, std::mutex,
T...>` whatever `Group` is, that is, the same type as `signal<T...>`. It differs from
`signal_g_st<Group, T...>` in the lock type and, for every `Group` other than `int32_t`, in the
group id type as well. So `signal_ix_g<Owner, Group, T...>` wraps an emitter whose keys are
`int32_t`, while its own methods take keys of type `Group`; the single-threaded
`signal_ix_g_st` wraps an emitter with keys of type `Group`. -/
theorem C39_signal_g_group :
    (∀ G T, signal_g G T = signal T) ∧
    (∀ G T, (signal_g G T).group = CppType.int32_t ∧
      (signal_g G T).lockable = LockPolicy.std_mutex ∧ (signal_g G T).args = T) ∧
    (∀ G T, (signal_g_st G T).group = G ∧
      (signal_g_st G T).lockable = LockPolicy.null_mutex ∧ (signal_g_st G T).args = T) ∧
    (∀ G T, (signal_g G T).group = (signal_g_st G T).group ↔ G = CppType.int32_t) ∧
    (∀ O G T, (signal_ix_g O G T).signal_type.group = CppType.int32_t ∧
      (signal_ix_g O G T).group = G) ∧
    (∀ O G T, (signal_ix_g_st O G T).signal_type.group = G) ∧
    signal_g (CppType.named 1) [CppType.int32_t] ≠
      ⟨CppType.named 1, LockPolicy.std_mutex, [CppType.int32_t]⟩ ∧
    (signal_ix_g (CppType.named 2) (CppType.named 1) [CppType.int32_t]).signal_type.group ≠
      (signal_ix_g (CppType.named 2) (CppType.named 1) [CppType.int32_t]).group := by
  refine ⟨fun _ _ => rfl, fun _ _ => ⟨rfl, rfl, rfl⟩, fun _ _ => ⟨rfl, rfl, rfl⟩, ?_,
    fun _ _ _ => ⟨rfl, rfl⟩, fun _ _ _ => rfl, by decide, by decide⟩
  intro G T
  constructor
  · intro h
    exact h.symm
  · intro h
    rw [h]
    rfl

end sigslot
